import Mathlib

/-!
# smpc_solver: Cholesky extension, interior-point driver and footsteps

A shallow embedding of `solver/chol_solve_as.cpp`, `solver/state_handling.cpp`,
`solver/qp_ip.cpp` and of `WMG::AddFootstep`, `WMG::formPreviewWindow` and
`WMG::isSupportSwitchNeeded` (`WMG/WMG.cpp`).

Conventions of the embedding

* `double` values are elements of a linearly ordered field `α` (exact
  arithmetic); `sqrt` is passed to the functions that call it, so that the
  definitions stay executable (for instance over `ℚ`) and the theorems hold
  for every field and every square-root function with the stated property.
  Division is the division of the field; the results that depend on a
  quotient carry the hypothesis that the divisor is not zero.
* a `double *` array is a function `Nat → α`; a store `a[i] = v` is
  `Function.update a i v`.
* `icL` is an array of row pointers into disjoint slots of `icL_mem`; it is
  represented by the rows themselves, `icL i j` being `icL[i][j]`, and moving
  a row pointer moves the row.
* `for` loops are `loopUp` (ascending index) and `loopDown` (descending).
* the classes `matrix_ecL` and `matrix_E` are not part of the sources at
  hand; the factor `ecL` is data (`ecL_diag`, `ecL_ndiag`) and the routines
  `solve_forward`, `solve_backward`, `form_Ex`, `form_ETx` are parameters.
* `log`, `cos` and `sin` of `<cmath>` are passed to the functions that call
  them; a `while` loop has fuel, and `none` means that the fuel ran out.
* the types of Eigen are homogeneous 4×4 matrices.
* `unsigned int` values are natural numbers; the operations on them wrap at
  `2^32` (`usub`, `uadd`, `umul`), and an `int` that meets an `unsigned int`
  is converted first (`to_unsigned`).
-/

namespace SMPC

/-! ## Loops -/

/-- Runs `body lo`, `body (lo+1)`, ..., `body (lo+n-1)` in this order:
`for (i = lo; i < lo + n; i++) body(i)`. -/
def loopUp {σ : Type} (body : Nat → σ → σ) (lo : Nat) : Nat → σ → σ
  | 0, s => s
  | n + 1, s => body (lo + n) (loopUp body lo n s)

/-- Runs `body (lo+n-1)`, ..., `body (lo+1)`, `body lo` in this order:
`for (i = lo + n - 1; i >= lo; i--) body(i)`. -/
def loopDown {σ : Type} (body : Nat → σ → σ) (lo : Nat) : Nat → σ → σ
  | 0, s => s
  | n + 1, s => loopDown body lo n (body (lo + n) s)

/-! ## Data -/

/-- The fields of `problem_parameters` read by `chol_solve_as`. -/
structure problem_parameters (α : Type) where
  /-- Number of intervals in the preview window. -/
  N : Nat
  /-- The three state weights `i2Q[0..2]`. -/
  i2Q : Nat → α
  /-- The control weight. -/
  i2P : α

/-- An inequality constraint: offset of the state in `X` and the two
coefficients (a row of a rotation matrix). -/
structure constraint (α : Type) where
  ind : Nat
  coef_x : α
  coef_y : α

/-- The member variables of `chol_solve_as`; `ecL_diag i` and `ecL_ndiag i`
are the 3x3 blocks of `ecL` stored as 9 numbers. -/
structure chol_solve_as (α : Type) where
  ecL_diag : Nat → Nat → α
  ecL_ndiag : Nat → Nat → α
  icL : Nat → Nat → α
  nu : Nat → α
  XiHg : Nat → α
  z : Nat → α

/-- The constant `SMPC_NUM_STATE_VAR`. -/
def SMPC_NUM_STATE_VAR : Nat := 6

/-- The constant `SMPC_NUM_VAR`. -/
def SMPC_NUM_VAR : Nat := 8

section solver

variable {α : Type}

/-! ## form_sa_row -/

/-- The routine `chol_solve_as::form_sa_row`: `memset` of the first `ic_len` entries, then
the stores, in the order of the source. -/
def form_sa_row [Field α] (ppar : problem_parameters α) (c : constraint α)
    (ic_len : Nat) (row : Nat → α) : Nat → α :=
  let i2H := ppar.i2Q 0
  let first_num := c.ind
  let row : Nat → α := fun j => if j < ic_len then 0 else row j
  let row := Function.update row first_num (-i2H * c.coef_x)
  let row := Function.update row (first_num + 3) (-i2H * c.coef_y)
  let row :=
    if ((first_num / SMPC_NUM_STATE_VAR : Nat) : Int) ≠ (ppar.N : Int) - 1 then
      let row := Function.update row (first_num + 6) (i2H * c.coef_x)
      Function.update row (first_num + 9) (i2H * c.coef_y)
    else row
  Function.update row ic_len i2H

/-! ## update -/

/-- The five stores on `cur_pos[0..2]` in the loop over `k` of
`chol_solve_as::update` (`p` is the index of `cur_pos[0]`, `D` the block
`ecL.ecL_diag[i]`). -/
def update_block_solve [Field α] (D : Nat → α) (p : Nat) (new_row : Nat → α) : Nat → α :=
  let r := new_row
  let r := Function.update r p (r p / D 0)
  let r := Function.update r (p + 1) (r (p + 1) - r p * D 1)
  let r := Function.update r (p + 1) (r (p + 1) / D 4)
  let r := Function.update r (p + 2) (r (p + 2) - (r p * D 2 + r (p + 1) * D 5))
  Function.update r (p + 2) (r (p + 2) / D 8)

/-- The three stores on `cur_pos[6..8]` in the loop over `k` of
`chol_solve_as::update` (`nd` is the block `ecL.ecL_ndiag[i]`, `t0, t1, t2`
the copy `tmp_copy_el`). -/
def update_block_couple [Field α] (nd : Nat → α) (p : Nat) (t0 t1 t2 : α)
    (new_row : Nat → α) : Nat → α :=
  let r := new_row
  let r := Function.update r (p + 6) (r (p + 6) - (t0 * nd 0 + t1 * nd 3 + t2 * nd 6))
  let r := Function.update r (p + 7) (r (p + 7) - (t1 * nd 4 + t2 * nd 7))
  Function.update r (p + 8) (r (p + 8) - t2 * nd 8)

/-- Body of the loop over `k` in `chol_solve_as::update`: the three entries at
`cur_pos = &new_row[i*6 + 3*k]`, the coupling into the next block, the
diagonal and the trailing entries. -/
def update_block [Field α] (N : Nat) (ecL_diag ecL_ndiag icL : Nat → Nat → α)
    (ic_num last_num i k : Nat) (new_row : Nat → α) : Nat → α :=
  let p := i * SMPC_NUM_STATE_VAR + 3 * k
  let r := update_block_solve (ecL_diag i) p new_row
  let t0 := r p
  let t1 := r (p + 1)
  let t2 := r (p + 2)
  let r :=
    if (i : Int) < (N : Int) - 1 then update_block_couple (ecL_ndiag i) p t0 t1 t2 r
    else r
  let r := Function.update r last_num (r last_num - (t0 * t0 + t1 * t1 + t2 * t2))
  loopUp (fun j r => Function.update r (N * SMPC_NUM_STATE_VAR + j)
      (r (N * SMPC_NUM_STATE_VAR + j)
        - (t0 * icL j p + t1 * icL j (p + 1) + t2 * icL j (p + 2))))
    0 ic_num r

/-- Body of the second loop of `chol_solve_as::update`, over the trailing
entries: `i = 6N + k`. -/
def update_tail [Field α] (N : Nat) (icL : Nat → Nat → α) (ic_num last_num k : Nat)
    (new_row : Nat → α) : Nat → α :=
  let i := SMPC_NUM_STATE_VAR * N + k
  let r := Function.update new_row i (new_row i / icL k i)
  let tmp_copy_el := r i
  let r := Function.update r last_num (r last_num - tmp_copy_el * tmp_copy_el)
  loopUp (fun j r => Function.update r (N * SMPC_NUM_STATE_VAR + j)
      (r (N * SMPC_NUM_STATE_VAR + j) - tmp_copy_el * icL j i))
    (k + 1) (ic_num - (k + 1)) r

/-- The row `new_row` of `chol_solve_as::update` just before the square root
is taken: `form_sa_row`, the sweep over the blocks of `ecL`, the sweep over
the rows already in `icL`. -/
def update_row [Field α] (ppar : problem_parameters α) (c : constraint α)
    (ic_num state_num : Nat) (S : chol_solve_as α) : Nat → α :=
  let last_num := ic_num + ppar.N * SMPC_NUM_STATE_VAR
  let new_row := form_sa_row ppar c last_num (S.icL ic_num)
  let new_row := loopUp (fun i r =>
      loopUp (fun k r => update_block ppar.N S.ecL_diag S.ecL_ndiag S.icL ic_num last_num i k r)
        0 2 r)
    state_num (ppar.N - state_num) new_row
  loopUp (fun k r => update_tail ppar.N S.icL ic_num last_num k r) 0 ic_num new_row

/-- The routine `chol_solve_as::update`: the row is built in place in `icL[ic_num]`; the
rows read through `icL[j]` have `j < ic_num`. -/
def update [Field α] (sqrt : α → α) (ppar : problem_parameters α) (c : constraint α)
    (ic_num state_num : Nat) (S : chol_solve_as α) : chol_solve_as α :=
  let last_num := ic_num + ppar.N * SMPC_NUM_STATE_VAR
  let new_row := update_row ppar c ic_num state_num S
  let new_row := Function.update new_row last_num (sqrt (new_row last_num))
  { S with icL := Function.update S.icL ic_num new_row }

/-! ## Routines of `matrix_ecL` and `matrix_E` -/

/-- The routines of the classes `matrix_ecL` and `matrix_E` called by
`chol_solve_as`. -/
structure externals (α : Type) where
  /-- The call `ecL.form (ppar)`: the blocks `ecL_diag`, `ecL_ndiag`. -/
  ecL_form : problem_parameters α → (Nat → Nat → α) × (Nat → Nat → α)
  /-- The call `ecL.solve_forward`, on the first `6N` entries. -/
  solve_forward : (Nat → Nat → α) → (Nat → Nat → α) → Nat → (Nat → α) → (Nat → α)
  /-- The call `ecL.solve_backward`, on the first `6N` entries. -/
  solve_backward : (Nat → Nat → α) → (Nat → Nat → α) → Nat → (Nat → α) → (Nat → α)
  /-- The call `E.form_Ex`: the product `E * x`, `6N` entries. -/
  form_Ex : problem_parameters α → (Nat → α) → (Nat → α)
  /-- The call `E.form_ETx`: the product `E' * nu`, `8N` entries, from the `6N` entries of `nu`. -/
  form_ETx : problem_parameters α → (Nat → α) → (Nat → α)

/-- The first `n` entries of an array, the rest read as zero. -/
def firstN [Zero α] (n : Nat) (v : Nat → α) : Nat → α :=
  fun j => if j < n then v j else 0

/-- Modelled from the spec: `ecL.solve_forward (N, v)` of the class `matrix_ecL`,
a block-triangular solve over the `N` blocks of `ecL`: it rewrites the first
`6N` entries of `v` from the first `6N` entries of `v` and leaves the rest. -/
def ecL_solve_forward [Zero α] (ext : externals α) (S : chol_solve_as α) (N : Nat)
    (v : Nat → α) : Nat → α :=
  fun j => if j < SMPC_NUM_STATE_VAR * N then
    ext.solve_forward S.ecL_diag S.ecL_ndiag N (firstN (SMPC_NUM_STATE_VAR * N) v) j
  else v j

/-- Modelled from the spec: `ecL.solve_backward (N, v)` of the class `matrix_ecL`,
a block-triangular solve over the `N` blocks of `ecL`: it rewrites the first
`6N` entries of `v` from the first `6N` entries of `v` and leaves the rest. -/
def ecL_solve_backward [Zero α] (ext : externals α) (S : chol_solve_as α) (N : Nat)
    (v : Nat → α) : Nat → α :=
  fun j => if j < SMPC_NUM_STATE_VAR * N then
    ext.solve_backward S.ecL_diag S.ecL_ndiag N (firstN (SMPC_NUM_STATE_VAR * N) v) j
  else v j

/-- Modelled from the spec: `E.form_Ex (ppar, x, s)` of the class `matrix_E`,
`s = E * x`: it writes the `6N` entries of `s` from the `8N` entries of `x`. -/
def E_form_Ex [Zero α] (ext : externals α) (ppar : problem_parameters α)
    (x s : Nat → α) : Nat → α :=
  fun j => if j < SMPC_NUM_STATE_VAR * ppar.N then
    ext.form_Ex ppar (firstN (SMPC_NUM_VAR * ppar.N) x) j
  else s j

/-- Modelled from the spec: `E.form_ETx (ppar, nu, dx)` of the class `matrix_E`,
`dx = E' * nu`: it writes `dx` from the first `6N` entries of `nu`. -/
def E_form_ETx [Zero α] (ext : externals α) (ppar : problem_parameters α)
    (nu : Nat → α) : Nat → α :=
  ext.form_ETx ppar (firstN (SMPC_NUM_STATE_VAR * ppar.N) nu)

/-! ## solve -/

/-- The two closing loops of `solve`: `dx[i] = XiHg[i] - i2Q[i%3] * dx[i]` on
the states, `dx[i] = XiHg[i] - i2P * dx[i]` on the controls. -/
def solve_dx [Field α] (ppar : problem_parameters α) (XiHg dx : Nat → α) : Nat → α :=
  let dx := loopUp (fun i dx => Function.update dx i (XiHg i - ppar.i2Q (i % 3) * dx i))
    0 (ppar.N * SMPC_NUM_STATE_VAR) dx
  loopUp (fun i dx => Function.update dx i (XiHg i - ppar.i2P * dx i))
    (ppar.N * SMPC_NUM_STATE_VAR) (ppar.N * SMPC_NUM_VAR - ppar.N * SMPC_NUM_STATE_VAR) dx

/-- The routine `chol_solve_as::solve`; returns the object and `dx`. -/
def solve [Field α] (ext : externals α) (ppar : problem_parameters α) (i2Hg x : Nat → α)
    (S : chol_solve_as α) : chol_solve_as α × (Nat → α) :=
  let S := { S with ecL_diag := (ext.ecL_form ppar).1, ecL_ndiag := (ext.ecL_form ppar).2 }
  let XiHg := loopUp (fun i v => Function.update v i (-x i)) 0 (SMPC_NUM_VAR * ppar.N) S.XiHg
  let XiHg := loopUp (fun i v => Function.update v (i * 3) (v (i * 3) - i2Hg i)) 0 (2 * ppar.N) XiHg
  let s_nu := E_form_Ex ext ppar XiHg S.nu
  let s_nu := ecL_solve_forward ext S ppar.N s_nu
  let z := loopUp (fun i z => Function.update z i (s_nu i)) 0 (SMPC_NUM_STATE_VAR * ppar.N) S.z
  let s_nu := ecL_solve_backward ext S ppar.N s_nu
  let dx := E_form_ETx ext ppar s_nu
  let dx := solve_dx ppar XiHg dx
  ({ S with XiHg := XiHg, nu := s_nu, z := z }, dx)

/-! ## update_z -/

/-- The routine `chol_solve_as::update_z`. -/
def update_z [Field α] (ppar : problem_parameters α) (i2Hg : Nat → α) (c : constraint α)
    (ic_num : Nat) (x : Nat → α) (S : chol_solve_as α) : chol_solve_as α :=
  let zind := ppar.N * SMPC_NUM_STATE_VAR + ic_num
  let first_num := c.ind
  let i2Hg_ind := 2 * first_num / SMPC_NUM_STATE_VAR
  let zn := -(i2Hg i2Hg_ind + x first_num) * c.coef_x
            - (i2Hg (i2Hg_ind + 1) + x (first_num + 3)) * c.coef_y
  let nu := loopUp (fun i nu => Function.update nu i (S.z i)) 0 first_num S.nu
  let znnu := loopUp (fun i (s : α × (Nat → α)) =>
      (s.1 - S.z i * S.icL ic_num i, Function.update s.2 i (S.z i)))
    first_num (zind - first_num) (zn, nu)
  let v := znnu.1 / S.icL ic_num zind
  { S with z := Function.update S.z zind v, nu := Function.update znnu.2 zind v }

/-! ## resolve -/

/-- Backward substitution over the rows of `icL` in `resolve`: the body for
row `i`. -/
def resolve_back_row [Field α] (N : Nat) (icL : Nat → Nat → α) (W : Nat → Nat) (i : Nat)
    (nu : Nat → α) : Nat → α :=
  let last_el_num := i + N * SMPC_NUM_STATE_VAR
  let nu := Function.update nu last_el_num (nu last_el_num / icL i last_el_num)
  loopDown (fun j nu => Function.update nu j (nu j - nu last_el_num * icL i j))
    (W i / 2 * SMPC_NUM_STATE_VAR) (last_el_num - W i / 2 * SMPC_NUM_STATE_VAR) nu

/-- The closing loops of `resolve` on `dx`: states, controls, `iHg`, and the
term of the multipliers `lambda = &nu[6N]`. -/
def resolve_dx [Field α] (ppar : problem_parameters α) (iHg : Nat → α)
    (constraints : Nat → constraint α) (nW : Nat) (W : Nat → Nat) (x nu dx : Nat → α) :
    Nat → α :=
  let dx := loopUp (fun i dx => Function.update dx i (-x i - ppar.i2Q (i % 3) * dx i))
    0 (ppar.N * SMPC_NUM_STATE_VAR) dx
  let dx := loopUp (fun i dx => Function.update dx i (-x i - ppar.i2P * dx i))
    (ppar.N * SMPC_NUM_STATE_VAR) (ppar.N * SMPC_NUM_VAR - ppar.N * SMPC_NUM_STATE_VAR) dx
  let dx := loopUp (fun i dx => Function.update dx (i * 3) (dx (i * 3) - iHg i)) 0 (2 * ppar.N) dx
  let lambda : Nat → α := fun i => nu (ppar.N * SMPC_NUM_STATE_VAR + i)
  loopUp (fun i dx =>
      let first_num := (constraints (W i)).ind
      let dx := Function.update dx first_num
        (dx first_num - ppar.i2Q 0 * (constraints (W i)).coef_x * lambda i)
      Function.update dx (first_num + 3)
        (dx (first_num + 3) - ppar.i2Q 0 * (constraints (W i)).coef_y * lambda i))
    0 nW dx

/-- The routine `chol_solve_as::resolve`; returns the object and `dx`. -/
def resolve [Field α] (ext : externals α) (ppar : problem_parameters α) (iHg : Nat → α)
    (constraints : Nat → constraint α) (nW : Nat) (W : Nat → Nat) (x : Nat → α)
    (S : chol_solve_as α) : chol_solve_as α × (Nat → α) :=
  let nu := loopDown (fun i nu => resolve_back_row ppar.N S.icL W i nu) 0 nW S.nu
  let nu := ecL_solve_backward ext S ppar.N nu
  let dx := E_form_ETx ext ppar nu
  let dx := resolve_dx ppar iHg constraints nW W x nu dx
  ({ S with nu := nu }, dx)

/-! ## up_resolve -/

/-- The routine `chol_solve_as::up_resolve`. -/
def up_resolve [Field α] (sqrt : α → α) (ext : externals α) (ppar : problem_parameters α)
    (iHg : Nat → α) (constraints : Nat → constraint α) (nW : Nat) (W : Nat → Nat)
    (x : Nat → α) (S : chol_solve_as α) : chol_solve_as α × (Nat → α) :=
  let ic_num := nW - 1
  let ic_ind := W ic_num
  let c := constraints ic_ind
  let S := update sqrt ppar c ic_num (ic_ind / 2) S
  let S := update_z ppar iHg c ic_num x S
  resolve ext ppar iHg constraints nW W x S

/-! ## downdate -/

/-- The function `copysign (a, v)` over an ordered field: the magnitude of `a` with the
sign of `v`. -/
def copysign [LinearOrderedField α] (a v : α) : α :=
  if v < 0 then -|a| else |a|

/-- The stores `icL[i][j] = v`. -/
def set2 (icL : Nat → Nat → α) (i j : Nat) (v : α) : Nat → Nat → α :=
  Function.update icL i (Function.update (icL i) j v)

/-- The pointer rotation at the head of `downdate`: the rows after
`ind_exclude` move up by one and the excluded row becomes row `nW`. -/
def downdate_shuffle (nW ind_exclude : Nat) (icL : Nat → Nat → α) : Nat → Nat → α :=
  let downdate_row := icL ind_exclude
  let icL := loopUp (fun i icL => Function.update icL (i - 1) (icL i))
    (ind_exclude + 1) (nW + 1 - (ind_exclude + 1)) icL
  Function.update icL nW downdate_row

/-- The Givens rotation `(cosT, sinT)` chosen in `downdate` for the pair
`(x1, x2)`. -/
def givens [LinearOrderedField α] (sqrt : α → α) (x1 x2 : α) : α × α :=
  if |x2| ≥ |x1| then
    let t := x1 / x2
    let sinT := 1 / sqrt (1 + t * t)
    let cosT := sinT * t
    (cosT, sinT)
  else
    let t := x2 / x1
    let cosT := 1 / sqrt (1 + t * t)
    let sinT := cosT * t
    (cosT, sinT)

/-- Body of the main loop of `downdate` for row `i`. -/
def downdate_rotate [LinearOrderedField α] (sqrt : α → α) (N nW i : Nat)
    (icL : Nat → Nat → α) : Nat → Nat → α :=
  let el_index := SMPC_NUM_STATE_VAR * N + i
  let x1 := icL i el_index
  let x2 := icL i (el_index + 1)
  let cosT := (givens sqrt x1 x2).1
  let sinT := (givens sqrt x1 x2).2
  let icL := set2 icL i el_index (cosT * x1 + sinT * x2)
  let icL := set2 icL i (el_index + 1) 0
  let sign := copysign 1 (icL i el_index)
  let icL := set2 icL i el_index |icL i el_index|
  loopUp (fun j icL =>
      let x1 := icL j el_index
      let x2 := icL j (el_index + 1)
      let icL := set2 icL j el_index (sign * (cosT * x1 + sinT * x2))
      set2 icL j (el_index + 1) (-sinT * x1 + cosT * x2))
    (i + 1) (nW - (i + 1)) icL

/-- The routine `chol_solve_as::downdate`. -/
def downdate [LinearOrderedField α] (sqrt : α → α) (ppar : problem_parameters α)
    (nW ind_exclude : Nat) (S : chol_solve_as α) : chol_solve_as α :=
  let icL := downdate_shuffle nW ind_exclude S.icL
  let icL := loopUp (fun i icL => downdate_rotate sqrt ppar.N nW i icL)
    ind_exclude (nW - ind_exclude) icL
  { S with icL := icL }

/-! ## down_resolve -/

/-- First loop of `down_resolve` ("find a base that stays the same"): the body
for `i`, on the pair `(z, z_tmp)`. -/
def down_z_base [Field α] (N ind_exclude : Nat) (icL : Nat → Nat → α) (i : Nat)
    (s : (Nat → α) × α) : (Nat → α) × α :=
  let zind := N * SMPC_NUM_STATE_VAR + i
  let zn := s.1 zind * icL i zind
  let z := Function.update s.1 zind s.2
  let zn := loopUp (fun j zn => zn + z j * icL i j)
    (N * SMPC_NUM_STATE_VAR + ind_exclude) (zind - (N * SMPC_NUM_STATE_VAR + ind_exclude)) zn
  (z, zn)

/-- Third loop of `down_resolve` ("recompute elements of z"): the body for `i`. -/
def down_z_recompute [Field α] (N ind_exclude : Nat) (icL : Nat → Nat → α) (i : Nat)
    (z : Nat → α) : Nat → α :=
  let zind := N * SMPC_NUM_STATE_VAR + i
  let zn := z zind
  let zn := loopUp (fun j zn => zn - z j * icL i j)
    (N * SMPC_NUM_STATE_VAR + ind_exclude) (zind - (N * SMPC_NUM_STATE_VAR + ind_exclude)) zn
  Function.update z zind (zn / icL i zind)

/-- The part of `down_resolve` before the call of `resolve`. -/
def down_resolve_z [LinearOrderedField α] (sqrt : α → α) (ppar : problem_parameters α)
    (nW ind_exclude : Nat) (S : chol_solve_as α) : chol_solve_as α :=
  let zz := loopDown (fun i s => down_z_base ppar.N ind_exclude S.icL i s)
    (ind_exclude + 1) (nW - ind_exclude) (S.z, 0)
  let z := Function.update zz.1 (ppar.N * SMPC_NUM_STATE_VAR + ind_exclude) zz.2
  let S := downdate sqrt ppar nW ind_exclude { S with z := z }
  let z := loopUp (fun i z => down_z_recompute ppar.N ind_exclude S.icL i z)
    ind_exclude (nW - ind_exclude) S.z
  let nu := loopUp (fun i nu => Function.update nu i (z i))
    0 (ppar.N * SMPC_NUM_STATE_VAR + nW) S.nu
  { S with z := z, nu := nu }

/-- The routine `chol_solve_as::down_resolve`. -/
def down_resolve [LinearOrderedField α] (sqrt : α → α) (ext : externals α)
    (ppar : problem_parameters α) (iHg : Nat → α) (constraints : Nat → constraint α)
    (nW : Nat) (W : Nat → Nat) (ind_exclude : Nat) (x : Nat → α) (S : chol_solve_as α) :
    chol_solve_as α × (Nat → α) :=
  resolve ext ppar iHg constraints nW W x (down_resolve_z sqrt ppar nW ind_exclude S)

/-! ## The factor as a matrix -/

/-- What is asked of the square root: on the non-negative numbers it returns
the non-negative root. -/
def IsSqrt [LinearOrderedField α] (sqrt : α → α) : Prop :=
  ∀ y, 0 ≤ y → 0 ≤ sqrt y ∧ sqrt y * sqrt y = y

/-- Entry `(r, c)` of the factor `ecL`, `r, c < 6N`, as `update` indexes the
blocks: with `r = 6 i + 3 k + m` and `c = 6 i' + 3 k' + m'`, the entry is
`ecL_diag[i][3 m' + m]` in the diagonal block (`i = i'`, `m' ≤ m`),
`ecL_ndiag[i'][3 m' + m]` in the block under it (`i = i' + 1`, `m ≤ m'`), for
equal axes `k = k'`, and zero elsewhere. -/
def ecL_entry [Zero α] (ecL_diag ecL_ndiag : Nat → Nat → α) (r c : Nat) : α :=
  if r % 6 / 3 = c % 6 / 3 then
    if r / 6 = c / 6 then
      if c % 3 ≤ r % 3 then ecL_diag (r / 6) (3 * (c % 3) + r % 3) else 0
    else if r / 6 = c / 6 + 1 then
      if r % 3 ≤ c % 3 then ecL_ndiag (c / 6) (3 * (c % 3) + r % 3) else 0
    else 0
  else 0

/-- The lower-triangular factor `L` assembled from `ecL` (rows `r < 6N`) and
the rows of `icL` (row `6N + i` is `icL[i]` up to its diagonal entry
`icL[i][6N + i]`). -/
def Lfull [Zero α] (N : Nat) (ecL_diag ecL_ndiag icL : Nat → Nat → α) (r c : Nat) : α :=
  if r < 6 * N then
    if c < 6 * N then ecL_entry ecL_diag ecL_ndiag r c else 0
  else
    if c ≤ r then icL (r - 6 * N) c else 0

/-- Row `i` of `icL` with the entries past its diagonal `icL[i][6N + i]`
counted as zero. -/
def rowT [Zero α] (N : Nat) (icL : Nat → Nat → α) (i c : Nat) : α :=
  if c ≤ 6 * N + i then icL i c else 0

/-- Inner product of the rows `p` and `q` of `icL`, over the columns below `M`. -/
def gram [Field α] (N M : Nat) (icL : Nat → Nat → α) (p q : Nat) : α :=
  ∑ c ∈ Finset.range M, rowT N icL p c * rowT N icL q c

/-- Entry `(r, r')` of `L * L'`, the sum running over the columns below `M`. -/
def LLT [Field α] (N M : Nat) (ecL_diag ecL_ndiag icL : Nat → Nat → α) (r r' : Nat) : α :=
  ∑ c ∈ Finset.range M,
    Lfull N ecL_diag ecL_ndiag icL r c * Lfull N ecL_diag ecL_ndiag icL r' c

/-- The index before the downdate of the row that has index `p` after it. -/
def old_index (ind_exclude p : Nat) : Nat :=
  if p < ind_exclude then p else p + 1

/-! ## Auxiliary notions for the sweeps of `update` -/

/-- Forward substitution on column `P` of a lower-triangular `L` with `M`
rows, applied to a row under construction: entry `P` is divided by the
diagonal, the entries `P < q < M` lose `L q P` times the new entry, entry `M`
loses its square. -/
def colstep [Field α] (L : Nat → Nat → α) (M P : Nat) (row : Nat → α) : Nat → α :=
  fun q =>
    if q < P then row q
    else if q = P then row P / L P P
    else if q < M then row q - L q P * (row P / L P P)
    else if q = M then row M - row P / L P P * (row P / L P P)
    else row q

/-- The state of a forward substitution that has finished the columns below
`P`: the rows `r < P` of `L * l = s` hold, the entries `P ≤ r < M` hold
`s r` minus the finished part of the product, entry `M` holds `s M` minus the
squares of the finished entries. -/
def fwd_inv [Field α] (L : Nat → Nat → α) (s : Nat → α) (M P : Nat) (row : Nat → α) : Prop :=
  (∀ r, r < P → ∑ c ∈ Finset.range P, L r c * row c = s r) ∧
  (∀ r, P ≤ r → r < M → row r = s r - ∑ c ∈ Finset.range P, L r c * row c) ∧
  row M = s M - ∑ c ∈ Finset.range P, row c * row c

/-! ## Sequences of activations -/

/-- Activation of the constraints `W[0], ..., W[n-1]` one by one with
`up_resolve`, from a state and a step `Sd`. -/
def activate_all [Field α] (sqrt : α → α) (ext : externals α) (ppar : problem_parameters α)
    (iHg : Nat → α) (constraints : Nat → constraint α) (W : Nat → Nat) (x : Nat → α) :
    Nat → chol_solve_as α × (Nat → α) → chol_solve_as α × (Nat → α)
  | 0, Sd => Sd
  | n + 1, Sd =>
    up_resolve sqrt ext ppar iHg constraints (n + 1) W x
      (activate_all sqrt ext ppar iHg constraints W x n Sd).1

/-- The working set without its entry at position `k`. -/
def W_without (W : Nat → Nat) (k : Nat) : Nat → Nat :=
  fun i => W (old_index k i)

/-- The row `s_a` of a constraint activated at position `i`, built in fresh
storage. -/
def sa_row [Field α] (ppar : problem_parameters α) (c : constraint α) (i : Nat) : Nat → α :=
  form_sa_row ppar c (i + ppar.N * SMPC_NUM_STATE_VAR) (fun _ => 0)

/-- The value `zn` with which `update_z` starts for the constraint `c`. -/
def zn_rhs [Field α] (iHg x : Nat → α) (c : constraint α) : α :=
  -(iHg (2 * c.ind / SMPC_NUM_STATE_VAR) + x c.ind) * c.coef_x
    - (iHg (2 * c.ind / SMPC_NUM_STATE_VAR + 1) + x (c.ind + 3)) * c.coef_y

/-- Row `i` of `icL` is the row of the factor for the constraint `c`: it
solves the rows above it of `L * l = s_a`, its diagonal entry is positive and
its squares sum to the last entry of `s_a`. -/
def row_ok [LinearOrderedField α] (ppar : problem_parameters α)
    (ecL_diag ecL_ndiag icL : Nat → Nat → α) (c : constraint α) (i : Nat) : Prop :=
  (∀ r, r < 6 * ppar.N + i →
    ∑ j ∈ Finset.range (6 * ppar.N + i), Lfull ppar.N ecL_diag ecL_ndiag icL r j * icL i j
      = sa_row ppar c i r) ∧
  0 < icL i (6 * ppar.N + i) ∧
  icL i (6 * ppar.N + i) * icL i (6 * ppar.N + i)
      + ∑ j ∈ Finset.range (6 * ppar.N + i), icL i j * icL i j
    = sa_row ppar c i (6 * ppar.N + i)

/-- Entry `6N + i` of `z` solves row `i` of `icL` for the right-hand side `zn`. -/
def z_ok [Field α] (N : Nat) (icL : Nat → Nat → α) (z : Nat → α) (zn : α) (i : Nat) : Prop :=
  ∑ j ∈ Finset.range (6 * N + i), icL i j * z j + icL i (6 * N + i) * z (6 * N + i) = zn

/-- The value `zn` that the first loop of `down_resolve` finds for row `m`:
the part of the right-hand side of that row carried by the entries of `z`
from `6N + ind_exclude` on. -/
def down_base [Field α] (N ind_exclude : Nat) (icL : Nat → Nat → α) (z : Nat → α) (m : Nat) :
    α :=
  z (6 * N + m) * icL m (6 * N + m)
    + ∑ j ∈ Finset.range (m - ind_exclude),
        z (6 * N + ind_exclude + j) * icL m (6 * N + ind_exclude + j)

/-- The object holds the factor for the constraints `cs 0, ..., cs (n-1)`: the
blocks of `ecL` are `D`, `ND`, the first `6N` entries of `z` are those of
`z0`, and the rows `i < n` of `icL` and the entries `6N + i` of `z` are the
ones of the constraints. -/
def built_ok [LinearOrderedField α] (ppar : problem_parameters α) (iHg x : Nat → α)
    (cs : Nat → constraint α) (D ND : Nat → Nat → α) (z0 : Nat → α) (n : Nat)
    (S : chol_solve_as α) : Prop :=
  S.ecL_diag = D ∧ S.ecL_ndiag = ND ∧ (∀ j, j < 6 * ppar.N → S.z j = z0 j) ∧
  ∀ i, i < n →
    row_ok ppar D ND S.icL (cs i) i ∧ z_ok ppar.N S.icL S.z (zn_rhs iHg x (cs i)) i

/-! ## Auxiliary notions for the passes of `downdate` -/

/-- The value `cosT` of pass `i` of `downdate` on the rows `M`. -/
def rot_cos [LinearOrderedField α] (sqrt : α → α) (N i : Nat) (M : Nat → Nat → α) : α :=
  (givens sqrt (M i (6 * N + i)) (M i (6 * N + i + 1))).1

/-- The value `sinT` of pass `i` of `downdate` on the rows `M`. -/
def rot_sin [LinearOrderedField α] (sqrt : α → α) (N i : Nat) (M : Nat → Nat → α) : α :=
  (givens sqrt (M i (6 * N + i)) (M i (6 * N + i + 1))).2

/-- The value `cosT*x1 + sinT*x2` stored in `cur_el[0]` by pass `i` of
`downdate`, before its absolute value is taken. -/
def rot_pivot [LinearOrderedField α] (sqrt : α → α) (N i : Nat) (M : Nat → Nat → α) : α :=
  rot_cos sqrt N i M * M i (6 * N + i) + rot_sin sqrt N i M * M i (6 * N + i + 1)

/-- A row after the rotation of its columns `e`, `e + 1` by `(cs, sn)` and the
change of sign `sgn` of column `e`. -/
def rot_apply [Field α] (sgn cs sn : α) (e : Nat) (f : Nat → α) : Nat → α :=
  fun c =>
    if c = e then sgn * (cs * f e + sn * f (e + 1))
    else if c = e + 1 then -sn * f e + cs * f (e + 1)
    else f c

/-- Row `i` of `icL` with the entries past column `6N + i + 1` counted as zero. -/
def rowT1 [Zero α] (N : Nat) (icL : Nat → Nat → α) (i c : Nat) : α :=
  if c ≤ 6 * N + i + 1 then icL i c else 0

/-- The rows of `icL` after the pointer rotation and the first `k` passes of
the main loop of `downdate`. -/
def downdate_passes [LinearOrderedField α] (sqrt : α → α) (N nW ind_exclude k : Nat)
    (icL : Nat → Nat → α) : Nat → Nat → α :=
  loopUp (fun i icL => downdate_rotate sqrt N nW i icL) ind_exclude k
    (downdate_shuffle nW ind_exclude icL)

/-! ## The KKT system, in the words of the specification -/

/-- The diagonal of the Hessian `H`: `1 / i2Q[j % 3]` on the `6N` state
entries and `1 / i2P` on the control entries. -/
def kkt_H [Field α] (ppar : problem_parameters α) (j : Nat) : α :=
  if j < SMPC_NUM_STATE_VAR * ppar.N then 1 / ppar.i2Q (j % 3) else 1 / ppar.i2P

/-- The linear term `g` with `inv(H) * g = iHg`: non-zero only on the ZMP
position entries `3 i`, `i < 2N`. -/
def kkt_g [Field α] (ppar : problem_parameters α) (iHg : Nat → α) (j : Nat) : α :=
  if j % 3 = 0 ∧ j / 3 < 2 * ppar.N then iHg (j / 3) / ppar.i2Q 0 else 0

/-- The product `A_W' * lambda`, where row `i` of `A_W` has `coef_x` at `ind`
and `coef_y` at `ind + 3` for the constraint `W[i]`. -/
def kkt_ATlambda [Field α] (constraints : Nat → constraint α) (nW : Nat) (W : Nat → Nat)
    (lambda : Nat → α) (j : Nat) : α :=
  ∑ i ∈ Finset.range nW,
    ((if j = (constraints (W i)).ind then (constraints (W i)).coef_x else 0)
      + (if j = (constraints (W i)).ind + 3 then (constraints (W i)).coef_y else 0)) * lambda i

/-! ## Example data -/

/-- Example: one interval, unit weights. -/
def ex_ppar1 : problem_parameters ℚ := ⟨1, fun _ => 1, 1⟩

/-- Example: the constraint on the x axis of state 0. -/
def ex_c0 : constraint ℚ := ⟨0, 1, 0⟩

/-- Example: a factor `ecL` with diagonal blocks `diag (1/2, 1, 1)`, no rows in `icL`. -/
def ex_S1 : chol_solve_as ℚ :=
  { ecL_diag := fun _ k => if k = 0 then 1 / 2 else if k = 4 ∨ k = 8 then 1 else 0
    ecL_ndiag := fun _ _ => 0
    icL := fun _ _ => 0
    nu := fun _ => 0
    XiHg := fun _ => 0
    z := fun _ => 0 }

/-- Example over any field: one interval, unit weights. -/
def ex_ppar (α : Type) [Field α] : problem_parameters α := ⟨1, fun _ => 1, 1⟩

/-- Example over any field: the constraint on the x axis of state 0. -/
def ex_c (α : Type) [Field α] : constraint α := ⟨0, 1, 0⟩

/-- Example over any field: two rows in `icL`, row 0 with diagonal `icL[0][6] = 2`
and row 1 with `icL[1][6] = 3` and diagonal `icL[1][7] = 4`. -/
def ex_S2 (α : Type) [Field α] : chol_solve_as α :=
  { ecL_diag := fun _ _ => 1
    ecL_ndiag := fun _ _ => 0
    icL := fun i j =>
      if i = 0 then (if j = 6 then 2 else 0)
      else if i = 1 then (if j = 6 then 3 else if j = 7 then 4 else 0)
      else 0
    nu := fun _ => 0
    XiHg := fun _ => 0
    z := fun _ => 0 }

/-- Example: routines of `matrix_ecL` and `matrix_E` that return their argument. -/
def ex_ext : externals ℚ :=
  { ecL_form := fun _ => (fun _ _ => 1, fun _ _ => 0)
    solve_forward := fun _ _ _ v => v
    solve_backward := fun _ _ _ v => v
    form_Ex := fun _ v => v
    form_ETx := fun _ v => v }

/-- Example over any field: two intervals, unit weights. -/
def ex3_ppar (α : Type) [Field α] : problem_parameters α := ⟨2, fun _ => 1, 1⟩

/-- Example: unit blocks on the diagonal of `ecL`, routines of `matrix_ecL`
and `matrix_E` that return their argument. -/
def ex3_ext (α : Type) [Field α] : externals α :=
  { ecL_form := fun _ => (fun _ k => if k = 0 ∨ k = 4 ∨ k = 8 then 1 else 0, fun _ _ => 0)
    solve_forward := fun _ _ _ v => v
    solve_backward := fun _ _ _ v => v
    form_Ex := fun _ v => v
    form_ETx := fun _ v => v }

/-- Example: constraints 0 and 1 on the state of interval 0, along `x` and
along `y`, and constraint 2 on the state of interval 1. -/
def ex3_constraints (α : Type) [Field α] : Nat → constraint α :=
  fun w => if w = 0 then ⟨0, 2 / 3, 0⟩ else if w = 1 then ⟨0, 0, 2 / 3⟩ else ⟨6, 1 / 3, 0⟩

/-- Example: the three rows of the factor for the constraints 0, 1, 2 of
`ex3_constraints` over `ex3_ext`. -/
def ex3_icL (α : Type) [Field α] : Nat → Nat → α :=
  fun i j =>
    if i = 0 then (if j = 0 then -(2 / 3) else if j = 6 then 2 / 3 else if j = 12 then 1 / 3 else 0)
    else if i = 1 then
      (if j = 3 then -(2 / 3) else if j = 9 then 2 / 3 else if j = 13 then 1 / 3 else 0)
    else if i = 2 then
      (if j = 6 then -(1 / 3) else if j = 12 then 2 / 3 else if j = 14 then 2 / 3 else 0)
    else 0

/-- Example: the object that holds the factor `ex3_icL` over the blocks of
`ex3_ext`, with every entry of `nu` and of `z` equal to one. -/
def ex3_S (α : Type) [Field α] : chol_solve_as α :=
  { ecL_diag := ((ex3_ext α).ecL_form (ex3_ppar α)).1
    ecL_ndiag := ((ex3_ext α).ecL_form (ex3_ppar α)).2
    icL := ex3_icL α
    nu := fun _ => 1
    XiHg := fun _ => 0
    z := fun _ => 1 }

/-- Example: an object with all its arrays zero. -/
def ex_S0 (α : Type) [Field α] : chol_solve_as α :=
  { ecL_diag := fun _ _ => 0
    ecL_ndiag := fun _ _ => 0
    icL := fun _ _ => 0
    nu := fun _ => 0
    XiHg := fun _ => 0
    z := fun _ => 0 }

end solver

/-! ## Walking pattern generator: `formPreviewWindow` -/

/-- Return value of `formPreviewWindow`. -/
inductive WMGret where
  | WMG_OK
  | WMG_HALT
  deriving DecidableEq, Repr

/-- Type of a footstep, as used in `WMG.cpp`. -/
inductive fs_type where
  | FS_TYPE_AUTO
  | FS_TYPE_SS_L
  | FS_TYPE_SS_R
  | FS_TYPE_DS
  deriving DecidableEq, Repr

/-- The fields of a `footstep` read or written by `WMG`: angle, posture (a
homogeneous 4×4 matrix), position `x()`, `y()`, reference ZMP, the constraint
`d[0..3]`, the time period and the time left (ms), the type. -/
structure footstep (α : Type) where
  angle : α
  posture : Matrix (Fin 4) (Fin 4) α
  x : α
  y : α
  ZMPref_x : α
  ZMPref_y : α
  d : Nat → α
  time_period : Nat
  time_left : Nat
  type : fs_type

/-- The arrays of `smpc_parameters` filled by `formPreviewWindow`. -/
structure smpc_parameters (α : Type) where
  angle : Nat → α
  fp_x : Nat → α
  fp_y : Nat → α
  zref_x : Nat → α
  zref_y : Nat → α
  lb : Nat → α
  ub : Nat → α
  T : Nat → α

/-- The state of a `WMG` object used by `formPreviewWindow`. -/
structure WMG (α : Type) where
  FS : List (footstep α)
  N : Nat
  sampling_period : Nat
  T_ms : Nat → Nat
  current_step_number : Nat
  first_preview_step : Nat
  last_time_decrement : Nat

section wmg

variable {α : Type}

/-- Subtraction of `unsigned int`: exact when `b ≤ a`, wrapping otherwise. -/
def usub (a b : Nat) : Nat :=
  if b ≤ a then a - b else a + 4294967296 - b

/-- The conversion of an `int` to `unsigned int`, as in the product
`def_repeat_times * sampling_period` and in the test `i < def_ds_num` with an
`unsigned int i`: the value modulo `2^32`. -/
def to_unsigned (n : Int) : Nat :=
  (n % 4294967296).toNat

/-- Multiplication of `unsigned int`, wrapping at `2^32`. -/
def umul (a b : Nat) : Nat :=
  (a * b) % 4294967296

/-- The stores into `par` for interval `i` from the footstep `fs`
(`FS[win_step_num]`) in `formPreviewWindow`. -/
def fill_par [Neg α] (par : smpc_parameters α) (i : Nat) (fs : footstep α) :
    smpc_parameters α :=
  { par with
    angle := Function.update par.angle i fs.angle
    fp_x := Function.update par.fp_x i fs.x
    fp_y := Function.update par.fp_y i fs.y
    zref_x := Function.update par.zref_x i fs.ZMPref_x
    zref_y := Function.update par.zref_y i fs.ZMPref_y
    lb := Function.update (Function.update par.lb (i * 2) (-fs.d 2)) (i * 2 + 1) (-fs.d 3)
    ub := Function.update (Function.update par.ub (i * 2) (fs.d 0)) (i * 2 + 1) (fs.d 1) }

/-- The `for` loop of `formPreviewWindow` on the variables `i`, `win_step_num`,
`step_time_left` and `par`; each pass either places interval `i` or moves to
the next footstep, so `N + FS.size()` passes are enough. A read of `FS` outside
the list gives `none`. -/
def preview_loop [Field α] (FS : List (footstep α)) (N : Nat) (T_ms : Nat → Nat) :
    Nat → Nat → Nat → Nat → smpc_parameters α → Option (WMGret × smpc_parameters α)
  | 0, i, _, _, par => if i < N then none else some (WMGret.WMG_OK, par)
  | fuel + 1, i, win_step_num, step_time_left, par =>
    if i < N then
      if step_time_left > 0 then
        match FS[win_step_num]? with
        | none => none
        | some fs =>
          let par := fill_par par i fs
          if T_ms i > step_time_left then
            some (WMGret.WMG_HALT, par)
          else
            preview_loop FS N T_ms fuel (i + 1) win_step_num (usub step_time_left (T_ms i))
              { par with T := Function.update par.T i ((T_ms i : α) / 1000) }
      else
        if win_step_num + 1 = FS.length then
          some (WMGret.WMG_HALT, par)
        else
          match FS[win_step_num + 1]? with
          | none => none
          | some fs => preview_loop FS N T_ms fuel i (win_step_num + 1) fs.time_left par
    else some (WMGret.WMG_OK, par)

/-- The loop `while (FS[current_step_number].time_left == 0) current_step_number++`;
a read of `FS` outside the list gives `none`. -/
def skip_finished (FS : List (footstep α)) : Nat → Nat → Option Nat
  | 0, _ => none
  | fuel + 1, current_step_number =>
    match FS[current_step_number]? with
    | none => none
    | some fs =>
      if fs.time_left = 0 then skip_finished FS fuel (current_step_number + 1)
      else some current_step_number

/-- The method `WMG::formPreviewWindow`: returns the status, `par` and the object. -/
def formPreviewWindow [Field α] (w : WMG α) (par : smpc_parameters α) :
    Option (WMGret × smpc_parameters α × WMG α) :=
  match w.FS[w.current_step_number]? with
  | none => none
  | some fs0 =>
    match preview_loop w.FS w.N w.T_ms (w.N + w.FS.length) 0 w.current_step_number
        fs0.time_left par with
    | none => none
    | some (WMGret.WMG_HALT, par) => some (WMGret.WMG_HALT, par, w)
    | some (WMGret.WMG_OK, par) =>
      match skip_finished w.FS (w.FS.length + 1) w.current_step_number with
      | none => none
      | some cur =>
        match w.FS[cur]? with
        | none => none
        | some fs =>
          let time_left := usub fs.time_left (w.T_ms 0)
          some (WMGret.WMG_OK, par,
            { w with
              FS := w.FS.set cur { fs with time_left := time_left }
              current_step_number := if time_left = 0 then cur + 1 else cur
              first_preview_step := cur
              last_time_decrement := w.T_ms 0 })

/-! ### The walk over the footsteps, in the words of the specification -/

/-- Whether the window cannot be placed: `steps` holds the time still
unassigned of the footsteps from the current one on, the intervals
`i, i+1, ...` (`n` of them) remain. Footsteps with no time are skipped; the
walk halts when the list is exhausted before all intervals are placed, or when
the interval to place is longer than the positive time of the footstep it
starts in. -/
def window_halts (T_ms : Nat → Nat) : Nat → Nat → List Nat → Bool
  | 0, _, _ => false
  | n + 1, i, steps =>
    match steps.dropWhile (fun t => t == 0) with
    | [] => true
    | t :: rest =>
      if T_ms i > t then true else window_halts T_ms n (i + 1) ((t - T_ms i) :: rest)

/-! ### The window, the control loop and the support switch -/

/-- The field `time_left` of `FS[k]`, zero outside the list. -/
def time_left_at (FS : List (footstep α)) (k : Nat) : Nat :=
  match FS[k]? with
  | some fs => fs.time_left
  | none => 0

/-- The time that the loop of `formPreviewWindow` can still assign to footstep
`k` when it stands at footstep `win_step_num` with `step_time_left` left. -/
def time_avail (FS : List (footstep α)) (win_step_num step_time_left k : Nat) : Nat :=
  if k = win_step_num then step_time_left else time_left_at FS k

/-- The entries of `smpc_parameters` that belong to one interval of the
preview window. -/
structure preview_entry (α : Type) where
  angle : α
  fp_x : α
  fp_y : α
  zref_x : α
  zref_y : α
  lb0 : α
  lb1 : α
  ub0 : α
  ub1 : α
  T : α

/-- The entries of `par` for interval `i`: `angle[i]`, `fp_x[i]`, `fp_y[i]`,
`zref_x[i]`, `zref_y[i]`, `lb[i*2]`, `lb[i*2+1]`, `ub[i*2]`, `ub[i*2+1]`, `T[i]`. -/
def par_row (par : smpc_parameters α) (i : Nat) : preview_entry α :=
  { angle := par.angle i, fp_x := par.fp_x i, fp_y := par.fp_y i, zref_x := par.zref_x i,
    zref_y := par.zref_y i, lb0 := par.lb (i * 2), lb1 := par.lb (i * 2 + 1),
    ub0 := par.ub (i * 2), ub1 := par.ub (i * 2 + 1), T := par.T i }

/-- The entries of an interval of length `t` filled from the footstep `fs`. -/
def fs_row [Neg α] (fs : footstep α) (t : α) : preview_entry α :=
  { angle := fs.angle, fp_x := fs.x, fp_y := fs.y, zref_x := fs.ZMPref_x,
    zref_y := fs.ZMPref_y, lb0 := -fs.d 2, lb1 := -fs.d 3, ub0 := fs.d 0, ub1 := fs.d 1,
    T := t }

/-- The sum of `time_left` over all the footsteps. -/
def total_time_left (FS : List (footstep α)) : Nat :=
  (FS.map (fun fs => fs.time_left)).sum

/-- The part of the constructor `WMG::WMG (N_, T_, step_height_)` on the
fields used here: every `T_ms[i]`, `i < N`, is the sampling time; `mem` is the
content of the fresh array `T_ms` before the loop. -/
def WMG_new (N_ T_ : Nat) (mem : Nat → Nat) : WMG α :=
  { FS := []
    N := N_
    sampling_period := T_
    T_ms := loopUp (fun i t => Function.update t i T_) 0 N_ mem
    current_step_number := 0
    first_preview_step := 0
    last_time_decrement := 0 }

/-- The control loop of the tests, `for (;;) { if (wmg.formPreviewWindow (par)
== WMG_HALT) break; ... }`, with the generator untouched between the calls:
the number of calls that returned `WMG_OK` before the first `WMG_HALT`; `none`
when the fuel runs out or a read of `FS` falls outside the list. -/
def control_loop [Field α] : Nat → WMG α → smpc_parameters α → Option Nat
  | 0, _, _ => none
  | fuel + 1, w, par =>
    match formPreviewWindow w par with
    | none => none
    | some (WMGret.WMG_HALT, _, _) => some 0
    | some (WMGret.WMG_OK, par', w') =>
      match control_loop fuel w' par' with
      | none => none
      | some n => some (n + 1)

/-- Modelled from the spec: `WMG::getPrevSS (start_ind)`, a helper that is not
part of the sources at hand; by its name and by its sibling `getNextSS`, which
`changeNextSSPosition` uses for "the next SS", it returns the index of the
nearest single-support footstep before `start_ind`, and `-1` (here `none`)
when there is none. -/
def getPrevSS (FS : List (footstep α)) : Nat → Option Nat
  | 0 => none
  | k + 1 =>
    match FS[k]? with
    | some fs => if fs.type ≠ fs_type.FS_TYPE_DS then some k else getPrevSS FS k
    | none => getPrevSS FS k

/-- The method `WMG::isSupportSwitchNeeded`; a read of `FS` outside the list
gives `none`. The three conditions are joined by `&&`, so `getPrevSS` is
called only when the first two hold. -/
def isSupportSwitchNeeded (w : WMG α) : Option Bool :=
  match w.FS[w.current_step_number]? with
  | none => none
  | some fs =>
    if fs.type = fs_type.FS_TYPE_DS then some false
    else if w.current_step_number ≠ 0 ∧ fs.time_period = fs.time_left then
      match getPrevSS w.FS w.first_preview_step with
      | none => none
      | some p =>
        match w.FS[p]? with
        | none => none
        | some fp => if fp.type ≠ fs.type then some true else some false
    else some false

/-- The support switch in the words of the specification: the footstep at
`current_step_number` is a single support, it is not the initial footstep, it
is on its first tick (`time_left` equals `time_period`), and its type differs
from the type of the nearest single-support footstep before it in the list. -/
def switch_expected (w : WMG α) : Bool :=
  match w.FS[w.current_step_number]? with
  | none => false
  | some fs =>
    decide (fs.type ≠ fs_type.FS_TYPE_DS) && decide (w.current_step_number ≠ 0)
      && decide (fs.time_left = fs.time_period)
      && (match getPrevSS w.FS w.current_step_number with
          | none => false
          | some p =>
            match w.FS[p]? with
            | none => false
            | some fp => decide (fp.type ≠ fs.type))

/-! ### Adding footsteps: `AddFootstep` -/

/-- Modelled from the spec: `Translation<double, 3> (x, y, z)` of Eigen, which
is not part of the sources at hand, as the homogeneous 4×4 matrix of the
transform it is converted to. -/
def Translation [Field α] (x y z : α) : Matrix (Fin 4) (Fin 4) α :=
  !![1, 0, 0, x; 0, 1, 0, y; 0, 0, 1, z; 0, 0, 0, 1]

/-- Modelled from the spec: `AngleAxisd (a, Vector3d::UnitZ ())` of Eigen,
which is not part of the sources at hand, as the homogeneous 4×4 matrix of
the rotation by `a` about the axis `z`; `cos` and `sin` are the functions of
`<cmath>`. -/
def AngleAxisd_UnitZ [Field α] (cos sin : α → α) (a : α) : Matrix (Fin 4) (Fin 4) α :=
  !![cos a, -sin a, 0, 0; sin a, cos a, 0, 0; 0, 0, 1, 0; 0, 0, 0, 1]

/-- Modelled from the spec: the product `posture * v` of a `Transform<double, 3>`
and a `Vector3d` of Eigen: the linear part applied to `v` plus the
translation. -/
def transform_point [Field α] (posture : Matrix (Fin 4) (Fin 4) α) (v : Fin 3 → α) :
    Fin 3 → α :=
  ![posture 0 0 * v 0 + posture 0 1 * v 1 + posture 0 2 * v 2 + posture 0 3,
    posture 1 0 * v 0 + posture 1 1 * v 1 + posture 1 2 * v 2 + posture 1 3,
    posture 2 0 * v 0 + posture 2 1 * v 1 + posture 2 2 * v 2 + posture 2 3]

/-- Modelled from the spec: the constructor `footstep (angle, posture, zref,
time_period, type, d)`, which is not part of the sources at hand: the footstep
owns its pose, its reference ZMP, its type and a copy of the constraint `d`;
`x ()` and `y ()` are the translation of the posture, and a new footstep has
`time_left = time_period`. -/
def footstep_new (angle : α) (posture : Matrix (Fin 4) (Fin 4) α) (zref : Fin 3 → α)
    (time_period : Nat) (type : fs_type) (d : Nat → α) : footstep α :=
  { angle := angle, posture := posture, x := posture 0 3, y := posture 1 3,
    ZMPref_x := zref 0, ZMPref_y := zref 1, d := d,
    time_period := time_period, time_left := time_period, type := type }

/-- The members of `WMG` that `AddFootstep` reads or writes besides `FS` and
`sampling_period`: the constraint `addstep_constraint[0..3]` of the next
footstep, the constraint `def_ds_constraint[0..3]` of a double support, and
the counts `def_repeat_times` and `def_ds_num`. -/
structure addstep_members (α : Type) where
  addstep_constraint : Nat → α
  def_ds_constraint : Nat → α
  def_repeat_times : Int
  def_ds_num : Int

/-- The type of the new footstep in `AddFootstep` on a list that is not
empty: the `switch` on the type of `FS.back ()` when `type` is
`FS_TYPE_AUTO`. -/
def next_type (back type : fs_type) : fs_type :=
  if type = fs_type.FS_TYPE_AUTO then
    match back with
    | fs_type.FS_TYPE_SS_L => fs_type.FS_TYPE_SS_R
    | fs_type.FS_TYPE_SS_R => fs_type.FS_TYPE_SS_L
    | _ => fs_type.FS_TYPE_SS_R
  else type

/-- The loop of `AddFootstep` that adds the double supports: the state is the
list `FS` with its last element `FS.back ()`. -/
def add_ds [Field α] (cos sin : α → α) (sampling_period : Nat) (m : addstep_members α)
    (x_shift y_shift angle_shift : α) (next_zref : Fin 3 → α) (n : Nat)
    (FS : List (footstep α)) (back : footstep α) : List (footstep α) × footstep α :=
  loopUp (fun _ (r : List (footstep α) × footstep α) =>
      let ds_posture := r.2.posture * Translation x_shift y_shift 0
        * AngleAxisd_UnitZ cos sin angle_shift
      let ds := footstep_new (r.2.angle + angle_shift) ds_posture next_zref sampling_period
        fs_type.FS_TYPE_DS m.def_ds_constraint
      (r.1 ++ [ds], ds))
    0 n (FS, back)

/-- The method `WMG::AddFootstep (x_relative, y_relative, angle_relative,
type)`. The counts `def_repeat_times` and `def_ds_num` are `int`, and
`sampling_period` and the counter of the loop are `unsigned int`: the period
`def_repeat_times * sampling_period` is the product of `unsigned int`, which
wraps at `2^32`, and the loop runs `def_ds_num` converted to `unsigned int`
times. -/
def AddFootstep [Field α] (cos sin : α → α) (sampling_period : Nat) (m : addstep_members α)
    (FS : List (footstep α)) (x_relative y_relative angle_relative : α) (type : fs_type) :
    List (footstep α) :=
  let posture := Translation x_relative y_relative 0
  let zref_offset : Fin 3 → α :=
    ![(m.addstep_constraint 0 - m.addstep_constraint 2) / 2, 0, 0]
  match FS.getLast? with
  | none =>
    let type := if type = fs_type.FS_TYPE_AUTO then fs_type.FS_TYPE_DS else type
    let posture := posture * AngleAxisd_UnitZ cos sin angle_relative
    let zref_abs := transform_point posture zref_offset
    FS ++ [footstep_new angle_relative posture zref_abs
      (umul (to_unsigned m.def_repeat_times) sampling_period) type m.addstep_constraint]
  | some back =>
    let type := next_type back.type type
    let posture := back.posture * (posture * AngleAxisd_UnitZ cos sin angle_relative)
    let prev_a := back.angle
    let next_a := prev_a + angle_relative
    let next_zref := transform_point posture zref_offset
    let theta : α := 1 / ((m.def_ds_num + 1 : Int) : α)
    let angle_shift := angle_relative * theta
    let x_shift := theta * x_relative
    let y_shift := theta * y_relative
    let r := add_ds cos sin sampling_period m x_shift y_shift angle_shift next_zref
      (to_unsigned m.def_ds_num) FS back
    r.1 ++ [footstep_new next_a posture next_zref
      (umul (to_unsigned m.def_repeat_times) sampling_period) type m.addstep_constraint]

/-- The method `WMG::AddFootstep (x_relative, y_relative, angle_relative,
n_this, n, type)`. -/
def AddFootstep_n [Field α] (cos sin : α → α) (sampling_period : Nat)
    (m : addstep_members α) (FS : List (footstep α)) (x_relative y_relative angle_relative : α)
    (n_this n : Int) (type : fs_type) : addstep_members α × List (footstep α) :=
  let m := { m with def_repeat_times := n_this, def_ds_num := n - n_this }
  (m, AddFootstep cos sin sampling_period m FS x_relative y_relative angle_relative type)

/-- The method `WMG::AddFootstep (x_relative, y_relative, angle_relative,
n_this, n, d, type)`. -/
def AddFootstep_d [Field α] (cos sin : α → α) (sampling_period : Nat)
    (m : addstep_members α) (FS : List (footstep α)) (x_relative y_relative angle_relative : α)
    (n_this n : Int) (d : Nat → α) (type : fs_type) : addstep_members α × List (footstep α) :=
  let c := Function.update m.addstep_constraint 0 (d 0)
  let c := Function.update c 1 (d 1)
  let c := Function.update c 2 (d 2)
  let c := Function.update c 3 (d 3)
  let m := { m with addstep_constraint := c, def_repeat_times := n_this, def_ds_num := n - n_this }
  (m, AddFootstep cos sin sampling_period m FS x_relative y_relative angle_relative type)

/-- The rotation part of `posture` is the rotation by `a` about the axis `z`:
the angle of the footstep is the angle of its posture. -/
def posture_has_angle [Field α] (cos sin : α → α) (posture : Matrix (Fin 4) (Fin 4) α)
    (a : α) : Prop :=
  posture 0 0 = cos a ∧ posture 0 1 = -sin a ∧ posture 0 2 = 0 ∧
  posture 1 0 = sin a ∧ posture 1 1 = cos a ∧ posture 1 2 = 0 ∧
  posture 2 0 = 0 ∧ posture 2 1 = 0 ∧ posture 2 2 = 1

/-! ### Runs of calls, the checked subtractions and `getFeetPositions` -/

/-- A call of `AddFootstep` (any of its overloads: `m` holds the members that
the overload has set when the footsteps are added) or of `formPreviewWindow`. -/
inductive wmg_call (α : Type) where
  | AddFootstep (m : addstep_members α) (x_relative y_relative angle_relative : α)
      (type : fs_type)
  | formPreviewWindow (par : smpc_parameters α)

/-- One call on the object `w`; `none` when `formPreviewWindow` does not
return. -/
def do_call [Field α] (cos sin : α → α) (w : WMG α) : wmg_call α → Option (WMG α)
  | wmg_call.AddFootstep m x_relative y_relative angle_relative type =>
    some { w with
      FS := AddFootstep cos sin w.sampling_period m w.FS x_relative y_relative angle_relative
        type }
  | wmg_call.formPreviewWindow par =>
    match formPreviewWindow w par with
    | none => none
    | some r => some r.2.2

/-- The calls of the list, one after the other, on the object `w`. -/
def do_calls [Field α] (cos sin : α → α) : List (wmg_call α) → WMG α → Option (WMG α)
  | [], w => some w
  | c :: cs, w =>
    match do_call cos sin w c with
    | none => none
    | some w' => do_calls cos sin cs w'

/-- The loop of `formPreviewWindow` as in `preview_loop`, with the subtraction
`step_time_left -= T_ms[i]` checked: `none` also when it would subtract more
than `step_time_left`. -/
def preview_loop_checked [Field α] (FS : List (footstep α)) (N : Nat) (T_ms : Nat → Nat) :
    Nat → Nat → Nat → Nat → smpc_parameters α → Option (WMGret × smpc_parameters α)
  | 0, i, _, _, par => if i < N then none else some (WMGret.WMG_OK, par)
  | fuel + 1, i, win_step_num, step_time_left, par =>
    if i < N then
      if step_time_left > 0 then
        match FS[win_step_num]? with
        | none => none
        | some fs =>
          let par := fill_par par i fs
          if T_ms i > step_time_left then
            some (WMGret.WMG_HALT, par)
          else if T_ms i ≤ step_time_left then
            preview_loop_checked FS N T_ms fuel (i + 1) win_step_num (step_time_left - T_ms i)
              { par with T := Function.update par.T i ((T_ms i : α) / 1000) }
          else none
      else
        if win_step_num + 1 = FS.length then
          some (WMGret.WMG_HALT, par)
        else
          match FS[win_step_num + 1]? with
          | none => none
          | some fs => preview_loop_checked FS N T_ms fuel i (win_step_num + 1) fs.time_left par
    else some (WMGret.WMG_OK, par)

/-- The method `WMG::formPreviewWindow` as in `formPreviewWindow`, with the
subtractions checked: `none` when a footstep is read outside the list, and
also when `step_time_left -= T_ms[i]` or `time_left -= T_ms[0]` would subtract
more than the value it reduces. -/
def formPreviewWindow_checked [Field α] (w : WMG α) (par : smpc_parameters α) :
    Option (WMGret × smpc_parameters α × WMG α) :=
  match w.FS[w.current_step_number]? with
  | none => none
  | some fs0 =>
    match preview_loop_checked w.FS w.N w.T_ms (w.N + w.FS.length) 0 w.current_step_number
        fs0.time_left par with
    | none => none
    | some (WMGret.WMG_HALT, par) => some (WMGret.WMG_HALT, par, w)
    | some (WMGret.WMG_OK, par) =>
      match skip_finished w.FS (w.FS.length + 1) w.current_step_number with
      | none => none
      | some cur =>
        match w.FS[cur]? with
        | none => none
        | some fs =>
          if w.T_ms 0 ≤ fs.time_left then
            let time_left := fs.time_left - w.T_ms 0
            some (WMGret.WMG_OK, par,
              { w with
                FS := w.FS.set cur { fs with time_left := time_left }
                current_step_number := if time_left = 0 then cur + 1 else cur
                first_preview_step := cur
                last_time_decrement := w.T_ms 0 })
          else none

/-- Addition of `unsigned int`, wrapping at `2^32`. -/
def uadd (a b : Nat) : Nat :=
  (a + b) % 4294967296

/-- What `getFeetPositions` does after its loop: it has returned without a
position (`returned`), or it calls `getDSFeetPositions (support_number, ...)`,
or it calls `getSSFeetPositionsBezier (support_number, theta, ...)`; for the
last case the values of `step_time_left` and `shift_ms` that `theta` was
computed from are kept. -/
inductive feet_positions (α : Type) where
  | returned
  | DS (support_number : Nat)
  | SS (support_number step_time_left shift_ms : Nat) (theta : α)

/-- The loop `while (shift_ms > step_time_left)` of `getFeetPositions` on
`support_number`, `step_time_left` and `shift_ms`: `some none` is the `return`
inside the loop, `none` a read of `FS` outside the list or the end of the
fuel. -/
def feet_loop (FS : List (footstep α)) :
    Nat → Nat → Nat → Nat → Option (Option (Nat × Nat × Nat))
  | 0, support_number, step_time_left, shift_ms =>
    if shift_ms > step_time_left then none
    else some (some (support_number, step_time_left, shift_ms))
  | fuel + 1, support_number, step_time_left, shift_ms =>
    if shift_ms > step_time_left then
      let shift_ms := usub shift_ms step_time_left
      let support_number := support_number + 1
      if support_number ≥ FS.length then some none
      else
        match FS[support_number]? with
        | none => none
        | some fs => feet_loop FS fuel support_number fs.time_left shift_ms
    else some (some (support_number, step_time_left, shift_ms))

/-- The method `WMG::getFeetPositions (shift_from_current_ms, ...)` up to the
calls that compute the positions. -/
def getFeetPositions [Field α] (w : WMG α) (fuel shift_from_current_ms : Nat) :
    Option (feet_positions α) :=
  match w.FS[w.first_preview_step]? with
  | none => none
  | some fs0 =>
    match feet_loop w.FS fuel w.first_preview_step (uadd fs0.time_left w.last_time_decrement)
        shift_from_current_ms with
    | none => none
    | some none => some feet_positions.returned
    | some (some (support_number, step_time_left, shift_ms)) =>
      match w.FS[support_number]? with
      | none => none
      | some fs =>
        if fs.type = fs_type.FS_TYPE_DS then some (feet_positions.DS support_number)
        else
          let theta : α :=
            ((uadd (usub fs.time_period step_time_left) shift_ms : Nat) : α)
              / (fs.time_period : α)
          some (feet_positions.SS support_number step_time_left shift_ms theta)

/-- The times of the footsteps are inside their periods: no footstep has more
time left than its period, the footstep `FS[first_preview_step]` has not even
with `last_time_decrement` given back, and `last_time_decrement` is zero as
long as `first_preview_step` is not inside the list. -/
def times_in_period (w : WMG α) : Prop :=
  (∀ fs ∈ w.FS, fs.time_left ≤ fs.time_period) ∧
  (∀ fs, w.FS[w.first_preview_step]? = some fs →
    fs.time_left + w.last_time_decrement ≤ fs.time_period) ∧
  (w.first_preview_step < w.FS.length ∨ w.last_time_decrement = 0)

end wmg

/-! ### Example data -/

/-- Example: a footstep with 10 ms left. -/
def ex_fs : footstep ℚ :=
  { angle := 0, posture := Translation 1 2 0, x := 1, y := 2, ZMPref_x := 3, ZMPref_y := 4,
    d := fun _ => 5,
    time_period := 40, time_left := 10, type := fs_type.FS_TYPE_DS }

/-- Example: a generator with one footstep and one interval of 20 ms. -/
def ex_wmg : WMG ℚ :=
  { FS := [ex_fs], N := 1, sampling_period := 20, T_ms := fun _ => 20,
    current_step_number := 0, first_preview_step := 0, last_time_decrement := 0 }

/-- Example: parameters with all arrays zero. -/
def ex_par : smpc_parameters ℚ :=
  { angle := fun _ => 0, fp_x := fun _ => 0, fp_y := fun _ => 0, zref_x := fun _ => 0,
    zref_y := fun _ => 0, lb := fun _ => 0, ub := fun _ => 0, T := fun _ => 0 }

/-- Example: a single-support footstep of type `t` that lasts one sampling
time of 20 ms and has not started. -/
def ex_step (t : fs_type) : footstep ℚ :=
  { angle := 0, posture := Translation 1 2 0, x := 1, y := 2, ZMPref_x := 3, ZMPref_y := 4,
    d := fun _ => 5,
    time_period := 20, time_left := 20, type := t }

/-- Example: a walk that starts on the left foot and alternates the feet with
no double support in between, as `AddFootstep (x, y, a, 1, 1, type)` builds
it for a sampling time of 20 ms; the window has two intervals of 20 ms. -/
def ex_walk : WMG ℚ :=
  { FS := [ex_step fs_type.FS_TYPE_SS_L, ex_step fs_type.FS_TYPE_SS_R,
      ex_step fs_type.FS_TYPE_SS_L, ex_step fs_type.FS_TYPE_SS_R]
    N := 2, sampling_period := 20, T_ms := fun _ => 20,
    current_step_number := 0, first_preview_step := 0, last_time_decrement := 0 }

/-- Example: the parameters after the first call of `formPreviewWindow` on
`ex_walk`. -/
def ex_par1 : smpc_parameters ℚ :=
  let p := fill_par ex_par 0 (ex_step fs_type.FS_TYPE_SS_L)
  let p := { p with T := Function.update p.T 0 (((20 : Nat) : ℚ) / 1000) }
  let p := fill_par p 1 (ex_step fs_type.FS_TYPE_SS_R)
  { p with T := Function.update p.T 1 (((20 : Nat) : ℚ) / 1000) }

/-- Example: `ex_walk` after the first call of `formPreviewWindow`: the first
footstep is finished. -/
def ex_walk1 : WMG ℚ :=
  { FS := [{ ex_step fs_type.FS_TYPE_SS_L with time_left := 0 },
      ex_step fs_type.FS_TYPE_SS_R, ex_step fs_type.FS_TYPE_SS_L,
      ex_step fs_type.FS_TYPE_SS_R]
    N := 2, sampling_period := 20, T_ms := fun _ => 20,
    current_step_number := 1, first_preview_step := 0, last_time_decrement := 20 }

/-- Example: `ex_walk` after the second call of `formPreviewWindow`: the
second footstep is finished and the next window starts on the third one. -/
def ex_walk2 : WMG ℚ :=
  { FS := [{ ex_step fs_type.FS_TYPE_SS_L with time_left := 0 },
      { ex_step fs_type.FS_TYPE_SS_R with time_left := 0 }, ex_step fs_type.FS_TYPE_SS_L,
      ex_step fs_type.FS_TYPE_SS_R]
    N := 2, sampling_period := 20, T_ms := fun _ => 20,
    current_step_number := 2, first_preview_step := 1, last_time_decrement := 20 }

/-- Example: the members of a generator that `AddFootstep` uses: the
constraint `(9, 2, 3, 2)` for the steps, `(7, 2, 2, 2)` for a double support,
four sampling periods for a step and no double support. -/
def ex_members (α : Type) [Field α] : addstep_members α :=
  { addstep_constraint := fun i => if i = 0 then 9 else if i = 2 then 3 else 2
    def_ds_constraint := fun i => if i = 0 then 7 else 2
    def_repeat_times := 4
    def_ds_num := 0 }

/-! ## State handling: `state_handling.cpp` -/

/-- The constant `SMPC_NUM_CONTROL_VAR`. -/
def SMPC_NUM_CONTROL_VAR : Nat := 2

namespace state_handling

variable {α : Type}

/-- The state-dependent parameters `sp.spar[i]` read by `state_handling`:
cosine and sine of the rotation angle and `h = hCoM / gravity`. -/
structure state_parameters (α : Type) where
  cos : α
  sin : α
  h : α

/-- The fields of `problem_parameters` read by `state_handling`: the size `N`
of the preview window (an `int`) and the array `spar`. -/
structure problem_parameters (α : Type) where
  N : Int
  spar : Nat → state_parameters α

/-- The routine `state_handling::tilde_to_bar`. -/
def tilde_to_bar [Field α] (sinA cosA : α) (state : Nat → α) : Nat → α :=
  let tmp := cosA * state 0 + sinA * state 3
  let state := Function.update state 3 (-sinA * state 0 + cosA * state 3)
  Function.update state 0 tmp

/-- The routine `state_handling::bar_to_tilde`. -/
def bar_to_tilde [Field α] (sinA cosA : α) (state : Nat → α) : Nat → α :=
  let tmp := cosA * state 0 - sinA * state 3
  let state := Function.update state 3 (sinA * state 0 + cosA * state 3)
  Function.update state 0 tmp

/-- The routine `state_handling::tilde_to_orig`. -/
def tilde_to_orig [Field α] (h : α) (state : Nat → α) : Nat → α :=
  let state := Function.update state 0 (state 0 + h * state 2)
  Function.update state 3 (state 3 + h * state 5)

/-- The routine `state_handling::orig_to_tilde`. -/
def orig_to_tilde [Field α] (h : α) (state : Nat → α) : Nat → α :=
  let state := Function.update state 0 (state 0 - h * state 2)
  Function.update state 3 (state 3 - h * state 5)

/-- The routine `state_handling::get_state_tilde`; `ind` and `index` are
`int`, and a negative `index` (reads before the start of `X` and of `spar`)
gives `none`. -/
def get_state_tilde [Field α] (sp : problem_parameters α) (X : Nat → α) (ind : Int)
    (state : Nat → α) : Option (Nat → α) :=
  let index : Int := if ind ≥ sp.N then sp.N - 1 else ind
  if index < 0 then none
  else
    let state := loopUp
      (fun i st => Function.update st i (X (index.toNat * SMPC_NUM_STATE_VAR + i)))
      0 SMPC_NUM_STATE_VAR state
    some (bar_to_tilde (sp.spar index.toNat).sin (sp.spar index.toNat).cos state)

/-- The routine `state_handling::get_state`. -/
def get_state [Field α] (sp : problem_parameters α) (X : Nat → α) (ind : Int)
    (state : Nat → α) : Option (Nat → α) :=
  let index : Int := if ind ≥ sp.N then sp.N - 1 else ind
  match get_state_tilde sp X ind state with
  | none => none
  | some state => some (tilde_to_orig (sp.spar index.toNat).h state)

/-- The routine `state_handling::get_controls`; the sizes and indices are
`int`, and a negative offset (a read before the start of `X`) gives `none`. -/
def get_controls (preview_window_size : Int) (X : Nat → α) (ind : Int)
    (controls : Nat → α) : Option (Nat → α) :=
  let index : Int := if ind ≥ preview_window_size then preview_window_size - 1 else ind
  let off : Int := preview_window_size * SMPC_NUM_STATE_VAR + index * SMPC_NUM_CONTROL_VAR
  if off < 0 then none
  else
    let controls := Function.update controls 0 (X (off + 0).toNat)
    some (Function.update controls 1 (X (off + 1).toNat))

end state_handling

/-- The parameters of a window of two intervals: the angle with sine `3/5` and
cosine `4/5` and `h = 1/10` for each. -/
def ex_state_par : state_handling.problem_parameters ℚ :=
  { N := 2, spar := fun _ => { cos := 4 / 5, sin := 3 / 5, h := 1 / 10 } }

/-! ## Interior-point driver: `qp_ip.cpp` -/

/-- The members of `qp_ip` and of its base classes that the routines of
`qp_ip.cpp` read or write: the size `N` of the window, the tolerance `tol`,
the gain `gain_beta`, the inverted penalties `i2Q[0..2]` and `i2P`, the
state-dependent parameters `spar`, the diagonal `Q2[0..2]`, `P2` of the
Hessian, the bounds `lb`, `ub`, the vector `g`, the point `X`, the direction
`dX`, and the work arrays `grad`, `i2hess`, `i2hess_grad`, the value `phi_X`
and the step length `alpha`. -/
structure qp_ip (α : Type) where
  N : Nat
  tol : α
  gain_beta : α
  i2Q : Nat → α
  i2P : α
  spar : Nat → state_handling.state_parameters α
  Q2 : Nat → α
  P2 : α
  lb : Nat → α
  ub : Nat → α
  g : Nat → α
  X : Nat → α
  dX : Nat → α
  grad : Nat → α
  i2hess : Nat → α
  i2hess_grad : Nat → α
  phi_X : α
  alpha : α

namespace qp_ip

variable {α : Type}

/-- The constant `NUM_STATE_VAR`. -/
def NUM_STATE_VAR : Nat := 6

/-- The constant `NUM_VAR`. -/
def NUM_VAR : Nat := 8

/-- The constructor `qp_ip::qp_ip`: the members set by the constructors of the
base classes, which are not part of the sources at hand, come with `base`;
the four arrays are allocated and not written, so that their content is
whatever the memory holds (`g_mem`, `i2hess_mem`, `i2hess_grad_mem`,
`grad_mem`). -/
def new [Field α] (base : qp_ip α) (Alpha Beta Gamma regularization : α)
    (g_mem i2hess_mem i2hess_grad_mem grad_mem : Nat → α) : qp_ip α :=
  { base with
    g := g_mem
    i2hess := i2hess_mem
    i2hess_grad := i2hess_grad_mem
    grad := grad_mem
    Q2 := Function.update (Function.update (Function.update base.Q2 0 Beta) 1 Alpha) 2
      (regularization * 2)
    P2 := Gamma }

/-- The routine `qp_ip::form_g`. -/
def form_g [Field α] (s : qp_ip α) (zref_x zref_y : Nat → α) : qp_ip α :=
  { s with
    g := loopUp (fun i g =>
        let cosA := (s.spar i).cos
        let sinA := (s.spar i).sin
        let p0 := zref_x i
        let p1 := zref_y i
        let g := Function.update g (i * 2) (g (i * 2) + (cosA * p0 + sinA * p1) * s.gain_beta)
        Function.update g (i * 2 + 1) (g (i * 2 + 1) + (-sinA * p0 + cosA * p1) * s.gain_beta))
      0 s.N s.g }

/-- The routine `qp_ip::set_parameters`; `set_state_parameters` belongs to a
base class that is not part of the sources at hand and is a parameter. -/
def set_parameters [Field α]
    (set_state_parameters : (Nat → α) → (Nat → α) → (Nat → α) → qp_ip α → qp_ip α)
    (s : qp_ip α) (T h angle zref_x zref_y lb_ ub_ : Nat → α) : qp_ip α :=
  let s := set_state_parameters T h angle s
  let s := { s with lb := lb_, ub := ub_ }
  form_g s zref_x zref_y

/-- The routine `qp_ip::form_grad_hess_logbar`; `log` is the logarithm of
`<cmath>`. The third loop runs `i` and `j = 3 * i` together and works on
`phi_X`, `grad` and `i2hess`. -/
def form_grad_hess_logbar [Field α] (log : α → α) (s : qp_ip α) (kappa : α) : qp_ip α :=
  let grad := loopUp (fun i grad => Function.update grad i (s.Q2 (i % 3) * s.X i))
    0 (s.N * NUM_STATE_VAR) s.grad
  let grad := loopUp (fun i grad => Function.update grad i (s.P2 * s.X i))
    (s.N * NUM_STATE_VAR) (s.N * NUM_VAR - s.N * NUM_STATE_VAR) grad
  let r := loopUp (fun i (r : α × (Nat → α) × (Nat → α)) =>
      let j := 3 * i
      let lb_diff := -s.lb i + s.X j
      let ub_diff := s.ub i - s.X j
      let phi_X := r.1 - (log lb_diff + log ub_diff)
      let lb_diff := 1 / lb_diff
      let ub_diff := 1 / ub_diff
      let grad := Function.update r.2.1 j (r.2.1 j + (s.g i + kappa * (ub_diff - lb_diff)))
      let i2hess := Function.update r.2.2 i
        (1 / (s.Q2 0 + kappa * (ub_diff * ub_diff + lb_diff * lb_diff)))
      (phi_X, grad, i2hess))
    0 (2 * s.N) (0, grad, s.i2hess)
  { s with phi_X := r.1 * kappa, grad := r.2.1, i2hess := r.2.2 }

/-- The routine `qp_ip::form_i2hess_grad`; the first loop works on `j` and
`i2hess_grad`, and the second loop reads `grad[j]` with the `j` the first
loop has left. -/
def form_i2hess_grad [Field α] (s : qp_ip α) : qp_ip α :=
  let r := loopUp (fun i (r : Nat × (Nat → α)) =>
      let j := r.1
      let v := Function.update r.2 j (-s.grad j * s.i2hess i)
      let j := j + 1
      let v := Function.update v j (-s.grad j * s.i2Q 1)
      let j := j + 1
      let v := Function.update v j (-s.grad j * s.i2Q 2)
      let j := j + 1
      (j, v))
    0 (s.N * 2) (0, s.i2hess_grad)
  let j := r.1
  { s with
    i2hess_grad := loopUp (fun i v => Function.update v i (-s.grad j * s.i2P))
      (s.N * NUM_STATE_VAR) (s.N * NUM_VAR - s.N * NUM_STATE_VAR) r.2 }

/-- The routine `qp_ip::form_phi_X`; `0.5` is `1 / 2`. -/
def form_phi_X [Field α] (s : qp_ip α) : qp_ip α :=
  let p := loopUp (fun i p => p + 1 / 2 * s.Q2 (i % 3) * s.X i * s.X i)
    0 (s.N * NUM_STATE_VAR) s.phi_X
  let p := loopUp (fun i p => p + 1 / 2 * s.P2 * s.X i * s.X i)
    (s.N * NUM_STATE_VAR) (s.N * NUM_VAR - s.N * NUM_STATE_VAR) p
  let p := loopUp (fun i p => p + s.g i * s.X (i * 3)) 0 (2 * s.N) p
  { s with phi_X := p }

/-- The loop `while (alpha > min_alpha) alpha *= bs_beta` of `init_alpha`;
`none` when the fuel runs out before the loop ends. -/
def init_alpha_while [LinearOrderedField α] (bs_beta min_alpha : α) : Nat → α → Option α
  | 0, alpha => if alpha > min_alpha then none else some alpha
  | fuel + 1, alpha =>
    if alpha > min_alpha then init_alpha_while bs_beta min_alpha fuel (alpha * bs_beta)
    else some alpha

/-- The value of `min_alpha` after the `for` loop of `init_alpha`. -/
def init_alpha_min [LinearOrderedField α] (s : qp_ip α) : α :=
  loopUp (fun i min_alpha =>
      if s.dX (i * 3) < -s.tol then
        let tmp_alpha := (s.lb i - s.X (i * 3)) / s.X (i * 3)
        if tmp_alpha < min_alpha then tmp_alpha else min_alpha
      else if s.dX (i * 3) > s.tol then
        let tmp_alpha := (s.ub i - s.X (i * 3)) / s.X (i * 3)
        if tmp_alpha < min_alpha then tmp_alpha else min_alpha
      else min_alpha)
    0 (2 * s.N) 1

/-- The routine `qp_ip::init_alpha`: `min_alpha` from the `for` loop, then the
`while` loop from `alpha = 1`. -/
def init_alpha [LinearOrderedField α] (fuel : Nat) (s : qp_ip α) (bs_beta : α) :
    Option (qp_ip α) :=
  match init_alpha_while bs_beta (init_alpha_min s) fuel 1 with
  | none => none
  | some alpha => some { s with alpha := alpha }

/-- The routine `qp_ip::form_bs_alpha_grad_dX`. -/
def form_bs_alpha_grad_dX [Field α] (s : qp_ip α) (bs_alpha : α) : α :=
  let res := loopUp (fun i res => res + s.grad i * s.dX i) 0 (s.N * NUM_VAR) 0
  res * bs_alpha

/-- The routine `qp_ip::form_phi_X_tmp`; the first loop works on `j` and
`res`, and `0.5` is `1 / 2`. -/
def form_phi_X_tmp [Field α] (log : α → α) (s : qp_ip α) (kappa : α) : α :=
  let r := loopUp (fun i (r : Nat × α) =>
      let j := r.1
      let res := r.2
      let X_tmp := s.X j + s.alpha * s.dX j
      let j := j + 1
      let res := res - (kappa * log (-s.lb i + X_tmp) + log (s.ub i - X_tmp))
      let res := res + s.g i * X_tmp
      let res := res + 1 / 2 * s.Q2 0 * X_tmp * X_tmp
      let X_tmp := s.X j + s.alpha * s.dX j
      let res := res + 1 / 2 * s.Q2 1 * X_tmp * X_tmp
      let j := j + 1
      let X_tmp := s.X j + s.alpha * s.dX j
      let res := res + 1 / 2 * s.Q2 2 * X_tmp * X_tmp
      let j := j + 1
      (j, res))
    0 (2 * s.N) (0, 0)
  loopUp (fun i res =>
      let X_tmp := s.X i + s.alpha * s.dX i
      res + 1 / 2 * s.P2 * X_tmp * X_tmp)
    (s.N * NUM_STATE_VAR) (s.N * NUM_VAR - s.N * NUM_STATE_VAR) r.2

/-- The statements of one pass of the loop of `solve` up to the test
`alpha < tol`; `chol_solve` stands for `chol.solve (this, i2hess_grad, i2hess,
X, dX)`, which is not part of the sources at hand, and gives the new `dX`. -/
def solve_prepare [LinearOrderedField α] (fuel : Nat) (log : α → α)
    (chol_solve : qp_ip α → Nat → α) (s : qp_ip α) (kappa bs_beta : α) : Option (qp_ip α) :=
  let s := form_grad_hess_logbar log s kappa
  let s := form_phi_X s
  let s := form_i2hess_grad s
  let s := { s with dX := chol_solve s }
  init_alpha fuel s bs_beta

/-- The loop `for (;;)` of `solve`: the backtracking search; `none` when the
fuel runs out before the loop ends. -/
def line_search [LinearOrderedField α] (log : α → α) (kappa bs_beta bs_alpha_grad_dX : α) :
    Nat → qp_ip α → Option (qp_ip α)
  | 0, _ => none
  | fuel + 1, s =>
    let phi_X_tmp := form_phi_X_tmp log s kappa
    if phi_X_tmp ≤ s.phi_X + s.alpha * bs_alpha_grad_dX then some s
    else
      let s := { s with alpha := bs_beta * s.alpha }
      if s.alpha < s.tol then some s
      else line_search log kappa bs_beta bs_alpha_grad_dX fuel s

/-- The loop `for (int j = 0; j < N*NUM_VAR; j++) X[j] += alpha * dX[j]` of
`solve`. -/
def move [Field α] (s : qp_ip α) : qp_ip α :=
  { s with
    X := loopUp (fun j X => Function.update X j (X j + s.alpha * s.dX j)) 0 (s.N * NUM_VAR) s.X }

/-- The statements of one pass of the loop of `solve` after the test
`alpha < tol`: the backtracking search and the move. -/
def solve_finish [LinearOrderedField α] (fuel : Nat) (log : α → α) (s : qp_ip α)
    (kappa bs_alpha bs_beta : α) : Option (qp_ip α) :=
  let bs_alpha_grad_dX := form_bs_alpha_grad_dX s bs_alpha
  match line_search log kappa bs_beta bs_alpha_grad_dX fuel s with
  | none => none
  | some s => some (move s)

/-- The loop `for (i = 0; i < max_iter; i++)` of `solve` with `n` passes to
go: the value of `i` and the object when the loop is left. -/
def solve_loop [LinearOrderedField α] (fuel : Nat) (log : α → α)
    (chol_solve : qp_ip α → Nat → α) (kappa bs_alpha bs_beta : α) :
    Nat → Nat → qp_ip α → Option (Nat × qp_ip α)
  | 0, i, s => some (i, s)
  | n + 1, i, s =>
    match solve_prepare fuel log chol_solve s kappa bs_beta with
    | none => none
    | some s =>
      if s.alpha < s.tol then some (i, s)
      else
        match solve_finish fuel log s kappa bs_alpha bs_beta with
        | none => none
        | some s => solve_loop fuel log chol_solve kappa bs_alpha bs_beta n (i + 1) s

/-- The routine `qp_ip::solve`; `max_iter` is an `int`, each `while` loop and
the search loop has `fuel` passes, and `none` means that one of them ran out
of fuel. -/
def solve [LinearOrderedField α] (fuel : Nat) (log : α → α)
    (chol_solve : qp_ip α → Nat → α) (s : qp_ip α) (t bs_alpha bs_beta : α) (max_iter : Int) :
    Option (Bool × qp_ip α) :=
  let kappa := 1 / t
  match solve_loop fuel log chol_solve kappa bs_alpha bs_beta max_iter.toNat 0 s with
  | none => none
  | some (i, s) => if (i : Int) = max_iter then some (false, s) else some (true, s)

/-- One pass of the loop of `solve` that does not leave the loop: `none` when
the pass leaves the loop (`alpha < tol`) or runs out of fuel. -/
def pass [LinearOrderedField α] (fuel : Nat) (log : α → α)
    (chol_solve : qp_ip α → Nat → α) (kappa bs_alpha bs_beta : α) (s : qp_ip α) :
    Option (qp_ip α) :=
  match solve_prepare fuel log chol_solve s kappa bs_beta with
  | none => none
  | some s => if s.alpha < s.tol then none else solve_finish fuel log s kappa bs_alpha bs_beta

/-- The object after `k` passes of the loop of `solve` none of which leaves
the loop. -/
def passes [LinearOrderedField α] (fuel : Nat) (log : α → α)
    (chol_solve : qp_ip α → Nat → α) (kappa bs_alpha bs_beta : α) :
    Nat → qp_ip α → Option (qp_ip α)
  | 0, s => some s
  | k + 1, s =>
    match pass fuel log chol_solve kappa bs_alpha bs_beta s with
    | none => none
    | some s => passes fuel log chol_solve kappa bs_alpha bs_beta k s

/-- The function `phi` of the interior-point method at the point `Y`:
`1/2 Y' H Y + g' Y_zmp - kappa * sum (log (Y[3i] - lb[i]) + log (ub[i] - Y[3i]))`. -/
def phi [Field α] (log : α → α) (s : qp_ip α) (kappa : α) (Y : Nat → α) : α :=
  ∑ i ∈ Finset.range (6 * s.N), 1 / 2 * s.Q2 (i % 3) * Y i * Y i
    + ∑ i ∈ Finset.range (2 * s.N), 1 / 2 * s.P2 * Y (6 * s.N + i) * Y (6 * s.N + i)
    + ∑ i ∈ Finset.range (2 * s.N), s.g i * Y (3 * i)
    - kappa * ∑ i ∈ Finset.range (2 * s.N), (log (Y (3 * i) - s.lb i) + log (s.ub i - Y (3 * i)))

end qp_ip

/-- Example: an object of `qp_ip` for a window of one interval: unit weights,
the box `-1 < z < 2` on both coordinates, `X = 0`, `dX = 0`, `g = 0`,
`grad[j] = j`, `tol = 1/2` and `alpha = 1`. -/
def ex_ip (α : Type) [Field α] : qp_ip α :=
  { N := 1, tol := 1 / 2, gain_beta := 1, i2Q := fun _ => 1, i2P := 1,
    spar := fun _ => { cos := 1, sin := 0, h := 0 },
    Q2 := fun _ => 1, P2 := 1, lb := fun _ => -1, ub := fun _ => 2,
    g := fun _ => 0, X := fun _ => 0, dX := fun _ => 0,
    grad := fun j => (j : α), i2hess := fun _ => 1, i2hess_grad := fun _ => 0,
    phi_X := 0, alpha := 1 }

/-- Example: the point `X[0] = -1`, `X[3] = 0` inside the box `-2 < z < 2`
and the direction `dX[0] = -10`. -/
def ex_ip_step : qp_ip ℚ :=
  { ex_ip ℚ with
    lb := fun _ => -2
    X := fun j => if j = 0 then -1 else 0
    dX := fun j => if j = 0 then -10 else 0 }

/-- Example: `set_state_parameters` for angles that are all zero: it stores
`cos = 1`, `sin = 0` and `h`. -/
def ex_set_state_parameters (_T h _angle : Nat → ℚ) (s : qp_ip ℚ) : qp_ip ℚ :=
  { s with spar := fun i => { cos := 1, sin := 0, h := h i } }

/-- Example: the point `X = (-4, 1, 0, 0, 0, 0 | 0, 0)` for a window of one
interval, at distance one from each bound of the box `-5 < z_x < -3`,
`-1 < z_y < 1`. -/
def ex_ip_search (α : Type) [Field α] : qp_ip α :=
  { ex_ip α with
    lb := fun i => if i = 0 then -5 else -1
    ub := fun i => if i = 0 then -3 else 1
    X := fun j => if j = 0 then -4 else if j = 1 then 1 else 0 }

/-- Example: directions for `ex_ip_search`: `dX = (0, 1, 0, ...)` while
`X[1] = 1`, and `dX = (-1, 0, ...)` afterwards. -/
def ex_chol_solve (α : Type) [LinearOrderedField α] (s : qp_ip α) (j : Nat) : α :=
  if s.X 1 = 1 then (if j = 1 then 1 else 0) else (if j = 0 then -1 else 0)

/-- Example: `ex_ip_search` in the first pass of `solve` with `t = 1`, when
`init_alpha` has left `alpha = 1`. -/
def ex_ip_pass1 (α : Type) [LinearOrderedField α] (log : α → α) : qp_ip α :=
  { qp_ip.form_i2hess_grad
      (qp_ip.form_phi_X (qp_ip.form_grad_hess_logbar log (ex_ip_search α) 1)) with
    dX := fun j => if j = 1 then 1 else 0
    alpha := 1 }

/-- Example: `ex_ip_search` after the first pass of `solve`, which has ended
with `alpha = 1/4`. -/
def ex_ip_moved (α : Type) [LinearOrderedField α] (log : α → α) : qp_ip α :=
  qp_ip.move { ex_ip_pass1 α log with alpha := 1 / 4 }

/-- Example: `ex_ip_search` in the second pass of `solve`, when `init_alpha`
has left `alpha = 1/4`. -/
def ex_ip_pass2 (α : Type) [LinearOrderedField α] (log : α → α) : qp_ip α :=
  { qp_ip.form_i2hess_grad
      (qp_ip.form_phi_X (qp_ip.form_grad_hess_logbar log (ex_ip_moved α log) 1)) with
    dX := fun j => if j = 0 then -1 else 0
    alpha := 1 / 4 }

/-- Example: a footstep at the origin of the world frame, with the angle 0. -/
def ex_origin (α : Type) [Field α] : footstep α :=
  footstep_new 0 (Translation 0 0 0) ![0, 0, 0] 80 fs_type.FS_TYPE_SS_L (fun _ => 2)

/-- Example: the point `X[0] = 1`, `X[3] = 0` inside the box `-2 < z < 2`
and the direction `dX[0] = -10`. -/
def ex_ip_loop : qp_ip ℚ :=
  { ex_ip ℚ with
    lb := fun _ => -2
    X := fun j => if j = 0 then 1 else 0
    dX := fun j => if j = 0 then -10 else 0 }

/-! ## The storage of `chol_solve_as` and the entries that its routines use -/

/-- A use of the storage of `chol_solve_as`: the pointer `icL[row]`, the entry
`icL[row][col]`, `nu[i]` or `z[i]`. -/
inductive access where
  | icL_row (row : Nat)
  | icL (row col : Nat)
  | nu (i : Nat)
  | z (i : Nat)
  deriving DecidableEq, Repr

/-- The use is inside the storage that the constructor `chol_solve_as (N)`
allocates: `N*2` pointers `icL[i]`, each to `SMPC_NUM_VAR*N` entries of
`icL_mem`, and `SMPC_NUM_VAR*N` entries for `nu` and for `z`. -/
def in_storage (N : Nat) : access → Prop
  | access.icL_row row => row < N * 2
  | access.icL row col => row < N * 2 ∧ col < SMPC_NUM_VAR * N
  | access.nu i => i < SMPC_NUM_VAR * N
  | access.z i => i < SMPC_NUM_VAR * N

/-- The entries of `row = icL[r]` that `form_sa_row (ppar, c, ic_len, row)`
writes, `ind` being `c.ind`: the `memset`, then the stores. -/
def form_sa_row_accesses (N ind ic_len r : Nat) : List access :=
  (List.range ic_len).map (fun j => access.icL r j) ++
  [access.icL r ind, access.icL r (ind + 3)] ++
  (if ((ind / SMPC_NUM_STATE_VAR : Nat) : Int) ≠ (N : Int) - 1 then
    [access.icL r (ind + 6), access.icL r (ind + 9)]
  else []) ++
  [access.icL r ic_len]

/-- The entries used by the body of the loop over `k` in `update`:
`cur_pos[0..2]` with `cur_pos = &new_row[i*6 + 3*k]`, `cur_pos[6..8]` when
`i < N - 1`, `new_row[last_num]`, and for every `j < ic_num` the entry
`new_row_end[j]` and three entries of `icL[j]`. -/
def update_block_accesses (N ic_num last_num i k : Nat) : List access :=
  let p := i * SMPC_NUM_STATE_VAR + 3 * k
  [access.icL ic_num p, access.icL ic_num (p + 1), access.icL ic_num (p + 2)] ++
  (if (i : Int) < (N : Int) - 1 then
    [access.icL ic_num (p + 6), access.icL ic_num (p + 7), access.icL ic_num (p + 8)]
  else []) ++
  [access.icL ic_num last_num] ++
  (List.range ic_num).flatMap (fun j =>
    [access.icL ic_num (N * SMPC_NUM_STATE_VAR + j), access.icL j p, access.icL j (p + 1),
      access.icL j (p + 2)])

/-- The entries used by the body of the second loop of `update`, with
`i = 6N + k`: `new_row[i]`, `icL[k][i]`, `new_row[last_num]`, and for every
`j` from `k + 1` to `ic_num - 1` the entries `new_row_end[j]` and `icL[j][i]`. -/
def update_tail_accesses (N ic_num last_num k : Nat) : List access :=
  let i := SMPC_NUM_STATE_VAR * N + k
  [access.icL ic_num i, access.icL k i, access.icL ic_num last_num] ++
  (List.range' (k + 1) (ic_num - (k + 1))).flatMap (fun j =>
    [access.icL ic_num (N * SMPC_NUM_STATE_VAR + j), access.icL j i])

/-- The entries that `update (ppar, c, ic_num, state_num)` uses, `ind` being
`c.ind`: the pointer `icL[ic_num]`, `form_sa_row`, the loop over the states
from `state_num`, the loop over the rows already in `icL`, the square root. -/
def update_accesses (N ind ic_num state_num : Nat) : List access :=
  let last_num := ic_num + N * SMPC_NUM_STATE_VAR
  [access.icL_row ic_num] ++
  form_sa_row_accesses N ind last_num ic_num ++
  (List.range' state_num (N - state_num)).flatMap (fun i =>
    (List.range 2).flatMap (fun k => update_block_accesses N ic_num last_num i k)) ++
  (List.range ic_num).flatMap (fun k => update_tail_accesses N ic_num last_num k) ++
  [access.icL ic_num last_num]

/-- The entries of `icL`, `nu` and `z` that `update_z (ppar, i2Hg, c, ic_num,
x)` uses, `ind` being `c.ind`. -/
def update_z_accesses (N ind ic_num : Nat) : List access :=
  let zind := N * SMPC_NUM_STATE_VAR + ic_num
  (List.range ind).flatMap (fun i => [access.nu i, access.z i]) ++
  (List.range' ind (zind - ind)).flatMap (fun i =>
    [access.z i, access.icL ic_num i, access.nu i]) ++
  [access.icL ic_num zind, access.z zind, access.nu zind]

/-- The entries of `icL` and `nu` that the loops of `resolve (ppar, iHg,
constraints, nW, W, x, dx)` use: the backward substitution for `i` from
`nW - 1` down to `0`, and `lambda[i] = nu[6N + i]` in the last loop. -/
def resolve_accesses (N nW : Nat) (W : Nat → Nat) : List access :=
  (List.range nW).reverse.flatMap (fun i =>
    let last_el_num := i + N * SMPC_NUM_STATE_VAR
    [access.nu last_el_num, access.icL i last_el_num] ++
    (List.range' (W i / 2 * SMPC_NUM_STATE_VAR)
        (last_el_num - W i / 2 * SMPC_NUM_STATE_VAR)).reverse.flatMap (fun j =>
      [access.nu j, access.nu last_el_num, access.icL i j])) ++
  (List.range nW).map (fun i => access.nu (N * SMPC_NUM_STATE_VAR + i))

/-- The entries that `up_resolve (ppar, iHg, constraints, nW, W, x, dx)` uses
in `update`, `update_z` and `resolve`, `ind` being the offset of the
constraint `constraints[W[nW-1]]`. -/
def up_resolve_accesses (N nW : Nat) (W : Nat → Nat) (ind : Nat) : List access :=
  update_accesses N ind (nW - 1) (W (nW - 1) / 2) ++
  update_z_accesses N ind (nW - 1) ++
  resolve_accesses N nW W

/-- The pointers and entries of `icL` that `downdate (ppar, nW, ind_exclude,
x)` uses: the rotation of the pointers `icL[ind_exclude .. nW]`, then for
every `i` from `ind_exclude` to `nW - 1` the entries `cur_el[0]`, `cur_el[1]`
of `icL[i]` at `el_index = 6N + i` and the same two columns of the rows
below. -/
def downdate_accesses (N nW ind_exclude : Nat) : List access :=
  [access.icL_row ind_exclude] ++
  (List.range' (ind_exclude + 1) (nW + 1 - (ind_exclude + 1))).flatMap (fun i =>
    [access.icL_row i, access.icL_row (i - 1)]) ++
  [access.icL_row nW] ++
  (List.range' ind_exclude (nW - ind_exclude)).flatMap (fun i =>
    let el_index := SMPC_NUM_STATE_VAR * N + i
    [access.icL i el_index, access.icL i (el_index + 1)] ++
    (List.range' (i + 1) (nW - (i + 1))).flatMap (fun j =>
      [access.icL j el_index, access.icL j (el_index + 1)]))

/-- The entries of `icL`, `nu` and `z` that `down_resolve (ppar, iHg,
constraints, nW, W, ind_exclude, x, dx)` uses: the loop for `i` from `nW` down
to `ind_exclude + 1`, the store to `z[6N + ind_exclude]`, `downdate`, the loop
that computes `z` again, the copy of `z` to `nu`, and `resolve`. -/
def down_resolve_accesses (N nW ind_exclude : Nat) (W : Nat → Nat) : List access :=
  (List.range' (ind_exclude + 1) (nW - ind_exclude)).reverse.flatMap (fun i =>
    let zind := N * SMPC_NUM_STATE_VAR + i
    [access.z zind, access.icL i zind] ++
    (List.range' (N * SMPC_NUM_STATE_VAR + ind_exclude)
        (zind - (N * SMPC_NUM_STATE_VAR + ind_exclude))).flatMap (fun j =>
      [access.z j, access.icL i j])) ++
  [access.z (N * SMPC_NUM_STATE_VAR + ind_exclude)] ++
  downdate_accesses N nW ind_exclude ++
  (List.range' ind_exclude (nW - ind_exclude)).flatMap (fun i =>
    let zind := N * SMPC_NUM_STATE_VAR + i
    [access.z zind] ++
    (List.range' (N * SMPC_NUM_STATE_VAR + ind_exclude)
        (zind - (N * SMPC_NUM_STATE_VAR + ind_exclude))).flatMap (fun j =>
      [access.z j, access.icL i j]) ++
    [access.icL i zind]) ++
  (List.range (N * SMPC_NUM_STATE_VAR + nW)).flatMap (fun i => [access.nu i, access.z i]) ++
  resolve_accesses N nW W

/-- Example: a new generator with a window of two intervals of 20 ms after
`AddFootstep (0, 0, 0, FS_TYPE_SS_L)`: one step on the left foot of four
sampling periods. -/
def ex_one_step : WMG ℚ :=
  { (WMG_new 2 20 (fun _ => 0) : WMG ℚ) with
    FS := AddFootstep (fun _ => 1) (fun _ => 0) 20 (ex_members ℚ) [] 0 0 0
      fs_type.FS_TYPE_SS_L }

/-! # Theorems -/

section solver_theorems

variable {α : Type}

/-! ## Loops that rewrite one entry per step -/

/-- A loop that rewrites entry `i` from its own value at step `i`. -/
theorem loopUp_pointwise (f : Nat → α → α) (lo n : Nat) (v : Nat → α) (j : Nat) :
    loopUp (fun i v => Function.update v i (f i (v i))) lo n v j
      = if lo ≤ j ∧ j < lo + n then f j (v j) else v j := by
  induction n with
  | zero =>
    have : ¬ (lo ≤ j ∧ j < lo + 0) := by omega
    rw [if_neg this]; rfl
  | succ n ih =>
    simp only [loopUp, Function.update_apply]
    by_cases hj : j = lo + n
    · subst hj
      rw [ih]
      simp
    · rw [ih]
      simp only [hj, if_false]
      by_cases h1 : lo ≤ j ∧ j < lo + n
      · have : lo ≤ j ∧ j < lo + (n + 1) := ⟨h1.1, by omega⟩
        simp [h1, this]
      · have : ¬ (lo ≤ j ∧ j < lo + (n + 1)) := by
          intro h; apply h1; exact ⟨h.1, by omega⟩
        simp [h1, this]

/-- A loop that rewrites entry `3 i` from its own value at step `i`. -/
theorem loopUp_stride3 (f : Nat → α → α) (n : Nat) (v : Nat → α) (j : Nat) :
    loopUp (fun i v => Function.update v (i * 3) (f i (v (i * 3)))) 0 n v j
      = if j % 3 = 0 ∧ j / 3 < n then f (j / 3) (v j) else v j := by
  induction n with
  | zero => simp [loopUp]
  | succ n ih =>
    simp only [loopUp, Function.update_apply, Nat.zero_add]
    by_cases hj : j = n * 3
    · subst hj
      rw [ih]
      simp
    · rw [ih]
      simp only [hj, if_false]
      by_cases h1 : j % 3 = 0 ∧ j / 3 < n
      · have : j % 3 = 0 ∧ j / 3 < n + 1 := ⟨h1.1, by omega⟩
        simp [h1, this]
      · have : ¬ (j % 3 = 0 ∧ j / 3 < n + 1) := by
          intro h; apply h1; refine ⟨h.1, ?_⟩; omega
        simp [h1, this]

/-! ## form_sa_row -/

/-- C7: for a constraint with offset `ind = 6 s` and a length index
`ic_len > ind + 9`, the row built by `form_sa_row` has `-i2Q[0] * coef_x` at
`ind`, `-i2Q[0] * coef_y` at `ind + 3`, `i2Q[0]` at `ic_len`, and, exactly when
`s` is not the last interval `N - 1`, `i2Q[0] * coef_x` at `ind + 6` and
`i2Q[0] * coef_y` at `ind + 9`; every other entry up to `ic_len` is zero. -/
theorem form_sa_row_entries [Field α] (ppar : problem_parameters α) (c : constraint α)
    (ic_len s : Nat) (row : Nat → α) (hind : c.ind = 6 * s) (hlen : c.ind + 9 < ic_len) :
    form_sa_row ppar c ic_len row c.ind = -ppar.i2Q 0 * c.coef_x ∧
    form_sa_row ppar c ic_len row (c.ind + 3) = -ppar.i2Q 0 * c.coef_y ∧
    form_sa_row ppar c ic_len row ic_len = ppar.i2Q 0 ∧
    ((s : Int) ≠ (ppar.N : Int) - 1 →
      form_sa_row ppar c ic_len row (c.ind + 6) = ppar.i2Q 0 * c.coef_x ∧
      form_sa_row ppar c ic_len row (c.ind + 9) = ppar.i2Q 0 * c.coef_y) ∧
    ((s : Int) = (ppar.N : Int) - 1 →
      form_sa_row ppar c ic_len row (c.ind + 6) = 0 ∧
      form_sa_row ppar c ic_len row (c.ind + 9) = 0) ∧
    ∀ j, j ≤ ic_len → j ≠ c.ind → j ≠ c.ind + 3 → j ≠ ic_len →
      ((s : Int) ≠ (ppar.N : Int) - 1 → j ≠ c.ind + 6 ∧ j ≠ c.ind + 9) →
      form_sa_row ppar c ic_len row j = 0 := by
  have hs : c.ind / SMPC_NUM_STATE_VAR = s := by
    simp only [SMPC_NUM_STATE_VAR]; omega
  have e0 : c.ind ≠ ic_len := by omega
  have e3 : c.ind + 3 ≠ ic_len := by omega
  have e6 : c.ind + 6 ≠ ic_len := by omega
  have e9 : c.ind + 9 ≠ ic_len := by omega
  have l6 : c.ind + 6 < ic_len := by omega
  refine ⟨?_, ?_, ?_, ?_, ?_, ?_⟩
  · by_cases h : (s : Int) = (ppar.N : Int) - 1 <;>
      simp [form_sa_row, hs, h, Function.update_apply, e0]
  · by_cases h : (s : Int) = (ppar.N : Int) - 1 <;>
      simp [form_sa_row, hs, h, Function.update_apply, e3]
  · simp [form_sa_row]
  · intro h
    constructor <;> simp [form_sa_row, hs, h, Function.update_apply, e6, e9]
  · intro h
    constructor <;> simp [form_sa_row, hs, h, Function.update_apply, e6, e9, l6, hlen]
  · intro j hj h1 h2 h3 h4
    have hj2 : j < ic_len := lt_of_le_of_ne hj h3
    by_cases h : (s : Int) = (ppar.N : Int) - 1
    · simp [form_sa_row, hs, h, Function.update_apply, h1, h2, h3, hj2]
    · obtain ⟨h5, h6⟩ := h4 h
      simp [form_sa_row, hs, h, Function.update_apply, h1, h2, h3, h5, h6, hj2]

/-- A concrete instance of C7: `N = 3`, `s = 1`, `ic_len = 20`. -/
theorem form_sa_row_entries_witness :
    form_sa_row (⟨3, fun _ => 2, 1⟩ : problem_parameters ℚ) ⟨6, 3, 5⟩ 20 (fun _ => 7) 6
        = -(2 : ℚ) * 3 ∧
    form_sa_row (⟨3, fun _ => 2, 1⟩ : problem_parameters ℚ) ⟨6, 3, 5⟩ 20 (fun _ => 7) (6 + 3)
        = -(2 : ℚ) * 5 ∧
    form_sa_row (⟨3, fun _ => 2, 1⟩ : problem_parameters ℚ) ⟨6, 3, 5⟩ 20 (fun _ => 7) 20
        = (2 : ℚ) ∧
    (((1 : Nat) : Int) ≠ ((3 : Nat) : Int) - 1 →
      form_sa_row (⟨3, fun _ => 2, 1⟩ : problem_parameters ℚ) ⟨6, 3, 5⟩ 20 (fun _ => 7) (6 + 6)
          = (2 : ℚ) * 3 ∧
      form_sa_row (⟨3, fun _ => 2, 1⟩ : problem_parameters ℚ) ⟨6, 3, 5⟩ 20 (fun _ => 7) (6 + 9)
          = (2 : ℚ) * 5) ∧
    (((1 : Nat) : Int) = ((3 : Nat) : Int) - 1 →
      form_sa_row (⟨3, fun _ => 2, 1⟩ : problem_parameters ℚ) ⟨6, 3, 5⟩ 20 (fun _ => 7) (6 + 6)
          = 0 ∧
      form_sa_row (⟨3, fun _ => 2, 1⟩ : problem_parameters ℚ) ⟨6, 3, 5⟩ 20 (fun _ => 7) (6 + 9)
          = 0) ∧
    ∀ j, j ≤ 20 → j ≠ 6 → j ≠ 6 + 3 → j ≠ 20 →
      (((1 : Nat) : Int) ≠ ((3 : Nat) : Int) - 1 → j ≠ 6 + 6 ∧ j ≠ 6 + 9) →
      form_sa_row (⟨3, fun _ => 2, 1⟩ : problem_parameters ℚ) ⟨6, 3, 5⟩ 20 (fun _ => 7) j = 0 :=
  form_sa_row_entries (⟨3, fun _ => 2, 1⟩ : problem_parameters ℚ) ⟨6, 3, 5⟩ 20 1 (fun _ => 7)
    (by decide) (by decide)

/-! ## Activation followed by deactivation -/

/-- C4: activating one more constraint with `up_resolve` (new row index `nW`)
and then deactivating that same constraint with `down_resolve`
(`ind_exclude = nW`, remaining count `nW`) leaves `ecL`, the rows
`icL[0 .. nW)` and the entries `z[0 .. 6N + nW)` equal to their values before
the activation. -/
theorem up_down_round_trip [LinearOrderedField α] (sqrt : α → α) (ext : externals α)
    (ppar : problem_parameters α) (iHg : Nat → α) (constraints : Nat → constraint α)
    (nW : Nat) (W : Nat → Nat) (x : Nat → α) (S : chol_solve_as α) :
    (down_resolve sqrt ext ppar iHg constraints nW W nW x
        (up_resolve sqrt ext ppar iHg constraints (nW + 1) W x S).1).1.ecL_diag = S.ecL_diag ∧
    (down_resolve sqrt ext ppar iHg constraints nW W nW x
        (up_resolve sqrt ext ppar iHg constraints (nW + 1) W x S).1).1.ecL_ndiag = S.ecL_ndiag ∧
    (∀ i, i < nW →
      (down_resolve sqrt ext ppar iHg constraints nW W nW x
        (up_resolve sqrt ext ppar iHg constraints (nW + 1) W x S).1).1.icL i = S.icL i) ∧
    (∀ j, j < SMPC_NUM_STATE_VAR * ppar.N + nW →
      (down_resolve sqrt ext ppar iHg constraints nW W nW x
        (up_resolve sqrt ext ppar iHg constraints (nW + 1) W x S).1).1.z j = S.z j) := by
  refine ⟨?_, ?_, ?_, ?_⟩
  · simp [down_resolve, up_resolve, resolve, down_resolve_z, downdate, update_z, update]
  · simp [down_resolve, up_resolve, resolve, down_resolve_z, downdate, update_z, update]
  · intro i hi
    have hne : i ≠ nW := Nat.ne_of_lt hi
    simp [down_resolve, up_resolve, resolve, down_resolve_z, downdate, downdate_shuffle,
      update_z, update, loopUp, loopDown, Function.update_apply, hne]
  · intro j hj
    have hne : j ≠ ppar.N * SMPC_NUM_STATE_VAR + nW := by
      simp only [SMPC_NUM_STATE_VAR] at hj ⊢; omega
    simp [down_resolve, up_resolve, resolve, down_resolve_z, downdate, downdate_shuffle,
      update_z, update, loopUp, loopDown, Function.update_apply, hne]

/-! ## KKT stationarity of the step -/

/-- The loop of `resolve` over the multipliers subtracts
`i2Q[0] * (A_W' * lambda)` from `dx`. -/
theorem resolve_lambda_loop [Field α] (q : α) (constraints : Nat → constraint α)
    (W : Nat → Nat) (lambda : Nat → α) (n : Nat) (dx : Nat → α) (j : Nat) :
    loopUp (fun i dx =>
        let first_num := (constraints (W i)).ind
        let dx := Function.update dx first_num
          (dx first_num - q * (constraints (W i)).coef_x * lambda i)
        Function.update dx (first_num + 3)
          (dx (first_num + 3) - q * (constraints (W i)).coef_y * lambda i))
      0 n dx j = dx j - q * kkt_ATlambda constraints n W lambda j := by
  induction n with
  | zero => simp [loopUp, kkt_ATlambda]
  | succ n ih =>
    rw [loopUp]
    generalize loopUp _ 0 n dx = L at ih ⊢
    simp only [kkt_ATlambda] at ih ⊢
    simp only [Finset.sum_range_succ, Function.update_apply, Nat.zero_add]
    have e : ∀ a : Nat, a + 3 ≠ a := by intro a; omega
    by_cases h3 : j = (constraints (W n)).ind + 3
    · have h0 : j ≠ (constraints (W n)).ind := by omega
      simp only [if_pos h3, if_neg h0, if_neg (e _)]
      rw [← h3, ih]
      ring
    · by_cases h0 : j = (constraints (W n)).ind
      · simp only [if_pos h0, if_neg h3]
        rw [← h0, ih]
        ring
      · simp only [if_neg h0, if_neg h3]
        rw [ih]
        ring

/-- Entries of `dx` after the closing loops of `resolve`. -/
theorem resolve_dx_entry [Field α] (ppar : problem_parameters α) (iHg : Nat → α)
    (constraints : Nat → constraint α) (nW : Nat) (W : Nat → Nat) (x nu dx : Nat → α)
    (j : Nat) (hj : j < SMPC_NUM_VAR * ppar.N) :
    resolve_dx ppar iHg constraints nW W x nu dx j
      = -x j - (if j < SMPC_NUM_STATE_VAR * ppar.N then ppar.i2Q (j % 3) else ppar.i2P) * dx j
        - (if j % 3 = 0 ∧ j / 3 < 2 * ppar.N then iHg (j / 3) else 0)
        - ppar.i2Q 0 * kkt_ATlambda constraints nW W
            (fun i => nu (ppar.N * SMPC_NUM_STATE_VAR + i)) j := by
  simp only [SMPC_NUM_VAR, SMPC_NUM_STATE_VAR] at hj ⊢
  unfold resolve_dx
  simp only [SMPC_NUM_VAR, SMPC_NUM_STATE_VAR]
  rw [resolve_lambda_loop,
    loopUp_stride3 (fun i a => a - iHg i),
    loopUp_pointwise (fun i a => -x i - ppar.i2P * a),
    loopUp_pointwise (fun i a => -x i - ppar.i2Q (i % 3) * a)]
  by_cases h6 : j < 6 * ppar.N
  · have a1 : ¬ (ppar.N * 6 ≤ j ∧ j < ppar.N * 6 + (ppar.N * 8 - ppar.N * 6)) := by omega
    have a2 : 0 ≤ j ∧ j < 0 + ppar.N * 6 := by omega
    simp only [a1, a2, h6, if_true, if_false, and_self]
    split_ifs <;> ring
  · have a1 : ppar.N * 6 ≤ j ∧ j < ppar.N * 6 + (ppar.N * 8 - ppar.N * 6) := by omega
    have a2 : ¬ (0 ≤ j ∧ j < 0 + ppar.N * 6) := by omega
    simp only [a1, a2, h6, if_true, if_false, and_self]
    split_ifs <;> ring

/-- The product `A_W' * lambda` vanishes off the ZMP position entries. -/
theorem kkt_ATlambda_off [Field α] (N : Nat) (constraints : Nat → constraint α) (nW : Nat)
    (W : Nat → Nat) (lambda : Nat → α) (j : Nat)
    (hW : ∀ i, i < nW → ∃ s, s < N ∧ (constraints (W i)).ind = 6 * s)
    (hj : ¬ (j % 3 = 0 ∧ j < 6 * N)) :
    kkt_ATlambda constraints nW W lambda j = 0 := by
  unfold kkt_ATlambda
  apply Finset.sum_eq_zero
  intro i hi
  obtain ⟨s, hs, hind⟩ := hW i (Finset.mem_range.mp hi)
  have h1 : j ≠ (constraints (W i)).ind := by omega
  have h2 : j ≠ (constraints (W i)).ind + 3 := by omega
  simp [h1, h2]

/-- Entries of `XiHg` after the two opening loops of `solve`. -/
theorem solve_XiHg_entry [Field α] (N : Nat) (i2Hg x XiHg : Nat → α) (j : Nat)
    (hj : j < SMPC_NUM_VAR * N) :
    loopUp (fun i v => Function.update v (i * 3) (v (i * 3) - i2Hg i)) 0 (2 * N)
        (loopUp (fun i v => Function.update v i (-x i)) 0 (SMPC_NUM_VAR * N) XiHg) j
      = -x j - (if j % 3 = 0 ∧ j / 3 < 2 * N then i2Hg (j / 3) else 0) := by
  rw [loopUp_stride3 (fun i a => a - i2Hg i), loopUp_pointwise (fun i _ => -x i)]
  have a : 0 ≤ j ∧ j < 0 + SMPC_NUM_VAR * N := by omega
  simp only [a, if_true, and_self]
  split_ifs <;> ring

/-- Entries of `dx` after the closing loops of `solve`. -/
theorem solve_dx_entry [Field α] (ppar : problem_parameters α) (XiHg dx : Nat → α) (j : Nat)
    (hj : j < SMPC_NUM_VAR * ppar.N) :
    solve_dx ppar XiHg dx j
      = XiHg j
        - (if j < SMPC_NUM_STATE_VAR * ppar.N then ppar.i2Q (j % 3) else ppar.i2P) * dx j := by
  simp only [SMPC_NUM_VAR, SMPC_NUM_STATE_VAR] at hj ⊢
  unfold solve_dx
  simp only [SMPC_NUM_VAR, SMPC_NUM_STATE_VAR]
  rw [loopUp_pointwise (fun i a => XiHg i - ppar.i2P * a),
    loopUp_pointwise (fun i a => XiHg i - ppar.i2Q (i % 3) * a)]
  by_cases h6 : j < 6 * ppar.N
  · have a1 : ¬ (ppar.N * 6 ≤ j ∧ j < ppar.N * 6 + (ppar.N * 8 - ppar.N * 6)) := by omega
    have a2 : 0 ≤ j ∧ j < 0 + ppar.N * 6 := by omega
    simp only [a1, a2, h6, if_true, if_false, and_self]
  · have a1 : ppar.N * 6 ≤ j ∧ j < ppar.N * 6 + (ppar.N * 8 - ppar.N * 6) := by omega
    have a2 : ¬ (0 ≤ j ∧ j < 0 + ppar.N * 6) := by omega
    simp only [a1, a2, h6, if_true, if_false, and_self]

/-- The algebra behind stationarity at one entry `j < 8N`. -/
theorem kkt_entry [Field α] (ppar : problem_parameters α) (iHg : Nat → α) (j : Nat)
    (xj vj T : α) (hQ : ∀ k, k < 3 → ppar.i2Q k ≠ 0) (hP : ppar.i2P ≠ 0)
    (hT : ¬ (j % 3 = 0 ∧ j < 6 * ppar.N) → T = 0) :
    kkt_H ppar j * (xj + (-xj
        - (if j < SMPC_NUM_STATE_VAR * ppar.N then ppar.i2Q (j % 3) else ppar.i2P) * vj
        - (if j % 3 = 0 ∧ j / 3 < 2 * ppar.N then iHg (j / 3) else 0)
        - ppar.i2Q 0 * T))
      + kkt_g ppar iHg j + vj + T = 0 := by
  unfold kkt_H kkt_g
  simp only [SMPC_NUM_STATE_VAR]
  have hq0 := hQ 0 (by omega)
  by_cases h6 : j < 6 * ppar.N
  · by_cases h3 : j % 3 = 0
    · have a : j % 3 = 0 ∧ j / 3 < 2 * ppar.N := ⟨h3, by omega⟩
      simp only [h6, a, if_true, and_self, h3]
      field_simp
      ring
    · have a : ¬ (j % 3 = 0 ∧ j / 3 < 2 * ppar.N) := fun h => h3 h.1
      have hq := hQ (j % 3) (Nat.mod_lt _ (by omega))
      have hT0 := hT (fun h => h3 h.1)
      subst hT0
      simp only [h6, a, if_true, if_false]
      field_simp
      ring
  · have a : ¬ (j % 3 = 0 ∧ j / 3 < 2 * ppar.N) := by omega
    have hT0 := hT (fun h => h6 h.2)
    subst hT0
    simp only [h6, a, if_false]
    field_simp
    ring

/-- C8: KKT stationarity at the full step. With `H` the diagonal matrix of
`1 / i2Q[i % 3]` (states) and `1 / i2P` (controls), `g` the vector with
`inv(H) * g = iHg`, `v` the vector produced by `E.form_ETx` from `nu` and
`A_W` the rows of the active constraints, the `dx` of `resolve` satisfies
`H * (x + dx) + g + v + A_W' * lambda = 0` with `lambda = nu[6N .. 6N + nW)`,
and the `dx` of `solve` satisfies `H * (x + dx) + g + v = 0`. The weights are
non-zero, every active constraint has offset `6 s` with `s < N`, and the
diagonal entries `icL[i][6N+i]`, `i < nW`, that `resolve` divides by are not
zero. -/
theorem kkt_stationarity [Field α] (ext : externals α) (ppar : problem_parameters α)
    (iHg : Nat → α) (constraints : Nat → constraint α) (nW : Nat) (W : Nat → Nat)
    (x : Nat → α) (S : chol_solve_as α)
    (hQ : ∀ k, k < 3 → ppar.i2Q k ≠ 0) (hP : ppar.i2P ≠ 0)
    (hW : ∀ i, i < nW → ∃ s, s < ppar.N ∧ (constraints (W i)).ind = 6 * s)
    (hD : ∀ i, i < nW → S.icL i (i + ppar.N * SMPC_NUM_STATE_VAR) ≠ 0) :
    (∀ j, j < SMPC_NUM_VAR * ppar.N →
      kkt_H ppar j * (x j + (resolve ext ppar iHg constraints nW W x S).2 j)
        + kkt_g ppar iHg j
        + E_form_ETx ext ppar (resolve ext ppar iHg constraints nW W x S).1.nu j
        + kkt_ATlambda constraints nW W
            (fun i => (resolve ext ppar iHg constraints nW W x S).1.nu
              (SMPC_NUM_STATE_VAR * ppar.N + i)) j = 0) ∧
    (∀ j, j < SMPC_NUM_VAR * ppar.N →
      kkt_H ppar j * (x j + (solve ext ppar iHg x S).2 j)
        + kkt_g ppar iHg j
        + E_form_ETx ext ppar (solve ext ppar iHg x S).1.nu j = 0) := by
  have _hD := hD
  constructor
  · intro j hj
    have hc : (fun i => (resolve ext ppar iHg constraints nW W x S).1.nu
          (SMPC_NUM_STATE_VAR * ppar.N + i))
        = (fun i => (resolve ext ppar iHg constraints nW W x S).1.nu
          (ppar.N * SMPC_NUM_STATE_VAR + i)) := by
      funext i; rw [Nat.mul_comm]
    rw [hc]
    simp only [resolve]
    rw [resolve_dx_entry ppar iHg constraints nW W x _ _ j hj]
    exact kkt_entry ppar iHg j (x j) _ _ hQ hP
      (kkt_ATlambda_off ppar.N constraints nW W _ j hW)
  · intro j hj
    simp only [solve]
    rw [solve_dx_entry ppar _ _ j hj, solve_XiHg_entry ppar.N iHg x _ j hj]
    generalize E_form_ETx ext ppar _ j = V
    have h := kkt_entry ppar iHg j (x j) V 0 hQ hP (fun _ => rfl)
    linear_combination h

/-- A concrete instance of C8: two intervals, unit weights, the three active
constraints of `ex3_constraints` with their factor `ex3_icL` (diagonal entries
`1/3`, `1/3`, `2/3`) and every entry of `nu` equal to one before the call. -/
theorem kkt_stationarity_witness :
    (∀ k, k < 3 → (ex3_ppar ℚ).i2Q k ≠ 0) ∧ (ex3_ppar ℚ).i2P ≠ 0 ∧
    (∀ i, i < 3 → ∃ s, s < (ex3_ppar ℚ).N ∧ (ex3_constraints ℚ ((fun i => i) i)).ind = 6 * s) ∧
    (∀ i, i < 3 → (ex3_S ℚ).icL i (i + (ex3_ppar ℚ).N * SMPC_NUM_STATE_VAR) ≠ 0) ∧
    (∀ j, j < SMPC_NUM_VAR * (ex3_ppar ℚ).N →
      kkt_H (ex3_ppar ℚ) j * ((fun _ => 1) j
          + (resolve (ex3_ext ℚ) (ex3_ppar ℚ) (fun _ => 1) (ex3_constraints ℚ) 3 (fun i => i)
              (fun _ => 1) (ex3_S ℚ)).2 j)
        + kkt_g (ex3_ppar ℚ) (fun _ => 1) j
        + E_form_ETx (ex3_ext ℚ) (ex3_ppar ℚ)
            (resolve (ex3_ext ℚ) (ex3_ppar ℚ) (fun _ => 1) (ex3_constraints ℚ) 3 (fun i => i)
              (fun _ => 1) (ex3_S ℚ)).1.nu j
        + kkt_ATlambda (ex3_constraints ℚ) 3 (fun i => i)
            (fun i => (resolve (ex3_ext ℚ) (ex3_ppar ℚ) (fun _ => 1) (ex3_constraints ℚ) 3
              (fun i => i) (fun _ => 1) (ex3_S ℚ)).1.nu
                (SMPC_NUM_STATE_VAR * (ex3_ppar ℚ).N + i)) j = 0) ∧
    (∀ j, j < SMPC_NUM_VAR * (ex3_ppar ℚ).N →
      kkt_H (ex3_ppar ℚ) j * ((fun _ => 1) j
          + (solve (ex3_ext ℚ) (ex3_ppar ℚ) (fun _ => 1) (fun _ => 1) (ex3_S ℚ)).2 j)
        + kkt_g (ex3_ppar ℚ) (fun _ => 1) j
        + E_form_ETx (ex3_ext ℚ) (ex3_ppar ℚ)
            (solve (ex3_ext ℚ) (ex3_ppar ℚ) (fun _ => 1) (fun _ => 1) (ex3_S ℚ)).1.nu j = 0) :=
  have hQ : ∀ k, k < 3 → (ex3_ppar ℚ).i2Q k ≠ 0 := fun _ _ => one_ne_zero
  have hP : (ex3_ppar ℚ).i2P ≠ 0 := one_ne_zero
  have hW : ∀ i, i < 3 →
      ∃ s, s < (ex3_ppar ℚ).N ∧ (ex3_constraints ℚ ((fun i => i) i)).ind = 6 * s := by
    intro i hi
    interval_cases i
    · exact ⟨0, by decide, rfl⟩
    · exact ⟨0, by decide, rfl⟩
    · exact ⟨1, by decide, rfl⟩
  have hD : ∀ i, i < 3 → (ex3_S ℚ).icL i (i + (ex3_ppar ℚ).N * SMPC_NUM_STATE_VAR) ≠ 0 := by
    intro i hi
    interval_cases i <;> simp [ex3_S, ex3_icL, ex3_ppar, SMPC_NUM_STATE_VAR]
  ⟨hQ, hP, hW, hD,
    kkt_stationarity (ex3_ext ℚ) (ex3_ppar ℚ) (fun _ => 1) (ex3_constraints ℚ) 3 (fun i => i)
      (fun _ => 1) (ex3_S ℚ) hQ hP hW hD⟩

/-! ## The diagonal of a new row -/

/-- C6, what the code does: `update` stores the square root of the value
accumulated in the last entry of the new row as the diagonal entry of
`icL[ic_num]`, whatever the sign of that value, and `up_resolve` goes on with
`update_z` and `resolve`; there is no check and no error status. -/
theorem update_stores_sqrt [Field α] (sqrt : α → α) (ext : externals α)
    (ppar : problem_parameters α) (iHg : Nat → α) (constraints : Nat → constraint α)
    (nW : Nat) (W : Nat → Nat) (x : Nat → α) (S : chol_solve_as α) :
    (update sqrt ppar (constraints (W (nW - 1))) (nW - 1) (W (nW - 1) / 2) S).icL (nW - 1)
        (nW - 1 + ppar.N * SMPC_NUM_STATE_VAR)
      = sqrt (update_row ppar (constraints (W (nW - 1))) (nW - 1) (W (nW - 1) / 2) S
          (nW - 1 + ppar.N * SMPC_NUM_STATE_VAR)) ∧
    up_resolve sqrt ext ppar iHg constraints nW W x S
      = resolve ext ppar iHg constraints nW W x
          (update_z ppar iHg (constraints (W (nW - 1))) (nW - 1) x
            (update sqrt ppar (constraints (W (nW - 1))) (nW - 1) (W (nW - 1) / 2) S)) := by
  constructor
  · simp [update]
  · rfl

/-- C6 fails as stated: with `N = 1`, `ecL_diag[0] = diag (1/2, 1, 1)` and the
constraint `(ind, coef_x, coef_y) = (0, 1, 0)` the value under the square root
is `-3`, and yet `update` stores `sqrt (-3)` in `icL[0][6]`, `update_z` divides
by it and `resolve` returns a step computed from it. -/
theorem update_negative_radicand_absorbed :
    update_row ex_ppar1 ex_c0 0 0 ex_S1 6 = -3 ∧
    (update Rat.sqrt ex_ppar1 ex_c0 0 0 ex_S1).icL 0 6 = Rat.sqrt (-3) ∧
    (up_resolve Rat.sqrt ex_ext ex_ppar1 (fun _ => 0) (fun _ => ex_c0) 1 (fun _ => 0)
        (fun _ => 1) ex_S1).1.z 6 = -1 / Rat.sqrt (-3) ∧
    (up_resolve Rat.sqrt ex_ext ex_ppar1 (fun _ => 0) (fun _ => ex_c0) 1 (fun _ => 0)
        (fun _ => 1) ex_S1).2 0
      = -1 - (0 - -1 / Rat.sqrt (-3) / Rat.sqrt (-3) * -2)
        - 0 - -1 / Rat.sqrt (-3) / Rat.sqrt (-3) := by
  have hrow : update_row ex_ppar1 ex_c0 0 0 ex_S1 6 = -3 := by
    simp [update_row, form_sa_row, update_block, update_block_solve, update_block_couple,
      loopUp, ex_ppar1, ex_c0, ex_S1,
      SMPC_NUM_STATE_VAR, Function.update_apply]
    norm_num
  have hrow0 : update_row ex_ppar1 ex_c0 0 0 ex_S1 0 = -2 := by
    simp [update_row, form_sa_row, update_block, update_block_solve, update_block_couple,
      loopUp, ex_ppar1, ex_c0, ex_S1,
      SMPC_NUM_STATE_VAR, Function.update_apply]
  have hN : ex_ppar1.N = 1 := rfl
  have hQ : ∀ k, ex_ppar1.i2Q k = 1 := fun _ => rfl
  have hP : ex_ppar1.i2P = 1 := rfl
  have hci : ex_c0.ind = 0 := rfl
  have hcx : ex_c0.coef_x = 1 := rfl
  have hcy : ex_c0.coef_y = 0 := rfl
  have hicL : (update Rat.sqrt ex_ppar1 ex_c0 0 0 ex_S1).icL 0 6 = Rat.sqrt (-3) := by
    simp only [update, Function.update_same, hN, SMPC_NUM_STATE_VAR]
    rw [show 0 + 1 * 6 = 6 from rfl, hrow]
  have hicL0 : ∀ j, 0 < j → j < 6 → (update Rat.sqrt ex_ppar1 ex_c0 0 0 ex_S1).icL 0 j = 0 := by
    intro j h0 h6
    have : j ≠ 6 := by omega
    interval_cases j <;>
      simp [update, update_row, form_sa_row, update_block, update_block_solve,
        update_block_couple, loopUp, ex_ppar1, ex_c0, ex_S1,
        SMPC_NUM_STATE_VAR, Function.update_apply]
  have hicL00 : (update Rat.sqrt ex_ppar1 ex_c0 0 0 ex_S1).icL 0 0 = -2 := by
    simp only [update, Function.update_same, hN, SMPC_NUM_STATE_VAR]
    rw [show 0 + 1 * 6 = 6 from rfl, Function.update_noteq (by decide), hrow0]
  have hz : ∀ j, (update Rat.sqrt ex_ppar1 ex_c0 0 0 ex_S1).z j = 0 := by
    intro j; simp [update, ex_S1]
  have hnu : ∀ j, (update Rat.sqrt ex_ppar1 ex_c0 0 0 ex_S1).nu j = 0 := by
    intro j; simp [update, ex_S1]
  refine ⟨hrow, hicL, ?_, ?_⟩
  · simp [up_resolve, resolve, update_z, loopUp, hN, hci, hcx, hcy, SMPC_NUM_STATE_VAR,
      Function.update_apply, hz, hicL]
  · simp [up_resolve, resolve, resolve_dx, resolve_back_row, update_z, loopUp, loopDown,
      E_form_ETx, ecL_solve_backward, firstN, ex_ext, hN, hQ, hP, hci, hcx, hcy,
      SMPC_NUM_STATE_VAR, SMPC_NUM_VAR, Function.update_apply, hz, hnu, hicL, hicL00]

/-! ## downdate -/

theorem set2_set2_row (M : Nat → Nat → α) (j a b : Nat) (v w : α) :
    set2 (set2 M j a v) j b w
      = Function.update M j (Function.update (Function.update (M j) a v) b w) := by
  simp [set2]

theorem set2_row (M : Nat → Nat → α) (j a : Nat) (v : α) :
    set2 M j a v = Function.update M j (Function.update (M j) a v) := rfl

/-- Rows after the pointer rotation at the head of `downdate`. -/
theorem downdate_shuffle_row (nW ind_exclude : Nat) (hle : ind_exclude ≤ nW)
    (M : Nat → Nat → α) (r : Nat) :
    downdate_shuffle nW ind_exclude M r
      = if r = nW then M ind_exclude
        else if ind_exclude ≤ r ∧ r < nW then M (r + 1) else M r := by
  have key : ∀ n r, loopUp (fun i (icL : Nat → Nat → α) => Function.update icL (i - 1) (icL i))
      (ind_exclude + 1) n M r
        = if ind_exclude ≤ r ∧ r < ind_exclude + n then M (r + 1) else M r := by
    intro n
    induction n with
    | zero =>
      intro r
      have : ¬ (ind_exclude ≤ r ∧ r < ind_exclude + 0) := by omega
      rw [if_neg this]; rfl
    | succ n ih =>
      intro r
      rw [loopUp]
      simp only [Function.update_apply]
      have e1 : ind_exclude + 1 + n - 1 = ind_exclude + n := by omega
      rw [e1, ih, ih]
      have a1 : ¬ (ind_exclude ≤ ind_exclude + 1 + n ∧ ind_exclude + 1 + n < ind_exclude + n) := by
        omega
      rw [if_neg a1]
      by_cases hr : r = ind_exclude + n
      · subst hr
        have a2 : ind_exclude ≤ ind_exclude + n ∧ ind_exclude + n < ind_exclude + (n + 1) := by
          omega
        rw [if_pos rfl, if_pos a2]
        rw [show ind_exclude + 1 + n = ind_exclude + n + 1 by omega]
      · rw [if_neg hr]
        by_cases h1 : ind_exclude ≤ r ∧ r < ind_exclude + n
        · have a2 : ind_exclude ≤ r ∧ r < ind_exclude + (n + 1) := by omega
          rw [if_pos h1, if_pos a2]
        · have a2 : ¬ (ind_exclude ≤ r ∧ r < ind_exclude + (n + 1)) := by omega
          rw [if_neg h1, if_neg a2]
  unfold downdate_shuffle
  simp only [Function.update_apply]
  by_cases hr : r = nW
  · rw [if_pos hr, if_pos hr]
  · rw [if_neg hr, if_neg hr, key]
    have e : ind_exclude + (nW + 1 - (ind_exclude + 1)) = nW := by omega
    rw [e]

/-- The rotation chosen by `downdate` is orthogonal and annihilates the second
entry of the pair, when the pair is not zero. -/
theorem givens_spec [LinearOrderedField α] (sqrt : α → α) (hs : IsSqrt sqrt) (x1 x2 : α)
    (hnz : x1 ≠ 0 ∨ x2 ≠ 0) :
    (givens sqrt x1 x2).1 * (givens sqrt x1 x2).1
        + (givens sqrt x1 x2).2 * (givens sqrt x1 x2).2 = 1 ∧
      -(givens sqrt x1 x2).2 * x1 + (givens sqrt x1 x2).1 * x2 = 0 := by
  have hroot : ∀ t : α, sqrt (1 + t * t) ≠ 0 ∧ sqrt (1 + t * t) * sqrt (1 + t * t) = 1 + t * t := by
    intro t
    have hpos : 0 < 1 + t * t := by
      have := mul_self_nonneg t
      linarith
    obtain ⟨h1, h2⟩ := hs (1 + t * t) (le_of_lt hpos)
    refine ⟨?_, h2⟩
    intro h0
    rw [h0] at h2
    simp at h2
    linarith
  have halg : ∀ (t r a b : α), r ≠ 0 → r * r = 1 + t * t → t * b = a →
      (1 / r * t) * (1 / r * t) + (1 / r) * (1 / r) = 1 ∧ -(1 / r) * a + (1 / r * t) * b = 0 := by
    intro t r a b hr0 hr hab
    constructor
    · field_simp
      linear_combination -hr
    · rw [← hab]
      ring
  unfold givens
  by_cases hb : |x2| ≥ |x1|
  · have hx2 : x2 ≠ 0 := by
      intro h0
      rw [h0, abs_zero] at hb
      have : x1 = 0 := abs_eq_zero.mp (le_antisymm hb (abs_nonneg x1))
      rcases hnz with h | h
      · exact h this
      · exact h h0
    obtain ⟨hr0, hr⟩ := hroot (x1 / x2)
    simp only [if_pos hb]
    exact halg (x1 / x2) _ x1 x2 hr0 hr (by field_simp)
  · have hx1 : x1 ≠ 0 := by
      intro h0
      apply hb
      rw [h0, abs_zero]
      exact abs_nonneg x2
    obtain ⟨hr0, hr⟩ := hroot (x2 / x1)
    simp only [if_neg hb]
    have h := halg (x2 / x1) _ x2 x1 hr0 hr (by field_simp)
    constructor
    · linear_combination h.1
    · linear_combination -h.2

/-- Rows after one pass of the main loop of `downdate`: row `i` gets
`|cosT * x1 + sinT * x2|` and `0`, the rows below it are rotated, the other
rows are left. -/
theorem downdate_rotate_row [LinearOrderedField α] (sqrt : α → α) (N nW i : Nat)
    (M : Nat → Nat → α) (r : Nat) :
    downdate_rotate sqrt N nW i M r
      = if i < r ∧ r < nW then
          rot_apply (copysign 1 (rot_pivot sqrt N i M)) (rot_cos sqrt N i M)
            (rot_sin sqrt N i M) (6 * N + i) (M r)
        else if r = i then
          Function.update (Function.update (M i) (6 * N + i) |rot_pivot sqrt N i M|)
            (6 * N + i + 1) 0
        else M r := by
  unfold downdate_rotate
  simp only [SMPC_NUM_STATE_VAR, set2_set2_row]
  rw [loopUp_pointwise (fun j (row : Nat → α) =>
    Function.update
      (Function.update row (6 * N + i) (_ * (_ * row (6 * N + i) + _ * row (6 * N + i + 1))))
      (6 * N + i + 1) (-_ * row (6 * N + i) + _ * row (6 * N + i + 1)))]
  by_cases h1 : i < r ∧ r < nW
  · have h1' : i + 1 ≤ r ∧ r < i + 1 + (nW - (i + 1)) := by omega
    have hne : r ≠ i := by omega
    simp only [h1, h1', if_true, and_self, set2, Function.update_apply, hne, if_false]
    funext c
    simp only [rot_apply, rot_pivot, rot_cos, rot_sin, Function.update_apply]
    have e : 6 * N + i + 1 ≠ 6 * N + i := by omega
    by_cases hc1 : c = 6 * N + i + 1
    · simp [hc1]
    · by_cases hc0 : c = 6 * N + i
      · simp [hc0]
      · simp [hc1, hc0]
  · have h1' : ¬ (i + 1 ≤ r ∧ r < i + 1 + (nW - (i + 1))) := by omega
    simp only [h1, h1', if_false]
    by_cases h2 : r = i
    · subst h2
      simp only [if_true, set2, Function.update_same]
      funext c
      simp only [rot_pivot, rot_cos, rot_sin, Function.update_apply]
      have e : 6 * N + r + 1 ≠ 6 * N + r := by omega
      by_cases hc1 : c = 6 * N + r + 1
      · simp [hc1]
      · by_cases hc0 : c = 6 * N + r
        · simp [hc0]
        · simp [hc1, hc0]
    · simp [h2, set2, Function.update_apply]

/-- Splitting a loop in two. -/
theorem loopUp_add {σ : Type} (body : Nat → σ → σ) (lo a b : Nat) (s : σ) :
    loopUp body lo (a + b) s = loopUp body (lo + a) b (loopUp body lo a s) := by
  induction b with
  | zero => rfl
  | succ b ih =>
    rw [← Nat.add_assoc, loopUp, loopUp, ih, Nat.add_assoc]

/-- The passes `lo, lo+1, ...` of `downdate` leave the rows before `lo` and
the rows from `nW` on. -/
theorem downdate_loop_row_out [LinearOrderedField α] (sqrt : α → α) (N nW lo : Nat)
    (n : Nat) (M : Nat → Nat → α) (r : Nat) (hn : lo + n ≤ nW) (hr : r < lo ∨ nW ≤ r) :
    loopUp (fun i icL => downdate_rotate sqrt N nW i icL) lo n M r = M r := by
  induction n with
  | zero => rfl
  | succ n ih =>
    rw [loopUp, downdate_rotate_row]
    have h1 : ¬ (lo + n < r ∧ r < nW) := by omega
    have h2 : r ≠ lo + n := by omega
    rw [if_neg h1, if_neg h2, ih (by omega)]

/-- The factor `copysign (1, v)` turns `v` into its absolute value and has
square one. -/
theorem copysign_one [LinearOrderedField α] (v : α) :
    copysign 1 v * v = |v| ∧ copysign 1 v * copysign 1 v = 1 := by
  unfold copysign
  by_cases h : v < 0
  · rw [if_pos h, abs_one, abs_of_neg h]
    constructor <;> ring
  · rw [if_neg h, abs_one, abs_of_nonneg (not_lt.mp h)]
    constructor <;> ring

/-- A rotation of two columns and a change of sign keep the inner product of
two rows. -/
theorem rot_apply_inner [Field α] (sgn cs sn : α) (e M : Nat) (f g : Nat → α)
    (hM : e + 1 < M) (hcs : cs * cs + sn * sn = 1) (hsg : sgn * sgn = 1) :
    ∑ c ∈ Finset.range M, rot_apply sgn cs sn e f c * rot_apply sgn cs sn e g c
      = ∑ c ∈ Finset.range M, f c * g c := by
  have he : e ∈ Finset.range M := Finset.mem_range.mpr (by omega)
  have he1 : e + 1 ∈ (Finset.range M).erase e :=
    Finset.mem_erase.mpr ⟨by omega, Finset.mem_range.mpr hM⟩
  rw [← Finset.add_sum_erase _ _ he, ← Finset.add_sum_erase _ _ he1,
    ← Finset.add_sum_erase (Finset.range M) (fun c => f c * g c) he,
    ← Finset.add_sum_erase ((Finset.range M).erase e) (fun c => f c * g c) he1]
  have hrest : ∑ c ∈ ((Finset.range M).erase e).erase (e + 1),
        rot_apply sgn cs sn e f c * rot_apply sgn cs sn e g c
      = ∑ c ∈ ((Finset.range M).erase e).erase (e + 1), f c * g c := by
    apply Finset.sum_congr rfl
    intro c hc
    have hc1 : c ≠ e + 1 := (Finset.mem_erase.mp hc).1
    have hc0 : c ≠ e := (Finset.mem_erase.mp (Finset.mem_erase.mp hc).2).1
    simp only [rot_apply, hc0, hc1, if_false]
  rw [hrest]
  have e1 : e + 1 ≠ e := by omega
  simp only [rot_apply, if_true, e1, if_false]
  linear_combination
    ((cs * f e + sn * f (e + 1)) * (cs * g e + sn * g (e + 1))) * hsg
      + (f e * g e + f (e + 1) * g (e + 1)) * hcs

/-- One more pass of `downdate`. -/
theorem downdate_passes_succ [LinearOrderedField α] (sqrt : α → α) (N nW ind_exclude k : Nat)
    (icL : Nat → Nat → α) :
    downdate_passes sqrt N nW ind_exclude (k + 1) icL
      = downdate_rotate sqrt N nW (ind_exclude + k)
          (downdate_passes sqrt N nW ind_exclude k icL) := rfl

/-- Invariant of the main loop of `downdate` after `k` passes: the entries
outside the rotated columns are those of the old rows, the processed rows have
a zero after their diagonal, and the inner products of the rows (cut after
column `6N + r + 1`) are those before the passes. -/
theorem downdate_passes_inv [LinearOrderedField α] (sqrt : α → α) (hs : IsSqrt sqrt)
    (N nW ind_exclude : Nat) (hle : ind_exclude ≤ nW) (icL : Nat → Nat → α)
    (hdiag : ∀ r, ind_exclude < r → r ≤ nW → icL r (6 * N + r) ≠ 0) :
    ∀ k, ind_exclude + k ≤ nW →
      (∀ r c, ind_exclude ≤ r → r < nW →
        (c < 6 * N + ind_exclude ∨ 6 * N + ind_exclude + k < c
          ∨ (r < ind_exclude + k ∧ 6 * N + r + 1 < c)) →
        downdate_passes sqrt N nW ind_exclude k icL r c = icL (r + 1) c) ∧
      (∀ r, ind_exclude ≤ r → r < ind_exclude + k →
        downdate_passes sqrt N nW ind_exclude k icL r (6 * N + r + 1) = 0) ∧
      (∀ p q, ind_exclude ≤ p → p < nW → ind_exclude ≤ q → q < nW →
        ∑ c ∈ Finset.range (6 * N + nW + 1),
            rowT1 N (downdate_passes sqrt N nW ind_exclude k icL) p c
              * rowT1 N (downdate_passes sqrt N nW ind_exclude k icL) q c
          = ∑ c ∈ Finset.range (6 * N + nW + 1),
            rowT1 N (downdate_shuffle nW ind_exclude icL) p c
              * rowT1 N (downdate_shuffle nW ind_exclude icL) q c) := by
  intro k
  induction k with
  | zero =>
    intro _
    refine ⟨?_, ?_, ?_⟩
    · intro r c h1 h2 _
      have hne : r ≠ nW := by omega
      simp only [downdate_passes, loopUp, downdate_shuffle_row nW ind_exclude hle, hne, if_false]
      rw [if_pos ⟨h1, h2⟩]
    · intro r h1 h2
      omega
    · intro p q _ _ _ _
      rfl
  | succ k ih =>
    intro hk
    obtain ⟨ih2, ih3, ih4⟩ := ih (by omega)
    -- the pass `i` and the state `A` before it
    generalize hA : downdate_passes sqrt N nW ind_exclude k icL = A at ih2 ih3 ih4
    have hi : ind_exclude + k < nW := by omega
    have hx2 : A (ind_exclude + k) (6 * N + (ind_exclude + k) + 1) ≠ 0 := by
      rw [ih2 _ _ (by omega) hi (Or.inr (Or.inl (by omega)))]
      exact hdiag _ (by omega) (by omega)
    obtain ⟨hcs, hzero⟩ := givens_spec sqrt hs (A (ind_exclude + k) (6 * N + (ind_exclude + k)))
      (A (ind_exclude + k) (6 * N + (ind_exclude + k) + 1)) (Or.inr hx2)
    obtain ⟨hsg1, hsg2⟩ := copysign_one (rot_pivot sqrt N (ind_exclude + k) A)
    rw [downdate_passes_succ, hA]
    refine ⟨?_, ?_, ?_⟩
    · intro r c h1 h2 hc
      rw [downdate_rotate_row]
      by_cases hr : ind_exclude + k < r ∧ r < nW
      · have hc0 : c ≠ 6 * N + (ind_exclude + k) := by omega
        have hc1 : c ≠ 6 * N + (ind_exclude + k) + 1 := by omega
        rw [if_pos hr]
        simp only [rot_apply, hc0, hc1, if_false]
        exact ih2 r c h1 h2 (by omega)
      · rw [if_neg hr]
        by_cases hri : r = ind_exclude + k
        · have hc0 : c ≠ 6 * N + (ind_exclude + k) := by omega
          have hc1 : c ≠ 6 * N + (ind_exclude + k) + 1 := by omega
          rw [if_pos hri, Function.update_noteq hc1, Function.update_noteq hc0, ← hri]
          exact ih2 r c h1 h2 (by omega)
        · rw [if_neg hri]
          exact ih2 r c h1 h2 (by omega)
    · intro r h1 h2
      rw [downdate_rotate_row]
      have hr : ¬ (ind_exclude + k < r ∧ r < nW) := by omega
      rw [if_neg hr]
      by_cases hri : r = ind_exclude + k
      · rw [if_pos hri, hri, Function.update_same]
      · rw [if_neg hri]
        exact ih3 r h1 (by omega)
    · intro p q hp1 hp2 hq1 hq2
      rw [← ih4 p q hp1 hp2 hq1 hq2]
      have view : ∀ r, ind_exclude ≤ r → r < nW →
          rowT1 N (downdate_rotate sqrt N nW (ind_exclude + k) A) r
            = rot_apply (copysign 1 (rot_pivot sqrt N (ind_exclude + k) A))
                (rot_cos sqrt N (ind_exclude + k) A) (rot_sin sqrt N (ind_exclude + k) A)
                (6 * N + (ind_exclude + k)) (rowT1 N A r) := by
        intro r hr1 hr2
        funext c
        rw [rowT1, downdate_rotate_row]
        by_cases hr : ind_exclude + k < r ∧ r < nW
        · rw [if_pos hr]
          have t0 : 6 * N + (ind_exclude + k) ≤ 6 * N + r + 1 := by omega
          have t1 : 6 * N + (ind_exclude + k) + 1 ≤ 6 * N + r + 1 := by omega
          simp only [rot_apply, rowT1, t0, t1, if_true]
          by_cases hc0 : c = 6 * N + (ind_exclude + k)
          · subst hc0
            simp [t0]
          · by_cases hc1 : c = 6 * N + (ind_exclude + k) + 1
            · subst hc1
              simp [t1]
            · simp only [hc0, hc1, if_false]
        · rw [if_neg hr]
          by_cases hri : r = ind_exclude + k
          · subst hri
            rw [if_pos rfl]
            simp only [rot_apply, rowT1, Function.update_apply]
            have t0 : 6 * N + (ind_exclude + k) ≤ 6 * N + (ind_exclude + k) + 1 := by omega
            by_cases hc0 : c = 6 * N + (ind_exclude + k)
            · subst hc0
              have e : 6 * N + (ind_exclude + k) ≠ 6 * N + (ind_exclude + k) + 1 := by omega
              simp only [t0, le_refl, if_true, e, if_false]
              rw [← hsg1]
              rfl
            · by_cases hc1 : c = 6 * N + (ind_exclude + k) + 1
              · subst hc1
                simp only [le_refl, if_true, t0]
                have e : 6 * N + (ind_exclude + k) + 1 ≠ 6 * N + (ind_exclude + k) := by omega
                simp only [e, if_false]
                exact hzero.symm
              · simp only [hc0, hc1, if_false]
          · rw [if_neg hri]
            have hlt : r < ind_exclude + k := by omega
            have z0 : rowT1 N A r (6 * N + (ind_exclude + k)) = 0 := by
              unfold rowT1
              by_cases hle' : 6 * N + (ind_exclude + k) ≤ 6 * N + r + 1
              · rw [if_pos hle']
                have : 6 * N + (ind_exclude + k) = 6 * N + r + 1 := by omega
                rw [this]
                exact ih3 r hr1 hlt
              · rw [if_neg hle']
            have z1 : rowT1 N A r (6 * N + (ind_exclude + k) + 1) = 0 := by
              unfold rowT1
              rw [if_neg (by omega)]
            simp only [rot_apply, z0, z1, mul_zero, add_zero]
            by_cases hc0 : c = 6 * N + (ind_exclude + k)
            · subst hc0
              simpa [rowT1] using z0
            · by_cases hc1 : c = 6 * N + (ind_exclude + k) + 1
              · subst hc1
                simpa [rowT1] using z1
              · simp only [hc0, hc1, if_false, rowT1]
      rw [view p hp1 hp2, view q hq1 hq2]
      exact rot_apply_inner _ _ _ _ _ _ _ (by omega) hcs hsg2

/-- The rows of `icL` after `downdate` are the rows after all the passes. -/
theorem downdate_icL [LinearOrderedField α] (sqrt : α → α) (ppar : problem_parameters α)
    (nW ind_exclude : Nat) (S : chol_solve_as α) :
    (downdate sqrt ppar nW ind_exclude S).icL
      = downdate_passes sqrt ppar.N nW ind_exclude (nW - ind_exclude) S.icL := rfl

/-- Row `i` is final after its own pass. -/
theorem downdate_passes_row_final [LinearOrderedField α] (sqrt : α → α)
    (N nW ind_exclude : Nat) (icL : Nat → Nat → α) (i : Nat)
    (h1 : ind_exclude ≤ i) (h2 : i < nW) :
    downdate_passes sqrt N nW ind_exclude (nW - ind_exclude) icL i
      = Function.update
          (Function.update (downdate_passes sqrt N nW ind_exclude (i - ind_exclude) icL i)
            (6 * N + i)
            |rot_pivot sqrt N i (downdate_passes sqrt N nW ind_exclude (i - ind_exclude) icL)|)
          (6 * N + i + 1) 0 := by
  have e : nW - ind_exclude = (i - ind_exclude + 1) + (nW - (i + 1)) := by omega
  unfold downdate_passes
  rw [e, loopUp_add, downdate_loop_row_out sqrt N nW _ _ _ i (by omega) (Or.inl (by omega))]
  rw [loopUp, downdate_rotate_row]
  have hi : ind_exclude + (i - ind_exclude) = i := by omega
  rw [hi]
  have a1 : ¬ (i < i ∧ i < nW) := by omega
  rw [if_neg a1, if_pos rfl]

/-- The value stored by a pass has the square `x1^2 + x2^2`. -/
theorem rot_pivot_sq [LinearOrderedField α] (sqrt : α → α) (hs : IsSqrt sqrt) (N i : Nat)
    (M : Nat → Nat → α) (hnz : M i (6 * N + i) ≠ 0 ∨ M i (6 * N + i + 1) ≠ 0) :
    rot_pivot sqrt N i M * rot_pivot sqrt N i M
      = M i (6 * N + i) * M i (6 * N + i) + M i (6 * N + i + 1) * M i (6 * N + i + 1) := by
  obtain ⟨hcs, hzero⟩ := givens_spec sqrt hs _ _ hnz
  unfold rot_pivot rot_cos rot_sin
  linear_combination
    (M i (6 * N + i) * M i (6 * N + i) + M i (6 * N + i + 1) * M i (6 * N + i + 1)) * hcs
      - (-(givens sqrt (M i (6 * N + i)) (M i (6 * N + i + 1))).2 * M i (6 * N + i)
          + (givens sqrt (M i (6 * N + i)) (M i (6 * N + i + 1))).1 * M i (6 * N + i + 1))
        * hzero

/-- C5: after `downdate (nW, ind_exclude)`, for every `i` with
`ind_exclude ≤ i < nW` the entry `icL[i][6N+i+1]` is zero and, `(x1, x2)` being
the entries of that row in the columns `6N+i`, `6N+i+1` just before its pass
(not both zero), the diagonal entry `icL[i][6N+i]` is `sqrt (x1^2 + x2^2)`;
and every diagonal entry is positive when the diagonal entries were positive
before the downdate. -/
theorem downdate_diagonal [LinearOrderedField α] (sqrt : α → α) (hs : IsSqrt sqrt)
    (ppar : problem_parameters α) (nW ind_exclude : Nat) (hle : ind_exclude ≤ nW)
    (S : chol_solve_as α) :
    (∀ i, ind_exclude ≤ i → i < nW →
      (downdate sqrt ppar nW ind_exclude S).icL i (6 * ppar.N + i + 1) = 0 ∧
      ((downdate_passes sqrt ppar.N nW ind_exclude (i - ind_exclude) S.icL i (6 * ppar.N + i) ≠ 0
          ∨ downdate_passes sqrt ppar.N nW ind_exclude (i - ind_exclude) S.icL i
              (6 * ppar.N + i + 1) ≠ 0) →
        (downdate sqrt ppar nW ind_exclude S).icL i (6 * ppar.N + i)
          = sqrt
            (downdate_passes sqrt ppar.N nW ind_exclude (i - ind_exclude) S.icL i
                (6 * ppar.N + i)
              * downdate_passes sqrt ppar.N nW ind_exclude (i - ind_exclude) S.icL i
                (6 * ppar.N + i)
            + downdate_passes sqrt ppar.N nW ind_exclude (i - ind_exclude) S.icL i
                (6 * ppar.N + i + 1)
              * downdate_passes sqrt ppar.N nW ind_exclude (i - ind_exclude) S.icL i
                (6 * ppar.N + i + 1)))) ∧
    ((∀ r, r ≤ nW → 0 < S.icL r (6 * ppar.N + r)) →
      ∀ i, i < nW → 0 < (downdate sqrt ppar nW ind_exclude S).icL i (6 * ppar.N + i)) := by
  have hfin : ∀ i, ind_exclude ≤ i → i < nW →
      (downdate_passes sqrt ppar.N nW ind_exclude (i - ind_exclude) S.icL i (6 * ppar.N + i) ≠ 0
          ∨ downdate_passes sqrt ppar.N nW ind_exclude (i - ind_exclude) S.icL i
              (6 * ppar.N + i + 1) ≠ 0) →
      0 ≤ (downdate sqrt ppar nW ind_exclude S).icL i (6 * ppar.N + i) ∧
      (downdate sqrt ppar nW ind_exclude S).icL i (6 * ppar.N + i)
          * (downdate sqrt ppar nW ind_exclude S).icL i (6 * ppar.N + i)
        = downdate_passes sqrt ppar.N nW ind_exclude (i - ind_exclude) S.icL i (6 * ppar.N + i)
            * downdate_passes sqrt ppar.N nW ind_exclude (i - ind_exclude) S.icL i
              (6 * ppar.N + i)
          + downdate_passes sqrt ppar.N nW ind_exclude (i - ind_exclude) S.icL i
              (6 * ppar.N + i + 1)
            * downdate_passes sqrt ppar.N nW ind_exclude (i - ind_exclude) S.icL i
              (6 * ppar.N + i + 1) := by
    intro i h1 h2 hnz
    rw [downdate_icL, downdate_passes_row_final sqrt ppar.N nW ind_exclude S.icL i h1 h2]
    have e : 6 * ppar.N + i ≠ 6 * ppar.N + i + 1 := by omega
    rw [Function.update_noteq e, Function.update_same]
    refine ⟨abs_nonneg _, ?_⟩
    rw [abs_mul_abs_self]
    exact rot_pivot_sq sqrt hs ppar.N i _ hnz
  constructor
  · intro i h1 h2
    constructor
    · rw [downdate_icL, downdate_passes_row_final sqrt ppar.N nW ind_exclude S.icL i h1 h2,
        Function.update_same]
    · intro hnz
      obtain ⟨hnn, hsq⟩ := hfin i h1 h2 hnz
      have hw : 0 ≤ downdate_passes sqrt ppar.N nW ind_exclude (i - ind_exclude) S.icL i
            (6 * ppar.N + i)
          * downdate_passes sqrt ppar.N nW ind_exclude (i - ind_exclude) S.icL i
            (6 * ppar.N + i)
          + downdate_passes sqrt ppar.N nW ind_exclude (i - ind_exclude) S.icL i
            (6 * ppar.N + i + 1)
          * downdate_passes sqrt ppar.N nW ind_exclude (i - ind_exclude) S.icL i
            (6 * ppar.N + i + 1) :=
        add_nonneg (mul_self_nonneg _) (mul_self_nonneg _)
      obtain ⟨hr1, hr2⟩ := hs _ hw
      exact (mul_self_inj hnn hr1).mp (hsq.trans hr2.symm)
  · intro hpos i hi
    by_cases h1 : ind_exclude ≤ i
    · obtain ⟨ih2, _, _⟩ := downdate_passes_inv sqrt hs ppar.N nW ind_exclude hle S.icL
        (fun r _ hr => ne_of_gt (hpos r hr)) (i - ind_exclude) (by omega)
      have hx2 : downdate_passes sqrt ppar.N nW ind_exclude (i - ind_exclude) S.icL i
          (6 * ppar.N + i + 1) = S.icL (i + 1) (6 * ppar.N + (i + 1)) :=
        ih2 i (6 * ppar.N + i + 1) h1 hi (Or.inr (Or.inl (by omega)))
      have hx2pos := hpos (i + 1) (by omega)
      rw [← hx2] at hx2pos
      obtain ⟨hnn, hsq⟩ := hfin i h1 hi (Or.inr (ne_of_gt hx2pos))
      rcases lt_or_eq_of_le hnn with h | h
      · exact h
      · exfalso
        rw [← h] at hsq
        have := mul_self_nonneg (downdate_passes sqrt ppar.N nW ind_exclude (i - ind_exclude)
          S.icL i (6 * ppar.N + i))
        have := mul_pos hx2pos hx2pos
        linarith
    · have hlt : i < ind_exclude := by omega
      rw [downdate_icL]
      unfold downdate_passes
      rw [downdate_loop_row_out sqrt ppar.N nW _ _ _ i (by omega) (Or.inl hlt),
        downdate_shuffle_row nW ind_exclude hle]
      have a1 : i ≠ nW := by omega
      have a2 : ¬ (ind_exclude ≤ i ∧ i < nW) := by omega
      rw [if_neg a1, if_neg a2]
      exact hpos i (by omega)

/-- Rows of `icL` before `ind_exclude` and from `nW` on after `downdate`. -/
theorem downdate_row_out [LinearOrderedField α] (sqrt : α → α) (ppar : problem_parameters α)
    (nW ind_exclude : Nat) (hle : ind_exclude ≤ nW) (S : chol_solve_as α) (r : Nat)
    (hr : r < ind_exclude ∨ nW ≤ r) :
    (downdate sqrt ppar nW ind_exclude S).icL r
      = if r = nW then S.icL ind_exclude else S.icL r := by
  rw [downdate_icL]
  unfold downdate_passes
  rw [downdate_loop_row_out sqrt ppar.N nW _ _ _ r (by omega) hr,
    downdate_shuffle_row nW ind_exclude hle]
  have a2 : ¬ (ind_exclude ≤ r ∧ r < nW) := by omega
  rw [if_neg a2]

/-- Entries of the rows `ind_exclude ≤ i < nW` after `downdate`, outside the
rotated columns: those of the old row `i + 1`; and the entry after the
diagonal is zero. -/
theorem downdate_row_in [LinearOrderedField α] (sqrt : α → α) (hs : IsSqrt sqrt)
    (ppar : problem_parameters α) (nW ind_exclude : Nat) (hle : ind_exclude ≤ nW)
    (S : chol_solve_as α)
    (hdiag : ∀ r, ind_exclude < r → r ≤ nW → S.icL r (6 * ppar.N + r) ≠ 0)
    (i : Nat) (h1 : ind_exclude ≤ i) (h2 : i < nW) :
    (∀ c, (c < 6 * ppar.N + ind_exclude ∨ 6 * ppar.N + i + 1 < c) →
      (downdate sqrt ppar nW ind_exclude S).icL i c = S.icL (i + 1) c) ∧
    (downdate sqrt ppar nW ind_exclude S).icL i (6 * ppar.N + i + 1) = 0 := by
  obtain ⟨ih2, ih3, _⟩ := downdate_passes_inv sqrt hs ppar.N nW ind_exclude hle S.icL hdiag
    (nW - ind_exclude) (by omega)
  rw [downdate_icL]
  constructor
  · intro c hc
    apply ih2 i c h1 h2
    rcases hc with hc | hc
    · exact Or.inl hc
    · exact Or.inr (Or.inr ⟨by omega, hc⟩)
  · exact ih3 i h1 (by omega)

/-- The correspondence of the rows of `icL` across `downdate`, on the part of
a row up to its diagonal and on the columns of `ecL`. -/
theorem downdate_rowT_low [LinearOrderedField α] (sqrt : α → α) (hs : IsSqrt sqrt)
    (ppar : problem_parameters α) (nW ind_exclude : Nat) (hle : ind_exclude ≤ nW)
    (S : chol_solve_as α)
    (hdiag : ∀ r, ind_exclude < r → r ≤ nW → S.icL r (6 * ppar.N + r) ≠ 0)
    (q : Nat) (hq : q < nW) (c : Nat) (hc : c < 6 * ppar.N + ind_exclude) :
    rowT ppar.N (downdate sqrt ppar nW ind_exclude S).icL q c
      = rowT ppar.N S.icL (old_index ind_exclude q) c := by
  by_cases h : q < ind_exclude
  · have e : old_index ind_exclude q = q := if_pos h
    have a : q ≠ nW := by omega
    rw [e]
    unfold rowT
    rw [downdate_row_out sqrt ppar nW ind_exclude hle S q (Or.inl h), if_neg a]
  · have e : old_index ind_exclude q = q + 1 := if_neg h
    have h1 : ind_exclude ≤ q := by omega
    rw [e]
    unfold rowT
    rw [(downdate_row_in sqrt hs ppar nW ind_exclude hle S hdiag q h1 hq).1 c (Or.inl hc)]
    have a1 : c ≤ 6 * ppar.N + q := by omega
    have a2 : c ≤ 6 * ppar.N + (q + 1) := by omega
    rw [if_pos a1, if_pos a2]

/-- Inner products of the rows of `icL` across `downdate`. -/
theorem downdate_gram_eq [LinearOrderedField α] (sqrt : α → α) (hs : IsSqrt sqrt)
    (ppar : problem_parameters α) (nW ind_exclude : Nat) (hle : ind_exclude ≤ nW)
    (S : chol_solve_as α)
    (hdiag : ∀ r, ind_exclude < r → r ≤ nW → S.icL r (6 * ppar.N + r) ≠ 0)
    (p q : Nat) (hp : p < nW) (hq : q < nW) :
    gram ppar.N (6 * ppar.N + nW + 1) (downdate sqrt ppar nW ind_exclude S).icL p q
      = gram ppar.N (6 * ppar.N + nW + 1) S.icL (old_index ind_exclude p)
          (old_index ind_exclude q) := by
  -- a row before `ind_exclude` is unchanged and ends before the rotated columns
  have low : ∀ a b, a < ind_exclude → b < nW →
      ∀ c, rowT ppar.N (downdate sqrt ppar nW ind_exclude S).icL a c
            * rowT ppar.N (downdate sqrt ppar nW ind_exclude S).icL b c
          = rowT ppar.N S.icL (old_index ind_exclude a) c
            * rowT ppar.N S.icL (old_index ind_exclude b) c := by
    intro a b ha hb c
    by_cases hc : c < 6 * ppar.N + ind_exclude
    · rw [downdate_rowT_low sqrt hs ppar nW ind_exclude hle S hdiag a (by omega) c hc,
        downdate_rowT_low sqrt hs ppar nW ind_exclude hle S hdiag b hb c hc]
    · have z1 : rowT ppar.N (downdate sqrt ppar nW ind_exclude S).icL a c = 0 := by
        unfold rowT; rw [if_neg (by omega)]
      have z2 : rowT ppar.N S.icL (old_index ind_exclude a) c = 0 := by
        have e : old_index ind_exclude a = a := if_pos ha
        rw [e]
        unfold rowT; rw [if_neg (by omega)]
      rw [z1, z2, zero_mul, zero_mul]
  unfold gram
  by_cases hpi : p < ind_exclude
  · exact Finset.sum_congr rfl (fun c _ => low p q hpi hq c)
  · by_cases hqi : q < ind_exclude
    · apply Finset.sum_congr rfl
      intro c _
      rw [mul_comm, low q p hqi hp c, mul_comm]
    · have hp1 : ind_exclude ≤ p := by omega
      have hq1 : ind_exclude ≤ q := by omega
      obtain ⟨_, ih3, ih4⟩ := downdate_passes_inv sqrt hs ppar.N nW ind_exclude hle S.icL hdiag
        (nW - ind_exclude) (by omega)
      have cut : ∀ r, ind_exclude ≤ r → r < nW →
          rowT ppar.N (downdate sqrt ppar nW ind_exclude S).icL r
            = rowT1 ppar.N
                (downdate_passes sqrt ppar.N nW ind_exclude (nW - ind_exclude) S.icL) r := by
        intro r hr1 hr2
        funext c
        rw [downdate_icL]
        unfold rowT rowT1
        by_cases hc : c ≤ 6 * ppar.N + r
        · rw [if_pos hc, if_pos (by omega)]
        · rw [if_neg hc]
          by_cases hc' : c ≤ 6 * ppar.N + r + 1
          · have : c = 6 * ppar.N + r + 1 := by omega
            rw [if_pos hc', this, ih3 r hr1 (by omega)]
          · rw [if_neg hc']
      have old : ∀ r, ind_exclude ≤ r → r < nW →
          rowT1 ppar.N (downdate_shuffle nW ind_exclude S.icL) r
            = rowT ppar.N S.icL (old_index ind_exclude r) := by
        intro r hr1 hr2
        have e : old_index ind_exclude r = r + 1 := if_neg (by omega)
        have a : r ≠ nW := by omega
        have hsh : downdate_shuffle nW ind_exclude S.icL r = S.icL (r + 1) := by
          rw [downdate_shuffle_row nW ind_exclude hle]
          simp only [a, hr1, hr2, if_false, and_self, if_true]
        funext c
        rw [e]
        unfold rowT rowT1
        rw [hsh]
        rfl
      rw [cut p hp1 hp, cut q hq1 hq, ih4 p q hp1 hp hq1 hq, old p hp1 hp, old q hq1 hq]

/-- A row of `L` under `ecL` is the row of `icL` up to its diagonal. -/
theorem Lfull_icL_row [Zero α] (N : Nat) (ecL_diag ecL_ndiag icL : Nat → Nat → α) (r : Nat)
    (hr : 6 * N ≤ r) :
    Lfull N ecL_diag ecL_ndiag icL r = rowT N icL (r - 6 * N) := by
  funext c
  unfold Lfull rowT
  rw [if_neg (by omega)]
  by_cases hc : c ≤ r
  · rw [if_pos hc, if_pos (by omega)]
  · rw [if_neg hc, if_neg (by omega)]

/-- A row of `L` in `ecL` does not depend on `icL` and ends before column `6N`. -/
theorem Lfull_ecL_row [Zero α] (N : Nat) (ecL_diag ecL_ndiag icL icL' : Nat → Nat → α)
    (r : Nat) (hr : r < 6 * N) :
    Lfull N ecL_diag ecL_ndiag icL r = Lfull N ecL_diag ecL_ndiag icL' r ∧
      ∀ c, 6 * N ≤ c → Lfull N ecL_diag ecL_ndiag icL r c = 0 := by
  constructor
  · funext c
    unfold Lfull
    rw [if_pos hr, if_pos hr]
  · intro c hc
    unfold Lfull
    rw [if_pos hr, if_neg (by omega)]

/-- C2: for a factor with `nW + 1` active rows (non-zero diagonal entries),
after `downdate (nW, ind_exclude)` the rows before `ind_exclude` are unchanged;
row `i`, `ind_exclude ≤ i < nW`, is the old row `i + 1` with its columns
`6N + ind_exclude .. 6N + i + 1` rotated, the last of them to zero; the removed
row is row `nW`; the inner products of the rows (entries past the diagonal
counted as zero) are those of the corresponding old rows; hence `L * L'` of
the new factor is the old `L * L'` with row and column `6N + ind_exclude`
deleted. -/
theorem downdate_keeps_products [LinearOrderedField α] (sqrt : α → α) (hs : IsSqrt sqrt)
    (ppar : problem_parameters α) (nW ind_exclude : Nat) (hle : ind_exclude ≤ nW)
    (S : chol_solve_as α)
    (hdiag : ∀ r, ind_exclude < r → r ≤ nW → S.icL r (6 * ppar.N + r) ≠ 0) :
    (∀ i, i < ind_exclude → (downdate sqrt ppar nW ind_exclude S).icL i = S.icL i) ∧
    (∀ i, ind_exclude ≤ i → i < nW →
      (∀ c, (c < 6 * ppar.N + ind_exclude ∨ 6 * ppar.N + i + 1 < c) →
        (downdate sqrt ppar nW ind_exclude S).icL i c = S.icL (i + 1) c) ∧
      (downdate sqrt ppar nW ind_exclude S).icL i (6 * ppar.N + i + 1) = 0) ∧
    (downdate sqrt ppar nW ind_exclude S).icL nW = S.icL ind_exclude ∧
    (∀ p q, p < nW → q < nW →
      gram ppar.N (6 * ppar.N + nW + 1) (downdate sqrt ppar nW ind_exclude S).icL p q
        = gram ppar.N (6 * ppar.N + nW + 1) S.icL (old_index ind_exclude p)
            (old_index ind_exclude q)) ∧
    (∀ r r', r < 6 * ppar.N + nW → r' < 6 * ppar.N + nW →
      LLT ppar.N (6 * ppar.N + nW + 1) (downdate sqrt ppar nW ind_exclude S).ecL_diag
          (downdate sqrt ppar nW ind_exclude S).ecL_ndiag
          (downdate sqrt ppar nW ind_exclude S).icL r r'
        = LLT ppar.N (6 * ppar.N + nW + 1) S.ecL_diag S.ecL_ndiag S.icL
            (old_index (6 * ppar.N + ind_exclude) r)
            (old_index (6 * ppar.N + ind_exclude) r')) := by
  refine ⟨?_, ?_, ?_, ?_, ?_⟩
  · intro i hi
    rw [downdate_row_out sqrt ppar nW ind_exclude hle S i (Or.inl hi), if_neg (by omega)]
  · intro i h1 h2
    exact downdate_row_in sqrt hs ppar nW ind_exclude hle S hdiag i h1 h2
  · rw [downdate_row_out sqrt ppar nW ind_exclude hle S nW (Or.inr (le_refl _)), if_pos rfl]
  · intro p q hp hq
    exact downdate_gram_eq sqrt hs ppar nW ind_exclude hle S hdiag p q hp hq
  · intro r r' hr hr'
    have hE : (downdate sqrt ppar nW ind_exclude S).ecL_diag = S.ecL_diag ∧
        (downdate sqrt ppar nW ind_exclude S).ecL_ndiag = S.ecL_ndiag := ⟨rfl, rfl⟩
    rw [hE.1, hE.2]
    -- the rows of the two factors, one by one
    have ecl : ∀ a, a < 6 * ppar.N →
        old_index (6 * ppar.N + ind_exclude) a = a := fun a ha => if_pos (by omega)
    have icl : ∀ a, 6 * ppar.N ≤ a →
        old_index (6 * ppar.N + ind_exclude) a
          = 6 * ppar.N + old_index ind_exclude (a - 6 * ppar.N) := by
      intro a ha
      unfold old_index
      by_cases h : a < 6 * ppar.N + ind_exclude
      · rw [if_pos h, if_pos (by omega)]; omega
      · rw [if_neg h, if_neg (by omega)]; omega
    have newrow : ∀ b, 6 * ppar.N ≤ b →
        Lfull ppar.N S.ecL_diag S.ecL_ndiag (downdate sqrt ppar nW ind_exclude S).icL b
          = rowT ppar.N (downdate sqrt ppar nW ind_exclude S).icL (b - 6 * ppar.N) :=
      fun b hb => Lfull_icL_row ppar.N _ _ _ b hb
    have oldrow : ∀ b, 6 * ppar.N ≤ b →
        Lfull ppar.N S.ecL_diag S.ecL_ndiag S.icL (old_index (6 * ppar.N + ind_exclude) b)
          = rowT ppar.N S.icL (old_index ind_exclude (b - 6 * ppar.N)) := by
      intro b hb
      rw [icl b hb, Lfull_icL_row ppar.N S.ecL_diag S.ecL_ndiag S.icL _ (by omega),
        Nat.add_sub_cancel_left]
    have ecrow : ∀ a, a < 6 * ppar.N →
        Lfull ppar.N S.ecL_diag S.ecL_ndiag (downdate sqrt ppar nW ind_exclude S).icL a
          = Lfull ppar.N S.ecL_diag S.ecL_ndiag S.icL (old_index (6 * ppar.N + ind_exclude) a) := by
      intro a ha
      rw [ecl a ha]
      exact (Lfull_ecL_row ppar.N S.ecL_diag S.ecL_ndiag _ S.icL a ha).1
    have mixed : ∀ a b, a < 6 * ppar.N → 6 * ppar.N ≤ b → b < 6 * ppar.N + nW →
        ∀ c, Lfull ppar.N S.ecL_diag S.ecL_ndiag (downdate sqrt ppar nW ind_exclude S).icL a c
              * Lfull ppar.N S.ecL_diag S.ecL_ndiag (downdate sqrt ppar nW ind_exclude S).icL b c
            = Lfull ppar.N S.ecL_diag S.ecL_ndiag S.icL
                (old_index (6 * ppar.N + ind_exclude) a) c
              * Lfull ppar.N S.ecL_diag S.ecL_ndiag S.icL
                (old_index (6 * ppar.N + ind_exclude) b) c := by
      intro a b ha hb hb' c
      rw [ecrow a ha, newrow b hb, oldrow b hb]
      by_cases hc : c < 6 * ppar.N
      · rw [downdate_rowT_low sqrt hs ppar nW ind_exclude hle S hdiag _ (by omega) c (by omega)]
      · rw [ecl a ha,
          (Lfull_ecL_row ppar.N S.ecL_diag S.ecL_ndiag S.icL S.icL a ha).2 c (by omega),
          zero_mul, zero_mul]
    unfold LLT
    by_cases h1 : r < 6 * ppar.N
    · by_cases h2 : r' < 6 * ppar.N
      · apply Finset.sum_congr rfl
        intro c _
        rw [ecrow r h1, ecrow r' h2]
      · exact Finset.sum_congr rfl (fun c _ => mixed r r' h1 (by omega) hr' c)
    · by_cases h2 : r' < 6 * ppar.N
      · apply Finset.sum_congr rfl
        intro c _
        rw [mul_comm, mixed r' r h2 (by omega) hr c, mul_comm]
      · have g := downdate_gram_eq sqrt hs ppar nW ind_exclude hle S hdiag (r - 6 * ppar.N)
          (r' - 6 * ppar.N) (by omega) (by omega)
        unfold gram at g
        rw [newrow r (by omega), newrow r' (by omega), oldrow r (by omega),
          oldrow r' (by omega)]
        exact g

/-- A concrete instance of C5 over the reals: `N = 1`, rows `(2)` and `(3, 4)`,
the first row removed. -/
theorem downdate_diagonal_witness :
    (∀ i, 0 ≤ i → i < 1 →
      (downdate Real.sqrt (ex_ppar ℝ) 1 0 (ex_S2 ℝ)).icL i (6 * (ex_ppar ℝ).N + i + 1) = 0 ∧
      ((downdate_passes Real.sqrt (ex_ppar ℝ).N 1 0 (i - 0) (ex_S2 ℝ).icL i
            (6 * (ex_ppar ℝ).N + i) ≠ 0
          ∨ downdate_passes Real.sqrt (ex_ppar ℝ).N 1 0 (i - 0) (ex_S2 ℝ).icL i
              (6 * (ex_ppar ℝ).N + i + 1) ≠ 0) →
        (downdate Real.sqrt (ex_ppar ℝ) 1 0 (ex_S2 ℝ)).icL i (6 * (ex_ppar ℝ).N + i)
          = Real.sqrt
            (downdate_passes Real.sqrt (ex_ppar ℝ).N 1 0 (i - 0) (ex_S2 ℝ).icL i
                (6 * (ex_ppar ℝ).N + i)
              * downdate_passes Real.sqrt (ex_ppar ℝ).N 1 0 (i - 0) (ex_S2 ℝ).icL i
                (6 * (ex_ppar ℝ).N + i)
            + downdate_passes Real.sqrt (ex_ppar ℝ).N 1 0 (i - 0) (ex_S2 ℝ).icL i
                (6 * (ex_ppar ℝ).N + i + 1)
              * downdate_passes Real.sqrt (ex_ppar ℝ).N 1 0 (i - 0) (ex_S2 ℝ).icL i
                (6 * (ex_ppar ℝ).N + i + 1)))) ∧
    ((∀ r, r ≤ 1 → 0 < (ex_S2 ℝ).icL r (6 * (ex_ppar ℝ).N + r)) →
      ∀ i, i < 1 →
        0 < (downdate Real.sqrt (ex_ppar ℝ) 1 0 (ex_S2 ℝ)).icL i (6 * (ex_ppar ℝ).N + i)) :=
  downdate_diagonal Real.sqrt (fun y hy => ⟨Real.sqrt_nonneg y, Real.mul_self_sqrt hy⟩)
    (ex_ppar ℝ) 1 0 (Nat.zero_le 1) (ex_S2 ℝ)

/-- A concrete instance of C2 over the reals: `N = 1`, rows `(2)` and `(3, 4)`,
the first row removed. -/
theorem downdate_keeps_products_witness :
    (∀ i, i < 0 → (downdate Real.sqrt (ex_ppar ℝ) 1 0 (ex_S2 ℝ)).icL i = (ex_S2 ℝ).icL i) ∧
    (∀ i, 0 ≤ i → i < 1 →
      (∀ c, (c < 6 * (ex_ppar ℝ).N + 0 ∨ 6 * (ex_ppar ℝ).N + i + 1 < c) →
        (downdate Real.sqrt (ex_ppar ℝ) 1 0 (ex_S2 ℝ)).icL i c = (ex_S2 ℝ).icL (i + 1) c) ∧
      (downdate Real.sqrt (ex_ppar ℝ) 1 0 (ex_S2 ℝ)).icL i (6 * (ex_ppar ℝ).N + i + 1) = 0) ∧
    (downdate Real.sqrt (ex_ppar ℝ) 1 0 (ex_S2 ℝ)).icL 1 = (ex_S2 ℝ).icL 0 ∧
    (∀ p q, p < 1 → q < 1 →
      gram (ex_ppar ℝ).N (6 * (ex_ppar ℝ).N + 1 + 1)
          (downdate Real.sqrt (ex_ppar ℝ) 1 0 (ex_S2 ℝ)).icL p q
        = gram (ex_ppar ℝ).N (6 * (ex_ppar ℝ).N + 1 + 1) (ex_S2 ℝ).icL (old_index 0 p)
            (old_index 0 q)) ∧
    (∀ r r', r < 6 * (ex_ppar ℝ).N + 1 → r' < 6 * (ex_ppar ℝ).N + 1 →
      LLT (ex_ppar ℝ).N (6 * (ex_ppar ℝ).N + 1 + 1)
          (downdate Real.sqrt (ex_ppar ℝ) 1 0 (ex_S2 ℝ)).ecL_diag
          (downdate Real.sqrt (ex_ppar ℝ) 1 0 (ex_S2 ℝ)).ecL_ndiag
          (downdate Real.sqrt (ex_ppar ℝ) 1 0 (ex_S2 ℝ)).icL r r'
        = LLT (ex_ppar ℝ).N (6 * (ex_ppar ℝ).N + 1 + 1) (ex_S2 ℝ).ecL_diag (ex_S2 ℝ).ecL_ndiag
            (ex_S2 ℝ).icL
            (old_index (6 * (ex_ppar ℝ).N + 0) r)
            (old_index (6 * (ex_ppar ℝ).N + 0) r')) :=
  downdate_keeps_products Real.sqrt
    (fun y hy => ⟨Real.sqrt_nonneg y, Real.mul_self_sqrt hy⟩)
    (ex_ppar ℝ) 1 0 (Nat.zero_le 1) (ex_S2 ℝ)
    (fun r h1 h2 => by
      have h : r = 1 := by omega
      subst h
      simp [ex_S2, ex_ppar])

/-! ## update -/

/-- One column of the forward substitution keeps its invariant. -/
theorem colstep_inv [Field α] (L : Nat → Nat → α) (s : Nat → α) (M P : Nat) (row : Nat → α)
    (h : fwd_inv L s M P row) (hP : P < M) (hd : L P P ≠ 0)
    (hup : ∀ r, r < P → L r P = 0) :
    fwd_inv L s M (P + 1) (colstep L M P row) := by
  obtain ⟨hA, hB, hC⟩ := h
  have hlow : ∀ c, c ∈ Finset.range P → ∀ r, L r c * colstep L M P row c = L r c * row c := by
    intro c hc r
    have : c < P := Finset.mem_range.mp hc
    simp only [colstep, this, if_true]
  have hsum : ∀ r, ∑ c ∈ Finset.range P, L r c * colstep L M P row c
      = ∑ c ∈ Finset.range P, L r c * row c :=
    fun r => Finset.sum_congr rfl (fun c hc => hlow c hc r)
  have hPP : colstep L M P row P = row P / L P P := by
    simp only [colstep, lt_irrefl, if_false, if_true]
  refine ⟨?_, ?_, ?_⟩
  · intro r hr
    rw [Finset.sum_range_succ, hsum, hPP]
    by_cases hrP : r < P
    · rw [hup r hrP, zero_mul, add_zero]
      exact hA r hrP
    · have e : r = P := by omega
      subst e
      rw [mul_div_cancel₀ _ hd]
      have := hB r (le_refl _) hP
      rw [this]
      ring
  · intro r hr1 hr2
    rw [Finset.sum_range_succ, hsum, hPP]
    have a1 : ¬ r < P := by omega
    have a2 : r ≠ P := by omega
    simp only [colstep, a1, a2, hr2, if_false, if_true]
    rw [hB r (by omega) hr2]
    ring
  · rw [Finset.sum_range_succ, hPP]
    have a1 : ¬ M < P := by omega
    have a2 : M ≠ P := by omega
    have a3 : ¬ M < M := lt_irrefl _
    have hsq : ∑ c ∈ Finset.range P, colstep L M P row c * colstep L M P row c
        = ∑ c ∈ Finset.range P, row c * row c := by
      apply Finset.sum_congr rfl
      intro c hc
      have : c < P := Finset.mem_range.mp hc
      simp only [colstep, this, if_true]
    simp only [colstep, a1, a2, a3, if_false, if_true] at hsq ⊢
    rw [hsq, hC]
    ring

/-- A loop that rewrites entry `b + j` from its own value at step `j`. -/
theorem loopUp_offset (f : Nat → α → α) (b lo n : Nat) (v : Nat → α) (q : Nat) :
    loopUp (fun j v => Function.update v (b + j) (f j (v (b + j)))) lo n v q
      = if b + lo ≤ q ∧ q < b + lo + n then f (q - b) (v q) else v q := by
  induction n with
  | zero =>
    have : ¬ (b + lo ≤ q ∧ q < b + lo + 0) := by omega
    rw [if_neg this]; rfl
  | succ n ih =>
    rw [loopUp]
    generalize loopUp _ lo n v = w at ih ⊢
    simp only [Function.update_apply]
    by_cases hq : q = b + (lo + n)
    · have a : b + lo ≤ q ∧ q < b + lo + (n + 1) := by omega
      have a' : ¬ (b + lo ≤ q ∧ q < b + lo + n) := by omega
      rw [if_pos hq, if_pos a]
      rw [if_neg a'] at ih
      rw [← hq, ih]
      congr 1
      omega
    · rw [if_neg hq, ih]
      by_cases h1 : b + lo ≤ q ∧ q < b + lo + n
      · have a : b + lo ≤ q ∧ q < b + lo + (n + 1) := by omega
        rw [if_pos h1, if_pos a]
      · have a : ¬ (b + lo ≤ q ∧ q < b + lo + (n + 1)) := by omega
        rw [if_neg h1, if_neg a]

/-- Entries of `L` in a diagonal block of `ecL`. -/
theorem Lfull_diag_block [Zero α] (N : Nat) (D nd icL : Nat → Nat → α) (i k m m' : Nat)
    (hi : i < N) (hk : k < 2) (hm : m < 3) (hm' : m' < 3) :
    Lfull N D nd icL (6 * i + 3 * k + m) (6 * i + 3 * k + m')
      = if m' ≤ m then D i (3 * m' + m) else 0 := by
  unfold Lfull ecL_entry
  have a1 : 6 * i + 3 * k + m < 6 * N := by omega
  have a2 : 6 * i + 3 * k + m' < 6 * N := by omega
  have b1 : (6 * i + 3 * k + m) % 6 / 3 = k := by omega
  have b2 : (6 * i + 3 * k + m') % 6 / 3 = k := by omega
  have c1 : (6 * i + 3 * k + m) / 6 = i := by omega
  have c2 : (6 * i + 3 * k + m') / 6 = i := by omega
  have d1 : (6 * i + 3 * k + m) % 3 = m := by omega
  have d2 : (6 * i + 3 * k + m') % 3 = m' := by omega
  simp only [a1, a2, b1, b2, c1, c2, d1, d2, if_true]

/-- Entries of `L` in a block of `ecL` under the diagonal. -/
theorem Lfull_next_block [Zero α] (N : Nat) (D nd icL : Nat → Nat → α) (i k m m' : Nat)
    (hi : i + 1 < N) (hk : k < 2) (hm : m < 3) (hm' : m' < 3) :
    Lfull N D nd icL (6 * i + 3 * k + 6 + m) (6 * i + 3 * k + m')
      = if m ≤ m' then nd i (3 * m' + m) else 0 := by
  unfold Lfull ecL_entry
  have a1 : 6 * i + 3 * k + 6 + m < 6 * N := by omega
  have a2 : 6 * i + 3 * k + m' < 6 * N := by omega
  have b1 : (6 * i + 3 * k + 6 + m) % 6 / 3 = k := by omega
  have b2 : (6 * i + 3 * k + m') % 6 / 3 = k := by omega
  have c1 : (6 * i + 3 * k + 6 + m) / 6 = i + 1 := by omega
  have c2 : (6 * i + 3 * k + m') / 6 = i := by omega
  have d1 : (6 * i + 3 * k + 6 + m) % 3 = m := by omega
  have d2 : (6 * i + 3 * k + m') % 3 = m' := by omega
  have e : i + 1 ≠ i := by omega
  simp only [a1, a2, b1, b2, c1, c2, d1, d2, e, if_true, if_false]

/-- Entries of `L` in the rows of `ecL` outside the two blocks of a column. -/
theorem Lfull_ecL_zero [Zero α] (N : Nat) (D nd icL : Nat → Nat → α) (r c : Nat)
    (hr : r < 6 * N)
    (h : ¬ (r % 6 / 3 = c % 6 / 3 ∧ (r / 6 = c / 6 ∨ r / 6 = c / 6 + 1))) :
    Lfull N D nd icL r c = 0 := by
  unfold Lfull ecL_entry
  rw [if_pos hr]
  by_cases hc : c < 6 * N
  · rw [if_pos hc]
    by_cases h1 : r % 6 / 3 = c % 6 / 3
    · rw [if_pos h1]
      have h2 : ¬ r / 6 = c / 6 := fun e => h ⟨h1, Or.inl e⟩
      have h3 : ¬ r / 6 = c / 6 + 1 := fun e => h ⟨h1, Or.inr e⟩
      rw [if_neg h2, if_neg h3]
    · rw [if_neg h1]
  · rw [if_neg hc]

/-- The factor `L` is lower triangular. -/
theorem Lfull_upper [Zero α] (N : Nat) (D nd icL : Nat → Nat → α) (r c : Nat) (h : r < c) :
    Lfull N D nd icL r c = 0 := by
  unfold Lfull ecL_entry
  by_cases hr : r < 6 * N
  · rw [if_pos hr]
    by_cases hc : c < 6 * N
    · rw [if_pos hc]
      by_cases h1 : r % 6 / 3 = c % 6 / 3
      · rw [if_pos h1]
        by_cases h2 : r / 6 = c / 6
        · rw [if_pos h2, if_neg (by omega)]
        · rw [if_neg h2, if_neg (by omega)]
      · rw [if_neg h1]
    · rw [if_neg hc]
  · rw [if_neg hr, if_neg (by omega)]

/-- Entries of `L` in the rows of `icL`. -/
theorem Lfull_icL [Zero α] (N : Nat) (D nd icL : Nat → Nat → α) (r c : Nat)
    (hr : 6 * N ≤ r) (hc : c ≤ r) :
    Lfull N D nd icL r c = icL (r - 6 * N) c := by
  unfold Lfull
  rw [if_neg (by omega), if_pos hc]

/-- The five stores on `cur_pos[0..2]` put there the solution of the 3x3
triangular system. -/
theorem update_block_solve_eq [Field α] (D : Nat → α) (p : Nat) (r : Nat → α) :
    update_block_solve D p r
      = Function.update
          (Function.update (Function.update r p (r p / D 0)) (p + 1)
            ((r (p + 1) - r p / D 0 * D 1) / D 4))
          (p + 2)
          ((r (p + 2) - (r p / D 0 * D 2 + (r (p + 1) - r p / D 0 * D 1) / D 4 * D 5)) / D 8) := by
  have e10 : p + 1 ≠ p := by omega
  have e20 : p + 2 ≠ p := by omega
  have e21 : p + 2 ≠ p + 1 := by omega
  have e01 : p ≠ p + 1 := by omega
  have e02 : p ≠ p + 2 := by omega
  have e12 : p + 1 ≠ p + 2 := by omega
  unfold update_block_solve
  simp only [Function.update_same, Function.update_noteq e10, Function.update_noteq e20,
    Function.update_noteq e21, Function.update_noteq e01, Function.update_noteq e02,
    Function.update_noteq e12, Function.update_idem]

/-- Entries after the three stores on `cur_pos[6..8]`. -/
theorem update_block_couple_eq [Field α] (nd : Nat → α) (p : Nat) (t0 t1 t2 : α)
    (r : Nat → α) :
    update_block_couple nd p t0 t1 t2 r
      = Function.update
          (Function.update
            (Function.update r (p + 6) (r (p + 6) - (t0 * nd 0 + t1 * nd 3 + t2 * nd 6)))
            (p + 7) (r (p + 7) - (t1 * nd 4 + t2 * nd 7)))
          (p + 8) (r (p + 8) - t2 * nd 8) := by
  have e76 : p + 7 ≠ p + 6 := by omega
  have e86 : p + 8 ≠ p + 6 := by omega
  have e87 : p + 8 ≠ p + 7 := by omega
  have e67 : p + 6 ≠ p + 7 := by omega
  have e68 : p + 6 ≠ p + 8 := by omega
  have e78 : p + 7 ≠ p + 8 := by omega
  unfold update_block_couple
  simp only [Function.update_noteq e76, Function.update_noteq e86, Function.update_noteq e87,
    Function.update_noteq e67, Function.update_noteq e68, Function.update_noteq e78]

theorem colstep_lt [Field α] (L : Nat → Nat → α) (M P : Nat) (row : Nat → α) (q : Nat)
    (h : q < P) : colstep L M P row q = row q := by
  simp only [colstep, h, if_true]

theorem colstep_same [Field α] (L : Nat → Nat → α) (M P : Nat) (row : Nat → α) :
    colstep L M P row P = row P / L P P := by
  simp only [colstep, lt_irrefl, if_false, if_true]

theorem colstep_mid [Field α] (L : Nat → Nat → α) (M P : Nat) (row : Nat → α) (q : Nat)
    (h1 : P < q) (h2 : q < M) :
    colstep L M P row q = row q - L q P * (row P / L P P) := by
  have a1 : ¬ q < P := by omega
  have a2 : q ≠ P := by omega
  simp only [colstep, a1, a2, h2, if_false, if_true]

theorem colstep_last [Field α] (L : Nat → Nat → α) (M P : Nat) (row : Nat → α)
    (h : P < M) :
    colstep L M P row M = row M - row P / L P P * (row P / L P P) := by
  have a1 : ¬ M < P := by omega
  have a2 : M ≠ P := by omega
  simp only [colstep, a1, a2, lt_irrefl, if_false, if_true]

theorem colstep_gt [Field α] (L : Nat → Nat → α) (M P : Nat) (row : Nat → α) (q : Nat)
    (h1 : P < M) (h2 : M < q) : colstep L M P row q = row q := by
  have a1 : ¬ q < P := by omega
  have a2 : q ≠ P := by omega
  have a3 : ¬ q < M := by omega
  have a4 : q ≠ M := by omega
  simp only [colstep, a1, a2, a3, a4, if_false]

/-- Entries after the forward substitution on three consecutive columns. -/
theorem colstep3_entry [Field α] (L : Nat → Nat → α) (M P : Nat) (row : Nat → α)
    (hM : P + 2 < M) (T0 T1 T2 : α) (h0 : row P / L P P = T0)
    (h1 : (row (P + 1) - L (P + 1) P * T0) / L (P + 1) (P + 1) = T1)
    (h2 : (row (P + 2) - L (P + 2) P * T0 - L (P + 2) (P + 1) * T1) / L (P + 2) (P + 2) = T2)
    (q : Nat) :
    colstep L M (P + 2) (colstep L M (P + 1) (colstep L M P row)) q
      = if q < P then row q
        else if q = P then T0
        else if q = P + 1 then T1
        else if q = P + 2 then T2
        else if q < M then row q - L q P * T0 - L q (P + 1) * T1 - L q (P + 2) * T2
        else if q = M then row M - T0 * T0 - T1 * T1 - T2 * T2
        else row q := by
  have v1 : colstep L M (P + 1) (colstep L M P row) (P + 1) = T1 := by
    rw [colstep_same, colstep_mid L M P row (P + 1) (by omega) (by omega), h0, h1]
  have v2 : colstep L M (P + 2) (colstep L M (P + 1) (colstep L M P row)) (P + 2) = T2 := by
    rw [colstep_same, colstep_mid L M (P + 1) _ (P + 2) (by omega) (by omega),
      colstep_mid L M P row (P + 2) (by omega) (by omega),
      colstep_mid L M P row (P + 1) (by omega) (by omega), h0, h1, h2]
  have w1' : colstep L M P row (P + 1) / L (P + 1) (P + 1) = T1 := by
    rw [colstep_mid L M P row (P + 1) (by omega) (by omega), h0, h1]
  have w2 : colstep L M (P + 1) (colstep L M P row) (P + 2) / L (P + 2) (P + 2) = T2 := by
    rw [colstep_mid L M (P + 1) _ (P + 2) (by omega) (by omega),
      colstep_mid L M P row (P + 2) (by omega) (by omega), w1', h0, h2]
  by_cases c0 : q < P
  · rw [if_pos c0, colstep_lt _ _ _ _ _ (by omega), colstep_lt _ _ _ _ _ (by omega),
      colstep_lt _ _ _ _ _ c0]
  · rw [if_neg c0]
    by_cases e0 : q = P
    · rw [if_pos e0, e0, colstep_lt _ _ _ _ _ (by omega), colstep_lt _ _ _ _ _ (by omega),
        colstep_same, h0]
    · rw [if_neg e0]
      by_cases e1 : q = P + 1
      · rw [if_pos e1, e1, colstep_lt _ _ _ _ _ (by omega), v1]
      · rw [if_neg e1]
        by_cases e2 : q = P + 2
        · rw [if_pos e2, e2, v2]
        · rw [if_neg e2]
          by_cases cM : q < M
          · rw [if_pos cM, colstep_mid L M (P + 2) _ q (by omega) cM,
              colstep_mid L M (P + 1) _ q (by omega) cM,
              colstep_mid L M P row q (by omega) cM, w2, w1', h0]
          · rw [if_neg cM]
            by_cases eM : q = M
            · rw [if_pos eM, eM, colstep_last L M (P + 2) _ (by omega),
                colstep_last L M (P + 1) _ (by omega), colstep_last L M P row (by omega),
                w2, w1', h0]
            · rw [if_neg eM, colstep_gt _ _ _ _ _ (by omega) (by omega),
                colstep_gt _ _ _ _ _ (by omega) (by omega),
                colstep_gt _ _ _ _ _ (by omega) (by omega)]

/-- The body of the sweep of `update` over one axis of one block of `ecL` is the
forward substitution on its three columns. -/
theorem update_block_colsteps [Field α] (N : Nat) (D nd icL : Nat → Nat → α)
    (ic_num i k : Nat) (row : Nat → α) (hi : i < N) (hk : k < 2) :
    update_block N D nd icL ic_num (ic_num + N * SMPC_NUM_STATE_VAR) i k row
      = colstep (Lfull N D nd icL) (6 * N + ic_num) (6 * i + 3 * k + 2)
          (colstep (Lfull N D nd icL) (6 * N + ic_num) (6 * i + 3 * k + 1)
            (colstep (Lfull N D nd icL) (6 * N + ic_num) (6 * i + 3 * k) row)) := by
  have L00 : Lfull N D nd icL (6 * i + 3 * k) (6 * i + 3 * k) = D i 0 := by
    have := Lfull_diag_block N D nd icL i k 0 0 hi hk (by omega) (by omega)
    simpa using this
  have L10 : Lfull N D nd icL (6 * i + 3 * k + 1) (6 * i + 3 * k) = D i 1 := by
    have := Lfull_diag_block N D nd icL i k 1 0 hi hk (by omega) (by omega)
    simpa using this
  have L11 : Lfull N D nd icL (6 * i + 3 * k + 1) (6 * i + 3 * k + 1) = D i 4 := by
    have := Lfull_diag_block N D nd icL i k 1 1 hi hk (by omega) (by omega)
    simpa using this
  have L20 : Lfull N D nd icL (6 * i + 3 * k + 2) (6 * i + 3 * k) = D i 2 := by
    have := Lfull_diag_block N D nd icL i k 2 0 hi hk (by omega) (by omega)
    simpa using this
  have L21 : Lfull N D nd icL (6 * i + 3 * k + 2) (6 * i + 3 * k + 1) = D i 5 := by
    have := Lfull_diag_block N D nd icL i k 2 1 hi hk (by omega) (by omega)
    simpa using this
  have L22 : Lfull N D nd icL (6 * i + 3 * k + 2) (6 * i + 3 * k + 2) = D i 8 := by
    have := Lfull_diag_block N D nd icL i k 2 2 hi hk (by omega) (by omega)
    simpa using this
  -- the entries of `L` under the block, in the three columns
  have Lnext : i + 1 < N → ∀ m m', m < 3 → m' < 3 →
      Lfull N D nd icL (6 * i + 3 * k + 6 + m) (6 * i + 3 * k + m')
        = if m ≤ m' then nd i (3 * m' + m) else 0 :=
    fun h m m' hm hm' => Lfull_next_block N D nd icL i k m m' h hk hm hm'
  have Lzero : ∀ q m', m' < 3 → 6 * i + 3 * k + 2 < q → q < 6 * N →
      ¬ (i + 1 < N ∧ 6 * i + 3 * k + 6 ≤ q ∧ q ≤ 6 * i + 3 * k + 8) →
      Lfull N D nd icL q (6 * i + 3 * k + m') = 0 := by
    intro q m' hm' h1 h2 h3
    apply Lfull_ecL_zero N D nd icL q _ h2
    omega
  have Licl : ∀ q m', m' < 3 → 6 * N ≤ q →
      Lfull N D nd icL q (6 * i + 3 * k + m') = icL (q - 6 * N) (6 * i + 3 * k + m') :=
    fun q m' hm' h => Lfull_icL N D nd icL q _ h (by omega)
  have hP2 : 6 * i + 3 * k + 2 < 6 * N := by omega
  funext q
  unfold update_block
  simp only [SMPC_NUM_STATE_VAR]
  rw [Nat.mul_comm i 6, Nat.mul_comm N 6, Nat.add_comm ic_num (6 * N), update_block_solve_eq]
  generalize hP : 6 * i + 3 * k = P at *
  generalize hM : 6 * N + ic_num = M at *
  have e10 : P + 1 ≠ P := by omega
  have e20 : P + 2 ≠ P := by omega
  have e21 : P + 2 ≠ P + 1 := by omega
  have e01 : P ≠ P + 1 := by omega
  have e02 : P ≠ P + 2 := by omega
  have e12 : P + 1 ≠ P + 2 := by omega
  simp only [Function.update_same, Function.update_noteq e01, Function.update_noteq e02,
    Function.update_noteq e12]
  generalize h0 : row P / D i 0 = T0
  generalize h1 : (row (P + 1) - T0 * D i 1) / D i 4 = T1
  generalize h2 : (row (P + 2) - (T0 * D i 2 + T1 * D i 5)) / D i 8 = T2
  have h0' : row P / Lfull N D nd icL P P = T0 := by rw [L00, h0]
  have h1' : (row (P + 1) - Lfull N D nd icL (P + 1) P * T0) / Lfull N D nd icL (P + 1) (P + 1)
      = T1 := by rw [L10, L11, ← h1, mul_comm]
  have h2' : (row (P + 2) - Lfull N D nd icL (P + 2) P * T0
        - Lfull N D nd icL (P + 2) (P + 1) * T1) / Lfull N D nd icL (P + 2) (P + 2) = T2 := by
    rw [L20, L21, L22, ← h2]
    congr 1
    ring
  rw [colstep3_entry (Lfull N D nd icL) M P row (by omega) T0 T1 T2 h0' h1' h2' q]
  rw [loopUp_offset (fun j a => a - (T0 * icL j P + T1 * icL j (P + 1) + T2 * icL j (P + 2)))]
  -- the row `R` after the solve and the row `Q` after the coupling
  have hR : ∀ x, Function.update (Function.update (Function.update row P T0) (P + 1) T1)
      (P + 2) T2 x
        = if x = P + 2 then T2 else if x = P + 1 then T1 else if x = P then T0 else row x := by
    intro x
    simp only [Function.update_apply]
  generalize Function.update (Function.update (Function.update row P T0) (P + 1) T1)
    (P + 2) T2 = R at hR ⊢
  have hQ : ∀ x, (if (i : Int) < (N : Int) - 1 then update_block_couple (nd i) P T0 T1 T2 R
      else R) x
        = if i + 1 < N ∧ x = P + 8 then R (P + 8) - T2 * nd i 8
          else if i + 1 < N ∧ x = P + 7 then R (P + 7) - (T1 * nd i 4 + T2 * nd i 7)
          else if i + 1 < N ∧ x = P + 6 then
            R (P + 6) - (T0 * nd i 0 + T1 * nd i 3 + T2 * nd i 6)
          else R x := by
    intro x
    by_cases hn : i + 1 < N
    · have hn' : (i : Int) < (N : Int) - 1 := by omega
      rw [if_pos hn', update_block_couple_eq]
      simp only [Function.update_apply, hn, true_and]
    · have hn' : ¬ (i : Int) < (N : Int) - 1 := by omega
      rw [if_neg hn']
      simp only [hn, false_and, if_false]
  generalize (if (i : Int) < (N : Int) - 1 then update_block_couple (nd i) P T0 T1 T2 R
      else R) = Q at hQ ⊢
  have hP8 : i + 1 < N → P + 8 < 6 * N := by intro h; omega
  have Rrow : ∀ x, (x < P ∨ P + 2 < x) → R x = row x := by
    intro x hx
    rw [hR]
    have g2 : x ≠ P + 2 := by omega
    have g1 : x ≠ P + 1 := by omega
    have g0 : x ≠ P := by omega
    simp only [g2, g1, g0, if_false]
  have RP0 : R P = T0 := by
    rw [hR]; simp only [e02, e01, if_false, if_true]
  have RP1 : R (P + 1) = T1 := by
    rw [hR]; simp only [e12, if_false, if_true]
  have RP2 : R (P + 2) = T2 := by
    rw [hR]; simp only [if_true]
  have QR : ∀ x, ¬ (i + 1 < N ∧ P + 6 ≤ x ∧ x ≤ P + 8) → Q x = R x := by
    intro x hx
    rw [hQ]
    have g8 : ¬ (i + 1 < N ∧ x = P + 8) := by omega
    have g7 : ¬ (i + 1 < N ∧ x = P + 7) := by omega
    have g6 : ¬ (i + 1 < N ∧ x = P + 6) := by omega
    simp only [g8, g7, g6, if_false]
  have Q6 : i + 1 < N → Q (P + 6) = row (P + 6) - (T0 * nd i 0 + T1 * nd i 3 + T2 * nd i 6) := by
    intro hn
    rw [hQ, Rrow (P + 6) (Or.inr (by omega))]
    simp [hn]
  have Q7 : i + 1 < N → Q (P + 7) = row (P + 7) - (T1 * nd i 4 + T2 * nd i 7) := by
    intro hn
    rw [hQ, Rrow (P + 7) (Or.inr (by omega))]
    simp [hn]
  have Q8 : i + 1 < N → Q (P + 8) = row (P + 8) - T2 * nd i 8 := by
    intro hn
    rw [hQ, Rrow (P + 8) (Or.inr (by omega))]
    simp [hn]
  simp only [Function.update_apply, Nat.add_zero]
  by_cases cA : q < P
  · have f1 : ¬ (6 * N ≤ q ∧ q < 6 * N + ic_num) := by omega
    have f2 : q ≠ M := by omega
    rw [if_neg f1, if_neg f2, if_pos cA, QR q (by omega), Rrow q (Or.inl cA)]
  · rw [if_neg cA]
    by_cases cB : q = P
    · have f1 : ¬ (6 * N ≤ q ∧ q < 6 * N + ic_num) := by omega
      have f2 : q ≠ M := by omega
      rw [if_neg f1, if_neg f2, if_pos cB, QR q (by omega), cB, RP0]
    · rw [if_neg cB]
      by_cases cC : q = P + 1
      · have f1 : ¬ (6 * N ≤ q ∧ q < 6 * N + ic_num) := by omega
        have f2 : q ≠ M := by omega
        rw [if_neg f1, if_neg f2, if_pos cC, QR q (by omega), cC, RP1]
      · rw [if_neg cC]
        by_cases cD : q = P + 2
        · have f1 : ¬ (6 * N ≤ q ∧ q < 6 * N + ic_num) := by omega
          have f2 : q ≠ M := by omega
          rw [if_neg f1, if_neg f2, if_pos cD, QR q (by omega), cD, RP2]
        · rw [if_neg cD]
          by_cases cM : q < M
          · rw [if_pos cM]
            have f2 : q ≠ M := by omega
            by_cases cF : 6 * N ≤ q
            · have f1 : 6 * N ≤ q ∧ q < 6 * N + ic_num := by omega
              rw [if_pos f1, if_neg f2, QR q (by omega), Rrow q (Or.inr (by omega))]
              have l0 := Licl q 0 (by omega) cF
              have l1 := Licl q 1 (by omega) cF
              have l2 := Licl q 2 (by omega) cF
              rw [Nat.add_zero] at l0
              rw [l0, l1, l2]
              ring
            · have f1 : ¬ (6 * N ≤ q ∧ q < 6 * N + ic_num) := by omega
              rw [if_neg f1, if_neg f2]
              by_cases cE : i + 1 < N ∧ P + 6 ≤ q ∧ q ≤ P + 8
              · obtain ⟨hn, hq1, hq2⟩ := cE
                have hq : q = P + 6 ∨ q = P + 7 ∨ q = P + 8 := by omega
                rcases hq with hq | hq | hq
                · subst hq
                  have l0 := Lnext hn 0 0 (by omega) (by omega)
                  have l1 := Lnext hn 0 1 (by omega) (by omega)
                  have l2 := Lnext hn 0 2 (by omega) (by omega)
                  simp only [Nat.add_zero, le_refl, Nat.zero_le, if_true, Nat.mul_zero,
                    Nat.mul_one] at l0 l1 l2
                  rw [Q6 hn, l0, l1, l2]
                  ring
                · subst hq
                  have l0 := Lnext hn 1 0 (by omega) (by omega)
                  have l1 := Lnext hn 1 1 (by omega) (by omega)
                  have l2 := Lnext hn 1 2 (by omega) (by omega)
                  simp at l0 l1 l2
                  rw [Q7 hn, l0, l1, l2]
                  ring
                · subst hq
                  have l0 := Lnext hn 2 0 (by omega) (by omega)
                  have l1 := Lnext hn 2 1 (by omega) (by omega)
                  have l2 := Lnext hn 2 2 (by omega) (by omega)
                  simp at l0 l1 l2
                  rw [Q8 hn, l0, l1, l2]
                  ring
              · have l0 := Lzero q 0 (by omega) (by omega) (by omega) cE
                have l1 := Lzero q 1 (by omega) (by omega) (by omega) cE
                have l2 := Lzero q 2 (by omega) (by omega) (by omega) cE
                rw [Nat.add_zero] at l0
                rw [QR q cE, Rrow q (Or.inr (by omega)), l0, l1, l2]
                ring
          · rw [if_neg cM]
            have f1 : ¬ (6 * N ≤ q ∧ q < 6 * N + ic_num) := by omega
            rw [if_neg f1]
            by_cases cG : q = M
            · rw [if_pos cG, if_pos cG, QR M (by omega), Rrow M (Or.inr (by omega))]
              ring
            · rw [if_neg cG, if_neg cG, QR q (by omega), Rrow q (Or.inr (by omega))]

/-- The body of the sweep of `update` over the rows of `icL` is the forward
substitution on one column. -/
theorem update_tail_colstep [Field α] (N : Nat) (D nd icL : Nat → Nat → α)
    (ic_num k : Nat) (row : Nat → α) (hk : k < ic_num) :
    update_tail N icL ic_num (ic_num + N * SMPC_NUM_STATE_VAR) k row
      = colstep (Lfull N D nd icL) (6 * N + ic_num) (6 * N + k) row := by
  have LPP : Lfull N D nd icL (6 * N + k) (6 * N + k) = icL k (6 * N + k) := by
    rw [Lfull_icL N D nd icL _ _ (by omega) (le_refl _), Nat.add_sub_cancel_left]
  have LqP : ∀ q, 6 * N + k < q →
      Lfull N D nd icL q (6 * N + k) = icL (q - 6 * N) (6 * N + k) :=
    fun q hq => Lfull_icL N D nd icL q _ (by omega) (by omega)
  funext q
  unfold update_tail
  simp only [SMPC_NUM_STATE_VAR]
  rw [Nat.mul_comm N 6, Nat.add_comm ic_num (6 * N)]
  generalize hP : 6 * N + k = P at *
  generalize hM : 6 * N + ic_num = M at *
  simp only [Function.update_same]
  generalize h0 : row P / icL k P = T0
  have h0' : row P / Lfull N D nd icL P P = T0 := by rw [LPP, h0]
  rw [loopUp_offset (fun j a => a - T0 * icL j P)]
  simp only [Function.update_apply]
  have eMP : M ≠ P := by omega
  by_cases cA : q < P
  · have f1 : ¬ (6 * N + (k + 1) ≤ q ∧ q < 6 * N + (k + 1) + (ic_num - (k + 1))) := by omega
    have f2 : q ≠ M := by omega
    have f3 : q ≠ P := by omega
    rw [if_neg f1, if_neg f2, if_neg f3, colstep_lt _ _ _ _ _ cA]
  · by_cases cB : q = P
    · have f1 : ¬ (6 * N + (k + 1) ≤ q ∧ q < 6 * N + (k + 1) + (ic_num - (k + 1))) := by omega
      have f2 : q ≠ M := by omega
      rw [if_neg f1, if_neg f2, if_pos cB, cB, colstep_same, h0']
    · by_cases cM : q < M
      · have f1 : 6 * N + (k + 1) ≤ q ∧ q < 6 * N + (k + 1) + (ic_num - (k + 1)) := by omega
        have f2 : q ≠ M := by omega
        rw [if_pos f1, if_neg f2, if_neg cB, colstep_mid _ _ _ _ _ (by omega) cM, h0',
          LqP q (by omega)]
        ring
      · have f1 : ¬ (6 * N + (k + 1) ≤ q ∧ q < 6 * N + (k + 1) + (ic_num - (k + 1))) := by
          omega
        rw [if_neg f1]
        by_cases cG : q = M
        · rw [if_pos cG, cG, if_neg eMP, colstep_last _ _ _ _ (by omega), h0']
        · rw [if_neg cG, if_neg cB, colstep_gt _ _ _ _ _ (by omega) (by omega)]

/-- The row built by `form_sa_row` is zero before the offset of the constraint. -/
theorem form_sa_row_zero_before [Field α] (ppar : problem_parameters α) (c : constraint α)
    (ic_len : Nat) (row : Nat → α) (j : Nat) (h1 : j < c.ind) (h2 : j < ic_len) :
    form_sa_row ppar c ic_len row j = 0 := by
  have e0 : j ≠ c.ind := by omega
  have e3 : j ≠ c.ind + 3 := by omega
  have e6 : j ≠ c.ind + 6 := by omega
  have e9 : j ≠ c.ind + 9 := by omega
  have eL : j ≠ ic_len := by omega
  unfold form_sa_row
  by_cases h : ((c.ind / SMPC_NUM_STATE_VAR : Nat) : Int) ≠ (ppar.N : Int) - 1
  · simp only [h, if_true, Function.update_apply, e0, e3, e6, e9, eL, if_false, h2, ne_eq,
      not_false_eq_true]
  · simp only [h, if_false, Function.update_apply, e0, e3, eL, h2, if_true]

/-- The forward substitution starts from the row of `form_sa_row`. -/
theorem fwd_inv_start [Field α] (L : Nat → Nat → α) (s : Nat → α) (M P : Nat)
    (hz : ∀ j, j < P → s j = 0) : fwd_inv L s M P s := by
  have hsum : ∀ r, ∑ c ∈ Finset.range P, L r c * s c = 0 := by
    intro r
    apply Finset.sum_eq_zero
    intro c hc
    rw [hz c (Finset.mem_range.mp hc), mul_zero]
  have hsq : ∑ c ∈ Finset.range P, s c * s c = 0 := by
    apply Finset.sum_eq_zero
    intro c hc
    rw [hz c (Finset.mem_range.mp hc), mul_zero]
  refine ⟨?_, ?_, ?_⟩
  · intro r hr
    rw [hsum, hz r hr]
  · intro r _ _
    rw [hsum, sub_zero]
  · rw [hsq, sub_zero]

/-- The sweep of `update` over the blocks `state_num, ..., state_num + n - 1`
of `ecL` finishes the columns below `6 (state_num + n)`. -/
theorem update_sweep_ecL [Field α] (N : Nat) (D nd icL : Nat → Nat → α) (ic_num : Nat)
    (s : Nat → α) (state_num : Nat)
    (hD : ∀ i, i < N → D i 0 ≠ 0 ∧ D i 4 ≠ 0 ∧ D i 8 ≠ 0)
    (hz : ∀ j, j < 6 * state_num → s j = 0) :
    ∀ n, state_num + n ≤ N →
      fwd_inv (Lfull N D nd icL) s (6 * N + ic_num) (6 * (state_num + n))
        (loopUp (fun i r =>
            loopUp (fun k r =>
                update_block N D nd icL ic_num (ic_num + N * SMPC_NUM_STATE_VAR) i k r)
              0 2 r)
          state_num n s) := by
  intro n
  induction n with
  | zero =>
    intro _
    exact fwd_inv_start _ _ _ _ hz
  | succ n ih =>
    intro hn
    have hi : state_num + n < N := by omega
    obtain ⟨d0, d4, d8⟩ := hD _ hi
    have ih' := ih (by omega)
    rw [loopUp]
    generalize loopUp _ state_num n s = row at ih' ⊢
    have e2 : loopUp (fun k r =>
          update_block N D nd icL ic_num (ic_num + N * SMPC_NUM_STATE_VAR) (state_num + n) k r)
        0 2 row
        = update_block N D nd icL ic_num (ic_num + N * SMPC_NUM_STATE_VAR) (state_num + n) 1
          (update_block N D nd icL ic_num (ic_num + N * SMPC_NUM_STATE_VAR) (state_num + n) 0
            row) := rfl
    rw [e2, update_block_colsteps N D nd icL ic_num _ 1 _ hi (by omega),
      update_block_colsteps N D nd icL ic_num _ 0 _ hi (by omega)]
    have dg : ∀ k m, k < 2 → m < 3 →
        Lfull N D nd icL (6 * (state_num + n) + 3 * k + m) (6 * (state_num + n) + 3 * k + m)
          ≠ 0 := by
      intro k m hk hm
      rw [Lfull_diag_block N D nd icL _ k m m hi hk hm hm, if_pos (le_refl _)]
      have : m = 0 ∨ m = 1 ∨ m = 2 := by omega
      rcases this with h | h | h <;> subst h <;> assumption
    have up : ∀ P r, r < P → Lfull N D nd icL r P = 0 :=
      fun P r h => Lfull_upper N D nd icL r P h
    have s0 := colstep_inv _ _ _ _ _ ih' (by omega) (dg 0 0 (by omega) (by omega)) (up _)
    have s1 := colstep_inv _ _ _ _ _ s0 (by omega) (dg 0 1 (by omega) (by omega)) (up _)
    have s2 := colstep_inv _ _ _ _ _ s1 (by omega) (dg 0 2 (by omega) (by omega)) (up _)
    have s3 := colstep_inv _ _ _ _ _ s2 (by omega) (dg 1 0 (by omega) (by omega)) (up _)
    have s4 := colstep_inv _ _ _ _ _ s3 (by omega) (dg 1 1 (by omega) (by omega)) (up _)
    have s5 := colstep_inv _ _ _ _ _ s4 (by omega) (dg 1 2 (by omega) (by omega)) (up _)
    have e : 6 * (state_num + (n + 1)) = 6 * (state_num + n) + 3 * 1 + 2 + 1 := by omega
    rw [e]
    exact s5

/-- The sweep of `update` over the first `n` rows of `icL` finishes the columns
below `6N + n`. -/
theorem update_sweep_icL [Field α] (N : Nat) (D nd icL : Nat → Nat → α) (ic_num : Nat)
    (s : Nat → α) (row0 : Nat → α)
    (hI : ∀ k, k < ic_num → icL k (6 * N + k) ≠ 0)
    (h0 : fwd_inv (Lfull N D nd icL) s (6 * N + ic_num) (6 * N) row0) :
    ∀ n, n ≤ ic_num →
      fwd_inv (Lfull N D nd icL) s (6 * N + ic_num) (6 * N + n)
        (loopUp (fun k r => update_tail N icL ic_num (ic_num + N * SMPC_NUM_STATE_VAR) k r)
          0 n row0) := by
  intro n
  induction n with
  | zero =>
    intro _
    exact h0
  | succ n ih =>
    intro hn
    have ih' := ih (by omega)
    rw [loopUp]
    generalize loopUp _ 0 n row0 = row at ih' ⊢
    rw [Nat.zero_add, update_tail_colstep N D nd icL ic_num n row (by omega)]
    have dg : Lfull N D nd icL (6 * N + n) (6 * N + n) ≠ 0 := by
      rw [Lfull_icL N D nd icL _ _ (by omega) (le_refl _), Nat.add_sub_cancel_left]
      exact hI n (by omega)
    exact colstep_inv _ _ _ _ _ ih' (show 6 * N + n < 6 * N + ic_num by omega) dg
      (fun r h => Lfull_upper N D nd icL r _ h)

/-- The row of `update` before the square root: all the rows of `L * l = s`
hold and the last entry holds `s[last]` minus the squares of the others. -/
theorem update_row_inv [Field α] (ppar : problem_parameters α) (c : constraint α)
    (ic_num state_num : Nat) (S : chol_solve_as α)
    (hD : ∀ i, i < ppar.N → S.ecL_diag i 0 ≠ 0 ∧ S.ecL_diag i 4 ≠ 0 ∧ S.ecL_diag i 8 ≠ 0)
    (hI : ∀ k, k < ic_num → S.icL k (6 * ppar.N + k) ≠ 0)
    (hc : c.ind = 6 * state_num) (hst : state_num < ppar.N) :
    fwd_inv (Lfull ppar.N S.ecL_diag S.ecL_ndiag S.icL)
      (form_sa_row ppar c (ic_num + ppar.N * SMPC_NUM_STATE_VAR) (S.icL ic_num))
      (6 * ppar.N + ic_num) (6 * ppar.N + ic_num)
      (update_row ppar c ic_num state_num S) := by
  unfold update_row
  have hz : ∀ j, j < 6 * state_num →
      form_sa_row ppar c (ic_num + ppar.N * SMPC_NUM_STATE_VAR) (S.icL ic_num) j = 0 := by
    intro j hj
    apply form_sa_row_zero_before
    · omega
    · simp only [SMPC_NUM_STATE_VAR]; omega
  have h1 := update_sweep_ecL ppar.N S.ecL_diag S.ecL_ndiag S.icL ic_num _ state_num hD hz
    (ppar.N - state_num) (by omega)
  have e : 6 * (state_num + (ppar.N - state_num)) = 6 * ppar.N := by omega
  rw [e] at h1
  exact update_sweep_icL ppar.N S.ecL_diag S.ecL_ndiag S.icL ic_num _ _ hI h1 ic_num (le_refl _)

/-- C1: let `L` be the lower-triangular factor assembled from the blocks of
`ecL` (as `update` indexes them) and the rows `icL[0 .. ic_num)`, with
non-zero diagonal entries, and `s` the row built by `form_sa_row` for the
activated constraint (offset `6 * state_num`). After `update` the new row
`l = icL[ic_num]` satisfies `sum_c L[r][c] * l[c] = s[r]` for every row `r` of
`L`, its last entry is the square root of `s[last] - sum_{c < last} l[c]^2`,
and when that value is non-negative the last entry `d` has `d ≥ 0` and
`d^2 + sum_{c < last} l[c]^2 = s[last]`. The other rows of `icL` and `ecL` are
left as they are. -/
theorem update_row_solves [LinearOrderedField α] (sqrt : α → α) (hs : IsSqrt sqrt)
    (ppar : problem_parameters α) (c : constraint α) (ic_num state_num : Nat)
    (S : chol_solve_as α)
    (hD : ∀ i, i < ppar.N → S.ecL_diag i 0 ≠ 0 ∧ S.ecL_diag i 4 ≠ 0 ∧ S.ecL_diag i 8 ≠ 0)
    (hI : ∀ k, k < ic_num → S.icL k (6 * ppar.N + k) ≠ 0)
    (hc : c.ind = 6 * state_num) (hst : state_num < ppar.N) :
    (∀ r, r < 6 * ppar.N + ic_num →
      ∑ j ∈ Finset.range (6 * ppar.N + ic_num),
        Lfull ppar.N S.ecL_diag S.ecL_ndiag S.icL r j
          * (update sqrt ppar c ic_num state_num S).icL ic_num j
        = form_sa_row ppar c (ic_num + ppar.N * SMPC_NUM_STATE_VAR) (S.icL ic_num) r) ∧
    (update sqrt ppar c ic_num state_num S).icL ic_num (6 * ppar.N + ic_num)
      = sqrt (form_sa_row ppar c (ic_num + ppar.N * SMPC_NUM_STATE_VAR) (S.icL ic_num)
            (6 * ppar.N + ic_num)
          - ∑ j ∈ Finset.range (6 * ppar.N + ic_num),
              (update sqrt ppar c ic_num state_num S).icL ic_num j
                * (update sqrt ppar c ic_num state_num S).icL ic_num j) ∧
    (0 ≤ form_sa_row ppar c (ic_num + ppar.N * SMPC_NUM_STATE_VAR) (S.icL ic_num)
            (6 * ppar.N + ic_num)
          - ∑ j ∈ Finset.range (6 * ppar.N + ic_num),
              (update sqrt ppar c ic_num state_num S).icL ic_num j
                * (update sqrt ppar c ic_num state_num S).icL ic_num j →
      0 ≤ (update sqrt ppar c ic_num state_num S).icL ic_num (6 * ppar.N + ic_num) ∧
      (update sqrt ppar c ic_num state_num S).icL ic_num (6 * ppar.N + ic_num)
          * (update sqrt ppar c ic_num state_num S).icL ic_num (6 * ppar.N + ic_num)
        + ∑ j ∈ Finset.range (6 * ppar.N + ic_num),
            (update sqrt ppar c ic_num state_num S).icL ic_num j
              * (update sqrt ppar c ic_num state_num S).icL ic_num j
        = form_sa_row ppar c (ic_num + ppar.N * SMPC_NUM_STATE_VAR) (S.icL ic_num)
            (6 * ppar.N + ic_num)) ∧
    (∀ k, k ≠ ic_num → (update sqrt ppar c ic_num state_num S).icL k = S.icL k) ∧
    (update sqrt ppar c ic_num state_num S).ecL_diag = S.ecL_diag ∧
    (update sqrt ppar c ic_num state_num S).ecL_ndiag = S.ecL_ndiag := by
  obtain ⟨hA, _, hC⟩ := update_row_inv ppar c ic_num state_num S hD hI hc hst
  have hl : ∀ j, j < 6 * ppar.N + ic_num →
      (update sqrt ppar c ic_num state_num S).icL ic_num j
        = update_row ppar c ic_num state_num S j := by
    intro j hj
    have e : j ≠ ic_num + ppar.N * SMPC_NUM_STATE_VAR := by
      simp only [SMPC_NUM_STATE_VAR]; omega
    simp only [update, Function.update_same, Function.update_noteq e]
  have hlast : (update sqrt ppar c ic_num state_num S).icL ic_num (6 * ppar.N + ic_num)
      = sqrt (update_row ppar c ic_num state_num S (6 * ppar.N + ic_num)) := by
    have e : 6 * ppar.N + ic_num = ic_num + ppar.N * SMPC_NUM_STATE_VAR := by
      simp only [SMPC_NUM_STATE_VAR]; omega
    rw [e]
    simp only [update, Function.update_same]
  have hsq : ∑ j ∈ Finset.range (6 * ppar.N + ic_num),
        (update sqrt ppar c ic_num state_num S).icL ic_num j
          * (update sqrt ppar c ic_num state_num S).icL ic_num j
      = ∑ j ∈ Finset.range (6 * ppar.N + ic_num),
        update_row ppar c ic_num state_num S j * update_row ppar c ic_num state_num S j := by
    apply Finset.sum_congr rfl
    intro j hj
    rw [hl j (Finset.mem_range.mp hj)]
  have hrad : form_sa_row ppar c (ic_num + ppar.N * SMPC_NUM_STATE_VAR) (S.icL ic_num)
        (6 * ppar.N + ic_num)
      - ∑ j ∈ Finset.range (6 * ppar.N + ic_num),
          (update sqrt ppar c ic_num state_num S).icL ic_num j
            * (update sqrt ppar c ic_num state_num S).icL ic_num j
      = update_row ppar c ic_num state_num S (6 * ppar.N + ic_num) := by
    rw [hsq, hC]
  refine ⟨?_, ?_, ?_, ?_, rfl, rfl⟩
  · intro r hr
    rw [← hA r hr]
    apply Finset.sum_congr rfl
    intro j hj
    rw [hl j (Finset.mem_range.mp hj)]
  · rw [hrad, hlast]
  · intro hnn
    rw [hrad] at hnn
    obtain ⟨h1, h2⟩ := hs _ hnn
    rw [hlast, hsq]
    refine ⟨h1, ?_⟩
    rw [h2, hC]
    ring
  · intro k hk
    simp only [update, Function.update_noteq hk]

/-- A concrete instance of C1 over the reals: `N = 1`, unit blocks in `ecL`,
two rows in `icL`, a third row added. -/
theorem update_row_solves_witness :
    (∀ r, r < 6 * (ex_ppar ℝ).N + 2 →
      ∑ j ∈ Finset.range (6 * (ex_ppar ℝ).N + 2),
        Lfull (ex_ppar ℝ).N (ex_S2 ℝ).ecL_diag (ex_S2 ℝ).ecL_ndiag (ex_S2 ℝ).icL r j
          * (update Real.sqrt (ex_ppar ℝ) (ex_c ℝ) 2 0 (ex_S2 ℝ)).icL 2 j
        = form_sa_row (ex_ppar ℝ) (ex_c ℝ) (2 + (ex_ppar ℝ).N * SMPC_NUM_STATE_VAR)
            ((ex_S2 ℝ).icL 2) r) ∧
    (update Real.sqrt (ex_ppar ℝ) (ex_c ℝ) 2 0 (ex_S2 ℝ)).icL 2 (6 * (ex_ppar ℝ).N + 2)
      = Real.sqrt (form_sa_row (ex_ppar ℝ) (ex_c ℝ) (2 + (ex_ppar ℝ).N * SMPC_NUM_STATE_VAR)
            ((ex_S2 ℝ).icL 2) (6 * (ex_ppar ℝ).N + 2)
          - ∑ j ∈ Finset.range (6 * (ex_ppar ℝ).N + 2),
              (update Real.sqrt (ex_ppar ℝ) (ex_c ℝ) 2 0 (ex_S2 ℝ)).icL 2 j
                * (update Real.sqrt (ex_ppar ℝ) (ex_c ℝ) 2 0 (ex_S2 ℝ)).icL 2 j) ∧
    (0 ≤ form_sa_row (ex_ppar ℝ) (ex_c ℝ) (2 + (ex_ppar ℝ).N * SMPC_NUM_STATE_VAR)
            ((ex_S2 ℝ).icL 2) (6 * (ex_ppar ℝ).N + 2)
          - ∑ j ∈ Finset.range (6 * (ex_ppar ℝ).N + 2),
              (update Real.sqrt (ex_ppar ℝ) (ex_c ℝ) 2 0 (ex_S2 ℝ)).icL 2 j
                * (update Real.sqrt (ex_ppar ℝ) (ex_c ℝ) 2 0 (ex_S2 ℝ)).icL 2 j →
      0 ≤ (update Real.sqrt (ex_ppar ℝ) (ex_c ℝ) 2 0 (ex_S2 ℝ)).icL 2 (6 * (ex_ppar ℝ).N + 2) ∧
      (update Real.sqrt (ex_ppar ℝ) (ex_c ℝ) 2 0 (ex_S2 ℝ)).icL 2 (6 * (ex_ppar ℝ).N + 2)
          * (update Real.sqrt (ex_ppar ℝ) (ex_c ℝ) 2 0 (ex_S2 ℝ)).icL 2 (6 * (ex_ppar ℝ).N + 2)
        + ∑ j ∈ Finset.range (6 * (ex_ppar ℝ).N + 2),
            (update Real.sqrt (ex_ppar ℝ) (ex_c ℝ) 2 0 (ex_S2 ℝ)).icL 2 j
              * (update Real.sqrt (ex_ppar ℝ) (ex_c ℝ) 2 0 (ex_S2 ℝ)).icL 2 j
        = form_sa_row (ex_ppar ℝ) (ex_c ℝ) (2 + (ex_ppar ℝ).N * SMPC_NUM_STATE_VAR)
            ((ex_S2 ℝ).icL 2) (6 * (ex_ppar ℝ).N + 2)) ∧
    (∀ k, k ≠ 2 →
      (update Real.sqrt (ex_ppar ℝ) (ex_c ℝ) 2 0 (ex_S2 ℝ)).icL k = (ex_S2 ℝ).icL k) ∧
    (update Real.sqrt (ex_ppar ℝ) (ex_c ℝ) 2 0 (ex_S2 ℝ)).ecL_diag = (ex_S2 ℝ).ecL_diag ∧
    (update Real.sqrt (ex_ppar ℝ) (ex_c ℝ) 2 0 (ex_S2 ℝ)).ecL_ndiag = (ex_S2 ℝ).ecL_ndiag :=
  update_row_solves Real.sqrt (fun y hy => ⟨Real.sqrt_nonneg y, Real.mul_self_sqrt hy⟩)
    (ex_ppar ℝ) (ex_c ℝ) 2 0 (ex_S2 ℝ)
    (fun _ _ => ⟨one_ne_zero, one_ne_zero, one_ne_zero⟩)
    (fun k hk => by
      have h : k = 0 ∨ k = 1 := by omega
      rcases h with h | h <;> subst h <;> simp [ex_S2, ex_ppar])
    rfl Nat.one_pos

/-! ## Downdate and fresh build -/

/-- A sum whose terms vanish from `K` on. -/
theorem sum_range_cut [Field α] (f : Nat → α) (K M : Nat) (hKM : K ≤ M)
    (hz : ∀ j, K ≤ j → j < M → f j = 0) :
    ∑ j ∈ Finset.range M, f j = ∑ j ∈ Finset.range K, f j := by
  obtain ⟨d, rfl⟩ : ∃ d, M = K + d := ⟨M - K, by omega⟩
  rw [Finset.sum_range_add]
  have : ∑ x ∈ Finset.range d, f (K + x) = 0 := by
    apply Finset.sum_eq_zero
    intro x hx
    exact hz _ (by omega) (by have := Finset.mem_range.mp hx; omega)
  rw [this, add_zero]

/-- A lower-triangular system with non-zero diagonal has one solution: two
rows that solve the first `K` equations agree on their first `K` entries. -/
theorem tri_unique [Field α] (L : Nat → Nat → α) (M K : Nat) (hKM : K ≤ M)
    (hd : ∀ r, r < K → L r r ≠ 0) (hup : ∀ r c, r < c → L r c = 0) (v w : Nat → α)
    (h : ∀ r, r < K →
      ∑ j ∈ Finset.range M, L r j * v j = ∑ j ∈ Finset.range M, L r j * w j) :
    ∀ r, r < K → v r = w r := by
  intro r
  induction r using Nat.strong_induction_on with
  | _ r ih =>
    intro hr
    have hv : ∀ u : Nat → α, ∑ j ∈ Finset.range M, L r j * u j
        = ∑ j ∈ Finset.range r, L r j * u j + L r r * u r := by
      intro u
      rw [sum_range_cut (fun j => L r j * u j) (r + 1) M (by omega)
        (fun j hj _ => by simp only [hup r j (by omega), zero_mul]), Finset.sum_range_succ]
    have e := h r hr
    rw [hv v, hv w] at e
    have hlow : ∑ j ∈ Finset.range r, L r j * v j = ∑ j ∈ Finset.range r, L r j * w j := by
      apply Finset.sum_congr rfl
      intro j hj
      have hjr := Finset.mem_range.mp hj
      rw [ih j hjr (by omega)]
    rw [hlow] at e
    exact mul_left_cancel₀ (hd r hr) (add_left_cancel e)

/-- A loop that adds up terms. -/
theorem loopUp_sum [Field α] (f : Nat → α) (lo n : Nat) (a : α) :
    loopUp (fun j zn => zn + f j) lo n a = a + ∑ j ∈ Finset.range n, f (lo + j) := by
  induction n with
  | zero => simp [loopUp]
  | succ n ih =>
    rw [loopUp, ih, Finset.sum_range_succ]
    ring

/-- A loop that subtracts terms. -/
theorem loopUp_sub_sum [Field α] (f : Nat → α) (lo n : Nat) (a : α) :
    loopUp (fun j zn => zn - f j) lo n a = a - ∑ j ∈ Finset.range n, f (lo + j) := by
  induction n with
  | zero => simp [loopUp]
  | succ n ih =>
    rw [loopUp, ih, Finset.sum_range_succ]
    ring

/-- The entries of the row of `form_sa_row` in the columns of `ecL` do not
depend on the position of the row nor on the storage it is built in. -/
theorem form_sa_row_low [Field α] (ppar : problem_parameters α) (c : constraint α)
    (ic_len ic_len' : Nat) (row row' : Nat → α) (r : Nat) (hr : r < 6 * ppar.N)
    (h1 : 6 * ppar.N ≤ ic_len) (h2 : 6 * ppar.N ≤ ic_len') :
    form_sa_row ppar c ic_len row r = form_sa_row ppar c ic_len' row' r := by
  have eL : r ≠ ic_len := by omega
  have eL' : r ≠ ic_len' := by omega
  have l1 : r < ic_len := by omega
  have l2 : r < ic_len' := by omega
  unfold form_sa_row
  by_cases h : ((c.ind / SMPC_NUM_STATE_VAR : Nat) : Int) ≠ (ppar.N : Int) - 1
  · simp only [h, if_true, Function.update_apply, eL, eL', l1, l2, if_false, ne_eq,
      not_false_eq_true]
  · simp only [h, if_false, Function.update_apply, eL, eL', l1, l2, if_true]

/-- The row of `form_sa_row` is zero between the columns of `ecL` and its
last entry. -/
theorem form_sa_row_mid [Field α] (ppar : problem_parameters α) (c : constraint α)
    (ic_len s : Nat) (row : Nat → α) (hc : c.ind = 6 * s) (hst : s < ppar.N) (r : Nat)
    (h1 : 6 * ppar.N ≤ r) (h2 : r < ic_len) :
    form_sa_row ppar c ic_len row r = 0 := by
  have e0 : r ≠ c.ind := by omega
  have e3 : r ≠ c.ind + 3 := by omega
  have eL : r ≠ ic_len := by omega
  unfold form_sa_row
  by_cases h : ((c.ind / SMPC_NUM_STATE_VAR : Nat) : Int) ≠ (ppar.N : Int) - 1
  · have hs : c.ind / SMPC_NUM_STATE_VAR = s := by
      simp only [SMPC_NUM_STATE_VAR]; omega
    rw [hs] at h
    have e6 : r ≠ c.ind + 6 := by omega
    have e9 : r ≠ c.ind + 9 := by omega
    simp only [hs, h, if_true, Function.update_apply, e0, e3, e6, e9, eL, if_false, h2, ne_eq,
      not_false_eq_true]
  · simp only [h, if_false, Function.update_apply, e0, e3, eL, h2, if_true]

/-- The last entry of the row of `form_sa_row`. -/
theorem form_sa_row_last [Field α] (ppar : problem_parameters α) (c : constraint α)
    (ic_len : Nat) (row : Nat → α) :
    form_sa_row ppar c ic_len row ic_len = ppar.i2Q 0 := by
  simp [form_sa_row]

/-- The row of `form_sa_row` up to its last entry does not depend on the
storage it is built in. -/
theorem form_sa_row_storage [Field α] (ppar : problem_parameters α) (c : constraint α)
    (ic_len s : Nat) (row row' : Nat → α) (hc : c.ind = 6 * s) (hst : s < ppar.N) (r : Nat)
    (h1 : 6 * ppar.N ≤ ic_len) (h2 : r ≤ ic_len) :
    form_sa_row ppar c ic_len row r = form_sa_row ppar c ic_len row' r := by
  by_cases a : r < 6 * ppar.N
  · exact form_sa_row_low ppar c ic_len ic_len row row' r a h1 h1
  · by_cases b : r < ic_len
    · rw [form_sa_row_mid ppar c ic_len s row hc hst r (by omega) b,
        form_sa_row_mid ppar c ic_len s row' hc hst r (by omega) b]
    · have e : r = ic_len := by omega
      rw [e, form_sa_row_last, form_sa_row_last]

/-- The diagonal of `L` in the rows of `ecL`. -/
theorem Lfull_diag_ne [Zero α] (N : Nat) (D nd icL : Nat → Nat → α)
    (hD : ∀ i, i < N → D i 0 ≠ 0 ∧ D i 4 ≠ 0 ∧ D i 8 ≠ 0) (r : Nat) (hr : r < 6 * N) :
    Lfull N D nd icL r r ≠ 0 := by
  unfold Lfull ecL_entry
  simp only [hr, if_true, le_refl]
  obtain ⟨d0, d4, d8⟩ := hD (r / 6) (by omega)
  have h3 : r % 3 = 0 ∨ r % 3 = 1 ∨ r % 3 = 2 := by omega
  rcases h3 with h | h | h
  · rw [h]; exact d0
  · rw [h]; exact d4
  · rw [h]; exact d8

/-- The rows of `L` above row `6N + i` are made of the rows of `icL` before
row `i`, up to their diagonals. -/
theorem Lfull_congr [Zero α] (N : Nat) (D nd A B : Nat → Nat → α) (i : Nat)
    (h : ∀ p, p < i → ∀ c, c ≤ 6 * N + p → A p c = B p c) (r : Nat) (hr : r < 6 * N + i)
    (j : Nat) : Lfull N D nd A r j = Lfull N D nd B r j := by
  by_cases a : r < 6 * N
  · rw [(Lfull_ecL_row N D nd A B r a).1]
  · unfold Lfull
    rw [if_neg a, if_neg a]
    by_cases b : j ≤ r
    · rw [if_pos b, if_pos b]
      exact h (r - 6 * N) (by omega) j (by omega)
    · rw [if_neg b, if_neg b]

/-- Whether row `i` is the row of the factor depends on the rows up to `i`
only, each up to its diagonal. -/
theorem row_ok_congr [LinearOrderedField α] (ppar : problem_parameters α)
    (D ND A B : Nat → Nat → α) (c : constraint α) (i : Nat)
    (h : ∀ p, p ≤ i → ∀ j, j ≤ 6 * ppar.N + p → A p j = B p j)
    (hA : row_ok ppar D ND A c i) : row_ok ppar D ND B c i := by
  obtain ⟨h1, h2, h3⟩ := hA
  have hrow : ∀ j, j ≤ 6 * ppar.N + i → A i j = B i j := h i (le_refl _)
  refine ⟨?_, ?_, ?_⟩
  · intro r hr
    rw [← h1 r hr]
    apply Finset.sum_congr rfl
    intro j hj
    have hj' := Finset.mem_range.mp hj
    rw [Lfull_congr ppar.N D ND A B i (fun p hp => h p (by omega)) r hr j, hrow j (by omega)]
  · rw [← hrow _ (le_refl _)]
    exact h2
  · rw [← h3, ← hrow _ (le_refl _)]
    congr 1
    apply Finset.sum_congr rfl
    intro j hj
    have hj' := Finset.mem_range.mp hj
    rw [hrow j (by omega)]

/-- The diagonal of `L` above row `6N + i` when the rows before `i` are rows
of the factor. -/
theorem Lfull_diag_ok [LinearOrderedField α] (ppar : problem_parameters α)
    (D ND A : Nat → Nat → α) (cs : Nat → constraint α) (i : Nat)
    (hD : ∀ i, i < ppar.N → D i 0 ≠ 0 ∧ D i 4 ≠ 0 ∧ D i 8 ≠ 0)
    (hA : ∀ p, p < i → row_ok ppar D ND A (cs p) p) (r : Nat) (hr : r < 6 * ppar.N + i) :
    Lfull ppar.N D ND A r r ≠ 0 := by
  by_cases a : r < 6 * ppar.N
  · exact Lfull_diag_ne ppar.N D ND A hD r a
  · rw [Lfull_icL ppar.N D ND A r r (by omega) (le_refl _)]
    have := (hA (r - 6 * ppar.N) (by omega)).2.1
    have e : 6 * ppar.N + (r - 6 * ppar.N) = r := by omega
    rw [e] at this
    exact ne_of_gt this

/-- The rows of the factor are determined by the constraints. -/
theorem rows_unique [LinearOrderedField α] (ppar : problem_parameters α)
    (D ND A B : Nat → Nat → α) (cs : Nat → constraint α) (n : Nat)
    (hD : ∀ i, i < ppar.N → D i 0 ≠ 0 ∧ D i 4 ≠ 0 ∧ D i 8 ≠ 0)
    (hA : ∀ i, i < n → row_ok ppar D ND A (cs i) i)
    (hB : ∀ i, i < n → row_ok ppar D ND B (cs i) i) :
    ∀ i, i < n → ∀ c, c ≤ 6 * ppar.N + i → A i c = B i c := by
  intro i
  induction i using Nat.strong_induction_on with
  | _ i ih =>
    intro hi c hc
    have hL := Lfull_congr ppar.N D ND A B i (fun p hp => ih p hp (by omega))
    have key := tri_unique (Lfull ppar.N D ND A) (6 * ppar.N + i) (6 * ppar.N + i) (le_refl _)
      (Lfull_diag_ok ppar D ND A cs i hD (fun p hp => hA p (by omega)))
      (fun r c h => Lfull_upper ppar.N D ND A r c h) (A i) (B i)
      (fun r hr => by
        rw [(hA i hi).1 r hr, ← (hB i hi).1 r hr]
        apply Finset.sum_congr rfl
        intro j _
        rw [hL r hr j])
    by_cases a : c < 6 * ppar.N + i
    · exact key c a
    · have e : c = 6 * ppar.N + i := by omega
      rw [e]
      have sA := (hA i hi).2.2
      have sB := (hB i hi).2.2
      have hs : ∑ j ∈ Finset.range (6 * ppar.N + i), A i j * A i j
          = ∑ j ∈ Finset.range (6 * ppar.N + i), B i j * B i j := by
        apply Finset.sum_congr rfl
        intro j hj
        rw [key j (Finset.mem_range.mp hj)]
      rw [hs, ← sB] at sA
      exact (mul_self_inj (le_of_lt (hA i hi).2.1) (le_of_lt (hB i hi).2.1)).mp
        (add_right_cancel sA)

/-- The entries of `z` under the rows of the factor are determined by the
rows and the right-hand sides. -/
theorem z_unique [Field α] (N : Nat) (A B : Nat → Nat → α) (z z' : Nat → α) (zn : Nat → α) :
    ∀ n, (∀ i, i < n → ∀ c, c ≤ 6 * N + i → A i c = B i c) →
      (∀ i, i < n → A i (6 * N + i) ≠ 0) →
      (∀ j, j < 6 * N → z j = z' j) →
      (∀ i, i < n → z_ok N A z (zn i) i) → (∀ i, i < n → z_ok N B z' (zn i) i) →
      ∀ j, j < 6 * N + n → z j = z' j := by
  intro n
  induction n with
  | zero => intro _ _ h0 _ _ j hj; exact h0 j hj
  | succ n ih =>
    intro hAB hd h0 hz hz' j hj
    have low := ih (fun i hi => hAB i (by omega)) (fun i hi => hd i (by omega)) h0
      (fun i hi => hz i (by omega)) (fun i hi => hz' i (by omega))
    by_cases a : j < 6 * N + n
    · exact low j a
    · have e : j = 6 * N + n := by omega
      rw [e]
      have e1 := hz n (by omega)
      have e2 := hz' n (by omega)
      unfold z_ok at e1 e2
      have hs : ∑ j ∈ Finset.range (6 * N + n), A n j * z j
          = ∑ j ∈ Finset.range (6 * N + n), B n j * z' j := by
        apply Finset.sum_congr rfl
        intro j hj
        have hj' := Finset.mem_range.mp hj
        rw [hAB n (by omega) j (by omega), low j hj']
      rw [hs, ← e2, ← hAB n (by omega) _ (le_refl _)] at e1
      exact mul_left_cancel₀ (hd n (by omega)) (add_left_cancel e1)

/-- A row of the factor is zero before the offset of its constraint. -/
theorem row_ok_zero_before [LinearOrderedField α] (ppar : problem_parameters α)
    (D ND A : Nat → Nat → α) (c : constraint α) (i s : Nat)
    (hD : ∀ i, i < ppar.N → D i 0 ≠ 0 ∧ D i 4 ≠ 0 ∧ D i 8 ≠ 0)
    (hc : c.ind = 6 * s) (hst : s < ppar.N) (hA : row_ok ppar D ND A c i) :
    ∀ j, j < c.ind → A i j = 0 := by
  apply tri_unique (Lfull ppar.N D ND A) (6 * ppar.N + i) c.ind (by omega)
    (fun r hr => Lfull_diag_ne ppar.N D ND A hD r (by omega))
    (fun r c h => Lfull_upper ppar.N D ND A r c h) (A i) (fun _ => 0)
  intro r hr
  rw [hA.1 r (by omega)]
  simp only [mul_zero, Finset.sum_const_zero]
  unfold sa_row
  apply form_sa_row_zero_before ppar c _ _ r hr
  simp only [SMPC_NUM_STATE_VAR]
  omega

/-- The rows of `icL` after `update`. -/
theorem update_icL [Field α] (sqrt : α → α) (ppar : problem_parameters α) (c : constraint α)
    (n s : Nat) (S : chol_solve_as α) :
    (update sqrt ppar c n s S).icL
      = Function.update S.icL n
          (Function.update (update_row ppar c n s S) (6 * ppar.N + n)
            (sqrt (update_row ppar c n s S (6 * ppar.N + n)))) := by
  have e : n + ppar.N * SMPC_NUM_STATE_VAR = 6 * ppar.N + n := by
    simp only [SMPC_NUM_STATE_VAR]; omega
  rw [← e]
  rfl

/-- After `update` with a positive radicand the rows `0, ..., n` of `icL` are
rows of the factor. -/
theorem update_row_ok [LinearOrderedField α] (sqrt : α → α) (hs : IsSqrt sqrt)
    (ppar : problem_parameters α) (cs : Nat → constraint α) (n s : Nat) (S : chol_solve_as α)
    (hD : ∀ i, i < ppar.N → S.ecL_diag i 0 ≠ 0 ∧ S.ecL_diag i 4 ≠ 0 ∧ S.ecL_diag i 8 ≠ 0)
    (hc : (cs n).ind = 6 * s) (hst : s < ppar.N)
    (hS : ∀ i, i < n → row_ok ppar S.ecL_diag S.ecL_ndiag S.icL (cs i) i)
    (hrad : 0 < update_row ppar (cs n) n s S (6 * ppar.N + n)) :
    ∀ i, i < n + 1 →
      row_ok ppar S.ecL_diag S.ecL_ndiag (update sqrt ppar (cs n) n s S).icL (cs i) i := by
  have hI : ∀ k, k < n → S.icL k (6 * ppar.N + k) ≠ 0 :=
    fun k hk => ne_of_gt (hS k hk).2.1
  have hinv := update_row_inv ppar (cs n) n s S hD hI hc hst
  have e : n + ppar.N * SMPC_NUM_STATE_VAR = 6 * ppar.N + n := by
    simp only [SMPC_NUM_STATE_VAR]; omega
  rw [e] at hinv
  obtain ⟨i1, _, i3⟩ := hinv
  have hold : ∀ p, p < n → (update sqrt ppar (cs n) n s S).icL p = S.icL p := by
    intro p hp
    rw [update_icL, Function.update_noteq (by omega)]
  have hnew : ∀ j, j < 6 * ppar.N + n →
      (update sqrt ppar (cs n) n s S).icL n j = update_row ppar (cs n) n s S j := by
    intro j hj
    rw [update_icL, Function.update_same, Function.update_noteq (by omega)]
  have hlast : (update sqrt ppar (cs n) n s S).icL n (6 * ppar.N + n)
      = sqrt (update_row ppar (cs n) n s S (6 * ppar.N + n)) := by
    rw [update_icL, Function.update_same, Function.update_same]
  have hsa : ∀ r, r ≤ 6 * ppar.N + n →
      form_sa_row ppar (cs n) (6 * ppar.N + n) (S.icL n) r = sa_row ppar (cs n) n r := by
    intro r hr
    unfold sa_row
    rw [e]
    exact form_sa_row_storage ppar (cs n) _ s _ _ hc hst r (by omega) hr
  intro i hi
  by_cases a : i < n
  · apply row_ok_congr ppar _ _ S.icL _ (cs i) i _ (hS i a)
    intro p hp j _
    rw [hold p (by omega)]
  · have ei : i = n := by omega
    rw [ei]
    obtain ⟨q1, q2⟩ := hs _ (le_of_lt hrad)
    refine ⟨?_, ?_, ?_⟩
    · intro r hr
      rw [← hsa r (by omega), ← i1 r hr]
      apply Finset.sum_congr rfl
      intro j hj
      rw [hnew j (Finset.mem_range.mp hj)]
      rw [Lfull_congr ppar.N _ _ (update sqrt ppar (cs n) n s S).icL S.icL n
        (fun p hp c _ => by rw [hold p hp]) r hr j]
    · rw [hlast]
      rcases lt_or_eq_of_le q1 with h | h
      · exact h
      · exfalso
        rw [← h, mul_zero] at q2
        rw [← q2] at hrad
        exact lt_irrefl _ hrad
    · rw [hlast, q2, ← hsa _ (le_refl _), i3]
      have : ∑ j ∈ Finset.range (6 * ppar.N + n),
            (update sqrt ppar (cs n) n s S).icL n j * (update sqrt ppar (cs n) n s S).icL n j
          = ∑ c ∈ Finset.range (6 * ppar.N + n),
            update_row ppar (cs n) n s S c * update_row ppar (cs n) n s S c := by
        apply Finset.sum_congr rfl
        intro j hj
        rw [hnew j (Finset.mem_range.mp hj)]
      rw [this]
      ring

/-- The loop of `update_z` over the entries from the offset of the constraint
to the new one. -/
theorem update_z_loop [Field α] (z row : Nat → α) (lo n : Nat) (zn : α) (nu : Nat → α) :
    loopUp (fun i (s : α × (Nat → α)) => (s.1 - z i * row i, Function.update s.2 i (z i)))
        lo n (zn, nu)
      = (zn - ∑ j ∈ Finset.range n, z (lo + j) * row (lo + j),
          fun i => if lo ≤ i ∧ i < lo + n then z i else nu i) := by
  induction n with
  | zero =>
    rw [loopUp]
    apply Prod.ext
    · simp
    · funext i
      have : ¬ (lo ≤ i ∧ i < lo + 0) := by omega
      simp only [this, if_false]
  | succ n ih =>
    rw [loopUp, ih]
    apply Prod.ext
    · simp only [Finset.sum_range_succ]
      ring
    · funext i
      simp only [Function.update_apply]
      by_cases h : i = lo + n
      · have a : lo ≤ i ∧ i < lo + (n + 1) := by omega
        rw [if_pos h, if_pos a, h]
      · rw [if_neg h]
        by_cases b : lo ≤ i ∧ i < lo + n
        · have a : lo ≤ i ∧ i < lo + (n + 1) := by omega
          rw [if_pos b, if_pos a]
        · have a : ¬ (lo ≤ i ∧ i < lo + (n + 1)) := by omega
          rw [if_neg b, if_neg a]

/-- The entries of `z` and `nu` after `update_z`. -/
theorem update_z_entries [Field α] (ppar : problem_parameters α) (iHg : Nat → α)
    (c : constraint α) (n : Nat) (x : Nat → α) (S : chol_solve_as α)
    (hc : c.ind ≤ 6 * ppar.N + n) :
    (update_z ppar iHg c n x S).z
      = Function.update S.z (6 * ppar.N + n)
          ((zn_rhs iHg x c
              - ∑ j ∈ Finset.range (6 * ppar.N + n - c.ind),
                  S.z (c.ind + j) * S.icL n (c.ind + j))
            / S.icL n (6 * ppar.N + n)) ∧
    ∀ j, j < 6 * ppar.N + n + 1 →
      (update_z ppar iHg c n x S).nu j = (update_z ppar iHg c n x S).z j := by
  have e : ppar.N * SMPC_NUM_STATE_VAR + n = 6 * ppar.N + n := by
    simp only [SMPC_NUM_STATE_VAR]; omega
  unfold update_z
  simp only [e, update_z_loop]
  constructor
  · rfl
  · intro j hj
    simp only [Function.update_apply, e]
    by_cases h : j = 6 * ppar.N + n
    · rw [if_pos h, if_pos h]
    · rw [if_neg h, if_neg h]
      by_cases a : c.ind ≤ j ∧ j < c.ind + (6 * ppar.N + n - c.ind)
      · rw [if_pos a]
      · rw [if_neg a, loopUp_pointwise (fun i _ => S.z i)]
        have b : 0 ≤ j ∧ j < 0 + c.ind := by omega
        rw [if_pos b]

/-- After `update_z` the new entry of `z` solves the new row of the factor;
the entries of `z` before it are kept and `nu` is a copy of `z`. -/
theorem update_z_ok [LinearOrderedField α] (ppar : problem_parameters α) (iHg : Nat → α)
    (c : constraint α) (n s : Nat) (x : Nat → α) (S : chol_solve_as α)
    (hD : ∀ i, i < ppar.N → S.ecL_diag i 0 ≠ 0 ∧ S.ecL_diag i 4 ≠ 0 ∧ S.ecL_diag i 8 ≠ 0)
    (hc : c.ind = 6 * s) (hst : s < ppar.N)
    (hrow : row_ok ppar S.ecL_diag S.ecL_ndiag S.icL c n) :
    z_ok ppar.N S.icL (update_z ppar iHg c n x S).z (zn_rhs iHg x c) n ∧
    (∀ j, j < 6 * ppar.N + n → (update_z ppar iHg c n x S).z j = S.z j) ∧
    ∀ j, j < 6 * ppar.N + n + 1 →
      (update_z ppar iHg c n x S).nu j = (update_z ppar iHg c n x S).z j := by
  obtain ⟨hz, hnu⟩ := update_z_entries ppar iHg c n x S (by omega)
  have hkeep : ∀ j, j < 6 * ppar.N + n → (update_z ppar iHg c n x S).z j = S.z j := by
    intro j hj
    rw [hz, Function.update_noteq (by omega)]
  refine ⟨?_, hkeep, hnu⟩
  unfold z_ok
  have hzero := row_ok_zero_before ppar _ _ S.icL c n s hD hc hst hrow
  have hd : S.icL n (6 * ppar.N + n) ≠ 0 := ne_of_gt hrow.2.1
  have hsum : ∑ j ∈ Finset.range (6 * ppar.N + n), S.icL n j * (update_z ppar iHg c n x S).z j
      = ∑ j ∈ Finset.range (6 * ppar.N + n - c.ind), S.z (c.ind + j) * S.icL n (c.ind + j) := by
    have e : 6 * ppar.N + n = c.ind + (6 * ppar.N + n - c.ind) := by omega
    have h1 : ∑ j ∈ Finset.range (6 * ppar.N + n), S.icL n j * (update_z ppar iHg c n x S).z j
        = ∑ j ∈ Finset.range (6 * ppar.N + n), S.icL n j * S.z j := by
      apply Finset.sum_congr rfl
      intro j hj
      rw [hkeep j (Finset.mem_range.mp hj)]
    rw [h1]
    nth_rewrite 1 [e]
    rw [Finset.sum_range_add]
    have h2 : ∑ j ∈ Finset.range c.ind, S.icL n j * S.z j = 0 := by
      apply Finset.sum_eq_zero
      intro j hj
      rw [hzero j (Finset.mem_range.mp hj), zero_mul]
    rw [h2, zero_add]
    apply Finset.sum_congr rfl
    intro j _
    rw [mul_comm]
  rw [hsum, hz, Function.update_same]
  field_simp

/-- One activation: `update` with a positive radicand followed by `update_z`
extends the factor by the row of the new constraint. -/
theorem up_step_ok [LinearOrderedField α] (sqrt : α → α) (hs : IsSqrt sqrt)
    (ppar : problem_parameters α) (iHg x : Nat → α) (cs : Nat → constraint α)
    (D ND : Nat → Nat → α) (z0 : Nat → α) (n s : Nat) (S : chol_solve_as α)
    (hD : ∀ i, i < ppar.N → D i 0 ≠ 0 ∧ D i 4 ≠ 0 ∧ D i 8 ≠ 0)
    (hc : (cs n).ind = 6 * s) (hst : s < ppar.N)
    (hS : built_ok ppar iHg x cs D ND z0 n S)
    (hrad : 0 < update_row ppar (cs n) n s S (6 * ppar.N + n)) :
    built_ok ppar iHg x cs D ND z0 (n + 1)
        (update_z ppar iHg (cs n) n x (update sqrt ppar (cs n) n s S)) ∧
    ∀ j, j < 6 * ppar.N + n + 1 →
      (update_z ppar iHg (cs n) n x (update sqrt ppar (cs n) n s S)).nu j
        = (update_z ppar iHg (cs n) n x (update sqrt ppar (cs n) n s S)).z j := by
  obtain ⟨hd, hnd, hz0, hrows⟩ := hS
  subst hd
  subst hnd
  have rU := update_row_ok sqrt hs ppar cs n s S hD hc hst (fun i hi => (hrows i hi).1) hrad
  obtain ⟨z1, z2, z3⟩ := update_z_ok ppar iHg (cs n) n s x (update sqrt ppar (cs n) n s S)
    hD hc hst (rU n (by omega))
  refine ⟨⟨rfl, rfl, ?_, ?_⟩, z3⟩
  · intro j hj
    rw [z2 j (by omega)]
    exact hz0 j hj
  · intro i hi
    refine ⟨rU i hi, ?_⟩
    by_cases a : i < n
    · have old := (hrows i a).2
      unfold z_ok at old ⊢
      rw [← old]
      have hrowi : (update sqrt ppar (cs n) n s S).icL i = S.icL i := by
        rw [update_icL, Function.update_noteq (by omega)]
      have hzi : ∀ j, j < 6 * ppar.N + n →
          (update_z ppar iHg (cs n) n x (update sqrt ppar (cs n) n s S)).z j = S.z j :=
        fun j hj => z2 j hj
      have hicL : (update_z ppar iHg (cs n) n x (update sqrt ppar (cs n) n s S)).icL
          = (update sqrt ppar (cs n) n s S).icL := rfl
      rw [hicL, hrowi, hzi _ (by omega)]
      congr 1
      apply Finset.sum_congr rfl
      intro j hj
      have := Finset.mem_range.mp hj
      rw [hzi j (by omega)]
    · have e : i = n := by omega
      rw [e]
      exact z1

/-- The three calls of `up_resolve` for the working set of size `n + 1`. -/
theorem up_resolve_eq [Field α] (sqrt : α → α) (ext : externals α)
    (ppar : problem_parameters α) (iHg : Nat → α) (constraints : Nat → constraint α) (n : Nat)
    (W : Nat → Nat) (x : Nat → α) (S : chol_solve_as α) :
    up_resolve sqrt ext ppar iHg constraints (n + 1) W x S
      = resolve ext ppar iHg constraints (n + 1) W x
          (update_z ppar iHg (constraints (W n)) n x
            (update sqrt ppar (constraints (W n)) n (W n / 2) S)) := rfl

/-- The call of `resolve` keeps the factor and `z`. -/
theorem built_ok_resolve [LinearOrderedField α] (ext : externals α)
    (ppar : problem_parameters α) (iHg x : Nat → α) (constraints : Nat → constraint α)
    (cs : Nat → constraint α) (D ND : Nat → Nat → α) (z0 : Nat → α) (n m : Nat)
    (W : Nat → Nat) (S : chol_solve_as α) (h : built_ok ppar iHg x cs D ND z0 n S) :
    built_ok ppar iHg x cs D ND z0 n (resolve ext ppar iHg constraints m W x S).1 := h

/-- Activation of constraints one by one, every radicand positive, builds the
factor for them. -/
theorem activate_all_ok [LinearOrderedField α] (sqrt : α → α) (hs : IsSqrt sqrt)
    (ext : externals α) (ppar : problem_parameters α) (iHg x : Nat → α)
    (constraints : Nat → constraint α) (W : Nat → Nat) (D ND : Nat → Nat → α) (z0 : Nat → α)
    (Sd : chol_solve_as α × (Nat → α))
    (hD : ∀ i, i < ppar.N → D i 0 ≠ 0 ∧ D i 4 ≠ 0 ∧ D i 8 ≠ 0)
    (h0 : built_ok ppar iHg x (fun i => constraints (W i)) D ND z0 0 Sd.1) :
    ∀ n, (∀ j, j < n → (constraints (W j)).ind = 6 * (W j / 2) ∧ W j / 2 < ppar.N) →
      (∀ j, j < n →
        0 < update_row ppar (constraints (W j)) j (W j / 2)
              (activate_all sqrt ext ppar iHg constraints W x j Sd).1 (6 * ppar.N + j)) →
      built_ok ppar iHg x (fun i => constraints (W i)) D ND z0 n
        (activate_all sqrt ext ppar iHg constraints W x n Sd).1 := by
  intro n
  induction n with
  | zero => intro _ _; exact h0
  | succ n ih =>
    intro hwf hrad
    have prev := ih (fun j hj => hwf j (by omega)) (fun j hj => hrad j (by omega))
    rw [activate_all, up_resolve_eq]
    apply built_ok_resolve
    exact (up_step_ok sqrt hs ppar iHg x (fun i => constraints (W i)) D ND z0 n (W n / 2) _ hD
      (hwf n (by omega)).1 (hwf n (by omega)).2 prev (hrad n (by omega))).1

/-- The radicand of `update` is positive when the factor with one more row
exists: it is the square of the diagonal entry of that row. -/
theorem radicand_pos [LinearOrderedField α] (ppar : problem_parameters α)
    (cs : Nat → constraint α) (n s : Nat) (S : chol_solve_as α) (T : Nat → Nat → α)
    (hD : ∀ i, i < ppar.N → S.ecL_diag i 0 ≠ 0 ∧ S.ecL_diag i 4 ≠ 0 ∧ S.ecL_diag i 8 ≠ 0)
    (hc : (cs n).ind = 6 * s) (hst : s < ppar.N)
    (hS : ∀ i, i < n → row_ok ppar S.ecL_diag S.ecL_ndiag S.icL (cs i) i)
    (hT : ∀ i, i < n + 1 → row_ok ppar S.ecL_diag S.ecL_ndiag T (cs i) i) :
    0 < update_row ppar (cs n) n s S (6 * ppar.N + n) := by
  have hI : ∀ k, k < n → S.icL k (6 * ppar.N + k) ≠ 0 :=
    fun k hk => ne_of_gt (hS k hk).2.1
  have hinv := update_row_inv ppar (cs n) n s S hD hI hc hst
  have e : n + ppar.N * SMPC_NUM_STATE_VAR = 6 * ppar.N + n := by
    simp only [SMPC_NUM_STATE_VAR]; omega
  rw [e] at hinv
  obtain ⟨i1, _, i3⟩ := hinv
  have hsa : ∀ r, r ≤ 6 * ppar.N + n →
      form_sa_row ppar (cs n) (6 * ppar.N + n) (S.icL n) r = sa_row ppar (cs n) n r := by
    intro r hr
    unfold sa_row
    rw [e]
    exact form_sa_row_storage ppar (cs n) _ s _ _ hc hst r (by omega) hr
  have hrows := rows_unique ppar S.ecL_diag S.ecL_ndiag S.icL T cs n hD hS
    (fun i hi => hT i (by omega))
  obtain ⟨t1, t2, t3⟩ := hT n (by omega)
  have key := tri_unique (Lfull ppar.N S.ecL_diag S.ecL_ndiag S.icL) (6 * ppar.N + n)
    (6 * ppar.N + n) (le_refl _)
    (Lfull_diag_ok ppar S.ecL_diag S.ecL_ndiag S.icL cs n hD hS)
    (fun r c h => Lfull_upper ppar.N S.ecL_diag S.ecL_ndiag S.icL r c h)
    (update_row ppar (cs n) n s S) (T n)
    (fun r hr => by
      rw [i1 r hr, hsa r (by omega), ← t1 r hr]
      apply Finset.sum_congr rfl
      intro j _
      rw [Lfull_congr ppar.N _ _ S.icL T n hrows r hr j])
  have hsq : ∑ c ∈ Finset.range (6 * ppar.N + n),
        update_row ppar (cs n) n s S c * update_row ppar (cs n) n s S c
      = ∑ j ∈ Finset.range (6 * ppar.N + n), T n j * T n j := by
    apply Finset.sum_congr rfl
    intro j hj
    rw [key j (Finset.mem_range.mp hj)]
  rw [i3, hsa _ (le_refl _), ← t3, hsq, add_sub_cancel_right]
  exact mul_pos t2 t2

/-- Activation of constraints one by one builds the factor for them whenever
that factor exists. -/
theorem activate_all_fresh [LinearOrderedField α] (sqrt : α → α) (hs : IsSqrt sqrt)
    (ext : externals α) (ppar : problem_parameters α) (iHg x : Nat → α)
    (constraints : Nat → constraint α) (W : Nat → Nat) (D ND : Nat → Nat → α) (z0 : Nat → α)
    (Sd : chol_solve_as α × (Nat → α)) (nW : Nat) (T : Nat → Nat → α)
    (hD : ∀ i, i < ppar.N → D i 0 ≠ 0 ∧ D i 4 ≠ 0 ∧ D i 8 ≠ 0)
    (h0 : built_ok ppar iHg x (fun i => constraints (W i)) D ND z0 0 Sd.1)
    (hwf : ∀ j, j < nW → (constraints (W j)).ind = 6 * (W j / 2) ∧ W j / 2 < ppar.N)
    (hT : ∀ i, i < nW → row_ok ppar D ND T (constraints (W i)) i) :
    ∀ n, n ≤ nW →
      built_ok ppar iHg x (fun i => constraints (W i)) D ND z0 n
        (activate_all sqrt ext ppar iHg constraints W x n Sd).1 := by
  intro n hn
  apply activate_all_ok sqrt hs ext ppar iHg x constraints W D ND z0 Sd hD h0 n
    (fun j hj => hwf j (by omega))
  intro j
  induction j using Nat.strong_induction_on with
  | _ j ih =>
    intro hj
    have prev := activate_all_ok sqrt hs ext ppar iHg x constraints W D ND z0 Sd hD h0 j
      (fun i hi => hwf i (by omega)) (fun i hi => ih i hi (by omega))
    obtain ⟨hd, hnd, _, hrows⟩ := prev
    subst hd
    subst hnd
    exact radicand_pos ppar (fun i => constraints (W i)) j (W j / 2) _ T hD
      (hwf j (by omega)).1 (hwf j (by omega)).2 (fun i hi => (hrows i hi).1)
      (fun i hi => hT i (by omega))

/-- The last activation of a sequence, before its call of `resolve`: the
factor is built and `nu` is a copy of `z`. -/
theorem activate_all_last [LinearOrderedField α] (sqrt : α → α) (hs : IsSqrt sqrt)
    (ext : externals α) (ppar : problem_parameters α) (iHg x : Nat → α)
    (constraints : Nat → constraint α) (W : Nat → Nat) (D ND : Nat → Nat → α) (z0 : Nat → α)
    (Sd : chol_solve_as α × (Nat → α)) (nW : Nat) (T : Nat → Nat → α)
    (hD : ∀ i, i < ppar.N → D i 0 ≠ 0 ∧ D i 4 ≠ 0 ∧ D i 8 ≠ 0)
    (h0 : built_ok ppar iHg x (fun i => constraints (W i)) D ND z0 0 Sd.1)
    (hwf : ∀ j, j < nW → (constraints (W j)).ind = 6 * (W j / 2) ∧ W j / 2 < ppar.N)
    (hT : ∀ i, i < nW → row_ok ppar D ND T (constraints (W i)) i) (n : Nat) (hn : n < nW) :
    0 < update_row ppar (constraints (W n)) n (W n / 2)
          (activate_all sqrt ext ppar iHg constraints W x n Sd).1 (6 * ppar.N + n) ∧
    built_ok ppar iHg x (fun i => constraints (W i)) D ND z0 (n + 1)
        (update_z ppar iHg (constraints (W n)) n x
          (update sqrt ppar (constraints (W n)) n (W n / 2)
            (activate_all sqrt ext ppar iHg constraints W x n Sd).1)) ∧
    ∀ j, j < 6 * ppar.N + n + 1 →
      (update_z ppar iHg (constraints (W n)) n x
          (update sqrt ppar (constraints (W n)) n (W n / 2)
            (activate_all sqrt ext ppar iHg constraints W x n Sd).1)).nu j
        = (update_z ppar iHg (constraints (W n)) n x
          (update sqrt ppar (constraints (W n)) n (W n / 2)
            (activate_all sqrt ext ppar iHg constraints W x n Sd).1)).z j := by
  have prev := activate_all_fresh sqrt hs ext ppar iHg x constraints W D ND z0 Sd nW T hD h0
    hwf hT n (by omega)
  have rad : 0 < update_row ppar (constraints (W n)) n (W n / 2)
      (activate_all sqrt ext ppar iHg constraints W x n Sd).1 (6 * ppar.N + n) := by
    obtain ⟨hd, hnd, _, hrows⟩ := prev
    subst hd
    subst hnd
    exact radicand_pos ppar (fun i => constraints (W i)) n (W n / 2) _ T hD
      (hwf n hn).1 (hwf n hn).2 (fun i hi => (hrows i hi).1) (fun i hi => hT i (by omega))
  exact ⟨rad, up_step_ok sqrt hs ppar iHg x (fun i => constraints (W i)) D ND z0 n (W n / 2) _
    hD (hwf n hn).1 (hwf n hn).2 prev rad⟩

/-- The entries of `sa_row` in the columns of `ecL` do not depend on the
position of the row. -/
theorem sa_row_low [Field α] (ppar : problem_parameters α) (c : constraint α) (i i' r : Nat)
    (hr : r < 6 * ppar.N) : sa_row ppar c i r = sa_row ppar c i' r := by
  unfold sa_row
  apply form_sa_row_low ppar c _ _ _ _ r hr <;> simp only [SMPC_NUM_STATE_VAR] <;> omega

/-- The entries of `sa_row` between the columns of `ecL` and the last one. -/
theorem sa_row_mid [Field α] (ppar : problem_parameters α) (c : constraint α) (i s r : Nat)
    (hc : c.ind = 6 * s) (hst : s < ppar.N) (h1 : 6 * ppar.N ≤ r) (h2 : r < 6 * ppar.N + i) :
    sa_row ppar c i r = 0 := by
  unfold sa_row
  apply form_sa_row_mid ppar c _ s _ hc hst r h1
  simp only [SMPC_NUM_STATE_VAR]
  omega

/-- The last entry of `sa_row`. -/
theorem sa_row_last [Field α] (ppar : problem_parameters α) (c : constraint α) (i : Nat) :
    sa_row ppar c i (6 * ppar.N + i) = ppar.i2Q 0 := by
  have e : 6 * ppar.N + i = i + ppar.N * SMPC_NUM_STATE_VAR := by
    simp only [SMPC_NUM_STATE_VAR]; omega
  unfold sa_row
  rw [e, form_sa_row_last]

/-- The inner product of two rows of `icL`, as a row of `L` times a row. -/
theorem gram_lower [Field α] (N M : Nat) (D ND A : Nat → Nat → α) (p i : Nat) (hp : p < i)
    (hM : 6 * N + i ≤ M) :
    gram N M A p i
      = ∑ j ∈ Finset.range (6 * N + i), Lfull N D ND A (6 * N + p) j * A i j := by
  unfold gram
  rw [sum_range_cut (fun c => rowT N A p c * rowT N A i c) (6 * N + i) M hM
    (fun j hj _ => by
      have : rowT N A p j = 0 := by unfold rowT; rw [if_neg (by omega)]
      simp only [this, zero_mul])]
  apply Finset.sum_congr rfl
  intro j hj
  have hj' := Finset.mem_range.mp hj
  rw [Lfull_icL_row N D ND A (6 * N + p) (by omega), Nat.add_sub_cancel_left]
  congr 1
  unfold rowT
  rw [if_pos (by omega)]

/-- The inner product of a row of `icL` with itself. -/
theorem gram_diag [Field α] (N M : Nat) (A : Nat → Nat → α) (i : Nat)
    (hM : 6 * N + i + 1 ≤ M) :
    gram N M A i i
      = A i (6 * N + i) * A i (6 * N + i)
        + ∑ j ∈ Finset.range (6 * N + i), A i j * A i j := by
  unfold gram
  rw [sum_range_cut (fun c => rowT N A i c * rowT N A i c) (6 * N + i + 1) M hM
    (fun j hj _ => by
      have : rowT N A i j = 0 := by unfold rowT; rw [if_neg (by omega)]
      simp only [this, zero_mul]),
    Finset.sum_range_succ, add_comm]
  congr 1
  · unfold rowT
    rw [if_pos (le_refl _)]
  · apply Finset.sum_congr rfl
    intro j hj
    have hj' := Finset.mem_range.mp hj
    unfold rowT
    rw [if_pos (by omega)]

/-- The diagonal entries stay positive across `downdate`. -/
theorem downdate_diag_pos [LinearOrderedField α] (sqrt : α → α) (hs : IsSqrt sqrt)
    (ppar : problem_parameters α) (nW ind_exclude : Nat) (hle : ind_exclude ≤ nW)
    (S : chol_solve_as α) (hpos : ∀ r, r ≤ nW → 0 < S.icL r (6 * ppar.N + r)) :
    ∀ i, i < nW → 0 < (downdate sqrt ppar nW ind_exclude S).icL i (6 * ppar.N + i) := by
  intro i hi
  by_cases h1 : ind_exclude ≤ i
  · obtain ⟨ih2, _, _⟩ := downdate_passes_inv sqrt hs ppar.N nW ind_exclude hle S.icL
      (fun r _ hr => ne_of_gt (hpos r hr)) (i - ind_exclude) (by omega)
    have hx2 : downdate_passes sqrt ppar.N nW ind_exclude (i - ind_exclude) S.icL i
        (6 * ppar.N + i + 1) = S.icL (i + 1) (6 * ppar.N + (i + 1)) :=
      ih2 i (6 * ppar.N + i + 1) h1 hi (Or.inr (Or.inl (by omega)))
    have hx2pos := hpos (i + 1) (by omega)
    rw [← hx2] at hx2pos
    have hsq := rot_pivot_sq sqrt hs ppar.N i
      (downdate_passes sqrt ppar.N nW ind_exclude (i - ind_exclude) S.icL)
      (Or.inr (ne_of_gt hx2pos))
    rw [downdate_icL, downdate_passes_row_final sqrt ppar.N nW ind_exclude S.icL i h1 hi]
    have e : 6 * ppar.N + i ≠ 6 * ppar.N + i + 1 := by omega
    rw [Function.update_noteq e, Function.update_same]
    apply abs_pos.mpr
    intro h0
    rw [h0, mul_zero] at hsq
    have := mul_self_nonneg (downdate_passes sqrt ppar.N nW ind_exclude (i - ind_exclude)
      S.icL i (6 * ppar.N + i))
    have := mul_pos hx2pos hx2pos
    linarith
  · have hlt : i < ind_exclude := by omega
    rw [downdate_row_out sqrt ppar nW ind_exclude hle S i (Or.inl hlt)]
    have a1 : i ≠ nW := by omega
    rw [if_neg a1]
    exact hpos i (by omega)

/-- The index before the downdate grows with the index after it. -/
theorem old_index_lt (k p i : Nat) (h : p < i) : old_index k p < old_index k i := by
  unfold old_index
  split_ifs <;> omega

/-- The index before the downdate is the index after it or the next one. -/
theorem old_index_bounds (k i : Nat) : i ≤ old_index k i ∧ old_index k i ≤ i + 1 := by
  unfold old_index
  split_ifs <;> omega

/-- The rows of `icL` after `downdate` are the rows of the factor for the
constraints that remain. -/
theorem downdate_rows_ok [LinearOrderedField α] (sqrt : α → α) (hs : IsSqrt sqrt)
    (ppar : problem_parameters α) (cs : Nat → constraint α) (D ND : Nat → Nat → α)
    (nW ind_exclude : Nat) (hle : ind_exclude ≤ nW) (S : chol_solve_as α)
    (hwf : ∀ j, j < nW + 1 → ∃ s, (cs j).ind = 6 * s ∧ s < ppar.N)
    (hS : ∀ i, i < nW + 1 → row_ok ppar D ND S.icL (cs i) i) :
    ∀ i, i < nW →
      row_ok ppar D ND (downdate sqrt ppar nW ind_exclude S).icL
        (cs (old_index ind_exclude i)) i := by
  have hpos : ∀ r, r ≤ nW → 0 < S.icL r (6 * ppar.N + r) := fun r hr => (hS r (by omega)).2.1
  have hdiag : ∀ r, ind_exclude < r → r ≤ nW → S.icL r (6 * ppar.N + r) ≠ 0 :=
    fun r _ hr => ne_of_gt (hpos r hr)
  intro i hi
  obtain ⟨b1, b2⟩ := old_index_bounds ind_exclude i
  have hi' : old_index ind_exclude i < nW + 1 := by omega
  obtain ⟨s, hc, hst⟩ := hwf _ hi'
  obtain ⟨o1, _, o3⟩ := hS _ hi'
  have hcol : ∀ j, j < 6 * ppar.N →
      (downdate sqrt ppar nW ind_exclude S).icL i j = S.icL (old_index ind_exclude i) j := by
    intro j hj
    have := downdate_rowT_low sqrt hs ppar nW ind_exclude hle S hdiag i hi j (by omega)
    unfold rowT at this
    rw [if_pos (by omega), if_pos (by omega)] at this
    exact this
  refine ⟨?_, downdate_diag_pos sqrt hs ppar nW ind_exclude hle S hpos i hi, ?_⟩
  · intro r hr
    by_cases a : r < 6 * ppar.N
    · rw [sa_row_low ppar _ i (old_index ind_exclude i) r a, ← o1 r (by omega)]
      rw [sum_range_cut
          (fun j => Lfull ppar.N D ND (downdate sqrt ppar nW ind_exclude S).icL r j
            * (downdate sqrt ppar nW ind_exclude S).icL i j) (6 * ppar.N) _ (by omega)
          (fun j hj _ => by
            simp only [(Lfull_ecL_row ppar.N D ND _ S.icL r a).2 j hj, zero_mul]),
        sum_range_cut
          (fun j => Lfull ppar.N D ND S.icL r j * S.icL (old_index ind_exclude i) j)
          (6 * ppar.N) _ (by omega)
          (fun j hj _ => by
            simp only [(Lfull_ecL_row ppar.N D ND S.icL S.icL r a).2 j hj, zero_mul])]
      apply Finset.sum_congr rfl
      intro j hj
      rw [hcol j (Finset.mem_range.mp hj),
        (Lfull_ecL_row ppar.N D ND (downdate sqrt ppar nW ind_exclude S).icL S.icL r a).1]
    · obtain ⟨p, rfl⟩ : ∃ p, r = 6 * ppar.N + p := ⟨r - 6 * ppar.N, by omega⟩
      have hp : p < i := by omega
      have hp' := old_index_lt ind_exclude p i hp
      obtain ⟨c1, c2⟩ := old_index_bounds ind_exclude p
      rw [← gram_lower ppar.N (6 * ppar.N + nW + 1) D ND _ p i hp (by omega),
        downdate_gram_eq sqrt hs ppar nW ind_exclude hle S hdiag p i (by omega) hi,
        gram_lower ppar.N (6 * ppar.N + nW + 1) D ND _ _ _ hp' (by omega),
        o1 _ (by omega),
        sa_row_mid ppar _ _ s _ hc hst (by omega) (by omega),
        sa_row_mid ppar _ _ s _ hc hst (by omega) (by omega)]
  · rw [← gram_diag ppar.N (6 * ppar.N + nW + 1) _ i (by omega),
      downdate_gram_eq sqrt hs ppar nW ind_exclude hle S hdiag i i hi hi,
      gram_diag ppar.N (6 * ppar.N + nW + 1) _ _ (by omega), o3, sa_row_last, sa_row_last]

/-- One pass of the first loop of `down_resolve`, on entries of `z` not yet
overwritten. -/
theorem down_z_base_eq [Field α] (N k : Nat) (A : Nat → Nat → α) (z zc : Nat → α) (t : α)
    (i : Nat) (hi : k ≤ i) (hz : ∀ j, j ≤ 6 * N + i → zc j = z j) :
    down_z_base N k A i (zc, t) = (Function.update zc (6 * N + i) t, down_base N k A z i) := by
  have e : N * SMPC_NUM_STATE_VAR = 6 * N := by simp only [SMPC_NUM_STATE_VAR]; omega
  have e2 : 6 * N + i - (6 * N + k) = i - k := by omega
  unfold down_z_base down_base
  simp only [e, e2, loopUp_sum]
  apply Prod.ext
  · rfl
  · simp only
    rw [hz _ (le_refl _)]
    congr 1
    apply Finset.sum_congr rfl
    intro j hj
    have hj' := Finset.mem_range.mp hj
    rw [Function.update_noteq (by omega), hz _ (by omega)]

/-- The first loop of `down_resolve`: every entry of `z` from `6N + k + 1` on
receives the value found for the next row, the last one the start value. -/
theorem down_z_base_loop [Field α] (N k : Nat) (A : Nat → Nat → α) (z : Nat → α) :
    ∀ (n : Nat) (zc : Nat → α) (t : α), (∀ j, j ≤ 6 * N + k + n → zc j = z j) →
      (loopDown (fun i s => down_z_base N k A i s) (k + 1) n (zc, t)).2
          = (if n = 0 then t else down_base N k A z (k + 1)) ∧
      ∀ j, (loopDown (fun i s => down_z_base N k A i s) (k + 1) n (zc, t)).1 j
          = if 6 * N + k + 1 ≤ j ∧ j ≤ 6 * N + k + n then
              (if j = 6 * N + k + n then t else down_base N k A z (j - 6 * N + 1))
            else zc j := by
  intro n
  induction n with
  | zero =>
    intro zc t _
    refine ⟨rfl, ?_⟩
    intro j
    have : ¬ (6 * N + k + 1 ≤ j ∧ j ≤ 6 * N + k + 0) := by omega
    rw [if_neg this]
    rfl
  | succ n ih =>
    intro zc t hz
    rw [loopDown, down_z_base_eq N k A z zc t (k + 1 + n) (by omega)
      (fun j hj => hz j (by omega))]
    obtain ⟨h1, h2⟩ := ih (Function.update zc (6 * N + (k + 1 + n)) t)
      (down_base N k A z (k + 1 + n))
      (fun j hj => by rw [Function.update_noteq (by omega), hz j (by omega)])
    constructor
    · have hn : ¬ (n + 1 = 0) := by omega
      rw [h1, if_neg hn]
      by_cases a : n = 0
      · rw [if_pos a, a]
      · rw [if_neg a]
    · intro j
      rw [h2 j]
      by_cases b : 6 * N + k + 1 ≤ j ∧ j ≤ 6 * N + k + n
      · have b' : 6 * N + k + 1 ≤ j ∧ j ≤ 6 * N + k + (n + 1) := by omega
        have c' : j ≠ 6 * N + k + (n + 1) := by omega
        rw [if_pos b, if_pos b', if_neg c']
        by_cases c : j = 6 * N + k + n
        · rw [if_pos c]
          congr 1
          omega
        · rw [if_neg c]
      · rw [if_neg b]
        by_cases c : j = 6 * N + k + (n + 1)
        · have b' : 6 * N + k + 1 ≤ j ∧ j ≤ 6 * N + k + (n + 1) := by omega
          have c2 : j = 6 * N + (k + 1 + n) := by omega
          rw [if_pos b', if_pos c, c2, Function.update_same]
        · have b' : ¬ (6 * N + k + 1 ≤ j ∧ j ≤ 6 * N + k + (n + 1)) := by omega
          rw [if_neg b', Function.update_noteq (by omega)]

/-- One pass of the third loop of `down_resolve`. -/
theorem down_z_recompute_eq [Field α] (N k : Nat) (B : Nat → Nat → α) (i : Nat) (z : Nat → α)
    (hi : k ≤ i) :
    down_z_recompute N k B i z
      = Function.update z (6 * N + i)
          ((z (6 * N + i) - ∑ j ∈ Finset.range (i - k), z (6 * N + k + j) * B i (6 * N + k + j))
            / B i (6 * N + i)) := by
  have e : N * SMPC_NUM_STATE_VAR = 6 * N := by simp only [SMPC_NUM_STATE_VAR]; omega
  have e2 : 6 * N + i - (6 * N + k) = i - k := by omega
  unfold down_z_recompute
  simp only [e, e2, loopUp_sub_sum]

/-- The third loop of `down_resolve`: the entries of `z` from `6N + k` on are
solved again, row by row. -/
theorem down_z_recompute_loop [Field α] (N k : Nat) (B : Nat → Nat → α) (z1 : Nat → α) :
    ∀ n : Nat, (∀ i, k ≤ i → i < k + n → B i (6 * N + i) ≠ 0) →
      (∀ j, (j < 6 * N + k ∨ 6 * N + k + n ≤ j) →
        loopUp (fun i z => down_z_recompute N k B i z) k n z1 j = z1 j) ∧
      ∀ i, k ≤ i → i < k + n →
        loopUp (fun i z => down_z_recompute N k B i z) k n z1 (6 * N + i) * B i (6 * N + i)
          + ∑ j ∈ Finset.range (i - k),
              loopUp (fun i z => down_z_recompute N k B i z) k n z1 (6 * N + k + j)
                * B i (6 * N + k + j)
          = z1 (6 * N + i) := by
  intro n
  induction n with
  | zero =>
    intro _
    exact ⟨fun j _ => rfl, fun i h1 h2 => by omega⟩
  | succ n ih =>
    intro hd
    obtain ⟨f1, f2⟩ := ih (fun i h1 h2 => hd i h1 (by omega))
    have e2 : k + n - k = n := by omega
    have step : loopUp (fun i z => down_z_recompute N k B i z) k (n + 1) z1
        = Function.update (loopUp (fun i z => down_z_recompute N k B i z) k n z1)
            (6 * N + (k + n))
            ((z1 (6 * N + (k + n))
                - ∑ j ∈ Finset.range n,
                    loopUp (fun i z => down_z_recompute N k B i z) k n z1 (6 * N + k + j)
                      * B (k + n) (6 * N + k + j))
              / B (k + n) (6 * N + (k + n))) := by
      rw [loopUp, down_z_recompute_eq N k B (k + n) _ (by omega), e2,
        f1 (6 * N + (k + n)) (Or.inr (by omega))]
    rw [step]
    generalize loopUp (fun i z => down_z_recompute N k B i z) k n z1 = zc at f1 f2 ⊢
    constructor
    · intro j hj
      rw [Function.update_noteq (by omega)]
      exact f1 j (by omega)
    · intro i h1 h2
      have hsum : ∀ m, m ≤ n → ∑ j ∈ Finset.range m,
            Function.update zc (6 * N + (k + n))
              ((z1 (6 * N + (k + n))
                - ∑ j ∈ Finset.range n, zc (6 * N + k + j) * B (k + n) (6 * N + k + j))
              / B (k + n) (6 * N + (k + n))) (6 * N + k + j) * B i (6 * N + k + j)
          = ∑ j ∈ Finset.range m, zc (6 * N + k + j) * B i (6 * N + k + j) := by
        intro m hm
        apply Finset.sum_congr rfl
        intro j hj
        have hj' := Finset.mem_range.mp hj
        rw [Function.update_noteq (by omega)]
      by_cases a : i < k + n
      · rw [hsum (i - k) (by omega), Function.update_noteq (by omega)]
        exact f2 i h1 a
      · have ei : i = k + n := by omega
        have en : i - k = n := by omega
        rw [en, hsum n (le_refl _), ei, Function.update_same]
        have hne := hd (k + n) (by omega) (by omega)
        field_simp

/-- The entries of `z` handed to `downdate` by `down_resolve`. -/
theorem down_resolve_z_base [Field α] (N nW k : Nat) (hle : k ≤ nW) (A : Nat → Nat → α)
    (z : Nat → α) (j : Nat) :
    Function.update (loopDown (fun i s => down_z_base N k A i s) (k + 1) (nW - k) (z, 0)).1
        (6 * N + k)
        (loopDown (fun i s => down_z_base N k A i s) (k + 1) (nW - k) (z, 0)).2 j
      = if 6 * N + k ≤ j ∧ j ≤ 6 * N + nW then
          (if j = 6 * N + nW then 0 else down_base N k A z (j - 6 * N + 1))
        else z j := by
  obtain ⟨p1, p2⟩ := down_z_base_loop N k A z (nW - k) z 0 (fun j _ => rfl)
  have e : 6 * N + k + (nW - k) = 6 * N + nW := by omega
  rw [e] at p2
  by_cases a : j = 6 * N + k
  · subst a
    have b : 6 * N + k ≤ 6 * N + k ∧ 6 * N + k ≤ 6 * N + nW := by omega
    rw [Function.update_same, p1, if_pos b]
    by_cases c : nW - k = 0
    · have c' : 6 * N + k = 6 * N + nW := by omega
      rw [if_pos c, if_pos c']
    · have c' : 6 * N + k ≠ 6 * N + nW := by omega
      have d : 6 * N + k - 6 * N + 1 = k + 1 := by omega
      rw [if_neg c, if_neg c', d]
  · rw [Function.update_noteq a, p2 j]
    by_cases b : 6 * N + k + 1 ≤ j ∧ j ≤ 6 * N + nW
    · have b' : 6 * N + k ≤ j ∧ j ≤ 6 * N + nW := by omega
      rw [if_pos b, if_pos b']
    · have b' : ¬ (6 * N + k ≤ j ∧ j ≤ 6 * N + nW) := by omega
      rw [if_neg b, if_neg b']

/-- The part of `down_resolve` before `resolve` turns the factor for
`nW + 1` constraints into the factor for the constraints that remain, and
leaves in `nu` a copy of `z`. -/
theorem down_resolve_z_ok [LinearOrderedField α] (sqrt : α → α) (hs : IsSqrt sqrt)
    (ppar : problem_parameters α) (iHg x : Nat → α) (cs : Nat → constraint α)
    (D ND : Nat → Nat → α) (z0 : Nat → α) (nW k : Nat) (hle : k ≤ nW) (S : chol_solve_as α)
    (hwf : ∀ j, j < nW + 1 → ∃ s, (cs j).ind = 6 * s ∧ s < ppar.N)
    (hS : built_ok ppar iHg x cs D ND z0 (nW + 1) S) :
    built_ok ppar iHg x (fun i => cs (old_index k i)) D ND z0 nW
        (down_resolve_z sqrt ppar nW k S) ∧
    ∀ j, j < 6 * ppar.N + nW →
      (down_resolve_z sqrt ppar nW k S).nu j = (down_resolve_z sqrt ppar nW k S).z j := by
  obtain ⟨hd, hnd, hz0, hrows⟩ := hS
  have rB := downdate_rows_ok sqrt hs ppar cs D ND nW k hle S hwf (fun i hi => (hrows i hi).1)
  have hdiag : ∀ r, k < r → r ≤ nW → S.icL r (6 * ppar.N + r) ≠ 0 :=
    fun r _ hr => ne_of_gt (hrows r (by omega)).1.2.1
  have e : ppar.N * SMPC_NUM_STATE_VAR = 6 * ppar.N := by
    simp only [SMPC_NUM_STATE_VAR]; omega
  have hB : (down_resolve_z sqrt ppar nW k S).icL = (downdate sqrt ppar nW k S).icL := rfl
  have hZ : (down_resolve_z sqrt ppar nW k S).z
      = loopUp (fun i z => down_z_recompute ppar.N k (downdate sqrt ppar nW k S).icL i z)
          k (nW - k)
          (Function.update
            (loopDown (fun i s => down_z_base ppar.N k S.icL i s) (k + 1) (nW - k) (S.z, 0)).1
            (ppar.N * SMPC_NUM_STATE_VAR + k)
            (loopDown (fun i s => down_z_base ppar.N k S.icL i s) (k + 1) (nW - k) (S.z, 0)).2)
      := rfl
  have hNu : (down_resolve_z sqrt ppar nW k S).nu
      = loopUp (fun i nu => Function.update nu i ((down_resolve_z sqrt ppar nW k S).z i))
          0 (ppar.N * SMPC_NUM_STATE_VAR + nW) S.nu := rfl
  rw [e] at hZ hNu
  have hz1 := down_resolve_z_base ppar.N nW k hle S.icL S.z
  obtain ⟨q1, q2⟩ := down_z_recompute_loop ppar.N k (downdate sqrt ppar nW k S).icL
    (Function.update
      (loopDown (fun i s => down_z_base ppar.N k S.icL i s) (k + 1) (nW - k) (S.z, 0)).1
      (6 * ppar.N + k)
      (loopDown (fun i s => down_z_base ppar.N k S.icL i s) (k + 1) (nW - k) (S.z, 0)).2)
    (nW - k) (fun i _ h2 => ne_of_gt (rB i (by omega)).2.1)
  rw [← hZ] at q1 q2
  generalize Function.update
      (loopDown (fun i s => down_z_base ppar.N k S.icL i s) (k + 1) (nW - k) (S.z, 0)).1
      (6 * ppar.N + k)
      (loopDown (fun i s => down_z_base ppar.N k S.icL i s) (k + 1) (nW - k) (S.z, 0)).2 = z1
    at hz1 q1 q2 hZ
  have hlow : ∀ j, j < 6 * ppar.N + k → (down_resolve_z sqrt ppar nW k S).z j = S.z j := by
    intro j hj
    rw [q1 j (Or.inl hj), hz1 j, if_neg (by omega)]
  refine ⟨⟨hd, hnd, ?_, ?_⟩, ?_⟩
  · intro j hj
    rw [hlow j (by omega)]
    exact hz0 j hj
  · intro i hi
    refine ⟨rB i hi, ?_⟩
    unfold z_ok
    rw [hB]
    by_cases a : i < k
    · have eo : old_index k i = i := if_pos a
      have old := (hrows i (by omega)).2
      unfold z_ok at old
      simp only [eo]
      rw [downdate_row_out sqrt ppar nW k hle S i (Or.inl a), if_neg (by omega),
        hlow _ (by omega), ← old]
      congr 1
      apply Finset.sum_congr rfl
      intro j hj
      have := Finset.mem_range.mp hj
      rw [hlow j (by omega)]
    · have eo : old_index k i = i + 1 := if_neg a
      have old := (hrows (i + 1) (by omega)).2
      unfold z_ok at old
      simp only [eo]
      have eq := q2 i (by omega) (by omega)
      have hbase : z1 (6 * ppar.N + i) = down_base ppar.N k S.icL S.z (i + 1) := by
        have b : 6 * ppar.N + k ≤ 6 * ppar.N + i ∧ 6 * ppar.N + i ≤ 6 * ppar.N + nW := by omega
        have c : 6 * ppar.N + i ≠ 6 * ppar.N + nW := by omega
        have d : 6 * ppar.N + i - 6 * ppar.N + 1 = i + 1 := by omega
        rw [hz1, if_pos b, if_neg c, d]
      rw [hbase] at eq
      unfold down_base at eq
      have s1 : 6 * ppar.N + i = 6 * ppar.N + k + (i - k) := by omega
      have s2 : 6 * ppar.N + (i + 1) = 6 * ppar.N + k + (i + 1 - k) := by omega
      have hrowin := (downdate_row_in sqrt hs ppar nW k hle S hdiag i (by omega) hi).1
      have hP : ∑ j ∈ Finset.range (6 * ppar.N + k),
            (downdate sqrt ppar nW k S).icL i j * (down_resolve_z sqrt ppar nW k S).z j
          = ∑ j ∈ Finset.range (6 * ppar.N + k), S.icL (i + 1) j * S.z j := by
        apply Finset.sum_congr rfl
        intro j hj
        have hj' := Finset.mem_range.mp hj
        rw [hrowin j (Or.inl hj'), hlow j hj']
      have hQ : ∑ j ∈ Finset.range (i - k),
            (downdate sqrt ppar nW k S).icL i (6 * ppar.N + k + j)
              * (down_resolve_z sqrt ppar nW k S).z (6 * ppar.N + k + j)
          = ∑ j ∈ Finset.range (i - k),
            (down_resolve_z sqrt ppar nW k S).z (6 * ppar.N + k + j)
              * (downdate sqrt ppar nW k S).icL i (6 * ppar.N + k + j) := by
        apply Finset.sum_congr rfl
        intro j _
        rw [mul_comm]
      have hR : ∑ j ∈ Finset.range (i + 1 - k),
            S.icL (i + 1) (6 * ppar.N + k + j) * S.z (6 * ppar.N + k + j)
          = ∑ j ∈ Finset.range (i + 1 - k),
            S.z (6 * ppar.N + k + j) * S.icL (i + 1) (6 * ppar.N + k + j) := by
        apply Finset.sum_congr rfl
        intro j _
        rw [mul_comm]
      nth_rewrite 1 [s2] at old
      rw [Finset.sum_range_add, hR] at old
      nth_rewrite 1 [s1]
      rw [Finset.sum_range_add, hP, hQ]
      linear_combination old + eq
  · intro j hj
    rw [hNu, loopUp_pointwise (fun i _ => (down_resolve_z sqrt ppar nW k S).z i)]
    have b : 0 ≤ j ∧ j < 0 + (6 * ppar.N + nW) := by omega
    rw [if_pos b]

/-- A loop changes with its body only through the steps it runs. -/
theorem loopUp_congr {σ : Type} (f g : Nat → σ → σ) (lo n : Nat) (s : σ)
    (h : ∀ i, lo ≤ i → i < lo + n → ∀ t, f i t = g i t) :
    loopUp f lo n s = loopUp g lo n s := by
  induction n with
  | zero => rfl
  | succ n ih =>
    rw [loopUp, loopUp, ih (fun i h1 h2 t => h i h1 (by omega) t),
      h (lo + n) (by omega) (by omega)]

/-- The inner loop of the backward substitution of `resolve`: the entries
`lo ≤ j < lo + n` lose `nu[L]` times the entry of the row. -/
theorem loopDown_axpy [Field α] (r : Nat → α) (L lo : Nat) :
    ∀ (n : Nat) (v : Nat → α) (q : Nat), (∀ j, lo ≤ j → j < lo + n → j < L) →
      loopDown (fun j v => Function.update v j (v j - v L * r j)) lo n v q
        = if lo ≤ q ∧ q < lo + n then v q - v L * r q else v q := by
  intro n
  induction n with
  | zero =>
    intro v q _
    have : ¬ (lo ≤ q ∧ q < lo + 0) := by omega
    rw [if_neg this]
    rfl
  | succ n ih =>
    intro v q h
    rw [loopDown, ih _ q (fun j h1 h2 => h j h1 (by omega))]
    have hL : L ≠ lo + n := by
      have := h (lo + n) (by omega) (by omega)
      omega
    by_cases a : lo ≤ q ∧ q < lo + n
    · have a' : lo ≤ q ∧ q < lo + (n + 1) := by omega
      rw [if_pos a, if_pos a', Function.update_noteq (by omega), Function.update_noteq hL]
    · rw [if_neg a]
      by_cases b : q = lo + n
      · have a' : lo ≤ q ∧ q < lo + (n + 1) := by omega
        rw [if_pos a', b, Function.update_same]
      · have a' : ¬ (lo ≤ q ∧ q < lo + (n + 1)) := by omega
        rw [if_neg a', Function.update_noteq b]

/-- The entries of `nu` after one row of the backward substitution. -/
theorem resolve_back_row_entry [Field α] (N : Nat) (A : Nat → Nat → α) (W : Nat → Nat)
    (i : Nat) (nu : Nat → α) (q : Nat) :
    resolve_back_row N A W i nu q
      = if q = 6 * N + i then nu (6 * N + i) / A i (6 * N + i)
        else if W i / 2 * 6 ≤ q ∧ q < 6 * N + i then
          nu q - nu (6 * N + i) / A i (6 * N + i) * A i q
        else nu q := by
  have e : i + N * 6 = 6 * N + i := by omega
  unfold resolve_back_row
  simp only [SMPC_NUM_STATE_VAR, e]
  rw [loopDown_axpy (A i) (6 * N + i) (W i / 2 * 6) _ _ q (fun j h1 h2 => by omega),
    Function.update_same]
  by_cases a : q = 6 * N + i
  · have b : ¬ (W i / 2 * 6 ≤ q ∧ q < W i / 2 * 6 + (6 * N + i - W i / 2 * 6)) := by omega
    rw [if_neg b, if_pos a, a, Function.update_same]
  · rw [if_neg a, Function.update_noteq a]
    by_cases b : W i / 2 * 6 ≤ q ∧ q < 6 * N + i
    · have b' : W i / 2 * 6 ≤ q ∧ q < W i / 2 * 6 + (6 * N + i - W i / 2 * 6) := by omega
      rw [if_pos b, if_pos b']
    · have b' : ¬ (W i / 2 * 6 ≤ q ∧ q < W i / 2 * 6 + (6 * N + i - W i / 2 * 6)) := by omega
      rw [if_neg b, if_neg b']

/-- The backward substitution over the rows of `icL` reads each row up to its
diagonal only. -/
theorem resolve_back_congr [Field α] (N M : Nat) (A B : Nat → Nat → α) (W : Nat → Nat) :
    ∀ (n : Nat) (nu nu' : Nat → α), 6 * N + n ≤ M →
      (∀ i, i < n → ∀ c, c ≤ 6 * N + i → A i c = B i c) →
      (∀ j, j < M → nu j = nu' j) →
      ∀ j, j < M →
        loopDown (fun i nu => resolve_back_row N A W i nu) 0 n nu j
          = loopDown (fun i nu => resolve_back_row N B W i nu) 0 n nu' j := by
  intro n
  induction n with
  | zero => intro nu nu' _ _ h j hj; exact h j hj
  | succ n ih =>
    intro nu nu' hM hAB h j hj
    rw [loopDown, loopDown, Nat.zero_add]
    apply ih _ _ (by omega) (fun i hi => hAB i (by omega)) _ j hj
    intro q hq
    rw [resolve_back_row_entry, resolve_back_row_entry, h q hq, h (6 * N + n) (by omega),
      hAB n (by omega) (6 * N + n) (le_refl _)]
    by_cases a : q = 6 * N + n
    · rw [if_pos a, if_pos a]
    · rw [if_neg a, if_neg a]
      by_cases b : W n / 2 * 6 ≤ q ∧ q < 6 * N + n
      · rw [if_pos b, if_pos b, hAB n (by omega) q (by omega)]
      · rw [if_neg b, if_neg b]

/-- The call `resolve` depends on the object through the blocks of `ecL`, the
rows of `icL` up to their diagonals and the entries of `nu` below `6N + nW`. -/
theorem resolve_congr [Field α] (ext : externals α) (ppar : problem_parameters α)
    (iHg : Nat → α) (constraints : Nat → constraint α) (nW : Nat) (W : Nat → Nat) (x : Nat → α)
    (S T : chol_solve_as α) (hd : S.ecL_diag = T.ecL_diag) (hnd : S.ecL_ndiag = T.ecL_ndiag)
    (hrows : ∀ i, i < nW → ∀ c, c ≤ 6 * ppar.N + i → S.icL i c = T.icL i c)
    (hnu : ∀ j, j < 6 * ppar.N + nW → S.nu j = T.nu j) :
    (∀ j, j < 6 * ppar.N + nW →
      (resolve ext ppar iHg constraints nW W x S).1.nu j
        = (resolve ext ppar iHg constraints nW W x T).1.nu j) ∧
    (resolve ext ppar iHg constraints nW W x S).2
      = (resolve ext ppar iHg constraints nW W x T).2 := by
  have hback := resolve_back_congr ppar.N (6 * ppar.N + nW) S.icL T.icL W nW S.nu T.nu
    (le_refl _) hrows hnu
  have hfirst : ∀ v v' : Nat → α, (∀ j, j < 6 * ppar.N + nW → v j = v' j) →
      firstN (SMPC_NUM_STATE_VAR * ppar.N) v = firstN (SMPC_NUM_STATE_VAR * ppar.N) v' := by
    intro v v' h
    funext j
    unfold firstN
    simp only [SMPC_NUM_STATE_VAR]
    by_cases a : j < 6 * ppar.N
    · rw [if_pos a, if_pos a, h j (by omega)]
    · rw [if_neg a, if_neg a]
  have hnu2 : ∀ j, j < 6 * ppar.N + nW →
      (resolve ext ppar iHg constraints nW W x S).1.nu j
        = (resolve ext ppar iHg constraints nW W x T).1.nu j := by
    intro j hj
    show ecL_solve_backward ext S ppar.N _ j = ecL_solve_backward ext T ppar.N _ j
    unfold ecL_solve_backward
    rw [hfirst _ _ hback, hd, hnd]
    simp only [SMPC_NUM_STATE_VAR]
    by_cases a : j < 6 * ppar.N
    · rw [if_pos a, if_pos a]
    · rw [if_neg a, if_neg a, hback j hj]
  refine ⟨hnu2, ?_⟩
  show resolve_dx ppar iHg constraints nW W x (resolve ext ppar iHg constraints nW W x S).1.nu
      (E_form_ETx ext ppar (resolve ext ppar iHg constraints nW W x S).1.nu)
    = resolve_dx ppar iHg constraints nW W x (resolve ext ppar iHg constraints nW W x T).1.nu
      (E_form_ETx ext ppar (resolve ext ppar iHg constraints nW W x T).1.nu)
  generalize (resolve ext ppar iHg constraints nW W x S).1.nu = v at hnu2 ⊢
  generalize (resolve ext ppar iHg constraints nW W x T).1.nu = v' at hnu2 ⊢
  have hE : E_form_ETx ext ppar v = E_form_ETx ext ppar v' := by
    unfold E_form_ETx
    rw [hfirst v v' hnu2]
  rw [hE]
  unfold resolve_dx
  apply loopUp_congr
  intro i _ hi t
  have e : ppar.N * SMPC_NUM_STATE_VAR + i = 6 * ppar.N + i := by
    simp only [SMPC_NUM_STATE_VAR]; omega
  simp only [e, hnu2 (6 * ppar.N + i) (by omega)]

/-- The first `n` entries of an array determine `firstN`. -/
theorem firstN_congr [Zero α] (n : Nat) (v v' : Nat → α) (h : ∀ j, j < n → v j = v' j) :
    firstN n v = firstN n v' := by
  funext j
  unfold firstN
  by_cases a : j < n
  · rw [if_pos a, if_pos a, h j a]
  · rw [if_neg a, if_neg a]

/-- The first `6N` entries of `z` after `solve` do not depend on the object. -/
theorem solve_z_entry [Field α] (ext : externals α) (ppar : problem_parameters α)
    (iHg x : Nat → α) (S : chol_solve_as α) (j : Nat) (hj : j < 6 * ppar.N) :
    (solve ext ppar iHg x S).1.z j
      = ext.solve_forward (ext.ecL_form ppar).1 (ext.ecL_form ppar).2 ppar.N
          (firstN (6 * ppar.N) (ext.form_Ex ppar (firstN (8 * ppar.N)
            (fun j => -x j - (if j % 3 = 0 ∧ j / 3 < 2 * ppar.N then iHg (j / 3) else 0))))) j := by
  have hX := firstN_congr (8 * ppar.N) _ _
    (fun j hj => solve_XiHg_entry ppar.N iHg x S.XiHg j (by simp only [SMPC_NUM_VAR]; exact hj))
  unfold solve
  simp only [SMPC_NUM_STATE_VAR, SMPC_NUM_VAR] at hX ⊢
  rw [loopUp_pointwise (fun i _ => ecL_solve_forward ext _ ppar.N _ i)]
  have a : 0 ≤ j ∧ j < 0 + 6 * ppar.N := by omega
  rw [if_pos a]
  unfold ecL_solve_forward
  simp only [SMPC_NUM_STATE_VAR]
  rw [if_pos hj]
  congr 1
  apply firstN_congr
  intro i hi
  unfold E_form_Ex
  simp only [SMPC_NUM_STATE_VAR, SMPC_NUM_VAR]
  rw [if_pos hi, hX]

/-- The first `6N` entries of `nu` after `solve` come from those of `z`. -/
theorem solve_nu_entry [Field α] (ext : externals α) (ppar : problem_parameters α)
    (iHg x : Nat → α) (S : chol_solve_as α) (j : Nat) (hj : j < 6 * ppar.N) :
    (solve ext ppar iHg x S).1.nu j
      = ext.solve_backward (ext.ecL_form ppar).1 (ext.ecL_form ppar).2 ppar.N
          (firstN (6 * ppar.N) (solve ext ppar iHg x S).1.z) j := by
  unfold solve
  simp only [SMPC_NUM_STATE_VAR, SMPC_NUM_VAR]
  unfold ecL_solve_backward
  simp only [SMPC_NUM_STATE_VAR]
  rw [if_pos hj]
  congr 1
  apply firstN_congr
  intro i hi
  rw [loopUp_pointwise (fun i _ => ecL_solve_forward ext _ ppar.N _ i)]
  have a : 0 ≤ i ∧ i < 0 + 6 * ppar.N := by omega
  rw [if_pos a]

/-- The entries of the step `dx` after `solve`. -/
theorem solve_step_entry [Field α] (ext : externals α) (ppar : problem_parameters α)
    (iHg x : Nat → α) (S : chol_solve_as α) (j : Nat) (hj : j < 8 * ppar.N) :
    (solve ext ppar iHg x S).2 j
      = -x j - (if j % 3 = 0 ∧ j / 3 < 2 * ppar.N then iHg (j / 3) else 0)
        - (if j < 6 * ppar.N then ppar.i2Q (j % 3) else ppar.i2P)
          * ext.form_ETx ppar (firstN (6 * ppar.N) (solve ext ppar iHg x S).1.nu) j := by
  have hj' : j < SMPC_NUM_VAR * ppar.N := by simp only [SMPC_NUM_VAR]; exact hj
  have h : (solve ext ppar iHg x S).2
      = solve_dx ppar (solve ext ppar iHg x S).1.XiHg
          (E_form_ETx ext ppar (solve ext ppar iHg x S).1.nu) := rfl
  have hX : (solve ext ppar iHg x S).1.XiHg j
      = -x j - (if j % 3 = 0 ∧ j / 3 < 2 * ppar.N then iHg (j / 3) else 0) :=
    solve_XiHg_entry ppar.N iHg x S.XiHg j hj'
  rw [h, solve_dx_entry ppar _ _ j hj', hX]
  rfl

/-- The entries of the step `dx` after `resolve` for an empty working set. -/
theorem resolve_empty_entry [Field α] (ext : externals α) (ppar : problem_parameters α)
    (iHg : Nat → α) (constraints : Nat → constraint α) (W : Nat → Nat) (x : Nat → α)
    (S : chol_solve_as α) (j : Nat) (hj : j < 8 * ppar.N) :
    (resolve ext ppar iHg constraints 0 W x S).2 j
      = -x j - (if j % 3 = 0 ∧ j / 3 < 2 * ppar.N then iHg (j / 3) else 0)
        - (if j < 6 * ppar.N then ppar.i2Q (j % 3) else ppar.i2P)
          * ext.form_ETx ppar (firstN (6 * ppar.N)
              (ext.solve_backward S.ecL_diag S.ecL_ndiag ppar.N (firstN (6 * ppar.N) S.nu))) j := by
  have hj' : j < SMPC_NUM_VAR * ppar.N := by simp only [SMPC_NUM_VAR]; exact hj
  have h : (resolve ext ppar iHg constraints 0 W x S).2
      = resolve_dx ppar iHg constraints 0 W x (ecL_solve_backward ext S ppar.N S.nu)
          (E_form_ETx ext ppar (ecL_solve_backward ext S ppar.N S.nu)) := rfl
  have hE : E_form_ETx ext ppar (ecL_solve_backward ext S ppar.N S.nu)
      = ext.form_ETx ppar (firstN (6 * ppar.N)
          (ext.solve_backward S.ecL_diag S.ecL_ndiag ppar.N (firstN (6 * ppar.N) S.nu))) := by
    have hf : firstN (6 * ppar.N) (ecL_solve_backward ext S ppar.N S.nu)
        = firstN (6 * ppar.N)
            (ext.solve_backward S.ecL_diag S.ecL_ndiag ppar.N (firstN (6 * ppar.N) S.nu)) := by
      apply firstN_congr
      intro i hi
      unfold ecL_solve_backward
      simp only [SMPC_NUM_STATE_VAR]
      rw [if_pos hi]
    unfold E_form_ETx
    simp only [SMPC_NUM_STATE_VAR]
    rw [hf]
  rw [h, resolve_dx_entry ppar iHg constraints 0 W x _ _ j hj', hE]
  simp only [kkt_ATlambda, Finset.range_zero, Finset.sum_empty, mul_zero, sub_zero,
    SMPC_NUM_STATE_VAR]
  ring

/-- C3: let `nW + 1` constraints `W[0], ..., W[nW]` (each with offset
`ind = 6 * (W[j] / 2)` in a state `W[j] / 2 < N`) be activated one by one with
`up_resolve` after `solve`, every radicand of `update` positive, over blocks
of `ecL` with non-zero diagonal, and let `k ≤ nW`. Then `down_resolve` with
`ind_exclude = k` and the working set without `W[k]` leaves the same rows of
`icL` (row `i < nW` up to its diagonal entry `icL[i][6N + i]`), the same
entries of `z` and of `nu` below `6N + nW` (among them the multipliers
`lambda[i] = nu[6N + i]`) and the same step `dx` as `solve` followed by the
activation of the remaining constraints, in the same order, in any object,
with the same `x` and `iHg`. -/
theorem down_resolve_fresh_build [LinearOrderedField α] (sqrt : α → α) (hs : IsSqrt sqrt)
    (ext : externals α) (ppar : problem_parameters α) (iHg x : Nat → α)
    (constraints : Nat → constraint α) (W : Nat → Nat) (nW k : Nat) (S0 S0' : chol_solve_as α)
    (hk : k ≤ nW)
    (hD : ∀ i, i < ppar.N → (ext.ecL_form ppar).1 i 0 ≠ 0 ∧ (ext.ecL_form ppar).1 i 4 ≠ 0
      ∧ (ext.ecL_form ppar).1 i 8 ≠ 0)
    (hwf : ∀ j, j ≤ nW → (constraints (W j)).ind = 6 * (W j / 2) ∧ W j / 2 < ppar.N)
    (hrad : ∀ j, j ≤ nW →
      0 < update_row ppar (constraints (W j)) j (W j / 2)
            (activate_all sqrt ext ppar iHg constraints W x j (solve ext ppar iHg x S0)).1
            (6 * ppar.N + j)) :
    (∀ i, i < nW → ∀ c, c ≤ 6 * ppar.N + i →
      (down_resolve sqrt ext ppar iHg constraints nW (W_without W k) k x
          (activate_all sqrt ext ppar iHg constraints W x (nW + 1)
            (solve ext ppar iHg x S0)).1).1.icL i c
        = (activate_all sqrt ext ppar iHg constraints (W_without W k) x nW
            (solve ext ppar iHg x S0')).1.icL i c) ∧
    (∀ j, j < 6 * ppar.N + nW →
      (down_resolve sqrt ext ppar iHg constraints nW (W_without W k) k x
          (activate_all sqrt ext ppar iHg constraints W x (nW + 1)
            (solve ext ppar iHg x S0)).1).1.z j
        = (activate_all sqrt ext ppar iHg constraints (W_without W k) x nW
            (solve ext ppar iHg x S0')).1.z j) ∧
    (∀ j, j < 6 * ppar.N + nW →
      (down_resolve sqrt ext ppar iHg constraints nW (W_without W k) k x
          (activate_all sqrt ext ppar iHg constraints W x (nW + 1)
            (solve ext ppar iHg x S0)).1).1.nu j
        = (activate_all sqrt ext ppar iHg constraints (W_without W k) x nW
            (solve ext ppar iHg x S0')).1.nu j) ∧
    (∀ j, j < 8 * ppar.N →
      (down_resolve sqrt ext ppar iHg constraints nW (W_without W k) k x
          (activate_all sqrt ext ppar iHg constraints W x (nW + 1)
            (solve ext ppar iHg x S0)).1).2 j
        = (activate_all sqrt ext ppar iHg constraints (W_without W k) x nW
            (solve ext ppar iHg x S0')).2 j) := by
  have h0 : built_ok ppar iHg x (fun i => constraints (W i)) (ext.ecL_form ppar).1
      (ext.ecL_form ppar).2 (solve ext ppar iHg x S0).1.z 0 (solve ext ppar iHg x S0).1 :=
    ⟨rfl, rfl, fun _ _ => rfl, fun i hi => absurd hi (Nat.not_lt_zero i)⟩
  have hOld := activate_all_ok sqrt hs ext ppar iHg x constraints W _ _ _ _ hD h0 (nW + 1)
    (fun j hj => hwf j (by omega)) (fun j hj => hrad j (by omega))
  obtain ⟨hDown, hDnu⟩ := down_resolve_z_ok sqrt hs ppar iHg x (fun i => constraints (W i))
    _ _ _ nW k hk _
    (fun j hj => ⟨W j / 2, (hwf j (by omega)).1, (hwf j (by omega)).2⟩) hOld
  have hwf' : ∀ j, j < nW →
      (constraints (W_without W k j)).ind = 6 * (W_without W k j / 2)
        ∧ W_without W k j / 2 < ppar.N :=
    fun j hj => hwf (old_index k j) (by have := old_index_bounds k j; omega)
  have h0' : built_ok ppar iHg x (fun i => constraints (W_without W k i))
      (ext.ecL_form ppar).1 (ext.ecL_form ppar).2 (solve ext ppar iHg x S0).1.z 0
      (solve ext ppar iHg x S0').1 :=
    ⟨rfl, rfl, fun j hj => by
      rw [solve_z_entry ext ppar iHg x S0' j hj, solve_z_entry ext ppar iHg x S0 j hj],
      fun i hi => absurd hi (Nat.not_lt_zero i)⟩
  obtain ⟨dd, dnd, dz0, drows⟩ := hDown
  have hT : ∀ i, i < nW → row_ok ppar (ext.ecL_form ppar).1 (ext.ecL_form ppar).2
      (down_resolve_z sqrt ppar nW k
        (activate_all sqrt ext ppar iHg constraints W x (nW + 1)
          (solve ext ppar iHg x S0)).1).icL (constraints (W_without W k i)) i :=
    fun i hi => (drows i hi).1
  obtain ⟨fd, fnd, fz0, frows⟩ := activate_all_fresh sqrt hs ext ppar iHg x constraints
    (W_without W k) _ _ _ (solve ext ppar iHg x S0') nW _ hD h0' hwf' hT nW (le_refl _)
  have hrows := rows_unique ppar _ _ _
    (activate_all sqrt ext ppar iHg constraints (W_without W k) x nW
      (solve ext ppar iHg x S0')).1.icL
    (fun i => constraints (W_without W k i)) nW hD hT (fun i hi => (frows i hi).1)
  have hz := z_unique ppar.N _ _
    (down_resolve_z sqrt ppar nW k
      (activate_all sqrt ext ppar iHg constraints W x (nW + 1) (solve ext ppar iHg x S0)).1).z
    (activate_all sqrt ext ppar iHg constraints (W_without W k) x nW
      (solve ext ppar iHg x S0')).1.z
    (fun i => zn_rhs iHg x (constraints (W_without W k i))) nW hrows
    (fun i hi => ne_of_gt (hT i hi).2.1) (fun j hj => by rw [dz0 j hj, fz0 j hj])
    (fun i hi => (drows i hi).2) (fun i hi => (frows i hi).2)
  refine ⟨hrows, hz, ?_⟩
  cases nW with
  | zero =>
    have hfirst : firstN (6 * ppar.N)
        (down_resolve_z sqrt ppar 0 k
          (activate_all sqrt ext ppar iHg constraints W x (0 + 1)
            (solve ext ppar iHg x S0)).1).nu
        = firstN (6 * ppar.N) (solve ext ppar iHg x S0').1.z :=
      firstN_congr _ _ _ (fun j hj => by
        rw [hDnu j (by omega)]
        exact hz j (by omega))
    have hnu : ∀ j, j < 6 * ppar.N →
        (down_resolve sqrt ext ppar iHg constraints 0 (W_without W k) k x
            (activate_all sqrt ext ppar iHg constraints W x (0 + 1)
              (solve ext ppar iHg x S0)).1).1.nu j
          = (solve ext ppar iHg x S0').1.nu j := by
      intro j hj
      rw [solve_nu_entry ext ppar iHg x S0' j hj, ← hfirst, ← dd, ← dnd]
      show ecL_solve_backward ext _ ppar.N _ j = _
      unfold ecL_solve_backward
      simp only [SMPC_NUM_STATE_VAR]
      rw [if_pos hj]
      rfl
    refine ⟨fun j hj => hnu j (by omega), ?_⟩
    intro j hj
    show (resolve ext ppar iHg constraints 0 (W_without W k) x _).2 j
      = (solve ext ppar iHg x S0').2 j
    rw [resolve_empty_entry ext ppar iHg constraints _ x _ j hj,
      solve_step_entry ext ppar iHg x S0' j hj, hfirst, dd, dnd]
    congr 3
    apply firstN_congr
    intro i hi
    rw [solve_nu_entry ext ppar iHg x S0' i hi]
  | succ n =>
    obtain ⟨_, pOk, pNu⟩ := activate_all_last sqrt hs ext ppar iHg x constraints
      (W_without W k) _ _ _ (solve ext ppar iHg x S0') (n + 1) _ hD h0' hwf' hT n (by omega)
    obtain ⟨cnu, cdx⟩ := resolve_congr ext ppar iHg constraints (n + 1) (W_without W k) x
      (down_resolve_z sqrt ppar (n + 1) k
        (activate_all sqrt ext ppar iHg constraints W x (n + 1 + 1)
          (solve ext ppar iHg x S0)).1)
      (update_z ppar iHg (constraints (W_without W k n)) n x
        (update sqrt ppar (constraints (W_without W k n)) n (W_without W k n / 2)
          (activate_all sqrt ext ppar iHg constraints (W_without W k) x n
            (solve ext ppar iHg x S0')).1))
      (dd.trans pOk.1.symm) (dnd.trans pOk.2.1.symm) hrows
      (fun j hj => by
        rw [hDnu j hj, pNu j (by omega)]
        exact hz j hj)
    exact ⟨cnu, fun j _ => congrFun cdx j⟩

/-! ### An instance with three constraints -/

/-- Row 0 of `ex3_icL` is the row of the factor for constraint 0 of the
example. -/
theorem ex3_row0_ok [LinearOrderedField α] :
    row_ok (ex3_ppar α) ((ex3_ext α).ecL_form (ex3_ppar α)).1
      ((ex3_ext α).ecL_form (ex3_ppar α)).2 (ex3_icL α) (ex3_constraints α 0) 0 := by
  refine ⟨?_, ?_, ?_⟩
  · intro r hr
    simp only [ex3_ppar] at hr
    interval_cases r <;>
      simp [Finset.sum_range_succ, Lfull, ecL_entry, ex3_icL, sa_row, form_sa_row, ex3_ppar,
        ex3_ext, ex3_constraints, SMPC_NUM_STATE_VAR, Function.update_apply]
  · simp [ex3_icL, ex3_ppar]
  · simp [Finset.sum_range_succ, ex3_icL, sa_row, form_sa_row, ex3_ppar,
      ex3_constraints, SMPC_NUM_STATE_VAR, Function.update_apply]
    norm_num

/-- Row 1 of `ex3_icL` is the row of the factor for constraint 1 of the
example. -/
theorem ex3_row1_ok [LinearOrderedField α] :
    row_ok (ex3_ppar α) ((ex3_ext α).ecL_form (ex3_ppar α)).1
      ((ex3_ext α).ecL_form (ex3_ppar α)).2 (ex3_icL α) (ex3_constraints α 1) 1 := by
  refine ⟨?_, ?_, ?_⟩
  · intro r hr
    simp only [ex3_ppar] at hr
    interval_cases r <;>
      simp [Finset.sum_range_succ, Lfull, ecL_entry, ex3_icL, sa_row, form_sa_row, ex3_ppar,
        ex3_ext, ex3_constraints, SMPC_NUM_STATE_VAR, Function.update_apply]
  · simp [ex3_icL, ex3_ppar]
  · simp [Finset.sum_range_succ, ex3_icL, sa_row, form_sa_row, ex3_ppar,
      ex3_constraints, SMPC_NUM_STATE_VAR, Function.update_apply]
    norm_num

/-- Row 2 of `ex3_icL` is the row of the factor for constraint 2 of the
example. -/
theorem ex3_row2_ok [LinearOrderedField α] :
    row_ok (ex3_ppar α) ((ex3_ext α).ecL_form (ex3_ppar α)).1
      ((ex3_ext α).ecL_form (ex3_ppar α)).2 (ex3_icL α) (ex3_constraints α 2) 2 := by
  refine ⟨?_, ?_, ?_⟩
  · intro r hr
    simp only [ex3_ppar] at hr
    interval_cases r <;>
      simp [Finset.sum_range_succ, Lfull, ecL_entry, ex3_icL, sa_row, form_sa_row, ex3_ppar,
        ex3_ext, ex3_constraints, SMPC_NUM_STATE_VAR, Function.update_apply]
    norm_num
  · simp [ex3_icL, ex3_ppar]
  · simp [Finset.sum_range_succ, ex3_icL, sa_row, form_sa_row, ex3_ppar,
      ex3_constraints, SMPC_NUM_STATE_VAR, Function.update_apply]
    norm_num

/-- The rows of `ex3_icL` are the rows of the factor for the three constraints
of the example. -/
theorem ex3_row_ok [LinearOrderedField α] (i : Nat) (hi : i < 3) :
    row_ok (ex3_ppar α) ((ex3_ext α).ecL_form (ex3_ppar α)).1
      ((ex3_ext α).ecL_form (ex3_ppar α)).2 (ex3_icL α) (ex3_constraints α i) i := by
  interval_cases i
  · exact ex3_row0_ok
  · exact ex3_row1_ok
  · exact ex3_row2_ok

/-- A concrete instance of C3 over the reals: `N = 2`, unit blocks in `ecL`,
the three constraints of `ex3_constraints` activated in a zeroed object, the
middle one dropped; the fresh build runs in an object with other contents. -/
theorem down_resolve_fresh_build_witness :
    (∀ i, i < 2 → ∀ c, c ≤ 6 * (ex3_ppar ℝ).N + i →
      (down_resolve Real.sqrt (ex3_ext ℝ) (ex3_ppar ℝ) (fun _ => 1) (ex3_constraints ℝ) 2
          (W_without (fun j => j) 1) 1 (fun _ => 1)
          (activate_all Real.sqrt (ex3_ext ℝ) (ex3_ppar ℝ) (fun _ => 1) (ex3_constraints ℝ)
            (fun j => j) (fun _ => 1) (2 + 1)
            (solve (ex3_ext ℝ) (ex3_ppar ℝ) (fun _ => 1) (fun _ => 1) (ex_S0 ℝ))).1).1.icL i c
        = (activate_all Real.sqrt (ex3_ext ℝ) (ex3_ppar ℝ) (fun _ => 1) (ex3_constraints ℝ)
            (W_without (fun j => j) 1) (fun _ => 1) 2
            (solve (ex3_ext ℝ) (ex3_ppar ℝ) (fun _ => 1) (fun _ => 1) (ex_S2 ℝ))).1.icL i c) ∧
    (∀ j, j < 6 * (ex3_ppar ℝ).N + 2 →
      (down_resolve Real.sqrt (ex3_ext ℝ) (ex3_ppar ℝ) (fun _ => 1) (ex3_constraints ℝ) 2
          (W_without (fun j => j) 1) 1 (fun _ => 1)
          (activate_all Real.sqrt (ex3_ext ℝ) (ex3_ppar ℝ) (fun _ => 1) (ex3_constraints ℝ)
            (fun j => j) (fun _ => 1) (2 + 1)
            (solve (ex3_ext ℝ) (ex3_ppar ℝ) (fun _ => 1) (fun _ => 1) (ex_S0 ℝ))).1).1.z j
        = (activate_all Real.sqrt (ex3_ext ℝ) (ex3_ppar ℝ) (fun _ => 1) (ex3_constraints ℝ)
            (W_without (fun j => j) 1) (fun _ => 1) 2
            (solve (ex3_ext ℝ) (ex3_ppar ℝ) (fun _ => 1) (fun _ => 1) (ex_S2 ℝ))).1.z j) ∧
    (∀ j, j < 6 * (ex3_ppar ℝ).N + 2 →
      (down_resolve Real.sqrt (ex3_ext ℝ) (ex3_ppar ℝ) (fun _ => 1) (ex3_constraints ℝ) 2
          (W_without (fun j => j) 1) 1 (fun _ => 1)
          (activate_all Real.sqrt (ex3_ext ℝ) (ex3_ppar ℝ) (fun _ => 1) (ex3_constraints ℝ)
            (fun j => j) (fun _ => 1) (2 + 1)
            (solve (ex3_ext ℝ) (ex3_ppar ℝ) (fun _ => 1) (fun _ => 1) (ex_S0 ℝ))).1).1.nu j
        = (activate_all Real.sqrt (ex3_ext ℝ) (ex3_ppar ℝ) (fun _ => 1) (ex3_constraints ℝ)
            (W_without (fun j => j) 1) (fun _ => 1) 2
            (solve (ex3_ext ℝ) (ex3_ppar ℝ) (fun _ => 1) (fun _ => 1) (ex_S2 ℝ))).1.nu j) ∧
    (∀ j, j < 8 * (ex3_ppar ℝ).N →
      (down_resolve Real.sqrt (ex3_ext ℝ) (ex3_ppar ℝ) (fun _ => 1) (ex3_constraints ℝ) 2
          (W_without (fun j => j) 1) 1 (fun _ => 1)
          (activate_all Real.sqrt (ex3_ext ℝ) (ex3_ppar ℝ) (fun _ => 1) (ex3_constraints ℝ)
            (fun j => j) (fun _ => 1) (2 + 1)
            (solve (ex3_ext ℝ) (ex3_ppar ℝ) (fun _ => 1) (fun _ => 1) (ex_S0 ℝ))).1).2 j
        = (activate_all Real.sqrt (ex3_ext ℝ) (ex3_ppar ℝ) (fun _ => 1) (ex3_constraints ℝ)
            (W_without (fun j => j) 1) (fun _ => 1) 2
            (solve (ex3_ext ℝ) (ex3_ppar ℝ) (fun _ => 1) (fun _ => 1) (ex_S2 ℝ))).2 j) :=
  down_resolve_fresh_build Real.sqrt (fun y hy => ⟨Real.sqrt_nonneg y, Real.mul_self_sqrt hy⟩)
    (ex3_ext ℝ) (ex3_ppar ℝ) (fun _ => 1) (fun _ => 1) (ex3_constraints ℝ) (fun j => j) 2 1
    (ex_S0 ℝ) (ex_S2 ℝ) (by decide)
    (fun _ _ => by simp [ex3_ext])
    (fun j hj => by interval_cases j <;> simp [ex3_constraints, ex3_ppar])
    (fun j hj =>
      (activate_all_last Real.sqrt (fun y hy => ⟨Real.sqrt_nonneg y, Real.mul_self_sqrt hy⟩)
        (ex3_ext ℝ) (ex3_ppar ℝ) (fun _ => 1) (fun _ => 1) (ex3_constraints ℝ) (fun j => j)
        ((ex3_ext ℝ).ecL_form (ex3_ppar ℝ)).1 ((ex3_ext ℝ).ecL_form (ex3_ppar ℝ)).2
        (solve (ex3_ext ℝ) (ex3_ppar ℝ) (fun _ => 1) (fun _ => 1) (ex_S0 ℝ)).1.z
        (solve (ex3_ext ℝ) (ex3_ppar ℝ) (fun _ => 1) (fun _ => 1) (ex_S0 ℝ)) 3 (ex3_icL ℝ)
        (fun _ _ => by simp [ex3_ext])
        ⟨rfl, rfl, fun _ _ => rfl, fun i hi => absurd hi (Nat.not_lt_zero i)⟩
        (fun j hj => by interval_cases j <;> simp [ex3_constraints, ex3_ppar])
        (fun i hi => ex3_row_ok i hi) j (by omega)).1)

/-! ## The new entry of `z` -/

/-- C33: for a newly activated constraint with the offset `ind = 6s`, `s < N`,
the coefficients `(coef_x, coef_y)` and the row index `ic_num`, whose row
`icL[ic_num]` is zero before position `ind` (as `update` leaves it) and has a
diagonal entry `icL[ic_num][6N+ic_num]` that is not zero, `update_z` leaves
`z[0 .. 6N+ic_num)` and sets
`z[6N+ic_num] = (s_n - sum_{j < 6N+ic_num} icL[ic_num][j]*z[j]) / icL[ic_num][6N+ic_num]`
with `s_n = -(iHg[2s] + x[ind])*coef_x - (iHg[2s+1] + x[ind+3])*coef_y`, so
that the new `z` solves row `ic_num` for `s_n`; afterwards `nu[j] = z[j]` for
every `j ≤ 6N+ic_num`. -/
theorem update_z_incremental [Field α] (ppar : problem_parameters α) (iHg : Nat → α)
    (c : constraint α) (ic_num s : Nat) (x : Nat → α) (S : chol_solve_as α)
    (hc : c.ind = 6 * s) (hs : s < ppar.N) (hz : ∀ j, j < c.ind → S.icL ic_num j = 0)
    (hd : S.icL ic_num (6 * ppar.N + ic_num) ≠ 0) :
    (∀ j, j < 6 * ppar.N + ic_num → (update_z ppar iHg c ic_num x S).z j = S.z j) ∧
    (update_z ppar iHg c ic_num x S).z (6 * ppar.N + ic_num)
      = (-(iHg (2 * s) + x c.ind) * c.coef_x - (iHg (2 * s + 1) + x (c.ind + 3)) * c.coef_y
          - ∑ j ∈ Finset.range (6 * ppar.N + ic_num), S.icL ic_num j * S.z j)
        / S.icL ic_num (6 * ppar.N + ic_num) ∧
    (∀ j, j ≤ 6 * ppar.N + ic_num →
      (update_z ppar iHg c ic_num x S).nu j = (update_z ppar iHg c ic_num x S).z j) ∧
    (update_z ppar iHg c ic_num x S).icL = S.icL ∧
    (∑ j ∈ Finset.range (6 * ppar.N + ic_num),
        S.icL ic_num j * (update_z ppar iHg c ic_num x S).z j
      + S.icL ic_num (6 * ppar.N + ic_num)
        * (update_z ppar iHg c ic_num x S).z (6 * ppar.N + ic_num)
      = -(iHg (2 * s) + x c.ind) * c.coef_x
        - (iHg (2 * s + 1) + x (c.ind + 3)) * c.coef_y) := by
  obtain ⟨hzz, hnu⟩ := update_z_entries ppar iHg c ic_num x S (by omega)
  have hrhs : zn_rhs iHg x c
      = -(iHg (2 * s) + x c.ind) * c.coef_x - (iHg (2 * s + 1) + x (c.ind + 3)) * c.coef_y := by
    have e : 2 * c.ind / SMPC_NUM_STATE_VAR = 2 * s := by
      simp only [SMPC_NUM_STATE_VAR]
      omega
    unfold zn_rhs
    rw [e]
  have hsum : ∑ j ∈ Finset.range (6 * ppar.N + ic_num), S.icL ic_num j * S.z j
      = ∑ j ∈ Finset.range (6 * ppar.N + ic_num - c.ind),
          S.z (c.ind + j) * S.icL ic_num (c.ind + j) := by
    have e : 6 * ppar.N + ic_num = c.ind + (6 * ppar.N + ic_num - c.ind) := by omega
    nth_rewrite 1 [e]
    rw [Finset.sum_range_add]
    have h2 : ∑ j ∈ Finset.range c.ind, S.icL ic_num j * S.z j = 0 := by
      apply Finset.sum_eq_zero
      intro j hj
      rw [hz j (Finset.mem_range.mp hj), zero_mul]
    rw [h2, zero_add]
    apply Finset.sum_congr rfl
    intro j _
    rw [mul_comm]
  have hlow : ∀ j, j < 6 * ppar.N + ic_num → (update_z ppar iHg c ic_num x S).z j = S.z j := by
    intro j hj
    rw [hzz, Function.update_noteq (by omega)]
  have hnew : (update_z ppar iHg c ic_num x S).z (6 * ppar.N + ic_num)
      = (-(iHg (2 * s) + x c.ind) * c.coef_x - (iHg (2 * s + 1) + x (c.ind + 3)) * c.coef_y
          - ∑ j ∈ Finset.range (6 * ppar.N + ic_num), S.icL ic_num j * S.z j)
        / S.icL ic_num (6 * ppar.N + ic_num) := by
    rw [hzz, Function.update_same, hrhs, hsum]
  refine ⟨hlow, hnew, fun j hj => hnu j (by omega), rfl, ?_⟩
  have hs1 : ∑ j ∈ Finset.range (6 * ppar.N + ic_num),
        S.icL ic_num j * (update_z ppar iHg c ic_num x S).z j
      = ∑ j ∈ Finset.range (6 * ppar.N + ic_num), S.icL ic_num j * S.z j := by
    apply Finset.sum_congr rfl
    intro j hj
    rw [hlow j (Finset.mem_range.mp hj)]
  rw [hs1, hnew, mul_div_cancel₀ _ hd]
  ring

/-- A concrete instance of C33: the constraint 2 of `ex3_constraints`, on the
state of interval 1 (`ind = 6`), with row 2 of the factor `ex3_icL` (the row of
the factor for this constraint, `-1/3` at position 6, `2/3` at position 12 and
the diagonal entry `2/3`), and all entries of `z` equal to one: the new entry
`z[14]` is `(-2/3 - 1/3) / (2/3) = -3/2`. -/
theorem update_z_incremental_witness :
    (ex3_constraints ℚ 2).ind = 6 * 1 ∧ 1 < (ex3_ppar ℚ).N ∧
    (∀ j, j < (ex3_constraints ℚ 2).ind → (ex3_S ℚ).icL 2 j = 0) ∧
    (ex3_S ℚ).icL 2 (6 * (ex3_ppar ℚ).N + 2) ≠ 0 ∧
    (ex3_S ℚ).icL 2 6 = -(1 / 3) ∧ (ex3_S ℚ).icL 2 12 = 2 / 3 ∧
    (ex3_S ℚ).icL 2 14 = 2 / 3 ∧
    row_ok (ex3_ppar ℚ) (ex3_S ℚ).ecL_diag (ex3_S ℚ).ecL_ndiag (ex3_S ℚ).icL
      (ex3_constraints ℚ 2) 2 ∧
    (∀ j, j < 6 * (ex3_ppar ℚ).N + 2 →
      (update_z (ex3_ppar ℚ) (fun _ => 1) (ex3_constraints ℚ 2) 2 (fun _ => 1) (ex3_S ℚ)).z j
        = (ex3_S ℚ).z j) ∧
    (update_z (ex3_ppar ℚ) (fun _ => 1) (ex3_constraints ℚ 2) 2 (fun _ => 1) (ex3_S ℚ)).z
        (6 * (ex3_ppar ℚ).N + 2) = -(3 / 2) ∧
    (∀ j, j ≤ 6 * (ex3_ppar ℚ).N + 2 →
      (update_z (ex3_ppar ℚ) (fun _ => 1) (ex3_constraints ℚ 2) 2 (fun _ => 1) (ex3_S ℚ)).nu j
        = (update_z (ex3_ppar ℚ) (fun _ => 1) (ex3_constraints ℚ 2) 2 (fun _ => 1)
            (ex3_S ℚ)).z j) :=
  have hz : ∀ j, j < (ex3_constraints ℚ 2).ind → (ex3_S ℚ).icL 2 j = 0 := by
    intro j hj
    have hj6 : j < 6 := hj
    interval_cases j <;> simp [ex3_S, ex3_icL]
  have hd : (ex3_S ℚ).icL 2 (6 * (ex3_ppar ℚ).N + 2) ≠ 0 := by
    simp [ex3_S, ex3_icL, ex3_ppar]
  have t := update_z_incremental (ex3_ppar ℚ) (fun _ => 1) (ex3_constraints ℚ 2) 2 1
    (fun _ => 1) (ex3_S ℚ) rfl (by decide) hz hd
  have hv : (update_z (ex3_ppar ℚ) (fun _ => 1) (ex3_constraints ℚ 2) 2 (fun _ => 1)
      (ex3_S ℚ)).z (6 * (ex3_ppar ℚ).N + 2) = -(3 / 2) := by
    rw [t.2.1]
    simp [Finset.sum_range_succ, ex3_S, ex3_icL, ex3_constraints, ex3_ppar]
    norm_num
  ⟨rfl, by decide, hz, hd, by simp [ex3_S, ex3_icL], by simp [ex3_S, ex3_icL],
    by simp [ex3_S, ex3_icL], ex3_row2_ok, t.1, hv, t.2.2.1⟩

/-! ## The storage is large enough -/

/-- Every property holds for the elements of the empty list. -/
theorem forall_mem_nil_iff {β : Type} (P : β → Prop) : (∀ a ∈ ([] : List β), P a) ↔ True :=
  ⟨fun _ => trivial, fun _ a ha => absurd ha (List.not_mem_nil a)⟩

/-- A property of the elements of the lists `f i`, `lo ≤ i < lo + n`, holds for
the elements of their concatenation. -/
theorem forall_mem_flatMap_range' {β : Type} (P : β → Prop) (f : Nat → List β) (lo n : Nat)
    (h : ∀ i, lo ≤ i → i < lo + n → ∀ a ∈ f i, P a) :
    ∀ a ∈ (List.range' lo n).flatMap f, P a := by
  intro a ha
  obtain ⟨i, hi, hfi⟩ := List.mem_flatMap.mp ha
  have := List.mem_range'_1.mp hi
  exact h i this.1 this.2 a hfi

/-- The same in the order of a loop that runs down. -/
theorem forall_mem_flatMap_range'_down {β : Type} (P : β → Prop) (f : Nat → List β)
    (lo n : Nat) (h : ∀ i, lo ≤ i → i < lo + n → ∀ a ∈ f i, P a) :
    ∀ a ∈ (List.range' lo n).reverse.flatMap f, P a := by
  intro a ha
  obtain ⟨i, hi, hfi⟩ := List.mem_flatMap.mp ha
  have := List.mem_range'_1.mp (List.mem_reverse.mp hi)
  exact h i this.1 this.2 a hfi

/-- A property of the elements of the lists `f i`, `i < n`, holds for the
elements of their concatenation. -/
theorem forall_mem_flatMap_range {β : Type} (P : β → Prop) (f : Nat → List β) (n : Nat)
    (h : ∀ i, i < n → ∀ a ∈ f i, P a) :
    ∀ a ∈ (List.range n).flatMap f, P a := by
  intro a ha
  obtain ⟨i, hi, hfi⟩ := List.mem_flatMap.mp ha
  exact h i (List.mem_range.mp hi) a hfi

/-- The same in the order of a loop that runs down. -/
theorem forall_mem_flatMap_range_down {β : Type} (P : β → Prop) (f : Nat → List β) (n : Nat)
    (h : ∀ i, i < n → ∀ a ∈ f i, P a) :
    ∀ a ∈ (List.range n).reverse.flatMap f, P a := by
  intro a ha
  obtain ⟨i, hi, hfi⟩ := List.mem_flatMap.mp ha
  exact h i (List.mem_range.mp (List.mem_reverse.mp hi)) a hfi

/-- A property of the values `f i`, `i < n`, holds for the elements of the
list of them. -/
theorem forall_mem_map_range {β : Type} (P : β → Prop) (f : Nat → β) (n : Nat)
    (h : ∀ i, i < n → P (f i)) : ∀ a ∈ (List.range n).map f, P a := by
  intro a ha
  obtain ⟨i, hi, hfi⟩ := List.mem_map.mp ha
  rw [← hfi]
  exact h i (List.mem_range.mp hi)

/-- The entries that `form_sa_row` writes are inside the storage. -/
theorem form_sa_row_in_storage (N s ic_len r : Nat) (hs : s < N) (hr : r < N * 2)
    (hl : ic_len < SMPC_NUM_VAR * N) :
    ∀ a ∈ form_sa_row_accesses N (6 * s) ic_len r, in_storage N a := by
  unfold form_sa_row_accesses
  simp only [SMPC_NUM_VAR, SMPC_NUM_STATE_VAR] at hl ⊢
  simp only [List.forall_mem_append]
  refine ⟨⟨⟨?_, ?_⟩, ?_⟩, ?_⟩
  · apply forall_mem_map_range
    intro j hj
    simp only [in_storage, SMPC_NUM_VAR]
    omega
  · simp only [List.forall_mem_cons, forall_mem_nil_iff, and_true, in_storage, SMPC_NUM_VAR]
    omega
  · by_cases hc : ((6 * s / 6 : Nat) : Int) ≠ (N : Int) - 1
    · rw [if_pos hc]
      simp only [List.forall_mem_cons, forall_mem_nil_iff, and_true, in_storage, SMPC_NUM_VAR]
      omega
    · rw [if_neg hc]
      intro a ha
      exact absurd ha (List.not_mem_nil a)
  · simp only [List.forall_mem_singleton, in_storage, SMPC_NUM_VAR]
    omega

/-- The entries that the body of the loop over `k` in `update` uses are inside
the storage. -/
theorem update_block_in_storage (N ic_num i k : Nat) (hr : ic_num < N * 2) (hi : i < N)
    (hk : k < 2) :
    ∀ a ∈ update_block_accesses N ic_num (ic_num + N * SMPC_NUM_STATE_VAR) i k,
      in_storage N a := by
  unfold update_block_accesses
  simp only [SMPC_NUM_STATE_VAR]
  simp only [List.forall_mem_append]
  refine ⟨⟨⟨?_, ?_⟩, ?_⟩, ?_⟩
  · simp only [List.forall_mem_cons, forall_mem_nil_iff, and_true, in_storage, SMPC_NUM_VAR]
    omega
  · by_cases hc : (i : Int) < (N : Int) - 1
    · rw [if_pos hc]
      simp only [List.forall_mem_cons, forall_mem_nil_iff, and_true, in_storage, SMPC_NUM_VAR]
      omega
    · rw [if_neg hc]
      intro a ha
      exact absurd ha (List.not_mem_nil a)
  · simp only [List.forall_mem_singleton, in_storage, SMPC_NUM_VAR]
    omega
  · apply forall_mem_flatMap_range
    intro j hj
    simp only [List.forall_mem_cons, forall_mem_nil_iff, and_true, in_storage, SMPC_NUM_VAR]
    omega

/-- The entries that the body of the second loop of `update` uses are inside
the storage. -/
theorem update_tail_in_storage (N ic_num k : Nat) (hr : ic_num < N * 2) (hk : k < ic_num) :
    ∀ a ∈ update_tail_accesses N ic_num (ic_num + N * SMPC_NUM_STATE_VAR) k,
      in_storage N a := by
  unfold update_tail_accesses
  simp only [SMPC_NUM_STATE_VAR]
  simp only [List.forall_mem_append]
  refine ⟨?_, ?_⟩
  · simp only [List.forall_mem_cons, forall_mem_nil_iff, and_true, in_storage, SMPC_NUM_VAR]
    omega
  · apply forall_mem_flatMap_range'
    intro j hj1 hj2
    simp only [List.forall_mem_cons, forall_mem_nil_iff, and_true, in_storage, SMPC_NUM_VAR]
    omega

/-- The entries that `update` uses are inside the storage. -/
theorem update_in_storage (N s ic_num state_num : Nat) (hs : s < N) (hr : ic_num < N * 2) :
    ∀ a ∈ update_accesses N (6 * s) ic_num state_num, in_storage N a := by
  unfold update_accesses
  simp only [List.forall_mem_append]
  refine ⟨⟨⟨⟨?_, ?_⟩, ?_⟩, ?_⟩, ?_⟩
  · simp only [List.forall_mem_singleton, in_storage]
    exact hr
  · apply form_sa_row_in_storage N s _ ic_num hs hr
    simp only [SMPC_NUM_VAR, SMPC_NUM_STATE_VAR]
    omega
  · apply forall_mem_flatMap_range'
    intro i hi1 hi2
    apply forall_mem_flatMap_range
    intro k hk
    exact update_block_in_storage N ic_num i k hr (by omega) hk
  · apply forall_mem_flatMap_range
    intro k hk
    exact update_tail_in_storage N ic_num k hr hk
  · simp only [List.forall_mem_singleton, in_storage, SMPC_NUM_VAR, SMPC_NUM_STATE_VAR]
    omega

/-- The entries that `update_z` uses are inside the storage. -/
theorem update_z_in_storage (N s ic_num : Nat) (hs : s < N) (hr : ic_num < N * 2) :
    ∀ a ∈ update_z_accesses N (6 * s) ic_num, in_storage N a := by
  unfold update_z_accesses
  simp only [SMPC_NUM_STATE_VAR]
  simp only [List.forall_mem_append]
  refine ⟨⟨?_, ?_⟩, ?_⟩
  · apply forall_mem_flatMap_range
    intro i hi
    simp only [List.forall_mem_cons, forall_mem_nil_iff, and_true, in_storage, SMPC_NUM_VAR]
    omega
  · apply forall_mem_flatMap_range'
    intro i hi1 hi2
    simp only [List.forall_mem_cons, forall_mem_nil_iff, and_true, in_storage, SMPC_NUM_VAR]
    omega
  · simp only [List.forall_mem_cons, forall_mem_nil_iff, and_true, in_storage, SMPC_NUM_VAR]
    omega

/-- The entries that the loops of `resolve` use are inside the storage. -/
theorem resolve_in_storage (N nW : Nat) (W : Nat → Nat) (hn : nW ≤ 2 * N) :
    ∀ a ∈ resolve_accesses N nW W, in_storage N a := by
  unfold resolve_accesses
  simp only [SMPC_NUM_STATE_VAR]
  simp only [List.forall_mem_append]
  refine ⟨?_, ?_⟩
  · apply forall_mem_flatMap_range_down
    intro i hi
    simp only [List.forall_mem_append]
    refine ⟨?_, ?_⟩
    · simp only [List.forall_mem_cons, forall_mem_nil_iff, and_true, in_storage, SMPC_NUM_VAR]
      omega
    · apply forall_mem_flatMap_range'_down
      intro j hj1 hj2
      simp only [List.forall_mem_cons, forall_mem_nil_iff, and_true, in_storage, SMPC_NUM_VAR]
      omega
  · apply forall_mem_map_range
    intro i hi
    simp only [in_storage, SMPC_NUM_VAR]
    omega

/-- The pointers and entries that `downdate` uses are inside the storage when
the row `nW` is. -/
theorem downdate_in_storage (N nW ind_exclude : Nat) (hn : nW < 2 * N)
    (he : ind_exclude ≤ nW) :
    ∀ a ∈ downdate_accesses N nW ind_exclude, in_storage N a := by
  unfold downdate_accesses
  simp only [SMPC_NUM_STATE_VAR]
  simp only [List.forall_mem_append]
  refine ⟨⟨⟨?_, ?_⟩, ?_⟩, ?_⟩
  · simp only [List.forall_mem_singleton, in_storage]
    omega
  · apply forall_mem_flatMap_range'
    intro i hi1 hi2
    simp only [List.forall_mem_cons, forall_mem_nil_iff, and_true, in_storage]
    omega
  · simp only [List.forall_mem_singleton, in_storage]
    omega
  · apply forall_mem_flatMap_range'
    intro i hi1 hi2
    simp only [List.forall_mem_append]
    refine ⟨?_, ?_⟩
    · simp only [List.forall_mem_cons, forall_mem_nil_iff, and_true, in_storage, SMPC_NUM_VAR]
      omega
    · apply forall_mem_flatMap_range'
      intro j hj1 hj2
      simp only [List.forall_mem_cons, forall_mem_nil_iff, and_true, in_storage, SMPC_NUM_VAR]
      omega

/-- The routine `downdate` uses the pointer `icL[nW]`: its argument `nW`, the
number of the constraints that stay, is a row of the factor. -/
theorem downdate_uses_row_nW (N nW ind_exclude : Nat) :
    access.icL_row nW ∈ downdate_accesses N nW ind_exclude := by
  unfold downdate_accesses
  simp

/-- The entries that `down_resolve` uses are inside the storage when the row
`nW` is. -/
theorem down_resolve_in_storage (N nW ind_exclude : Nat) (W : Nat → Nat) (hn : nW < 2 * N)
    (he : ind_exclude ≤ nW) :
    ∀ a ∈ down_resolve_accesses N nW ind_exclude W, in_storage N a := by
  unfold down_resolve_accesses
  simp only [List.forall_mem_append]
  refine ⟨⟨⟨⟨⟨?_, ?_⟩, ?_⟩, ?_⟩, ?_⟩, ?_⟩
  · apply forall_mem_flatMap_range'_down
    intro i hi1 hi2
    simp only [SMPC_NUM_STATE_VAR]
    simp only [List.forall_mem_append]
    refine ⟨?_, ?_⟩
    · simp only [List.forall_mem_cons, forall_mem_nil_iff, and_true, in_storage, SMPC_NUM_VAR]
      omega
    · apply forall_mem_flatMap_range'
      intro j hj1 hj2
      simp only [List.forall_mem_cons, forall_mem_nil_iff, and_true, in_storage, SMPC_NUM_VAR]
      omega
  · simp only [List.forall_mem_singleton, in_storage, SMPC_NUM_VAR, SMPC_NUM_STATE_VAR]
    omega
  · exact downdate_in_storage N nW ind_exclude hn he
  · apply forall_mem_flatMap_range'
    intro i hi1 hi2
    simp only [SMPC_NUM_STATE_VAR]
    simp only [List.forall_mem_append]
    refine ⟨⟨?_, ?_⟩, ?_⟩
    · simp only [List.forall_mem_singleton, in_storage, SMPC_NUM_VAR]
      omega
    · apply forall_mem_flatMap_range'
      intro j hj1 hj2
      simp only [List.forall_mem_cons, forall_mem_nil_iff, and_true, in_storage, SMPC_NUM_VAR]
      omega
    · simp only [List.forall_mem_singleton, in_storage, SMPC_NUM_VAR]
      omega
  · apply forall_mem_flatMap_range
    intro i hi
    simp only [SMPC_NUM_STATE_VAR] at hi
    simp only [List.forall_mem_cons, forall_mem_nil_iff, and_true, in_storage, SMPC_NUM_VAR]
    omega
  · exact resolve_in_storage N nW W (by omega)

/-- C37: with `2N` rows of `8N` entries for `icL` and `8N` entries for `nu`
and for `z`, for a working set of `nW` constraints, `1 ≤ nW ≤ 2N`, and a
constraint with the offset `ind = 6s`, `s < N`, every row and every entry that
`update`, `update_z` and `resolve` use when the constraint becomes the last of
the `nW` (row `nW - 1`), and that `down_resolve` and `downdate` use when one of
the `nW` is removed (their argument is the number `nW - 1` of those that
stay), is inside the storage: rows below `2N`, columns below `8N`. Among the
entries are `ind + 9` in `form_sa_row` for `s < N - 1`, the diagonal entry
`6N + nW - 1`, and the column `6N + i + 1` in `downdate`. -/
theorem storage_large_enough (N nW s state_num ind_exclude : Nat) (W : Nat → Nat)
    (h1 : 1 ≤ nW) (hn : nW ≤ 2 * N) (hs : s < N) (he : ind_exclude < nW) :
    (∀ a ∈ update_accesses N (6 * s) (nW - 1) state_num, in_storage N a) ∧
    (∀ a ∈ update_z_accesses N (6 * s) (nW - 1), in_storage N a) ∧
    (∀ a ∈ resolve_accesses N nW W, in_storage N a) ∧
    (∀ a ∈ up_resolve_accesses N nW W (6 * s), in_storage N a) ∧
    (∀ a ∈ down_resolve_accesses N (nW - 1) ind_exclude W, in_storage N a) ∧
    (∀ a ∈ downdate_accesses N (nW - 1) ind_exclude, in_storage N a) ∧
    (s + 1 < N → access.icL (nW - 1) (6 * s + 9) ∈ update_accesses N (6 * s) (nW - 1) state_num
      ∧ 6 * s + 9 < 8 * N) ∧
    (access.icL (nW - 1) (6 * N + nW - 1) ∈ update_accesses N (6 * s) (nW - 1) state_num
      ∧ 6 * N + nW - 1 < 8 * N) ∧
    (∀ i, ind_exclude ≤ i → i < nW - 1 →
      access.icL i (6 * N + i + 1) ∈ downdate_accesses N (nW - 1) ind_exclude
        ∧ 6 * N + i + 1 < 8 * N) := by
  have hu := update_in_storage N s (nW - 1) state_num hs (by omega)
  have hz := update_z_in_storage N s (nW - 1) hs (by omega)
  have hr := resolve_in_storage N nW W hn
  refine ⟨hu, hz, hr, ?_, down_resolve_in_storage N (nW - 1) ind_exclude W (by omega) (by omega),
    downdate_in_storage N (nW - 1) ind_exclude (by omega) (by omega), ?_, ?_, ?_⟩
  · unfold up_resolve_accesses
    simp only [List.forall_mem_append]
    exact ⟨⟨update_in_storage N s (nW - 1) _ hs (by omega), hz⟩, hr⟩
  · intro hs1
    refine ⟨?_, by omega⟩
    unfold update_accesses form_sa_row_accesses
    have hc : ((6 * s / SMPC_NUM_STATE_VAR : Nat) : Int) ≠ (N : Int) - 1 := by
      simp only [SMPC_NUM_STATE_VAR]
      omega
    simp only [if_pos hc]
    simp
  · refine ⟨?_, by omega⟩
    unfold update_accesses
    have e : nW - 1 + N * SMPC_NUM_STATE_VAR = 6 * N + nW - 1 := by
      simp only [SMPC_NUM_STATE_VAR]
      omega
    simp only [e]
    simp
  · intro i hi1 hi2
    refine ⟨?_, by omega⟩
    unfold downdate_accesses
    simp only [List.mem_append, List.mem_flatMap, List.mem_range'_1]
    right
    refine ⟨i, ⟨hi1, by omega⟩, ?_⟩
    simp [SMPC_NUM_STATE_VAR]

/-- A concrete instance of C37: `N = 2`, a working set of four constraints,
the constraint on state 0, the first constraint removed. -/
theorem storage_large_enough_witness :
    1 ≤ 4 ∧ 4 ≤ 2 * 2 ∧ 0 < 2 ∧ 0 < 4 ∧
    (∀ a ∈ update_accesses 2 (6 * 0) (4 - 1) 0, in_storage 2 a) ∧
    (∀ a ∈ down_resolve_accesses 2 (4 - 1) 0 (fun i => i), in_storage 2 a) ∧
    access.icL (4 - 1) (6 * 0 + 9) ∈ update_accesses 2 (6 * 0) (4 - 1) 0 :=
  have t := storage_large_enough 2 4 0 0 0 (fun i => i) (by decide) (by decide) (by decide)
    (by decide)
  ⟨by decide, by decide, by decide, by decide, t.1, t.2.2.2.2.1,
    (t.2.2.2.2.2.2.1 (by decide)).1⟩

end solver_theorems

/-! ## formPreviewWindow -/

section wmg_theorems
variable {α : Type}

/-- A footstep with no time left at the head of the walk is skipped. -/
theorem window_halts_skip (T_ms : Nat → Nat) (n i : Nat) (L : List Nat) :
    window_halts T_ms n i (0 :: L) = window_halts T_ms n i L := by
  cases n with
  | zero => rfl
  | succ n => simp [window_halts, List.dropWhile]

/-- One step of the walk at a footstep with time left. -/
theorem window_halts_pos (T_ms : Nat → Nat) (n i t : Nat) (L : List Nat) (ht : 0 < t) :
    window_halts T_ms (n + 1) i (t :: L)
      = if T_ms i > t then true else window_halts T_ms n (i + 1) ((t - T_ms i) :: L) := by
  have h : (t == 0) = false := by simp; omega
  simp [window_halts, List.dropWhile, h]

/-- The walk halts on an exhausted list when an interval remains. -/
theorem window_halts_nil (T_ms : Nat → Nat) (n i : Nat) :
    window_halts T_ms (n + 1) i [] = true := by
  simp [window_halts]

/-- The loop of `formPreviewWindow` returns, and it returns `WMG_HALT` exactly
when the walk of the specification halts. -/
theorem preview_loop_halts [Field α] (FS : List (footstep α)) (N : Nat) (T_ms : Nat → Nat) :
    ∀ (fuel i win stl : Nat) (par : smpc_parameters α), win < FS.length →
      (N - i) + (FS.length - 1 - win) ≤ fuel →
      ∃ r par', preview_loop FS N T_ms fuel i win stl par = some (r, par') ∧
        (r = WMGret.WMG_HALT ↔
          window_halts T_ms (N - i) i
            (stl :: (FS.drop (win + 1)).map (fun fs => fs.time_left)) = true) := by
  intro fuel
  induction fuel with
  | zero =>
    intro i win stl par hwin hfuel
    have hi : ¬ i < N := by omega
    have h0 : N - i = 0 := by omega
    refine ⟨WMGret.WMG_OK, par, ?_, ?_⟩
    · simp [preview_loop, hi]
    · simp [h0, window_halts]
  | succ fuel ih =>
    intro i win stl par hwin hfuel
    by_cases hi : i < N
    · obtain ⟨n, hn⟩ : ∃ n, N - i = n + 1 := ⟨N - i - 1, by omega⟩
      have hn' : N - (i + 1) = n := by omega
      by_cases hs : stl > 0
      · have hget : FS[win]? = some FS[win] := List.getElem?_eq_getElem hwin
        by_cases hT : T_ms i > stl
        · refine ⟨WMGret.WMG_HALT, fill_par par i FS[win], ?_, ?_⟩
          · simp [preview_loop, hi, hs, hget, hT]
          · rw [hn, window_halts_pos _ _ _ _ _ hs]
            simp [hT]
        · have hsub : usub stl (T_ms i) = stl - T_ms i := by
            unfold usub; rw [if_pos (by omega)]
          obtain ⟨r, par', h1, h2⟩ := ih (i + 1) win (stl - T_ms i)
            { fill_par par i FS[win] with
              T := Function.update (fill_par par i FS[win]).T i ((T_ms i : α) / 1000) }
            hwin (by omega)
          refine ⟨r, par', ?_, ?_⟩
          · simp only [preview_loop, hi, hs, hget, hT, if_true, if_false, hsub]
            exact h1
          · rw [hn, window_halts_pos _ _ _ _ _ hs, if_neg hT, ← hn']
            exact h2
      · have hs0 : stl = 0 := by omega
        subst hs0
        by_cases hlen : win + 1 = FS.length
        · refine ⟨WMGret.WMG_HALT, par, ?_, ?_⟩
          · simp [preview_loop, hi, hlen]
          · have hd : FS.drop (win + 1) = [] := by
              rw [hlen]; exact List.drop_length FS
            rw [hd, hn, window_halts_skip]
            simp [window_halts_nil]
        · have hwin' : win + 1 < FS.length := by omega
          have hget : FS[win + 1]? = some FS[win + 1] := List.getElem?_eq_getElem hwin'
          obtain ⟨r, par', h1, h2⟩ := ih i (win + 1) FS[win + 1].time_left par hwin' (by omega)
          refine ⟨r, par', ?_, ?_⟩
          · simp only [preview_loop, hi, hs, hlen, hget, if_true, if_false]
            exact h1
          · rw [window_halts_skip, List.drop_eq_getElem_cons hwin', List.map_cons]
            exact h2
    · have h0 : N - i = 0 := by omega
      refine ⟨WMGret.WMG_OK, par, ?_, ?_⟩
      · simp [preview_loop, hi]
      · simp [h0, window_halts]

/-- When the walk places an interval, some footstep of the list has time left. -/
theorem window_halts_false_pos (T_ms : Nat → Nat) (n i : Nat) (L : List Nat)
    (h : window_halts T_ms (n + 1) i L = false) : ∃ t, t ∈ L ∧ 0 < t := by
  induction L with
  | nil => rw [window_halts_nil] at h; exact absurd h (by decide)
  | cons a L ih =>
    by_cases ha : a = 0
    · subst ha
      rw [window_halts_skip] at h
      obtain ⟨t, ht, hpos⟩ := ih h
      exact ⟨t, List.mem_cons_of_mem _ ht, hpos⟩
    · exact ⟨a, List.mem_cons_self _ _, Nat.pos_of_ne_zero ha⟩

/-- The loop that skips the finished footsteps stops inside the list when a
footstep at or after `current_step_number` has time left. -/
theorem skip_finished_some (FS : List (footstep α)) :
    ∀ (fuel cur : Nat), FS.length - cur ≤ fuel →
      (∃ k fs, cur ≤ k ∧ FS[k]? = some fs ∧ 0 < fs.time_left) →
      ∃ c fs, skip_finished FS fuel cur = some c ∧ cur ≤ c ∧ FS[c]? = some fs ∧
        0 < fs.time_left := by
  intro fuel
  induction fuel with
  | zero =>
    intro cur hfuel ⟨k, fs, hk, hget, _⟩
    have hlt : k < FS.length := (List.getElem?_eq_some_iff.mp hget).1
    omega
  | succ fuel ih =>
    intro cur hfuel ⟨k, fs, hk, hget, hpos⟩
    have hlt : k < FS.length := (List.getElem?_eq_some_iff.mp hget).1
    have hcur : cur < FS.length := by omega
    have hgc : FS[cur]? = some FS[cur] := List.getElem?_eq_getElem hcur
    by_cases h0 : FS[cur].time_left = 0
    · have hne : k ≠ cur := by
        intro e
        subst e
        rw [hgc] at hget
        have := Option.some.inj hget
        rw [this] at h0
        omega
      obtain ⟨c, fs', h1, h2, h3, h4⟩ := ih (cur + 1) (by omega) ⟨k, fs, by omega, hget, hpos⟩
      refine ⟨c, fs', ?_, by omega, h3, h4⟩
      simp only [skip_finished, hgc, h0, if_true]
      exact h1
    · refine ⟨cur, FS[cur], ?_, le_refl _, hgc, Nat.pos_of_ne_zero h0⟩
      simp [skip_finished, hgc, h0]

/-- C9: for a footstep list with `current_step_number` inside it and `N ≥ 1`,
`formPreviewWindow` returns, and the result is `WMG_HALT` if and only if the
walk over the footsteps from `current_step_number`, skipping the footsteps
with no time left, either exhausts the list before all `N` intervals are
placed or meets an interval `i` with `T_ms[i]` greater than the positive time
still unassigned in the footstep it starts in; otherwise it is `WMG_OK`. -/
theorem formPreviewWindow_halt_iff [Field α] (w : WMG α) (par : smpc_parameters α)
    (hcur : w.current_step_number < w.FS.length) (hN : 1 ≤ w.N) :
    ∃ r par' w', formPreviewWindow w par = some (r, par', w') ∧
      (r = WMGret.WMG_HALT ↔
        window_halts w.T_ms w.N 0
          ((w.FS.drop w.current_step_number).map (fun fs => fs.time_left)) = true) ∧
      (r = WMGret.WMG_OK ↔
        window_halts w.T_ms w.N 0
          ((w.FS.drop w.current_step_number).map (fun fs => fs.time_left)) = false) := by
  have hget : w.FS[w.current_step_number]? = some w.FS[w.current_step_number] :=
    List.getElem?_eq_getElem hcur
  obtain ⟨r, par', h1, h2⟩ := preview_loop_halts w.FS w.N w.T_ms (w.N + w.FS.length) 0
    w.current_step_number w.FS[w.current_step_number].time_left par hcur (by omega)
  have hL : (w.FS.drop w.current_step_number).map (fun fs => fs.time_left)
      = w.FS[w.current_step_number].time_left
        :: (w.FS.drop (w.current_step_number + 1)).map (fun fs => fs.time_left) := by
    rw [List.drop_eq_getElem_cons hcur, List.map_cons]
  rw [hL]
  rw [Nat.sub_zero] at h2
  cases r with
  | WMG_HALT =>
    refine ⟨WMGret.WMG_HALT, par', w, ?_, ?_, ?_⟩
    · simp only [formPreviewWindow, hget, h1]
    · exact h2
    · have := h2.mp rfl
      rw [this]
      simp
  | WMG_OK =>
    have hf : window_halts w.T_ms w.N 0
        (w.FS[w.current_step_number].time_left
          :: (w.FS.drop (w.current_step_number + 1)).map (fun fs => fs.time_left)) = false := by
      cases hb : window_halts w.T_ms w.N 0
        (w.FS[w.current_step_number].time_left
          :: (w.FS.drop (w.current_step_number + 1)).map (fun fs => fs.time_left)) with
      | false => rfl
      | true => exact absurd (h2.mpr hb) (by decide)
    obtain ⟨n, hn⟩ : ∃ n, w.N = n + 1 := ⟨w.N - 1, by omega⟩
    have hf' := hf
    rw [hn, ← hL] at hf'
    obtain ⟨t, ht, hpos⟩ := window_halts_false_pos _ _ _ _ hf'
    obtain ⟨fs, hfs, hfst⟩ := List.mem_map.mp ht
    obtain ⟨j, hj⟩ := List.mem_iff_getElem?.mp hfs
    rw [List.getElem?_drop] at hj
    obtain ⟨c, fsc, hc1, hc2, hc3, hc4⟩ := skip_finished_some w.FS (w.FS.length + 1)
      w.current_step_number (by omega) ⟨w.current_step_number + j, fs, by omega, hj, by omega⟩
    refine ⟨WMGret.WMG_OK, par',
      { w with
        FS := w.FS.set c { fsc with time_left := usub fsc.time_left (w.T_ms 0) }
        current_step_number := if usub fsc.time_left (w.T_ms 0) = 0 then c + 1 else c
        first_preview_step := c
        last_time_decrement := w.T_ms 0 }, ?_, ?_, ?_⟩
    · simp only [formPreviewWindow, hget, h1, hc1, hc3]
    · rw [hf]
      simp
    · rw [hf]
      simp

/-- A concrete instance of C9: one footstep with 10 ms left, one interval of
20 ms. -/
theorem formPreviewWindow_halt_iff_witness :
    ∃ r par' w', formPreviewWindow ex_wmg ex_par = some (r, par', w') ∧
      (r = WMGret.WMG_HALT ↔
        window_halts ex_wmg.T_ms ex_wmg.N 0
          ((ex_wmg.FS.drop ex_wmg.current_step_number).map (fun fs => fs.time_left)) = true) ∧
      (r = WMGret.WMG_OK ↔
        window_halts ex_wmg.T_ms ex_wmg.N 0
          ((ex_wmg.FS.drop ex_wmg.current_step_number).map (fun fs => fs.time_left)) = false) :=
  formPreviewWindow_halt_iff ex_wmg ex_par (by decide) (by decide)

/-- C10: whenever `formPreviewWindow` returns `WMG_HALT`, the object (the
footstep list with every `time_left`, `current_step_number`,
`first_preview_step`, `last_time_decrement`) is as before the call. -/
theorem formPreviewWindow_halt_state [Field α] (w w' : WMG α) (par par' : smpc_parameters α)
    (h : formPreviewWindow w par = some (WMGret.WMG_HALT, par', w')) :
    w' = w ∧ w'.FS = w.FS ∧ w'.current_step_number = w.current_step_number ∧
      w'.first_preview_step = w.first_preview_step ∧
      w'.last_time_decrement = w.last_time_decrement := by
  have hw : w' = w := by
    unfold formPreviewWindow at h
    split at h
    · exact absurd h (by simp)
    · split at h
      · exact absurd h (by simp)
      · simp only [Option.some.injEq, Prod.mk.injEq, true_and] at h
        exact h.2.symm
      · split at h
        · exact absurd h (by simp)
        · split at h
          · exact absurd h (by simp)
          · simp at h
  subst hw
  exact ⟨rfl, rfl, rfl, rfl, rfl⟩

/-- A concrete instance of C10: the interval of 20 ms does not fit in the
10 ms left, the call halts and the object is unchanged. -/
theorem formPreviewWindow_halt_state_witness :
    formPreviewWindow ex_wmg ex_par = some (WMGret.WMG_HALT, fill_par ex_par 0 ex_fs, ex_wmg) ∧
    (ex_wmg = ex_wmg ∧ ex_wmg.FS = ex_wmg.FS ∧
      ex_wmg.current_step_number = ex_wmg.current_step_number ∧
      ex_wmg.first_preview_step = ex_wmg.first_preview_step ∧
      ex_wmg.last_time_decrement = ex_wmg.last_time_decrement) :=
  ⟨rfl, formPreviewWindow_halt_state ex_wmg ex_wmg ex_par (fill_par ex_par 0 ex_fs) rfl⟩

/-! ### The content and the effect of a successful call -/

/-- The stores of one pass of the loop put the footstep in the entries of
interval `i`. -/
theorem par_row_fill_same [Field α] (par : smpc_parameters α) (i : Nat) (fs : footstep α)
    (t : α) :
    par_row { fill_par par i fs with T := Function.update (fill_par par i fs).T i t } i
      = fs_row fs t := by
  have e : i * 2 ≠ i * 2 + 1 := by omega
  simp [par_row, fs_row, fill_par, Function.update_apply, e]

/-- The stores of one pass of the loop leave the entries of the other
intervals. -/
theorem par_row_fill_other [Field α] (par : smpc_parameters α) (i j : Nat) (fs : footstep α)
    (t : α) (h : j ≠ i) :
    par_row { fill_par par i fs with T := Function.update (fill_par par i fs).T i t } j
      = par_row par j := by
  have e1 : j * 2 ≠ i * 2 := by omega
  have e2 : j * 2 ≠ i * 2 + 1 := by omega
  have e3 : j * 2 + 1 ≠ i * 2 := by omega
  have e4 : j * 2 + 1 ≠ i * 2 + 1 := by omega
  simp [par_row, fill_par, Function.update_apply, h, e1, e2, e3, e4]

/-- The time available at a footstep other than the one the loop stands at. -/
theorem time_avail_other (FS : List (footstep α)) (win stl k : Nat) (h : k ≠ win) :
    time_avail FS win stl k = time_left_at FS k := by
  unfold time_avail
  rw [if_neg h]

/-- The time available when the loop arrives at a footstep. -/
theorem time_avail_arrive (FS : List (footstep α)) (win k : Nat) (fs : footstep α)
    (h : FS[win]? = some fs) : time_avail FS win fs.time_left k = time_left_at FS k := by
  unfold time_avail
  by_cases e : k = win
  · rw [if_pos e, e]
    unfold time_left_at
    rw [h]
  · rw [if_neg e]

/-- What the loop of `formPreviewWindow` has done when it ends with `WMG_OK`:
every interval from `i` on is filled from one footstep `wi j`, at or after the
footstep the loop stood at; the footsteps do not go back; the intervals of a
footstep fit in the time available there; the first interval lies in the
first footstep with time available. -/
theorem preview_loop_ok [Field α] (FS : List (footstep α)) (N : Nat) (T_ms : Nat → Nat) :
    ∀ (fuel i win stl : Nat) (par par' : smpc_parameters α),
      preview_loop FS N T_ms fuel i win stl par = some (WMGret.WMG_OK, par') →
      ∃ wi : Nat → Nat,
        (∀ j, i ≤ j → j < N → win ≤ wi j ∧ ∃ fs, FS[wi j]? = some fs ∧
            par_row par' j = fs_row fs ((T_ms j : α) / 1000)) ∧
        (∀ j, j < i → par_row par' j = par_row par j) ∧
        (∀ j j', i ≤ j → j ≤ j' → j' < N → wi j ≤ wi j') ∧
        (∀ k, win ≤ k →
          ∑ j ∈ Finset.Ico i N, (if wi j = k then T_ms j else 0) ≤ time_avail FS win stl k) ∧
        (i < N → 0 < time_avail FS win stl (wi i) ∧
          ∀ k, win ≤ k → k < wi i → time_avail FS win stl k = 0) := by
  intro fuel
  induction fuel with
  | zero =>
    intro i win stl par par' h
    by_cases hi : i < N
    · simp [preview_loop, hi] at h
    · simp [preview_loop, hi] at h
      subst h
      refine ⟨fun _ => win, fun j h1 h2 => by omega, fun _ _ => rfl, fun _ _ _ _ _ => le_refl _,
        fun k _ => ?_, fun h => absurd h hi⟩
      rw [Finset.Ico_eq_empty (by omega), Finset.sum_empty]
      exact Nat.zero_le _
  | succ fuel ih =>
    intro i win stl par par' h
    by_cases hi : i < N
    · by_cases hs : stl > 0
      · cases hget : FS[win]? with
        | none => simp [preview_loop, hi, hs, hget] at h
        | some fs =>
          by_cases hT : T_ms i > stl
          · simp [preview_loop, hi, hs, hget, hT] at h
          · have hsub : usub stl (T_ms i) = stl - T_ms i := by
              unfold usub; rw [if_pos (by omega)]
            simp only [preview_loop, hi, hs, hget, hT, if_true, if_false, hsub] at h
            obtain ⟨wi1, a1, b1, c1, d1, _⟩ := ih _ _ _ _ _ h
            refine ⟨Function.update wi1 i win, ?_, ?_, ?_, ?_, ?_⟩
            · intro j h1 h2
              by_cases e : j = i
              · subst e
                rw [Function.update_same]
                refine ⟨le_refl _, fs, hget, ?_⟩
                rw [b1 j (by omega), par_row_fill_same]
              · rw [Function.update_noteq e]
                exact a1 j (by omega) h2
            · intro j hj
              rw [b1 j (by omega), par_row_fill_other _ _ _ _ _ (by omega)]
            · intro j j' h1 h2 h3
              by_cases e : j = i
              · subst e
                rw [Function.update_same]
                by_cases e' : j' = j
                · rw [e', Function.update_same]
                · rw [Function.update_noteq e']
                  exact (a1 j' (by omega) h3).1
              · rw [Function.update_noteq e, Function.update_noteq (by omega)]
                exact c1 j j' (by omega) h2 h3
            · intro k hk
              rw [Finset.sum_eq_sum_Ico_succ_bot hi, Function.update_same]
              have hrest : ∑ j ∈ Finset.Ico (i + 1) N,
                    (if Function.update wi1 i win j = k then T_ms j else 0)
                  = ∑ j ∈ Finset.Ico (i + 1) N, (if wi1 j = k then T_ms j else 0) := by
                apply Finset.sum_congr rfl
                intro j hj
                have := (Finset.mem_Ico.mp hj).1
                rw [Function.update_noteq (by omega)]
              rw [hrest]
              have hb := d1 k hk
              unfold time_avail at hb ⊢
              by_cases e : k = win
              · rw [if_pos e] at hb ⊢
                rw [if_pos e.symm]
                omega
              · rw [if_neg e] at hb ⊢
                rw [if_neg (fun h => e h.symm)]
                omega
            · intro _
              rw [Function.update_same]
              constructor
              · unfold time_avail
                rw [if_pos rfl]
                exact hs
              · intro k h1 h2
                omega
      · have hs0 : stl = 0 := by omega
        by_cases hlen : win + 1 = FS.length
        · simp [preview_loop, hi, hs, hlen] at h
        · cases hget : FS[win + 1]? with
          | none => simp [preview_loop, hi, hs, hlen, hget] at h
          | some fs =>
            simp only [preview_loop, hi, hs, hlen, hget, if_true, if_false] at h
            obtain ⟨wi1, a1, b1, c1, d1, e1⟩ := ih _ _ _ _ _ h
            have hav : ∀ k, k ≠ win →
                time_avail FS win stl k = time_avail FS (win + 1) fs.time_left k := by
              intro k hk
              rw [time_avail_other FS win stl k hk, time_avail_arrive FS (win + 1) k fs hget]
            refine ⟨wi1, ?_, b1, c1, ?_, ?_⟩
            · intro j h1 h2
              obtain ⟨q1, q2⟩ := a1 j h1 h2
              exact ⟨by omega, q2⟩
            · intro k hk
              by_cases e : k = win
              · have hz : ∑ j ∈ Finset.Ico i N, (if wi1 j = k then T_ms j else 0) = 0 := by
                  apply Finset.sum_eq_zero
                  intro j hj
                  obtain ⟨m1, m2⟩ := Finset.mem_Ico.mp hj
                  have := (a1 j m1 m2).1
                  rw [if_neg (by omega)]
                rw [hz]
                exact Nat.zero_le _
              · rw [hav k e]
                exact d1 k (by omega)
            · intro hiN
              obtain ⟨p1, p2⟩ := e1 hiN
              have hw := (a1 i (le_refl _) hiN).1
              constructor
              · rw [hav _ (by omega)]
                exact p1
              · intro k h1 h2
                by_cases e : k = win
                · unfold time_avail
                  rw [if_pos e]
                  exact hs0
                · rw [hav k e]
                  exact p2 k (by omega) h2
    · simp [preview_loop, hi] at h
      subst h
      refine ⟨fun _ => win, fun j h1 h2 => by omega, fun _ _ => rfl, fun _ _ _ _ _ => le_refl _,
        fun k _ => ?_, fun h => absurd h hi⟩
      rw [Finset.Ico_eq_empty (by omega), Finset.sum_empty]
      exact Nat.zero_le _

/-- Where the loop that skips the finished footsteps stops: at the first
footstep from `current_step_number` on with time left. -/
theorem skip_finished_spec (FS : List (footstep α)) :
    ∀ (fuel cur c : Nat), skip_finished FS fuel cur = some c →
      cur ≤ c ∧ 0 < time_left_at FS c ∧
        ∀ k, cur ≤ k → k < c → time_left_at FS k = 0 := by
  intro fuel
  induction fuel with
  | zero => intro cur c h; simp [skip_finished] at h
  | succ fuel ih =>
    intro cur c h
    cases hget : FS[cur]? with
    | none => simp [skip_finished, hget] at h
    | some fs =>
      by_cases h0 : fs.time_left = 0
      · simp only [skip_finished, hget, h0, if_true] at h
        obtain ⟨a1, a2, a3⟩ := ih _ _ h
        refine ⟨by omega, a2, ?_⟩
        intro k h1 h2
        by_cases e : k = cur
        · rw [e]
          unfold time_left_at
          rw [hget]
          exact h0
        · exact a3 k (by omega) h2
      · simp only [skip_finished, hget, h0, if_false, Option.some.injEq] at h
        subst h
        refine ⟨le_refl _, ?_, fun k h1 h2 => by omega⟩
        unfold time_left_at
        rw [hget]
        exact Nat.pos_of_ne_zero h0

/-- The first index from `cur` on where a function is positive is unique. -/
theorem first_pos_unique (f : Nat → Nat) (cur a b : Nat) (ha : 0 < f a) (hb : 0 < f b)
    (hza : ∀ k, cur ≤ k → k < a → f k = 0) (hzb : ∀ k, cur ≤ k → k < b → f k = 0)
    (h1 : cur ≤ a) (h2 : cur ≤ b) : a = b := by
  rcases Nat.lt_trichotomy a b with h | h | h
  · have := hzb a h1 h
    omega
  · exact h
  · have := hza b h2 h
    omega

/-- The parts of a call of `formPreviewWindow` that returns `WMG_OK`. -/
theorem formPreviewWindow_ok_parts [Field α] (w w' : WMG α) (par par' : smpc_parameters α)
    (h : formPreviewWindow w par = some (WMGret.WMG_OK, par', w')) :
    ∃ fs0 c fs, w.FS[w.current_step_number]? = some fs0 ∧
      preview_loop w.FS w.N w.T_ms (w.N + w.FS.length) 0 w.current_step_number
        fs0.time_left par = some (WMGret.WMG_OK, par') ∧
      skip_finished w.FS (w.FS.length + 1) w.current_step_number = some c ∧
      w.FS[c]? = some fs ∧
      w' = { w with
        FS := w.FS.set c { fs with time_left := usub fs.time_left (w.T_ms 0) }
        current_step_number := if usub fs.time_left (w.T_ms 0) = 0 then c + 1 else c
        first_preview_step := c
        last_time_decrement := w.T_ms 0 } := by
  cases h0 : w.FS[w.current_step_number]? with
  | none => simp [formPreviewWindow, h0] at h
  | some fs0 =>
    cases h1 : preview_loop w.FS w.N w.T_ms (w.N + w.FS.length) 0 w.current_step_number
        fs0.time_left par with
    | none => simp [formPreviewWindow, h0, h1] at h
    | some rp =>
      obtain ⟨r, p⟩ := rp
      cases r with
      | WMG_HALT => simp [formPreviewWindow, h0, h1] at h
      | WMG_OK =>
        cases h2 : skip_finished w.FS (w.FS.length + 1) w.current_step_number with
        | none => simp [formPreviewWindow, h0, h1, h2] at h
        | some c =>
          cases h3 : w.FS[c]? with
          | none => simp [formPreviewWindow, h0, h1, h2, h3] at h
          | some fs =>
            simp only [formPreviewWindow, h0, h1, h2, h3, Option.some.injEq, Prod.mk.injEq,
              true_and] at h
            obtain ⟨hp, hw⟩ := h
            subst hp
            exact ⟨fs0, c, fs, rfl, h1, rfl, h3, hw.symm⟩

/-- The sum of `time_left` after one footstep has lost `t`. -/
theorem total_time_left_set (FS : List (footstep α)) :
    ∀ (c : Nat) (fs : footstep α) (t : Nat), FS[c]? = some fs → t ≤ fs.time_left →
      total_time_left (FS.set c { fs with time_left := fs.time_left - t }) + t
        = total_time_left FS := by
  induction FS with
  | nil => intro c fs t h _; simp at h
  | cons a L ih =>
    intro c fs t h ht
    cases c with
    | zero =>
      simp only [List.getElem?_cons_zero, Option.some.injEq] at h
      subst h
      simp only [total_time_left, List.set_cons_zero, List.map_cons, List.sum_cons]
      omega
    | succ n =>
      simp only [List.getElem?_cons_succ] at h
      have := ih n fs t h ht
      simp only [total_time_left, List.set_cons_succ, List.map_cons, List.sum_cons] at this ⊢
      omega

/-- What a call of `formPreviewWindow` that returns `WMG_OK` has done: the
footsteps `wi j` of the intervals and the footstep `c` whose time is
decremented. -/
theorem formPreviewWindow_ok_facts [Field α] (w w' : WMG α) (par par' : smpc_parameters α)
    (h : formPreviewWindow w par = some (WMGret.WMG_OK, par', w')) :
    ∃ (wi : Nat → Nat) (c : Nat) (fs : footstep α),
      (∀ j, j < w.N → w.current_step_number ≤ wi j ∧ ∃ fsj, w.FS[wi j]? = some fsj ∧
          par_row par' j = fs_row fsj ((w.T_ms j : α) / 1000)) ∧
      (∀ j j', j ≤ j' → j' < w.N → wi j ≤ wi j') ∧
      (∀ k, ∑ j ∈ Finset.range w.N, (if wi j = k then w.T_ms j else 0)
          ≤ time_left_at w.FS k) ∧
      (0 < w.N → wi 0 = c) ∧
      w.current_step_number ≤ c ∧ w.FS[c]? = some fs ∧ 0 < fs.time_left ∧
      (∀ k, w.current_step_number ≤ k → k < c → time_left_at w.FS k = 0) ∧
      w' = { w with
        FS := w.FS.set c { fs with time_left := usub fs.time_left (w.T_ms 0) }
        current_step_number := if usub fs.time_left (w.T_ms 0) = 0 then c + 1 else c
        first_preview_step := c
        last_time_decrement := w.T_ms 0 } := by
  obtain ⟨fs0, c, fs, h0, h1, h2, h3, h4⟩ := formPreviewWindow_ok_parts w w' par par' h
  obtain ⟨wi, a1, _, c1, d1, e1⟩ := preview_loop_ok w.FS w.N w.T_ms _ _ _ _ _ _ h1
  obtain ⟨s1, s2, s3⟩ := skip_finished_spec w.FS _ _ _ h2
  have hav : ∀ k, time_avail w.FS w.current_step_number fs0.time_left k
      = time_left_at w.FS k := fun k => time_avail_arrive w.FS _ k fs0 h0
  have htl : time_left_at w.FS c = fs.time_left := by
    unfold time_left_at
    rw [h3]
  refine ⟨wi, c, fs, fun j hj => a1 j (Nat.zero_le _) hj,
    fun j j' hj hj' => c1 j j' (Nat.zero_le _) hj hj', ?_, ?_, s1, h3, by omega, s3, h4⟩
  · intro k
    rw [Finset.range_eq_Ico]
    by_cases hk : w.current_step_number ≤ k
    · rw [← hav k]
      exact d1 k hk
    · have hz : ∑ j ∈ Finset.Ico 0 w.N, (if wi j = k then w.T_ms j else 0) = 0 := by
        apply Finset.sum_eq_zero
        intro j hj
        obtain ⟨m1, m2⟩ := Finset.mem_Ico.mp hj
        have := (a1 j m1 m2).1
        rw [if_neg (by omega)]
      rw [hz]
      exact Nat.zero_le _
  · intro hN
    obtain ⟨p1, p2⟩ := e1 hN
    rw [hav] at p1
    exact first_pos_unique (time_left_at w.FS) w.current_step_number (wi 0) c p1 s2
      (fun k q1 q2 => by rw [← hav k]; exact p2 k q1 q2) s3
      (a1 0 (le_refl _) hN).1 s1

/-- C12: whenever `formPreviewWindow` returns `WMG_OK`, every interval
`i < N` is filled from one footstep `wi i` of the list: `par.angle[i]`,
`par.fp_x[i]`, `par.fp_y[i]`, `par.zref_x[i]`, `par.zref_y[i]` are its angle,
position and reference ZMP, `par.ub[2i] = d[0]`, `par.ub[2i+1] = d[1]`,
`par.lb[2i] = -d[2]`, `par.lb[2i+1] = -d[3]`; `wi 0` is the first footstep at
or after `current_step_number` with positive `time_left`, `wi` does not
decrease, and the intervals of one footstep have total length at most its
`time_left`. -/
theorem formPreviewWindow_ok_content [Field α] (w w' : WMG α) (par par' : smpc_parameters α)
    (h : formPreviewWindow w par = some (WMGret.WMG_OK, par', w')) :
    ∃ wi : Nat → Nat,
      (∀ i, i < w.N → ∃ fs, w.FS[wi i]? = some fs ∧
        par'.angle i = fs.angle ∧ par'.fp_x i = fs.x ∧ par'.fp_y i = fs.y ∧
        par'.zref_x i = fs.ZMPref_x ∧ par'.zref_y i = fs.ZMPref_y ∧
        par'.ub (2 * i) = fs.d 0 ∧ par'.ub (2 * i + 1) = fs.d 1 ∧
        par'.lb (2 * i) = -fs.d 2 ∧ par'.lb (2 * i + 1) = -fs.d 3) ∧
      (0 < w.N → w.current_step_number ≤ wi 0 ∧ 0 < time_left_at w.FS (wi 0) ∧
        ∀ k, w.current_step_number ≤ k → k < wi 0 → time_left_at w.FS k = 0) ∧
      (∀ i j, i ≤ j → j < w.N → wi i ≤ wi j) ∧
      (∀ k, ∑ i ∈ Finset.range w.N, (if wi i = k then w.T_ms i else 0)
          ≤ time_left_at w.FS k) := by
  obtain ⟨wi, c, fs, a, b, d, e, f1, f2, f3, f4, _⟩ := formPreviewWindow_ok_facts w w' par par' h
  refine ⟨wi, ?_, ?_, b, d⟩
  · intro i hi
    obtain ⟨_, fsi, g1, g2⟩ := a i hi
    rw [Nat.mul_comm 2 i]
    exact ⟨fsi, g1, congrArg preview_entry.angle g2, congrArg preview_entry.fp_x g2,
      congrArg preview_entry.fp_y g2, congrArg preview_entry.zref_x g2,
      congrArg preview_entry.zref_y g2, congrArg preview_entry.ub0 g2,
      congrArg preview_entry.ub1 g2, congrArg preview_entry.lb0 g2,
      congrArg preview_entry.lb1 g2⟩
  · intro hN
    rw [e hN]
    refine ⟨f1, ?_, f4⟩
    unfold time_left_at
    rw [f2]
    exact f3

/-- For a window of at least one interval the decrement of a successful call
is not more than the time the footstep had, so that the subtraction of
`unsigned int` is exact. -/
theorem formPreviewWindow_ok_sub [Field α] (w w' : WMG α) (par par' : smpc_parameters α)
    (hN : 1 ≤ w.N) (h : formPreviewWindow w par = some (WMGret.WMG_OK, par', w')) :
    ∃ (wi : Nat → Nat) (c : Nat) (fs : footstep α),
      (∀ j, j < w.N → w.current_step_number ≤ wi j ∧ ∃ fsj, w.FS[wi j]? = some fsj) ∧
      (∀ j j', j ≤ j' → j' < w.N → wi j ≤ wi j') ∧
      (∀ k, ∑ j ∈ Finset.range w.N, (if wi j = k then w.T_ms j else 0)
          ≤ time_left_at w.FS k) ∧
      wi 0 = c ∧
      w.current_step_number ≤ c ∧ w.FS[c]? = some fs ∧ 0 < fs.time_left ∧
      (∀ k, w.current_step_number ≤ k → k < c → time_left_at w.FS k = 0) ∧
      w.T_ms 0 ≤ fs.time_left ∧
      w' = { w with
        FS := w.FS.set c { fs with time_left := fs.time_left - w.T_ms 0 }
        current_step_number := if fs.time_left - w.T_ms 0 = 0 then c + 1 else c
        first_preview_step := c
        last_time_decrement := w.T_ms 0 } := by
  obtain ⟨wi, c, fs, a, b, d, e, f1, f2, f3, f4, f5⟩ :=
    formPreviewWindow_ok_facts w w' par par' h
  have hle : w.T_ms 0 ≤ fs.time_left := by
    have h1 := d c
    have h2 : (if wi 0 = c then w.T_ms 0 else 0)
        ≤ ∑ j ∈ Finset.range w.N, (if wi j = c then w.T_ms j else 0) :=
      Finset.single_le_sum (f := fun j => if wi j = c then w.T_ms j else 0)
        (fun _ _ => Nat.zero_le _) (Finset.mem_range.mpr (by omega))
    rw [if_pos (e (by omega))] at h2
    have h3 : time_left_at w.FS c = fs.time_left := by
      unfold time_left_at
      rw [f2]
    omega
  have hsub : usub fs.time_left (w.T_ms 0) = fs.time_left - w.T_ms 0 := by
    unfold usub
    rw [if_pos hle]
  rw [hsub] at f5
  refine ⟨wi, c, fs, ?_, b, d, e (by omega), f1, f2, f3, f4, hle, f5⟩
  intro j hj
  obtain ⟨q1, fsj, q2, _⟩ := a j hj
  exact ⟨q1, fsj, q2⟩

/-- C11: whenever `formPreviewWindow` returns `WMG_OK` (for a window of
`N ≥ 1` intervals), the footstep list changes in one place only: at the first
footstep `c` at or after the old `current_step_number` with positive
`time_left`, whose `time_left` loses `T_ms[0]` (no more than it had; the
footstep has changed when `T_ms[0] > 0`); `first_preview_step` becomes `c`,
`last_time_decrement` becomes `T_ms[0]`, `current_step_number` becomes `c`
when the new `time_left` is positive and `c + 1` when it is zero; the number
of footsteps, every other footstep, every other field of footstep `c`, and
`N`, `T_ms` and the sampling period are unchanged. -/
theorem formPreviewWindow_ok_effect [Field α] (w w' : WMG α) (par par' : smpc_parameters α)
    (hN : 1 ≤ w.N) (h : formPreviewWindow w par = some (WMGret.WMG_OK, par', w')) :
    ∃ c fs, w.FS[c]? = some fs ∧ w.current_step_number ≤ c ∧ 0 < fs.time_left ∧
      (∀ k, w.current_step_number ≤ k → k < c → time_left_at w.FS k = 0) ∧
      w.T_ms 0 ≤ fs.time_left ∧
      w'.FS = w.FS.set c { fs with time_left := fs.time_left - w.T_ms 0 } ∧
      w'.FS.length = w.FS.length ∧
      (∀ k, k ≠ c → w'.FS[k]? = w.FS[k]?) ∧
      w'.FS[c]? = some { fs with time_left := fs.time_left - w.T_ms 0 } ∧
      (0 < w.T_ms 0 → w'.FS[c]? ≠ w.FS[c]?) ∧
      w'.first_preview_step = c ∧ w'.last_time_decrement = w.T_ms 0 ∧
      w'.current_step_number = (if fs.time_left - w.T_ms 0 = 0 then c + 1 else c) ∧
      w'.N = w.N ∧ w'.T_ms = w.T_ms ∧ w'.sampling_period = w.sampling_period := by
  obtain ⟨wi, c, fs, _, _, _, _, f1, f2, f3, f4, hle, f5⟩ :=
    formPreviewWindow_ok_sub w w' par par' hN h
  have hc : c < w.FS.length := (List.getElem?_eq_some_iff.mp f2).1
  subst f5
  refine ⟨c, fs, f2, f1, f3, f4, hle, rfl, ?_, ?_, ?_, ?_, rfl, rfl, rfl, rfl, rfl, rfl⟩
  · exact List.length_set _ _ _
  · intro k hk
    exact List.getElem?_set_ne (fun e => hk e.symm)
  · exact List.getElem?_set_self hc
  · intro hpos
    show (w.FS.set c { fs with time_left := fs.time_left - w.T_ms 0 })[c]? ≠ w.FS[c]?
    rw [List.getElem?_set_self hc, f2]
    intro e
    have := congrArg footstep.time_left (Option.some.inj e)
    simp only at this
    omega

/-- The constructor sets every `T_ms[i]`, `i < N`, to the sampling time. -/
theorem WMG_new_T_ms (N_ T_ : Nat) (mem : Nat → Nat) (i : Nat) (hi : i < N_) :
    (WMG_new N_ T_ mem : WMG α).T_ms i = T_ := by
  unfold WMG_new
  simp only
  rw [loopUp_pointwise (fun _ _ => T_)]
  have a : 0 ≤ i ∧ i < 0 + N_ := by omega
  rw [if_pos a]

/-- C13: whenever `formPreviewWindow` returns `WMG_OK`, `par.T[i]` is
`T_ms[i] / 1000` for every `i < N`; hence, when every `T_ms[i]` is the
sampling period (as the constructor leaves it), the sum of `par.T` over the
window is `N * T_ms / 1000`. -/
theorem formPreviewWindow_ok_T [Field α] (w w' : WMG α) (par par' : smpc_parameters α)
    (h : formPreviewWindow w par = some (WMGret.WMG_OK, par', w')) :
    (∀ i, i < w.N → par'.T i = (w.T_ms i : α) / 1000) ∧
    ((∀ i, i < w.N → w.T_ms i = w.sampling_period) →
      ∑ i ∈ Finset.range w.N, par'.T i = (w.N : α) * (w.sampling_period : α) / 1000) ∧
    (∀ (N_ T_ : Nat) (mem : Nat → Nat) (i : Nat), i < N_ →
      (WMG_new N_ T_ mem : WMG α).T_ms i = T_) := by
  obtain ⟨wi, c, fs, a, _⟩ := formPreviewWindow_ok_facts w w' par par' h
  have hT : ∀ i, i < w.N → par'.T i = (w.T_ms i : α) / 1000 := by
    intro i hi
    obtain ⟨_, fsi, _, g2⟩ := a i hi
    exact congrArg preview_entry.T g2
  refine ⟨hT, ?_, fun N_ T_ mem i hi => WMG_new_T_ms N_ T_ mem i hi⟩
  intro hconst
  have : ∑ i ∈ Finset.range w.N, par'.T i
      = ∑ _i ∈ Finset.range w.N, (w.sampling_period : α) / 1000 := by
    apply Finset.sum_congr rfl
    intro i hi
    have hi' := Finset.mem_range.mp hi
    rw [hT i hi', hconst i hi']
  rw [this, Finset.sum_const, Finset.card_range, nsmul_eq_mul]
  ring

/-- A call of `formPreviewWindow` that returns `WMG_HALT` leaves the object. -/
theorem formPreviewWindow_halt_eq [Field α] (w w' : WMG α) (par par' : smpc_parameters α)
    (h : formPreviewWindow w par = some (WMGret.WMG_HALT, par', w')) : w' = w := by
  cases h0 : w.FS[w.current_step_number]? with
  | none => simp [formPreviewWindow, h0] at h
  | some fs0 =>
    cases h1 : preview_loop w.FS w.N w.T_ms (w.N + w.FS.length) 0 w.current_step_number
        fs0.time_left par with
    | none => simp [formPreviewWindow, h0, h1] at h
    | some rp =>
      obtain ⟨r, p⟩ := rp
      cases r with
      | WMG_HALT =>
        simp only [formPreviewWindow, h0, h1, Option.some.injEq, Prod.mk.injEq, true_and] at h
        exact h.2.symm
      | WMG_OK =>
        cases h2 : skip_finished w.FS (w.FS.length + 1) w.current_step_number with
        | none => simp [formPreviewWindow, h0, h1, h2] at h
        | some c =>
          cases h3 : w.FS[c]? with
          | none => simp [formPreviewWindow, h0, h1, h2, h3] at h
          | some fs => simp [formPreviewWindow, h0, h1, h2, h3] at h

/-- With `current_step_number` inside the list and a window of at least one
interval, `formPreviewWindow` returns. -/
theorem formPreviewWindow_returns [Field α] (w : WMG α) (par : smpc_parameters α)
    (hcur : w.current_step_number < w.FS.length) (hN : 1 ≤ w.N) :
    ∃ r par' w', formPreviewWindow w par = some (r, par', w') := by
  have hget : w.FS[w.current_step_number]? = some w.FS[w.current_step_number] :=
    List.getElem?_eq_getElem hcur
  obtain ⟨r, par', h1, _⟩ := preview_loop_halts w.FS w.N w.T_ms (w.N + w.FS.length) 0
    w.current_step_number w.FS[w.current_step_number].time_left par hcur (by omega)
  cases r with
  | WMG_HALT =>
    exact ⟨WMGret.WMG_HALT, par', w, by simp only [formPreviewWindow, hget, h1]⟩
  | WMG_OK =>
    obtain ⟨wi, a1, _, _, _, e1⟩ := preview_loop_ok w.FS w.N w.T_ms _ _ _ _ _ _ h1
    obtain ⟨p1, _⟩ := e1 (by omega)
    obtain ⟨q1, fsj, q2, _⟩ := a1 0 (le_refl _) (by omega)
    rw [time_avail_arrive w.FS _ _ _ hget] at p1
    have hpos : 0 < fsj.time_left := by
      unfold time_left_at at p1
      rw [q2] at p1
      exact p1
    obtain ⟨c, fsc, hc1, _, hc3, _⟩ := skip_finished_some w.FS (w.FS.length + 1)
      w.current_step_number (by omega) ⟨wi 0, fsj, q1, q2, hpos⟩
    exact ⟨WMGret.WMG_OK, par',
      { w with
        FS := w.FS.set c { fsc with time_left := usub fsc.time_left (w.T_ms 0) }
        current_step_number := if usub fsc.time_left (w.T_ms 0) = 0 then c + 1 else c
        first_preview_step := c
        last_time_decrement := w.T_ms 0 },
      by simp only [formPreviewWindow, hget, h1, hc1, hc3]⟩

/-- A successful call in a window of at least two intervals of positive
length takes `T_ms[0]` from the sum of `time_left` and leaves
`current_step_number` inside the list. -/
theorem formPreviewWindow_ok_step [Field α] (w w' : WMG α) (par par' : smpc_parameters α)
    (hN : 2 ≤ w.N) (hT : ∀ i, i < w.N → 0 < w.T_ms i)
    (h : formPreviewWindow w par = some (WMGret.WMG_OK, par', w')) :
    total_time_left w'.FS + w.T_ms 0 = total_time_left w.FS ∧
      w'.current_step_number < w'.FS.length ∧ w'.N = w.N ∧ w'.T_ms = w.T_ms ∧
      w'.FS.length = w.FS.length := by
  obtain ⟨wi, c, fs, a, b, d, e, f1, f2, f3, f4, hle, f5⟩ :=
    formPreviewWindow_ok_sub w w' par par' (by omega) h
  have hc : c < w.FS.length := (List.getElem?_eq_some_iff.mp f2).1
  subst f5
  refine ⟨total_time_left_set w.FS c fs (w.T_ms 0) f2 hle, ?_, rfl, rfl, List.length_set _ _ _⟩
  show (if fs.time_left - w.T_ms 0 = 0 then c + 1 else c) < (w.FS.set c _).length
  rw [List.length_set]
  by_cases hz : fs.time_left - w.T_ms 0 = 0
  · rw [if_pos hz]
    obtain ⟨_, fs1, g1⟩ := a 1 (by omega)
    have h1lt : wi 1 < w.FS.length := (List.getElem?_eq_some_iff.mp g1).1
    have hmono := b 0 1 (by omega) (by omega)
    have hne : wi 1 ≠ c := by
      intro e1
      have hsum := d c
      have hsub : ∑ j ∈ Finset.range 2, (if wi j = c then w.T_ms j else 0)
          ≤ ∑ j ∈ Finset.range w.N, (if wi j = c then w.T_ms j else 0) :=
        Finset.sum_le_sum_of_subset (Finset.range_subset.mpr hN)
      rw [Finset.sum_range_succ, Finset.sum_range_one, if_pos e, if_pos e1] at hsub
      have htl : time_left_at w.FS c = fs.time_left := by
        unfold time_left_at
        rw [f2]
      have := hT 1 (by omega)
      omega
    omega
  · rw [if_neg hz]
    exact hc

/-- The control loop ends within `S / T_ms[0] + 1` calls, `S` the sum of
`time_left`, and fewer than that many of them return `WMG_OK`. -/
theorem control_loop_bound [Field α] :
    ∀ (fuel : Nat) (w : WMG α) (par : smpc_parameters α),
      w.current_step_number < w.FS.length → 2 ≤ w.N → (∀ i, i < w.N → 0 < w.T_ms i) →
      total_time_left w.FS / w.T_ms 0 < fuel →
      ∃ n, control_loop fuel w par = some n ∧ n * w.T_ms 0 ≤ total_time_left w.FS := by
  intro fuel
  induction fuel with
  | zero => intro w par _ _ _ h; exact absurd h (Nat.not_lt_zero _)
  | succ fuel ih =>
    intro w par hcur hN hT hfuel
    obtain ⟨r, par', w', hret⟩ := formPreviewWindow_returns w par hcur (by omega)
    cases r with
    | WMG_HALT =>
      exact ⟨0, by simp only [control_loop, hret], by omega⟩
    | WMG_OK =>
      obtain ⟨s1, s2, s3, s4, _⟩ := formPreviewWindow_ok_step w w' par par' hN hT hret
      have hT0 : 0 < w.T_ms 0 := hT 0 (by omega)
      have hdiv : total_time_left w'.FS / w'.T_ms 0 < fuel := by
        rw [s4]
        have : total_time_left w.FS / w.T_ms 0 = total_time_left w'.FS / w.T_ms 0 + 1 := by
          rw [← s1, Nat.add_div_right _ hT0]
        omega
      obtain ⟨n, hn1, hn2⟩ := ih w' par' s2 (by omega) (by rw [s3, s4]; exact hT) hdiv
      refine ⟨n + 1, by simp only [control_loop, hret, hn1], ?_⟩
      rw [s4] at hn2
      rw [Nat.add_mul, one_mul]
      omega

/-- C14: for a generator with `current_step_number` inside the list, `N ≥ 2`
and every `T_ms[i]`, `i < N`, positive, a call of `formPreviewWindow` returns;
when it returns `WMG_OK` the sum of `time_left` over all the footsteps has lost
exactly `T_ms[0]` (and the generator is again as assumed, with the same `N`,
`T_ms` and number of footsteps), when it returns `WMG_HALT` the sum is
unchanged; so the control loop of the tests ends, and at most
`floor (S / T_ms[0])` calls return `WMG_OK` before the one that returns
`WMG_HALT`, `S` being the initial sum. -/
theorem control_loop_ends [Field α] (w : WMG α) (par : smpc_parameters α)
    (hcur : w.current_step_number < w.FS.length) (hN : 2 ≤ w.N)
    (hT : ∀ i, i < w.N → 0 < w.T_ms i) :
    (∃ r par' w', formPreviewWindow w par = some (r, par', w')) ∧
    (∀ r par' w', formPreviewWindow w par = some (r, par', w') →
      (r = WMGret.WMG_OK →
        total_time_left w'.FS + w.T_ms 0 = total_time_left w.FS ∧
        w'.current_step_number < w'.FS.length ∧ w'.N = w.N ∧ w'.T_ms = w.T_ms ∧
        w'.FS.length = w.FS.length) ∧
      (r = WMGret.WMG_HALT → total_time_left w'.FS = total_time_left w.FS)) ∧
    ∃ n, control_loop (total_time_left w.FS / w.T_ms 0 + 1) w par = some n ∧
      n ≤ total_time_left w.FS / w.T_ms 0 := by
  refine ⟨formPreviewWindow_returns w par hcur (by omega), ?_, ?_⟩
  · intro r par' w' h
    constructor
    · intro hr
      subst hr
      exact formPreviewWindow_ok_step w w' par par' hN hT h
    · intro hr
      subst hr
      rw [formPreviewWindow_halt_eq w w' par par' h]
  · obtain ⟨n, h1, h2⟩ := control_loop_bound (total_time_left w.FS / w.T_ms 0 + 1) w par hcur hN
      hT (by omega)
    exact ⟨n, h1, (Nat.le_div_iff_mul_le (hT 0 (by omega))).mpr h2⟩

/-- A concrete instance of C12: the first call on `ex_walk` fills interval 0
from footstep 0 and interval 1 from footstep 1. -/
theorem formPreviewWindow_ok_content_witness :
    formPreviewWindow ex_walk ex_par = some (WMGret.WMG_OK, ex_par1, ex_walk1) ∧
    ∃ wi : Nat → Nat,
      (∀ i, i < ex_walk.N → ∃ fs, ex_walk.FS[wi i]? = some fs ∧
        ex_par1.angle i = fs.angle ∧ ex_par1.fp_x i = fs.x ∧ ex_par1.fp_y i = fs.y ∧
        ex_par1.zref_x i = fs.ZMPref_x ∧ ex_par1.zref_y i = fs.ZMPref_y ∧
        ex_par1.ub (2 * i) = fs.d 0 ∧ ex_par1.ub (2 * i + 1) = fs.d 1 ∧
        ex_par1.lb (2 * i) = -fs.d 2 ∧ ex_par1.lb (2 * i + 1) = -fs.d 3) ∧
      (0 < ex_walk.N → ex_walk.current_step_number ≤ wi 0 ∧ 0 < time_left_at ex_walk.FS (wi 0) ∧
        ∀ k, ex_walk.current_step_number ≤ k → k < wi 0 → time_left_at ex_walk.FS k = 0) ∧
      (∀ i j, i ≤ j → j < ex_walk.N → wi i ≤ wi j) ∧
      (∀ k, ∑ i ∈ Finset.range ex_walk.N, (if wi i = k then ex_walk.T_ms i else 0)
          ≤ time_left_at ex_walk.FS k) :=
  ⟨rfl, formPreviewWindow_ok_content ex_walk ex_walk1 ex_par ex_par1 rfl⟩

/-- A concrete instance of C11: the first call on `ex_walk` takes 20 ms from
footstep 0 and moves `current_step_number` to 1. -/
theorem formPreviewWindow_ok_effect_witness :
    1 ≤ ex_walk.N ∧
    formPreviewWindow ex_walk ex_par = some (WMGret.WMG_OK, ex_par1, ex_walk1) ∧
    ∃ c fs, ex_walk.FS[c]? = some fs ∧ ex_walk.current_step_number ≤ c ∧ 0 < fs.time_left ∧
      (∀ k, ex_walk.current_step_number ≤ k → k < c → time_left_at ex_walk.FS k = 0) ∧
      ex_walk.T_ms 0 ≤ fs.time_left ∧
      ex_walk1.FS = ex_walk.FS.set c { fs with time_left := fs.time_left - ex_walk.T_ms 0 } ∧
      ex_walk1.FS.length = ex_walk.FS.length ∧
      (∀ k, k ≠ c → ex_walk1.FS[k]? = ex_walk.FS[k]?) ∧
      ex_walk1.FS[c]? = some { fs with time_left := fs.time_left - ex_walk.T_ms 0 } ∧
      (0 < ex_walk.T_ms 0 → ex_walk1.FS[c]? ≠ ex_walk.FS[c]?) ∧
      ex_walk1.first_preview_step = c ∧ ex_walk1.last_time_decrement = ex_walk.T_ms 0 ∧
      ex_walk1.current_step_number = (if fs.time_left - ex_walk.T_ms 0 = 0 then c + 1 else c) ∧
      ex_walk1.N = ex_walk.N ∧ ex_walk1.T_ms = ex_walk.T_ms ∧
      ex_walk1.sampling_period = ex_walk.sampling_period :=
  ⟨by decide, rfl,
    formPreviewWindow_ok_effect ex_walk ex_walk1 ex_par ex_par1 (by decide) rfl⟩

/-- A concrete instance of C13: two intervals of 20 ms. -/
theorem formPreviewWindow_ok_T_witness :
    formPreviewWindow ex_walk ex_par = some (WMGret.WMG_OK, ex_par1, ex_walk1) ∧
    (∀ i, i < ex_walk.N → ex_par1.T i = (ex_walk.T_ms i : ℚ) / 1000) ∧
    ((∀ i, i < ex_walk.N → ex_walk.T_ms i = ex_walk.sampling_period) →
      ∑ i ∈ Finset.range ex_walk.N, ex_par1.T i
        = (ex_walk.N : ℚ) * (ex_walk.sampling_period : ℚ) / 1000) ∧
    (∀ (N_ T_ : Nat) (mem : Nat → Nat) (i : Nat), i < N_ →
      (WMG_new N_ T_ mem : WMG ℚ).T_ms i = T_) :=
  ⟨rfl, formPreviewWindow_ok_T ex_walk ex_walk1 ex_par ex_par1 rfl⟩

/-- A concrete instance of C14: four footsteps of 20 ms, two intervals of
20 ms. -/
theorem control_loop_ends_witness :
    ex_walk.current_step_number < ex_walk.FS.length ∧ 2 ≤ ex_walk.N ∧
    (∀ i, i < ex_walk.N → 0 < ex_walk.T_ms i) ∧
    (∃ r par' w', formPreviewWindow ex_walk ex_par = some (r, par', w')) ∧
    (∀ r par' w', formPreviewWindow ex_walk ex_par = some (r, par', w') →
      (r = WMGret.WMG_OK →
        total_time_left w'.FS + ex_walk.T_ms 0 = total_time_left ex_walk.FS ∧
        w'.current_step_number < w'.FS.length ∧ w'.N = ex_walk.N ∧ w'.T_ms = ex_walk.T_ms ∧
        w'.FS.length = ex_walk.FS.length) ∧
      (r = WMGret.WMG_HALT → total_time_left w'.FS = total_time_left ex_walk.FS)) ∧
    ∃ n, control_loop (total_time_left ex_walk.FS / ex_walk.T_ms 0 + 1) ex_walk ex_par = some n ∧
      n ≤ total_time_left ex_walk.FS / ex_walk.T_ms 0 :=
  ⟨by decide, by decide, fun _ _ => (by decide : (0 : Nat) < 20),
    control_loop_ends ex_walk ex_par (by decide) (by decide)
      (fun _ _ => (by decide : (0 : Nat) < 20))⟩

/-- C15 fails on the code: in the walk `ex_walk` (left, right, left, right,
no double support in between) the first call of `formPreviewWindow` finishes
footstep 0, and the next window starts on the first tick of footstep 1, a
right support after a left one: `isSupportSwitchNeeded` looks for a single
support before `first_preview_step = 0`, finds none and reads `FS` outside the
list. The second call finishes footstep 1; the next window starts on the
first tick of footstep 2, a left support that follows a right support, and
`isSupportSwitchNeeded` returns `false`: it compares the type of footstep 2
with the type of the single support before `first_preview_step = 1`, which is
footstep 0, and not with footstep 1, the single support before
`current_step_number = 2`. -/
theorem isSupportSwitchNeeded_misses_switch :
    formPreviewWindow ex_walk ex_par = some (WMGret.WMG_OK, ex_par1, ex_walk1) ∧
    isSupportSwitchNeeded ex_walk1 = none ∧
    switch_expected ex_walk1 = true ∧
    getPrevSS ex_walk1.FS ex_walk1.first_preview_step = none ∧
    getPrevSS ex_walk1.FS ex_walk1.current_step_number = some 0 ∧
    (∃ p2, formPreviewWindow ex_walk1 ex_par1 = some (WMGret.WMG_OK, p2, ex_walk2)) ∧
    isSupportSwitchNeeded ex_walk2 = some false ∧
    switch_expected ex_walk2 = true ∧
    getPrevSS ex_walk2.FS ex_walk2.first_preview_step = some 0 ∧
    getPrevSS ex_walk2.FS ex_walk2.current_step_number = some 1 :=
  ⟨rfl, rfl, rfl, rfl, rfl, ⟨_, rfl⟩, rfl, rfl, rfl, rfl⟩

/-! ### Footsteps added by `AddFootstep` -/

/-- The loop of `AddFootstep` that adds the double supports appends `n`
footsteps of type `FS_TYPE_DS`, each of one sampling period and with the
default constraint of a double support. -/
theorem add_ds_spec [Field α] (cos sin : α → α) (sampling_period : Nat)
    (m : addstep_members α) (x_shift y_shift angle_shift : α) (next_zref : Fin 3 → α)
    (FS : List (footstep α)) (back : footstep α) (n : Nat) :
    ∃ ds : List (footstep α),
      (add_ds cos sin sampling_period m x_shift y_shift angle_shift next_zref n FS back).1
        = FS ++ ds ∧
      ds.length = n ∧
      (∀ s ∈ ds, s.type = fs_type.FS_TYPE_DS ∧ s.time_period = sampling_period ∧
        s.time_left = sampling_period ∧ s.d = m.def_ds_constraint) ∧
      (ds.map footstep.time_period).sum = n * sampling_period := by
  induction n with
  | zero => exact ⟨[], by simp [add_ds, loopUp], rfl, by simp, by simp⟩
  | succ n ih =>
    obtain ⟨ds, h1, h2, h3, h4⟩ := ih
    unfold add_ds at h1 ⊢
    rw [loopUp]
    simp only
    rw [h1]
    refine ⟨ds ++ [_], (List.append_assoc _ _ _), ?_, ?_, ?_⟩
    · rw [List.length_append, h2]
      rfl
    · intro s hs
      rcases List.mem_append.mp hs with h | h
      · exact h3 s h
      · rw [List.mem_singleton.mp h]
        exact ⟨rfl, rfl, rfl, rfl⟩
    · rw [List.map_append, List.sum_append, h4]
      simp only [List.map_cons, List.map_nil, List.sum_cons, List.sum_nil, footstep_new]
      ring

/-- The method `AddFootstep` on an empty list appends one footstep. -/
theorem AddFootstep_nil [Field α] (cos sin : α → α) (sampling_period : Nat)
    (m : addstep_members α) (x y a : α) (type : fs_type) :
    AddFootstep cos sin sampling_period m [] x y a type
      = [footstep_new a (Translation x y 0 * AngleAxisd_UnitZ cos sin a)
          (transform_point (Translation x y 0 * AngleAxisd_UnitZ cos sin a)
            ![(m.addstep_constraint 0 - m.addstep_constraint 2) / 2, 0, 0])
          (umul (to_unsigned m.def_repeat_times) sampling_period)
          (if type = fs_type.FS_TYPE_AUTO then fs_type.FS_TYPE_DS else type)
          m.addstep_constraint] := rfl

/-- The method `AddFootstep` on a list with the last element `back` appends
the double supports and then the new footstep. -/
theorem AddFootstep_cons [Field α] (cos sin : α → α) (sampling_period : Nat)
    (m : addstep_members α) (FS : List (footstep α)) (back : footstep α) (x y a : α)
    (type : fs_type) (hb : FS.getLast? = some back) :
    ∃ ds : List (footstep α),
      AddFootstep cos sin sampling_period m FS x y a type
        = FS ++ ds ++ [footstep_new (back.angle + a)
            (back.posture * (Translation x y 0 * AngleAxisd_UnitZ cos sin a))
            (transform_point (back.posture * (Translation x y 0 * AngleAxisd_UnitZ cos sin a))
              ![(m.addstep_constraint 0 - m.addstep_constraint 2) / 2, 0, 0])
            (umul (to_unsigned m.def_repeat_times) sampling_period)
            (next_type back.type type) m.addstep_constraint] ∧
      ds.length = (to_unsigned m.def_ds_num) ∧
      (∀ s ∈ ds, s.type = fs_type.FS_TYPE_DS ∧ s.time_period = sampling_period ∧
        s.time_left = sampling_period ∧ s.d = m.def_ds_constraint) ∧
      (ds.map footstep.time_period).sum = (to_unsigned m.def_ds_num) * sampling_period := by
  obtain ⟨ds, h1, h2, h3, h4⟩ := add_ds_spec cos sin sampling_period m
    (1 / ((m.def_ds_num + 1 : Int) : α) * x) (1 / ((m.def_ds_num + 1 : Int) : α) * y)
    (a * (1 / ((m.def_ds_num + 1 : Int) : α)))
    (transform_point (back.posture * (Translation x y 0 * AngleAxisd_UnitZ cos sin a))
      ![(m.addstep_constraint 0 - m.addstep_constraint 2) / 2, 0, 0])
    FS back (to_unsigned m.def_ds_num)
  refine ⟨ds, ?_, h2, h3, h4⟩
  unfold AddFootstep
  simp only [hb]
  rw [h1]

/-- The last element of a list that ends with `x`. -/
theorem getLast_snoc (l : List (footstep α)) (x : footstep α) :
    (l ++ [x]).getLast? = some x := by
  simp

/-- C28: `AddFootstep` with the type `FS_TYPE_AUTO` gives the first footstep
of an empty list the type `FS_TYPE_DS`; on a list that is not empty the new
step gets `FS_TYPE_SS_R` when the last footstep of the list is `FS_TYPE_SS_L`
or `FS_TYPE_DS`, and `FS_TYPE_SS_L` when it is `FS_TYPE_SS_R`, the footsteps
added before it being double supports; so two calls with `FS_TYPE_AUTO` in a
row on a list that is not empty add single supports of the two different
types. A type other than `FS_TYPE_AUTO` is stored as it is given. -/
theorem AddFootstep_types [Field α] (cos sin : α → α) (sampling_period : Nat)
    (m : addstep_members α) (x y a : α) :
    (∀ type, ∃ fs, AddFootstep cos sin sampling_period m [] x y a type = [fs] ∧
      (type = fs_type.FS_TYPE_AUTO → fs.type = fs_type.FS_TYPE_DS) ∧
      (type ≠ fs_type.FS_TYPE_AUTO → fs.type = type)) ∧
    (∀ (FS : List (footstep α)) (back : footstep α) (type : fs_type),
      FS.getLast? = some back →
      ∃ ds fs, AddFootstep cos sin sampling_period m FS x y a type = FS ++ ds ++ [fs] ∧
        (∀ s ∈ ds, s.type = fs_type.FS_TYPE_DS) ∧
        (type = fs_type.FS_TYPE_AUTO →
          (back.type = fs_type.FS_TYPE_SS_L ∨ back.type = fs_type.FS_TYPE_DS →
            fs.type = fs_type.FS_TYPE_SS_R) ∧
          (back.type = fs_type.FS_TYPE_SS_R → fs.type = fs_type.FS_TYPE_SS_L)) ∧
        (type ≠ fs_type.FS_TYPE_AUTO → fs.type = type)) ∧
    (∀ (FS : List (footstep α)) (back : footstep α) (m2 : addstep_members α) (x2 y2 a2 : α),
      FS.getLast? = some back →
      ∃ ds1 fs1 ds2 fs2,
        AddFootstep cos sin sampling_period m2
            (AddFootstep cos sin sampling_period m FS x y a fs_type.FS_TYPE_AUTO)
            x2 y2 a2 fs_type.FS_TYPE_AUTO
          = FS ++ ds1 ++ [fs1] ++ ds2 ++ [fs2] ∧
        (∀ s ∈ ds1 ++ ds2, s.type = fs_type.FS_TYPE_DS) ∧
        ((fs1.type = fs_type.FS_TYPE_SS_L ∧ fs2.type = fs_type.FS_TYPE_SS_R) ∨
          (fs1.type = fs_type.FS_TYPE_SS_R ∧ fs2.type = fs_type.FS_TYPE_SS_L))) := by
  refine ⟨?_, ?_, ?_⟩
  · intro type
    refine ⟨_, AddFootstep_nil cos sin sampling_period m x y a type, ?_, ?_⟩
    · intro h
      simp only [footstep_new, h, if_true]
    · intro h
      simp only [footstep_new, h, if_false]
  · intro FS back type hb
    obtain ⟨ds, h1, _, h3, _⟩ := AddFootstep_cons cos sin sampling_period m FS back x y a type hb
    refine ⟨ds, _, h1, fun s hs => (h3 s hs).1, ?_, ?_⟩
    · intro h
      subst h
      constructor
      · rintro (hl | hd)
        · simp only [footstep_new, next_type, hl, if_true]
        · simp only [footstep_new, next_type, hd, if_true]
      · intro hr
        simp only [footstep_new, next_type, hr, if_true]
    · intro h
      simp only [footstep_new, next_type, h, if_false]
  · intro FS back m2 x2 y2 a2 hb
    obtain ⟨ds1, h1, _, h3, _⟩ := AddFootstep_cons cos sin sampling_period m FS back x y a
      fs_type.FS_TYPE_AUTO hb
    rw [h1]
    obtain ⟨ds2, g1, _, g3, _⟩ := AddFootstep_cons cos sin sampling_period m2 _ _ x2 y2 a2
      fs_type.FS_TYPE_AUTO (getLast_snoc (FS ++ ds1) _)
    refine ⟨ds1, _, ds2, _, g1, ?_, ?_⟩
    · intro s hs
      rcases List.mem_append.mp hs with h | h
      · exact (h3 s h).1
      · exact (g3 s h).1
    · simp only [footstep_new, next_type, if_true]
      cases back.type <;> simp

/-- The conversion to `unsigned int` of a count inside the range of the type. -/
theorem to_unsigned_of_nonneg (n : Int) (h0 : 0 ≤ n) (h : n < 4294967296) :
    to_unsigned n = n.toNat := by
  unfold to_unsigned
  rw [Int.emod_eq_of_lt h0 h]

/-- The period of the new footstep when the product fits an `unsigned int`. -/
theorem period_no_wrap (n_this : Int) (sampling_period : Nat) (h0 : 0 ≤ n_this)
    (h : n_this.toNat * sampling_period < 4294967296) :
    umul (to_unsigned n_this) sampling_period = n_this.toNat * sampling_period := by
  unfold umul
  rcases Nat.eq_zero_or_pos sampling_period with hz | hp
  · subst hz
    simp
  · have hle : n_this.toNat ≤ n_this.toNat * sampling_period := Nat.le_mul_of_pos_right _ hp
    have hlt : n_this < 4294967296 := by omega
    rw [to_unsigned_of_nonneg n_this h0 hlt, Nat.mod_eq_of_lt h]

/-- C29, amended: `AddFootstep (dx, dy, da, n_this, n_total, d, type)` with
`0 ≤ n_this ≤ n_total`, `n_total` an `int` (below `2^31`) and
`n_this * sampling_period` below `2^32`, so that the product of
`unsigned int` does not wrap, appends to an empty list one footstep, of the
period `n_this * sampling_period` and with the constraint `d`; to a list that
is not empty it appends `n_total - n_this` footsteps of type `FS_TYPE_DS`,
each of one sampling period and with the default constraint of a double
support, and after them one footstep of the selected type, of the period
`n_this * sampling_period` and with the constraint `d`, `n_total` sampling
periods in all; the footsteps that were in the list stay as they are. -/
theorem AddFootstep_d_shape [Field α] (cos sin : α → α) (sampling_period : Nat)
    (m : addstep_members α) (x y a : α) (n_this n : Int) (d : Nat → α) (type : fs_type)
    (h0 : 0 ≤ n_this) (h1 : n_this ≤ n) (hn : n < 2147483648)
    (hp : n_this.toNat * sampling_period < 4294967296) :
    (∃ fs, (AddFootstep_d cos sin sampling_period m [] x y a n_this n d type).2 = [fs] ∧
      fs.time_period = n_this.toNat * sampling_period ∧
      fs.time_left = n_this.toNat * sampling_period ∧
      (∀ i, i < 4 → fs.d i = d i) ∧
      fs.type = (if type = fs_type.FS_TYPE_AUTO then fs_type.FS_TYPE_DS else type)) ∧
    (∀ (FS : List (footstep α)) (back : footstep α), FS.getLast? = some back →
      ∃ ds fs,
        (AddFootstep_d cos sin sampling_period m FS x y a n_this n d type).2
          = FS ++ ds ++ [fs] ∧
        ds.length = (n - n_this).toNat ∧
        (∀ s ∈ ds, s.type = fs_type.FS_TYPE_DS ∧ s.time_period = sampling_period ∧
          s.time_left = sampling_period ∧ s.d = m.def_ds_constraint) ∧
        fs.type = next_type back.type type ∧
        fs.time_period = n_this.toNat * sampling_period ∧
        fs.time_left = n_this.toNat * sampling_period ∧
        (∀ i, i < 4 → fs.d i = d i) ∧
        ((ds ++ [fs]).map footstep.time_period).sum = n.toNat * sampling_period) := by
  have hd : ∀ i, i < 4 →
      Function.update (Function.update (Function.update (Function.update
        m.addstep_constraint 0 (d 0)) 1 (d 1)) 2 (d 2)) 3 (d 3) i = d i := by
    intro i hi
    simp only [Function.update_apply]
    have : i = 0 ∨ i = 1 ∨ i = 2 ∨ i = 3 := by omega
    rcases this with h | h | h | h <;> subst h <;> simp
  have hcount : to_unsigned (n - n_this) = (n - n_this).toNat :=
    to_unsigned_of_nonneg (n - n_this) (by omega) (by omega)
  constructor
  · refine ⟨_, AddFootstep_nil cos sin sampling_period _ x y a type, ?_, ?_, hd, rfl⟩
    · exact period_no_wrap n_this sampling_period h0 hp
    · exact period_no_wrap n_this sampling_period h0 hp
  · intro FS back hb
    obtain ⟨ds, g1, g2, g3, g4⟩ := AddFootstep_cons cos sin sampling_period
      { m with
        addstep_constraint := Function.update (Function.update (Function.update
          (Function.update m.addstep_constraint 0 (d 0)) 1 (d 1)) 2 (d 2)) 3 (d 3)
        def_repeat_times := n_this
        def_ds_num := n - n_this } FS back x y a type hb
    refine ⟨ds, _, g1, g2.trans hcount, g3, rfl, period_no_wrap n_this sampling_period h0 hp,
      period_no_wrap n_this sampling_period h0 hp, hd, ?_⟩
    rw [List.map_append, List.sum_append, g4]
    simp only [List.map_cons, List.map_nil, List.sum_cons, List.sum_nil, footstep_new,
      Nat.add_zero]
    rw [period_no_wrap n_this sampling_period h0 hp, hcount, ← Nat.add_mul]
    congr 1
    omega

/-- A concrete instance of the amended C29: one sampling period of 20 ms for
the step and two double supports before it. -/
theorem AddFootstep_d_shape_witness :
    (0 : Int) ≤ 1 ∧ (1 : Int) ≤ 3 ∧ (3 : Int) < 2147483648 ∧
    (1 : Int).toNat * 20 < 4294967296 ∧
    (∀ (FS : List (footstep ℚ)) (back : footstep ℚ), FS.getLast? = some back →
      ∃ ds fs,
        (AddFootstep_d (fun _ => 1) (fun _ => 0) 20 (ex_members ℚ) FS 1 2 0 1 3 (fun _ => 5)
            fs_type.FS_TYPE_AUTO).2 = FS ++ ds ++ [fs] ∧
        ds.length = ((3 : Int) - 1).toNat ∧
        (∀ s ∈ ds, s.type = fs_type.FS_TYPE_DS ∧ s.time_period = 20 ∧
          s.time_left = 20 ∧ s.d = (ex_members ℚ).def_ds_constraint) ∧
        fs.type = next_type back.type fs_type.FS_TYPE_AUTO ∧
        fs.time_period = (1 : Int).toNat * 20 ∧
        fs.time_left = (1 : Int).toNat * 20 ∧
        (∀ i, i < 4 → fs.d i = (fun _ => (5 : ℚ)) i) ∧
        ((ds ++ [fs]).map footstep.time_period).sum = (3 : Int).toNat * 20) :=
  ⟨by decide, by decide, by decide, by decide,
    (AddFootstep_d_shape (fun _ => 1) (fun _ => 0) 20 (ex_members ℚ) 1 2 0 1 3 (fun _ => 5)
      fs_type.FS_TYPE_AUTO (by decide) (by decide) (by decide) (by decide)).2⟩

/-- C29 fails on the code: with `sampling_period = 20` and
`n_this = n_total = 214748365` the period `n_this * sampling_period` is the
product of `unsigned int` and wraps at `2^32`: the footstep appended to the
empty list has the period `4`, where the claim gives `4294967300`. -/
theorem AddFootstep_period_wraps :
    (0 : Int) ≤ 214748365 ∧ (214748365 : Int) ≤ 214748365 ∧
    ∃ fs, (AddFootstep_d (fun _ => 1) (fun _ => 0) 20 (ex_members ℚ) [] 1 2 0 214748365
        214748365 (fun _ => 5) fs_type.FS_TYPE_AUTO).2 = [fs] ∧
      fs.time_period = 4 ∧ (214748365 : Int).toNat * 20 = 4294967300 ∧
      fs.time_period ≠ (214748365 : Int).toNat * 20 := by
  refine ⟨by decide, by decide, _, AddFootstep_nil (fun _ => 1) (fun _ => 0) 20 _ 1 2 0
    fs_type.FS_TYPE_AUTO, ?_, ?_, ?_⟩
  · simp [footstep_new, umul, to_unsigned]
  · decide
  · simp [footstep_new, umul, to_unsigned]

/-- The product of the translation and the rotation in `AddFootstep`. -/
theorem pose_matrix [Field α] (cos sin : α → α) (x y a : α) :
    Translation x y 0 * AngleAxisd_UnitZ cos sin a
      = !![cos a, -sin a, 0, x; sin a, cos a, 0, y; 0, 0, 1, 0; 0, 0, 0, 1] := by
  ext i j
  fin_cases i <;> fin_cases j <;>
    simp [Translation, AngleAxisd_UnitZ, Matrix.mul_apply, Fin.sum_univ_four, Matrix.vecHead,
      Matrix.vecTail]

/-- The posture of the first footstep has the angle of the footstep. -/
theorem pose_first_angle [Field α] (cos sin : α → α) (x y a : α) :
    posture_has_angle cos sin (Translation x y 0 * AngleAxisd_UnitZ cos sin a) a := by
  rw [pose_matrix]
  simp [posture_has_angle]

/-- The posture of the next footstep has the angle of the footstep when the
posture of the previous one has. -/
theorem pose_next_angle [Field α] (cos sin : α → α)
    (hcos : ∀ u v, cos (u + v) = cos u * cos v - sin u * sin v)
    (hsin : ∀ u v, sin (u + v) = sin u * cos v + cos u * sin v)
    (P : Matrix (Fin 4) (Fin 4) α) (b x y a : α) (hP : posture_has_angle cos sin P b) :
    posture_has_angle cos sin (P * (Translation x y 0 * AngleAxisd_UnitZ cos sin a)) (b + a) := by
  obtain ⟨p00, p01, p02, p10, p11, p12, p20, p21, p22⟩ := hP
  rw [pose_matrix]
  unfold posture_has_angle
  simp only [Matrix.mul_apply, Fin.sum_univ_four, p00, p01, p02, p10, p11, p12, p20, p21, p22,
    hcos, hsin]
  simp [Matrix.vecHead, Matrix.vecTail]
  refine ⟨?_, ?_⟩ <;> ring

/-- C30: on an empty list `AddFootstep (dx, dy, da, ...)` appends a footstep
with the posture `Trans (dx, dy) * Rot_z (da)` and the angle `da`; on a list
that is not empty the new step has the posture
`P_prev * Trans (dx, dy) * Rot_z (da)` and the angle `a_prev + da`, `P_prev`
and `a_prev` being the posture and the angle of the footstep that was the
last one before the call. So (for `cos` and `sin` with the addition formulas)
the angle of the new step is the angle of the rotation of its posture: always
for the first footstep, and whenever this holds for the previous footstep. -/
theorem AddFootstep_pose [Field α] (cos sin : α → α) (sampling_period : Nat)
    (m : addstep_members α) (x y a : α) (type : fs_type)
    (hcos : ∀ u v, cos (u + v) = cos u * cos v - sin u * sin v)
    (hsin : ∀ u v, sin (u + v) = sin u * cos v + cos u * sin v) :
    (∃ fs, AddFootstep cos sin sampling_period m [] x y a type = [fs] ∧
      fs.posture = Translation x y 0 * AngleAxisd_UnitZ cos sin a ∧
      fs.angle = a ∧ posture_has_angle cos sin fs.posture fs.angle) ∧
    (∀ (FS : List (footstep α)) (back : footstep α), FS.getLast? = some back →
      ∃ ds fs, AddFootstep cos sin sampling_period m FS x y a type = FS ++ ds ++ [fs] ∧
        fs.posture = back.posture * Translation x y 0 * AngleAxisd_UnitZ cos sin a ∧
        fs.angle = back.angle + a ∧
        (posture_has_angle cos sin back.posture back.angle →
          posture_has_angle cos sin fs.posture fs.angle)) := by
  constructor
  · exact ⟨_, AddFootstep_nil cos sin sampling_period m x y a type, rfl, rfl,
      pose_first_angle cos sin x y a⟩
  · intro FS back hb
    obtain ⟨ds, g1, _⟩ := AddFootstep_cons cos sin sampling_period m FS back x y a type hb
    refine ⟨ds, _, g1, ?_, rfl, ?_⟩
    · exact (Matrix.mul_assoc _ _ _).symm
    · intro hP
      exact pose_next_angle cos sin hcos hsin back.posture back.angle x y a hP

/-- A concrete instance of C30: the cosine and the sine of the reals. -/
theorem AddFootstep_pose_witness :
    (∀ u v : ℝ, Real.cos (u + v) = Real.cos u * Real.cos v - Real.sin u * Real.sin v) ∧
    (∀ u v : ℝ, Real.sin (u + v) = Real.sin u * Real.cos v + Real.cos u * Real.sin v) ∧
    (∃ fs, AddFootstep Real.cos Real.sin 20 (ex_members ℝ) [] 1 2 3 fs_type.FS_TYPE_AUTO = [fs] ∧
      fs.posture = Translation 1 2 0 * AngleAxisd_UnitZ Real.cos Real.sin 3 ∧
      fs.angle = 3 ∧ posture_has_angle Real.cos Real.sin fs.posture fs.angle) :=
  ⟨Real.cos_add, Real.sin_add,
    (AddFootstep_pose Real.cos Real.sin 20 (ex_members ℝ) 1 2 3 fs_type.FS_TYPE_AUTO
      Real.cos_add Real.sin_add).1⟩

/-! ### The double supports between two steps -/

/-- The loop of `AddFootstep` that adds the double supports, in closed form:
the `k`-th of them has the angle of `back` plus `k` shifts of the angle, and
the posture of `back` times the `k`-th power of the shift of the posture. -/
theorem add_ds_list [Field α] (cos sin : α → α) (sampling_period : Nat)
    (m : addstep_members α) (x_shift y_shift angle_shift : α) (next_zref : Fin 3 → α)
    (FS : List (footstep α)) (back : footstep α) (n : Nat) :
    (add_ds cos sin sampling_period m x_shift y_shift angle_shift next_zref n FS back).1
      = FS ++ (List.range n).map (fun k : Nat =>
          footstep_new (back.angle + ((k : α) + 1) * angle_shift)
            (back.posture * (Translation x_shift y_shift 0
              * AngleAxisd_UnitZ cos sin angle_shift) ^ (k + 1))
            next_zref sampling_period fs_type.FS_TYPE_DS m.def_ds_constraint) ∧
    (add_ds cos sin sampling_period m x_shift y_shift angle_shift next_zref n FS back).2.angle
      = back.angle + (n : α) * angle_shift ∧
    (add_ds cos sin sampling_period m x_shift y_shift angle_shift next_zref n FS back).2.posture
      = back.posture * (Translation x_shift y_shift 0
          * AngleAxisd_UnitZ cos sin angle_shift) ^ n := by
  induction n with
  | zero =>
    refine ⟨?_, ?_, ?_⟩
    · simp [add_ds, loopUp]
    · simp [add_ds, loopUp]
    · simp [add_ds, loopUp]
  | succ n ih =>
    obtain ⟨h1, h2, h3⟩ := ih
    unfold add_ds at h1 h2 h3 ⊢
    rw [loopUp]
    simp only
    rw [h1, h2, h3]
    have ea : back.angle + (n : α) * angle_shift + angle_shift
        = back.angle + ((n : α) + 1) * angle_shift := by ring
    have ep : back.posture * (Translation x_shift y_shift 0
          * AngleAxisd_UnitZ cos sin angle_shift) ^ n * Translation x_shift y_shift 0
          * AngleAxisd_UnitZ cos sin angle_shift
        = back.posture * (Translation x_shift y_shift 0
          * AngleAxisd_UnitZ cos sin angle_shift) ^ (n + 1) := by
      rw [pow_succ]
      simp only [Matrix.mul_assoc]
    refine ⟨?_, ?_, ?_⟩
    · rw [List.range_succ, List.map_append, List.map_singleton, ← List.append_assoc, ea, ep]
    · simp only [footstep_new]
      push_cast
      ring
    · simp only [footstep_new]
      exact ep

/-- The method `AddFootstep` on a list with the last element `back`, in closed
form. -/
theorem AddFootstep_list [Field α] (cos sin : α → α) (sampling_period : Nat)
    (m : addstep_members α) (FS : List (footstep α)) (back : footstep α) (x y a : α)
    (type : fs_type) (hb : FS.getLast? = some back) :
    AddFootstep cos sin sampling_period m FS x y a type
      = FS ++ (List.range (to_unsigned m.def_ds_num)).map (fun k : Nat =>
          footstep_new (back.angle + ((k : α) + 1) * (a * (1 / ((m.def_ds_num + 1 : Int) : α))))
            (back.posture * (Translation (1 / ((m.def_ds_num + 1 : Int) : α) * x)
                (1 / ((m.def_ds_num + 1 : Int) : α) * y) 0
              * AngleAxisd_UnitZ cos sin (a * (1 / ((m.def_ds_num + 1 : Int) : α)))) ^ (k + 1))
            (transform_point (back.posture * (Translation x y 0 * AngleAxisd_UnitZ cos sin a))
              ![(m.addstep_constraint 0 - m.addstep_constraint 2) / 2, 0, 0])
            sampling_period fs_type.FS_TYPE_DS m.def_ds_constraint)
        ++ [footstep_new (back.angle + a)
            (back.posture * (Translation x y 0 * AngleAxisd_UnitZ cos sin a))
            (transform_point (back.posture * (Translation x y 0 * AngleAxisd_UnitZ cos sin a))
              ![(m.addstep_constraint 0 - m.addstep_constraint 2) / 2, 0, 0])
            (umul (to_unsigned m.def_repeat_times) sampling_period)
            (next_type back.type type) m.addstep_constraint] := by
  obtain ⟨h1, _, _⟩ := add_ds_list cos sin sampling_period m
    (1 / ((m.def_ds_num + 1 : Int) : α) * x) (1 / ((m.def_ds_num + 1 : Int) : α) * y)
    (a * (1 / ((m.def_ds_num + 1 : Int) : α)))
    (transform_point (back.posture * (Translation x y 0 * AngleAxisd_UnitZ cos sin a))
      ![(m.addstep_constraint 0 - m.addstep_constraint 2) / 2, 0, 0])
    FS back (to_unsigned m.def_ds_num)
  unfold AddFootstep
  simp only [hb]
  rw [h1]

/-- The `k`-th element of the image of `List.range n`. -/
theorem range_map_get {β : Type} (f : Nat → β) (n k : Nat) (hk : k < n) :
    ((List.range n).map f)[k]? = some (f k) := by
  simp [List.getElem?_map, List.getElem?_range hk]

/-- C31: on a list whose last footstep is `back`, `AddFootstep (dx, dy, da,
n_this, n_total, ...)` with `n_ds = n_total - n_this` (with or without the
constraint `d`) inserts the double supports before the new step, as many as
`n_ds` converted to `unsigned int` (the counter of the loop), that is `n_ds`
of them for `0 ≤ n_ds < 2^32`; the `k`-th of them (`k = 1 .. n_ds`, here
`k + 1` for `k < n_ds`) has the angle `back.angle + k * da / (n_ds + 1)`, and
the new step has `back.angle + da`. -/
theorem AddFootstep_ds_angle [Field α] (cos sin : α → α) (sampling_period : Nat)
    (m : addstep_members α) (FS : List (footstep α)) (back : footstep α) (x y a : α)
    (n_this n : Int) (d : Nat → α) (type : fs_type)
    (hb : FS.getLast? = some back) :
    (∃ ds fs, (AddFootstep_n cos sin sampling_period m FS x y a n_this n type).2
        = FS ++ ds ++ [fs] ∧
      ds.length = to_unsigned (n - n_this) ∧
      (0 ≤ n - n_this → n - n_this < 4294967296 → ds.length = (n - n_this).toNat) ∧
      (∀ k, k < to_unsigned (n - n_this) → ∃ s, ds[k]? = some s ∧
        s.type = fs_type.FS_TYPE_DS ∧
        s.angle = back.angle + ((k : α) + 1) * a / (((n - n_this : Int) : α) + 1)) ∧
      fs.angle = back.angle + a) ∧
    (∃ ds fs, (AddFootstep_d cos sin sampling_period m FS x y a n_this n d type).2
        = FS ++ ds ++ [fs] ∧
      ds.length = to_unsigned (n - n_this) ∧
      (0 ≤ n - n_this → n - n_this < 4294967296 → ds.length = (n - n_this).toNat) ∧
      (∀ k, k < to_unsigned (n - n_this) → ∃ s, ds[k]? = some s ∧
        s.type = fs_type.FS_TYPE_DS ∧
        s.angle = back.angle + ((k : α) + 1) * a / (((n - n_this : Int) : α) + 1)) ∧
      fs.angle = back.angle + a) := by
  have key : ∀ k : Nat, back.angle + ((k : α) + 1) * (a * (1 / ((n - n_this + 1 : Int) : α)))
      = back.angle + ((k : α) + 1) * a / (((n - n_this : Int) : α) + 1) := by
    intro k
    push_cast
    rw [mul_one_div, mul_div_assoc]
  constructor
  · refine ⟨_, _, AddFootstep_list cos sin sampling_period _ FS back x y a type hb, ?_, ?_, ?_,
      rfl⟩
    · simp
    · intro h0 h1
      rw [← to_unsigned_of_nonneg (n - n_this) h0 h1]
      simp
    · intro k hk
      refine ⟨_, range_map_get _ _ k hk, rfl, ?_⟩
      exact key k
  · refine ⟨_, _, AddFootstep_list cos sin sampling_period _ FS back x y a type hb, ?_, ?_, ?_,
      rfl⟩
    · simp
    · intro h0 h1
      rw [← to_unsigned_of_nonneg (n - n_this) h0 h1]
      simp
    · intro k hk
      refine ⟨_, range_map_get _ _ k hk, rfl, ?_⟩
      exact key k

/-- A concrete instance of C31: two double supports before a step turned by
`3`. -/
theorem AddFootstep_ds_angle_witness :
    [ex_fs].getLast? = some ex_fs ∧
    (∃ ds fs, (AddFootstep_n (fun _ => 1) (fun _ => 0) 20 (ex_members ℚ) [ex_fs] 1 2 3 1 3
          fs_type.FS_TYPE_AUTO).2 = [ex_fs] ++ ds ++ [fs] ∧
      ds.length = to_unsigned ((3 : Int) - 1) ∧
      ((0 : Int) ≤ 3 - 1 → (3 : Int) - 1 < 4294967296 → ds.length = ((3 : Int) - 1).toNat) ∧
      (∀ k, k < to_unsigned ((3 : Int) - 1) → ∃ s, ds[k]? = some s ∧
        s.type = fs_type.FS_TYPE_DS ∧
        s.angle = ex_fs.angle + ((k : ℚ) + 1) * 3 / ((((3 : Int) - 1 : Int) : ℚ) + 1)) ∧
      fs.angle = ex_fs.angle + 3) :=
  ⟨rfl,
    (AddFootstep_ds_angle (fun _ => 1) (fun _ => 0) 20 (ex_members ℚ) [ex_fs] ex_fs 1 2 3 1 3
      (fun _ => 0) fs_type.FS_TYPE_AUTO rfl).1⟩

/-- The translation of a posture moved by `Trans (x, y) * Rot_z (a)`. -/
theorem pose_translation [Field α] (cos sin : α → α) (P : Matrix (Fin 4) (Fin 4) α)
    (x y a : α) :
    (P * (Translation x y 0 * AngleAxisd_UnitZ cos sin a)) 0 3
      = P 0 3 * 1 + (P 0 0 * x + P 0 1 * y) ∧
    (P * (Translation x y 0 * AngleAxisd_UnitZ cos sin a)) 1 3
      = P 1 3 * 1 + (P 1 0 * x + P 1 1 * y) := by
  rw [pose_matrix]
  simp only [Matrix.mul_apply, Fin.sum_univ_four]
  simp [Matrix.vecHead, Matrix.vecTail]
  constructor <;> ring

/-- The translation of a posture moved by `Trans (x, y)`. -/
theorem translation_entry [Field α] (P : Matrix (Fin 4) (Fin 4) α) (x y : α) :
    (P * Translation x y 0) 0 3 = P 0 3 * 1 + (P 0 0 * x + P 0 1 * y) ∧
    (P * Translation x y 0) 1 3 = P 1 3 * 1 + (P 1 0 * x + P 1 1 * y) := by
  simp only [Matrix.mul_apply, Fin.sum_univ_four, Translation]
  simp [Matrix.vecHead, Matrix.vecTail]
  constructor <;> ring

/-- The product of two translations. -/
theorem Translation_mul [Field α] (x y u v : α) :
    Translation x y 0 * Translation u v 0 = Translation (x + u) (y + v) (0 : α) := by
  ext i j
  fin_cases i <;> fin_cases j <;>
    simp [Translation, Matrix.mul_apply, Fin.sum_univ_four, Matrix.vecHead, Matrix.vecTail,
      add_comm]

/-- The powers of a translation. -/
theorem Translation_pow [Field α] (x y : α) (n : Nat) :
    Translation x y 0 ^ (n + 1) = Translation (((n : α) + 1) * x) (((n : α) + 1) * y) (0 : α) := by
  induction n with
  | zero => simp
  | succ n ih =>
    have ex : ((n : α) + 1) * x + x = (((n + 1 : Nat) : α) + 1) * x := by
      push_cast
      ring
    have ey : ((n : α) + 1) * y + y = (((n + 1 : Nat) : α) + 1) * y := by
      push_cast
      ring
    rw [pow_succ, ih, Translation_mul, ex, ey]

/-- The rotation by the angle zero is the identity when `cos 0 = 1` and
`sin 0 = 0`. -/
theorem AngleAxisd_zero [Field α] (cos sin : α → α) (hc : cos 0 = 1) (hs : sin 0 = 0) :
    AngleAxisd_UnitZ cos sin 0 = 1 := by
  ext i j
  fin_cases i <;> fin_cases j <;>
    simp [AngleAxisd_UnitZ, hc, hs, Matrix.one_apply, Matrix.vecHead, Matrix.vecTail]

/-- The position of the double supports of `AddFootstep` on a list with the
last element `back`: the first one for every turn, all of them for the turn
zero. -/
theorem ds_position [Field α] (cos sin : α → α) (P : Matrix (Fin 4) (Fin 4) α) (x y a : α)
    (c : Int) :
    ((P * (Translation (1 / ((c + 1 : Int) : α) * x) (1 / ((c + 1 : Int) : α) * y) 0
          * AngleAxisd_UnitZ cos sin (a * (1 / ((c + 1 : Int) : α)))) ^ (0 + 1)) 0 3
        = P 0 3 + 1 / ((c : α) + 1)
          * ((P * (Translation x y 0 * AngleAxisd_UnitZ cos sin a)) 0 3 - P 0 3) ∧
      (P * (Translation (1 / ((c + 1 : Int) : α) * x) (1 / ((c + 1 : Int) : α) * y) 0
          * AngleAxisd_UnitZ cos sin (a * (1 / ((c + 1 : Int) : α)))) ^ (0 + 1)) 1 3
        = P 1 3 + 1 / ((c : α) + 1)
          * ((P * (Translation x y 0 * AngleAxisd_UnitZ cos sin a)) 1 3 - P 1 3)) ∧
    (a = 0 → cos 0 = 1 → sin 0 = 0 → ∀ k : Nat,
      (P * (Translation (1 / ((c + 1 : Int) : α) * x) (1 / ((c + 1 : Int) : α) * y) 0
          * AngleAxisd_UnitZ cos sin (a * (1 / ((c + 1 : Int) : α)))) ^ (k + 1)) 0 3
        = P 0 3 + ((k : α) + 1) / ((c : α) + 1)
          * ((P * (Translation x y 0 * AngleAxisd_UnitZ cos sin a)) 0 3 - P 0 3) ∧
      (P * (Translation (1 / ((c + 1 : Int) : α) * x) (1 / ((c + 1 : Int) : α) * y) 0
          * AngleAxisd_UnitZ cos sin (a * (1 / ((c + 1 : Int) : α)))) ^ (k + 1)) 1 3
        = P 1 3 + ((k : α) + 1) / ((c : α) + 1)
          * ((P * (Translation x y 0 * AngleAxisd_UnitZ cos sin a)) 1 3 - P 1 3)) := by
  constructor
  · rw [zero_add, pow_one, (pose_translation cos sin P x y a).1,
      (pose_translation cos sin P x y a).2, (pose_translation cos sin P _ _ _).1,
      (pose_translation cos sin P _ _ _).2]
    push_cast
    constructor <;> ring
  · intro ha hc hs k
    rw [ha, zero_mul, AngleAxisd_zero cos sin hc hs, mul_one, mul_one, Translation_pow,
      (translation_entry P x y).1, (translation_entry P x y).2, (translation_entry P _ _).1,
      (translation_entry P _ _).2]
    push_cast
    constructor <;> ring

/-- Where the double supports are on the line: on a list whose last footstep
is `back`, at the position `p_prev`, `AddFootstep (dx, dy, da, n_this,
n_total, ...)` with `n_ds = n_total - n_this` puts the first double support at
`p_prev + (1/(n_ds + 1)) * (p_new - p_prev)` for every `da`, and for `da = 0`
(with `cos 0 = 1`, `sin 0 = 0`) the `k`-th double support (`k = 1 .. n_ds`,
here `k + 1` for `k < n_ds`) at `p_prev + (k/(n_ds + 1)) * (p_new - p_prev)`,
where `p_new` is the position of the new step. The composition of the shifts
in the frame of `FS.back ()` shows from the second double support of a step
with a turn on. -/
theorem AddFootstep_ds_position [Field α] (cos sin : α → α) (sampling_period : Nat)
    (m : addstep_members α) (FS : List (footstep α)) (back : footstep α) (x y a : α)
    (n_this n : Int) (type : fs_type)
    (hb : FS.getLast? = some back) (hx : back.x = back.posture 0 3)
    (hy : back.y = back.posture 1 3) :
    ∃ ds fs, (AddFootstep_n cos sin sampling_period m FS x y a n_this n type).2
        = FS ++ ds ++ [fs] ∧
      ds.length = to_unsigned (n - n_this) ∧
      (0 < to_unsigned (n - n_this) → ∃ s, ds[0]? = some s ∧
        s.x = back.x + 1 / (((n - n_this : Int) : α) + 1) * (fs.x - back.x) ∧
        s.y = back.y + 1 / (((n - n_this : Int) : α) + 1) * (fs.y - back.y)) ∧
      (a = 0 → cos 0 = 1 → sin 0 = 0 → ∀ k, k < to_unsigned (n - n_this) →
        ∃ s, ds[k]? = some s ∧
          s.x = back.x + ((k : α) + 1) / (((n - n_this : Int) : α) + 1) * (fs.x - back.x) ∧
          s.y = back.y + ((k : α) + 1) / (((n - n_this : Int) : α) + 1) * (fs.y - back.y)) := by
  obtain ⟨h1, h2⟩ := ds_position cos sin back.posture x y a (n - n_this)
  refine ⟨_, _, AddFootstep_list cos sin sampling_period _ FS back x y a type hb, ?_, ?_, ?_⟩
  · simp
  · intro h0
    refine ⟨_, range_map_get _ _ 0 h0, ?_, ?_⟩
    · rw [hx]
      exact h1.1
    · rw [hy]
      exact h1.2
  · intro ha hc hs k hk
    refine ⟨_, range_map_get _ _ k hk, ?_, ?_⟩
    · rw [hx]
      exact (h2 ha hc hs k).1
    · rw [hy]
      exact (h2 ha hc hs k).2

/-- A concrete instance: two double supports before a step forward without a
turn. -/
theorem AddFootstep_ds_position_witness :
    [ex_origin ℚ].getLast? = some (ex_origin ℚ) ∧
    (ex_origin ℚ).x = (ex_origin ℚ).posture 0 3 ∧ (ex_origin ℚ).y = (ex_origin ℚ).posture 1 3 ∧
    (∃ ds fs, (AddFootstep_n (fun _ => 1) (fun _ => 0) 20 (ex_members ℚ) [ex_origin ℚ] 1 2 0 1 3
          fs_type.FS_TYPE_AUTO).2 = [ex_origin ℚ] ++ ds ++ [fs] ∧
      ds.length = to_unsigned ((3 : Int) - 1) ∧
      (0 < to_unsigned ((3 : Int) - 1) → ∃ s, ds[0]? = some s ∧
        s.x = (ex_origin ℚ).x + 1 / ((((3 : Int) - 1 : Int) : ℚ) + 1) * (fs.x - (ex_origin ℚ).x) ∧
        s.y = (ex_origin ℚ).y + 1 / ((((3 : Int) - 1 : Int) : ℚ) + 1) * (fs.y - (ex_origin ℚ).y)) ∧
      ((0 : ℚ) = 0 → (fun _ : ℚ => (1 : ℚ)) 0 = 1 → (fun _ : ℚ => (0 : ℚ)) 0 = 0 →
        ∀ k, k < to_unsigned ((3 : Int) - 1) → ∃ s, ds[k]? = some s ∧
          s.x = (ex_origin ℚ).x
            + ((k : ℚ) + 1) / ((((3 : Int) - 1 : Int) : ℚ) + 1) * (fs.x - (ex_origin ℚ).x) ∧
          s.y = (ex_origin ℚ).y
            + ((k : ℚ) + 1) / ((((3 : Int) - 1 : Int) : ℚ) + 1) * (fs.y - (ex_origin ℚ).y))) :=
  ⟨rfl, rfl, rfl,
    AddFootstep_ds_position (fun _ => 1) (fun _ => 0) 20 (ex_members ℚ) [ex_origin ℚ]
      (ex_origin ℚ) 1 2 0 1 3 fs_type.FS_TYPE_AUTO rfl rfl rfl⟩

/-- The shift of the posture for a step forward by `1` with a turn of `3π/2`
in three parts. -/
theorem ex_turn_shift :
    Translation (1 / (((3 : Int) - 1 + 1 : Int) : ℝ) * 1) (1 / (((3 : Int) - 1 + 1 : Int) : ℝ) * 0) 0
        * AngleAxisd_UnitZ Real.cos Real.sin
          (3 * Real.pi / 2 * (1 / (((3 : Int) - 1 + 1 : Int) : ℝ)))
      = !![0, -1, 0, 1 / 3; 1, 0, 0, 0; 0, 0, 1, 0; 0, 0, 0, 1] := by
  have e : 3 * Real.pi / 2 * (1 / (((3 : Int) - 1 + 1 : Int) : ℝ)) = Real.pi / 2 := by
    push_cast
    ring
  rw [pose_matrix, e, Real.cos_pi_div_two, Real.sin_pi_div_two]
  push_cast
  norm_num

/-- C32, the code at the failing input: from a footstep at the origin with the
angle 0, `AddFootstep (1, 0, 3π/2, 1, 3)` adds two double supports and a step
at `(1, 0)`. The loop splits the displacement in three parts, but it applies
each part in the frame of `FS.back ()`, which is the double support pushed by
the pass before, turned by `π/2`: the second double support is at
`(1/3, 1/3)`, off the segment from `(0, 0)` to `(1, 0)`, and not at
`p_prev + (2/3) * (p_new - p_prev) = (2/3, 0)`. -/
theorem AddFootstep_ds_position_not_linear :
    ∃ ds1 ds2 fs,
      (AddFootstep_n Real.cos Real.sin 20 (ex_members ℝ) [ex_origin ℝ] 1 0 (3 * Real.pi / 2) 1 3
        fs_type.FS_TYPE_AUTO).2 = [ex_origin ℝ, ds1, ds2, fs] ∧
      (ex_origin ℝ).x = 0 ∧ (ex_origin ℝ).y = 0 ∧
      fs.x = 1 ∧ fs.y = 0 ∧
      ds1.x = 1 / 3 ∧ ds1.y = 0 ∧
      ds2.x = 1 / 3 ∧ ds2.y = 1 / 3 ∧
      ds2.x ≠ (ex_origin ℝ).x + 2 / (2 + 1) * (fs.x - (ex_origin ℝ).x) ∧
      ds2.y ≠ (ex_origin ℝ).y + 2 / (2 + 1) * (fs.y - (ex_origin ℝ).y) := by
  have hl := AddFootstep_list Real.cos Real.sin 20
    { ex_members ℝ with def_repeat_times := 1, def_ds_num := 3 - 1 }
    [ex_origin ℝ] (ex_origin ℝ) 1 0 (3 * Real.pi / 2) fs_type.FS_TYPE_AUTO rfl
  have h2 : to_unsigned ((3 : Int) - 1) = 2 := by decide
  have hr : List.range 2 = [0, 1] := by decide
  simp only [h2, hr, List.map_cons, List.map_nil, List.singleton_append, List.cons_append,
    List.nil_append] at hl
  have hP : (ex_origin ℝ).posture = 1 := by
    ext i j
    fin_cases i <;> fin_cases j <;>
      simp [ex_origin, footstep_new, Translation, Matrix.one_apply, Matrix.vecHead,
        Matrix.vecTail]
  rw [ex_turn_shift, hP] at hl
  have e0x : (ex_origin ℝ).x = 0 := by simp [ex_origin, footstep_new, Translation]
  have e0y : (ex_origin ℝ).y = 0 := by simp [ex_origin, footstep_new, Translation]
  have efx : ((1 : Matrix (Fin 4) (Fin 4) ℝ)
      * (Translation 1 0 0 * AngleAxisd_UnitZ Real.cos Real.sin (3 * Real.pi / 2))
        : Matrix (Fin 4) (Fin 4) ℝ) 0 3 = 1 := by
    rw [one_mul, pose_matrix]
    simp
  have efy : ((1 : Matrix (Fin 4) (Fin 4) ℝ)
      * (Translation 1 0 0 * AngleAxisd_UnitZ Real.cos Real.sin (3 * Real.pi / 2))
        : Matrix (Fin 4) (Fin 4) ℝ) 1 3 = 0 := by
    rw [one_mul, pose_matrix]
    simp
  have e1x : ((1 : Matrix (Fin 4) (Fin 4) ℝ)
      * !![0, -1, 0, 1 / 3; 1, 0, 0, 0; 0, 0, 1, 0; 0, 0, 0, 1] ^ (0 + 1)
        : Matrix (Fin 4) (Fin 4) ℝ) 0 3 = 1 / 3 := by
    simp
  have e1y : ((1 : Matrix (Fin 4) (Fin 4) ℝ)
      * !![0, -1, 0, 1 / 3; 1, 0, 0, 0; 0, 0, 1, 0; 0, 0, 0, 1] ^ (0 + 1)
        : Matrix (Fin 4) (Fin 4) ℝ) 1 3 = 0 := by
    simp
  have e2x : ((1 : Matrix (Fin 4) (Fin 4) ℝ)
      * !![0, -1, 0, 1 / 3; 1, 0, 0, 0; 0, 0, 1, 0; 0, 0, 0, 1] ^ (1 + 1)
        : Matrix (Fin 4) (Fin 4) ℝ) 0 3 = 1 / 3 := by
    simp [pow_succ, Matrix.mul_apply, Fin.sum_univ_four, Matrix.vecHead, Matrix.vecTail]
  have e2y : ((1 : Matrix (Fin 4) (Fin 4) ℝ)
      * !![0, -1, 0, 1 / 3; 1, 0, 0, 0; 0, 0, 1, 0; 0, 0, 0, 1] ^ (1 + 1)
        : Matrix (Fin 4) (Fin 4) ℝ) 1 3 = 1 / 3 := by
    simp [pow_succ, Matrix.mul_apply, Fin.sum_univ_four, Matrix.vecHead, Matrix.vecTail]
  refine ⟨_, _, _, hl, e0x, e0y, efx, efy, e1x, e1y, e2x, e2y, ?_, ?_⟩
  · simp only [footstep_new]
    rw [e2x, efx, e0x]
    norm_num
  · simp only [footstep_new]
    rw [e2y, efy, e0y]
    norm_num

/-! ### The support switch and the constant period -/

/-- C34: `isSupportSwitchNeeded` returns `false` whenever the footstep at
`current_step_number` has the type `FS_TYPE_DS`, whenever
`current_step_number` is `0`, and whenever the `time_left` of that footstep
differs from its `time_period`. It returns a value and nothing else: the
object is an input only, so no state is changed. -/
theorem isSupportSwitchNeeded_false (w : WMG α) (fs : footstep α)
    (h : w.FS[w.current_step_number]? = some fs) :
    (fs.type = fs_type.FS_TYPE_DS → isSupportSwitchNeeded w = some false) ∧
    (w.current_step_number = 0 → isSupportSwitchNeeded w = some false) ∧
    (fs.time_left ≠ fs.time_period → isSupportSwitchNeeded w = some false) := by
  refine ⟨?_, ?_, ?_⟩
  · intro hd
    simp only [isSupportSwitchNeeded, h, hd, if_true]
  · intro h0
    by_cases hd : fs.type = fs_type.FS_TYPE_DS
    · simp only [isSupportSwitchNeeded, h, hd, if_true]
    · have hc : ¬ (w.current_step_number ≠ 0 ∧ fs.time_period = fs.time_left) :=
        fun a => a.1 h0
      simp only [isSupportSwitchNeeded, h, if_neg hd, if_neg hc]
  · intro ht
    by_cases hd : fs.type = fs_type.FS_TYPE_DS
    · simp only [isSupportSwitchNeeded, h, hd, if_true]
    · have hc : ¬ (w.current_step_number ≠ 0 ∧ fs.time_period = fs.time_left) :=
        fun a => ht a.2.symm
      simp only [isSupportSwitchNeeded, h, if_neg hd, if_neg hc]

/-- A concrete instance of C34: the generator `ex_wmg`, whose only footstep
is a double support. -/
theorem isSupportSwitchNeeded_false_witness :
    ex_wmg.FS[ex_wmg.current_step_number]? = some ex_fs ∧
    (ex_fs.type = fs_type.FS_TYPE_DS → isSupportSwitchNeeded ex_wmg = some false) ∧
    (ex_wmg.current_step_number = 0 → isSupportSwitchNeeded ex_wmg = some false) ∧
    (ex_fs.time_left ≠ ex_fs.time_period → isSupportSwitchNeeded ex_wmg = some false) :=
  ⟨rfl, isSupportSwitchNeeded_false ex_wmg ex_fs rfl⟩

/-- The walk of the specification for a constant period `T` over footsteps
whose times are multiples of `T`: it does not halt exactly when the times add
up to the length of the window. -/
theorem window_halts_const (T_ms : Nat → Nat) (T : Nat) (hT : 0 < T) :
    ∀ (n i : Nat) (L : List Nat), (∀ j, i ≤ j → j < i + n → T_ms j = T) →
      (∀ t ∈ L, T ∣ t) → (window_halts T_ms n i L = false ↔ n * T ≤ L.sum) := by
  intro n
  induction n with
  | zero =>
    intro i L _ _
    simp [window_halts]
  | succ n ih =>
    intro i L hc
    induction L with
    | nil =>
      intro _
      rw [window_halts_nil]
      have hp : 0 < (n + 1) * T := Nat.mul_pos (Nat.succ_pos n) hT
      simp only [List.sum_nil, Nat.le_zero, Bool.true_eq_false, false_iff]
      omega
    | cons t L ihL =>
      intro hL
      by_cases ht : t = 0
      · subst ht
        rw [window_halts_skip, List.sum_cons, Nat.zero_add]
        exact ihL (fun u hu => hL u (List.mem_cons_of_mem _ hu))
      · have hpos : 0 < t := Nat.pos_of_ne_zero ht
        obtain ⟨q, hq⟩ := hL t (List.mem_cons_self _ _)
        have hq1 : 1 ≤ q := by
          rcases Nat.eq_zero_or_pos q with h0 | h0
          · rw [h0, Nat.mul_zero] at hq
            omega
          · exact h0
        have hle : T ≤ t := by
          rw [hq]
          exact Nat.le_mul_of_pos_right T hq1
        have hdiv : ∀ u ∈ (t - T) :: L, T ∣ u := by
          intro u hu
          rcases List.mem_cons.mp hu with h1 | h1
          · rw [h1]
            exact (Nat.dvd_sub' (hL t (List.mem_cons_self _ _)) (dvd_refl T))
          · exact hL u (List.mem_cons_of_mem _ h1)
        rw [window_halts_pos T_ms n i t L hpos, hc i (le_refl _) (by omega),
          if_neg (by omega),
          ih (i + 1) ((t - T) :: L) (fun j h1 h2 => hc j (by omega) (by omega)) hdiv,
          List.sum_cons, List.sum_cons, Nat.succ_mul]
        omega

/-- The status of `formPreviewWindow` is `WMG_HALT` exactly when the walk of
the specification halts. -/
theorem formPreviewWindow_status [Field α] (w w' : WMG α) (par par' : smpc_parameters α)
    (r : WMGret) (hcur : w.current_step_number < w.FS.length)
    (h : formPreviewWindow w par = some (r, par', w')) :
    (r = WMGret.WMG_HALT ↔
      window_halts w.T_ms w.N 0
        ((w.FS.drop w.current_step_number).map (fun fs => fs.time_left)) = true) := by
  have hget : w.FS[w.current_step_number]? = some w.FS[w.current_step_number] :=
    List.getElem?_eq_getElem hcur
  obtain ⟨r1, par1, h1, h2⟩ := preview_loop_halts w.FS w.N w.T_ms (w.N + w.FS.length) 0
    w.current_step_number w.FS[w.current_step_number].time_left par hcur (by omega)
  have hL : (w.FS.drop w.current_step_number).map (fun fs => fs.time_left)
      = w.FS[w.current_step_number].time_left
        :: (w.FS.drop (w.current_step_number + 1)).map (fun fs => fs.time_left) := by
    rw [List.drop_eq_getElem_cons hcur, List.map_cons]
  rw [hL]
  rw [Nat.sub_zero] at h2
  rw [← h2]
  cases r1 with
  | WMG_HALT =>
    simp only [formPreviewWindow, hget, h1, Option.some.injEq, Prod.mk.injEq] at h
    rw [← h.1]
  | WMG_OK =>
    cases r with
    | WMG_OK => simp
    | WMG_HALT =>
      exfalso
      simp only [formPreviewWindow, hget, h1] at h
      split at h
      · exact absurd h (by simp)
      · split at h
        · exact absurd h (by simp)
        · simp at h

/-- C35: when every `T_ms[i]` is the same `T > 0` and the `time_left` of every
footstep from `current_step_number` on is a multiple of `T` (for
`current_step_number` inside the list and a window of `N ≥ 1` intervals),
`formPreviewWindow` returns; it returns `WMG_OK` exactly when the sum of
`time_left` over the footsteps from `current_step_number` on is at least
`N * T`, and `WMG_HALT` otherwise. -/
theorem formPreviewWindow_const_period [Field α] (w : WMG α) (par : smpc_parameters α)
    (T : Nat) (hcur : w.current_step_number < w.FS.length) (hN : 1 ≤ w.N) (hT : 0 < T)
    (hc : ∀ i, i < w.N → w.T_ms i = T)
    (hm : ∀ k fs, w.current_step_number ≤ k → w.FS[k]? = some fs → T ∣ fs.time_left) :
    ∃ r par' w', formPreviewWindow w par = some (r, par', w') ∧
      (r = WMGret.WMG_OK ↔
        w.N * T ≤ ((w.FS.drop w.current_step_number).map (fun fs => fs.time_left)).sum) ∧
      (r = WMGret.WMG_HALT ↔
        ((w.FS.drop w.current_step_number).map (fun fs => fs.time_left)).sum < w.N * T) := by
  obtain ⟨r, par', w', h⟩ := formPreviewWindow_returns w par hcur hN
  have hs := formPreviewWindow_status w w' par par' r hcur h
  have hL : ∀ t ∈ (w.FS.drop w.current_step_number).map (fun fs => fs.time_left), T ∣ t := by
    intro t ht
    obtain ⟨fs, hfs, rfl⟩ := List.mem_map.mp ht
    obtain ⟨k, hk, e⟩ := List.getElem_of_mem hfs
    rw [List.getElem_drop] at e
    have hlen : w.current_step_number + k < w.FS.length := by
      rw [List.length_drop] at hk
      omega
    apply hm (w.current_step_number + k) fs (by omega)
    rw [List.getElem?_eq_getElem hlen, e]
  have hw := window_halts_const w.T_ms T hT w.N 0 _
    (fun j _ h2 => hc j (by omega)) hL
  refine ⟨r, par', w', h, ?_, ?_⟩
  · rw [← hw]
    cases r with
    | WMG_OK =>
      simp only [true_iff]
      cases hv : window_halts w.T_ms w.N 0
          ((w.FS.drop w.current_step_number).map (fun fs => fs.time_left)) with
      | false => rfl
      | true => exact absurd (hs.mpr hv) (by simp)
    | WMG_HALT =>
      have hv := hs.mp rfl
      rw [hv]
      simp
  · rw [hs]
    constructor
    · intro hv
      by_contra hn
      have := hw.mpr (by omega)
      rw [hv] at this
      exact absurd this (by simp)
    · intro hlt
      cases hv : window_halts w.T_ms w.N 0
          ((w.FS.drop w.current_step_number).map (fun fs => fs.time_left)) with
      | true => rfl
      | false =>
        have := hw.mp hv
        omega

/-- A concrete instance of C35: the walk `ex_walk`: four footsteps of 20 ms,
two intervals of 20 ms. -/
theorem formPreviewWindow_const_period_witness :
    ex_walk.current_step_number < ex_walk.FS.length ∧ 1 ≤ ex_walk.N ∧ 0 < 20 ∧
    (∀ i, i < ex_walk.N → ex_walk.T_ms i = 20) ∧
    (∀ k fs, ex_walk.current_step_number ≤ k → ex_walk.FS[k]? = some fs →
      20 ∣ fs.time_left) ∧
    ∃ r par' w', formPreviewWindow ex_walk ex_par = some (r, par', w') ∧
      (r = WMGret.WMG_OK ↔
        ex_walk.N * 20
          ≤ ((ex_walk.FS.drop ex_walk.current_step_number).map (fun fs => fs.time_left)).sum) ∧
      (r = WMGret.WMG_HALT ↔
        ((ex_walk.FS.drop ex_walk.current_step_number).map (fun fs => fs.time_left)).sum
          < ex_walk.N * 20) :=
  have hm : ∀ k fs, ex_walk.current_step_number ≤ k → ex_walk.FS[k]? = some fs →
      20 ∣ fs.time_left := by
    intro k fs _ hk
    have hlt : k < 4 := (List.getElem?_eq_some_iff.mp hk).1
    have : k = 0 ∨ k = 1 ∨ k = 2 ∨ k = 3 := by omega
    rcases this with e | e | e | e <;> subst e <;>
      (rw [← Option.some.inj hk]; exact dvd_refl 20)
  ⟨by decide, by decide, by decide, fun _ _ => rfl, hm,
    formPreviewWindow_const_period ex_walk ex_par 20 (by decide) (by decide) (by decide)
      (fun _ _ => rfl) hm⟩

/-! ### Runs of calls: reads inside the list, subtractions without wrapping -/

/-- The method `AddFootstep` appends footsteps, at least one, each of them
with `time_left = time_period`. -/
theorem AddFootstep_appends [Field α] (cos sin : α → α) (sampling_period : Nat)
    (m : addstep_members α) (FS : List (footstep α)) (x y a : α) (type : fs_type) :
    ∃ new : List (footstep α),
      AddFootstep cos sin sampling_period m FS x y a type = FS ++ new ∧ 0 < new.length ∧
      ∀ s ∈ new, s.time_left = s.time_period := by
  cases hb : FS.getLast? with
  | none =>
    have hnil : FS = [] := List.getLast?_eq_none_iff.mp hb
    subst hnil
    refine ⟨_, AddFootstep_nil cos sin sampling_period m x y a type, by simp, ?_⟩
    intro s hs
    rw [List.mem_singleton.mp hs]
    rfl
  | some back =>
    obtain ⟨ds, h1, _, h3, _⟩ := AddFootstep_cons cos sin sampling_period m FS back x y a type hb
    refine ⟨ds ++ [_], by rw [h1, List.append_assoc], by simp, ?_⟩
    intro s hs
    rcases List.mem_append.mp hs with h | h
    · obtain ⟨_, e1, e2, _⟩ := h3 s h
      rw [e1, e2]
    · rw [List.mem_singleton.mp h]
      rfl

/-- The checked loop of `formPreviewWindow` is the loop: the subtraction
`step_time_left -= T_ms[i]` is behind the test `T_ms[i] > step_time_left`. -/
theorem preview_loop_checked_eq [Field α] (FS : List (footstep α)) (N : Nat)
    (T_ms : Nat → Nat) :
    ∀ (fuel i win stl : Nat) (par : smpc_parameters α),
      preview_loop_checked FS N T_ms fuel i win stl par
        = preview_loop FS N T_ms fuel i win stl par := by
  intro fuel
  induction fuel with
  | zero =>
    intro i win stl par
    rfl
  | succ fuel ih =>
    intro i win stl par
    rw [preview_loop_checked, preview_loop]
    by_cases hi : i < N
    · rw [if_pos hi, if_pos hi]
      by_cases hs : stl > 0
      · rw [if_pos hs, if_pos hs]
        cases hf : FS[win]? with
        | none => rfl
        | some fs =>
          simp only
          by_cases ht : T_ms i > stl
          · rw [if_pos ht, if_pos ht]
          · have hle : T_ms i ≤ stl := Nat.le_of_not_lt ht
            rw [if_neg ht, if_neg ht, if_pos hle, ih]
            unfold usub
            rw [if_pos hle]
      · rw [if_neg hs, if_neg hs]
        by_cases he : win + 1 = FS.length
        · rw [if_pos he, if_pos he]
        · rw [if_neg he, if_neg he]
          cases hf : FS[win + 1]? with
          | none => rfl
          | some fs =>
            simp only
            exact ih _ _ _ _
    · rw [if_neg hi, if_neg hi]

/-- The checked `formPreviewWindow` is `formPreviewWindow` in a window of at
least one interval: `time_left -= T_ms[0]` is applied to the footstep that
interval 0 was placed in. -/
theorem formPreviewWindow_checked_eq [Field α] (w : WMG α) (par : smpc_parameters α)
    (hN : 1 ≤ w.N) : formPreviewWindow_checked w par = formPreviewWindow w par := by
  cases h0 : w.FS[w.current_step_number]? with
  | none => simp only [formPreviewWindow_checked, formPreviewWindow, h0]
  | some fs0 =>
    cases h1 : preview_loop w.FS w.N w.T_ms (w.N + w.FS.length) 0 w.current_step_number
        fs0.time_left par with
    | none =>
      simp only [formPreviewWindow_checked, formPreviewWindow, h0, preview_loop_checked_eq, h1]
    | some rp =>
      obtain ⟨r, p⟩ := rp
      cases r with
      | WMG_HALT =>
        simp only [formPreviewWindow_checked, formPreviewWindow, h0, preview_loop_checked_eq, h1]
      | WMG_OK =>
        cases h2 : skip_finished w.FS (w.FS.length + 1) w.current_step_number with
        | none =>
          simp only [formPreviewWindow_checked, formPreviewWindow, h0, preview_loop_checked_eq,
            h1, h2]
        | some c =>
          cases h3 : w.FS[c]? with
          | none =>
            simp only [formPreviewWindow_checked, formPreviewWindow, h0,
              preview_loop_checked_eq, h1, h2, h3]
          | some fs =>
            have hfull : formPreviewWindow w par = some (WMGret.WMG_OK, p,
                { w with
                  FS := w.FS.set c { fs with time_left := usub fs.time_left (w.T_ms 0) }
                  current_step_number := if usub fs.time_left (w.T_ms 0) = 0 then c + 1 else c
                  first_preview_step := c
                  last_time_decrement := w.T_ms 0 }) := by
              simp only [formPreviewWindow, h0, h1, h2, h3]
            obtain ⟨_, c', fs', _, _, _, _, _, f2, _, _, hle, f5⟩ :=
              formPreviewWindow_ok_sub w _ par p hN hfull
            have hc : c = c' := congrArg WMG.first_preview_step f5
            subst hc
            rw [h3] at f2
            have hfs : fs = fs' := Option.some.inj f2
            subst hfs
            have hu : usub fs.time_left (w.T_ms 0) = fs.time_left - w.T_ms 0 := by
              unfold usub
              rw [if_pos hle]
            simp only [formPreviewWindow_checked, formPreviewWindow, h0,
              preview_loop_checked_eq, h1, h2, h3, if_pos hle, hu]

/-- C39: from a list with `current_step_number` inside it, with `N ≥ 2` and
every `T_ms[i] > 0`, every sequence of calls of `AddFootstep` and
`formPreviewWindow` runs to a state where `current_step_number` is inside the
list, and there `formPreviewWindow` returns, with every footstep read inside
the list and without a subtraction `step_time_left -= T_ms[i]` or
`time_left -= T_ms[0]` of more than the value that it reduces: the checked
method returns what the method returns. -/
theorem formPreviewWindow_inside [Field α] (cos sin : α → α) (cs : List (wmg_call α)) :
    ∀ (w0 : WMG α), w0.current_step_number < w0.FS.length → 2 ≤ w0.N →
      (∀ i, i < w0.N → 0 < w0.T_ms i) →
      ∃ w, do_calls cos sin cs w0 = some w ∧
        w.current_step_number < w.FS.length ∧
        ∀ par, ∃ r par' w', formPreviewWindow w par = some (r, par', w') ∧
          formPreviewWindow_checked w par = some (r, par', w') := by
  induction cs with
  | nil =>
    intro w0 h0 hN hT
    refine ⟨w0, rfl, h0, ?_⟩
    intro par
    obtain ⟨r, par', w', h⟩ := formPreviewWindow_returns w0 par h0 (by omega)
    exact ⟨r, par', w', h, by rw [formPreviewWindow_checked_eq w0 par (by omega), h]⟩
  | cons c cs ih =>
    intro w0 h0 hN hT
    cases c with
    | AddFootstep m x y a type =>
      obtain ⟨new, h1, _, _⟩ := AddFootstep_appends cos sin w0.sampling_period m w0.FS x y a type
      have hlen : w0.current_step_number
          < (AddFootstep cos sin w0.sampling_period m w0.FS x y a type).length := by
        rw [h1, List.length_append]
        omega
      exact ih { w0 with FS := AddFootstep cos sin w0.sampling_period m w0.FS x y a type }
        hlen hN hT
    | formPreviewWindow par =>
      obtain ⟨r, par', w', h⟩ := formPreviewWindow_returns w0 par h0 (by omega)
      have hstep : do_calls cos sin (wmg_call.formPreviewWindow par :: cs) w0
          = do_calls cos sin cs w' := by
        simp only [do_calls, do_call, h]
      rw [hstep]
      cases r with
      | WMG_HALT =>
        have e := formPreviewWindow_halt_eq w0 w' par par' h
        subst e
        exact ih w' h0 hN hT
      | WMG_OK =>
        obtain ⟨_, e2, e3, e4, _⟩ := formPreviewWindow_ok_step w0 w' par par' hN hT h
        exact ih w' e2 (by rw [e3]; exact hN) (by rw [e3, e4]; exact hT)

/-- A concrete instance of C39: the walk `ex_walk2` after a call of
`formPreviewWindow` and one of `AddFootstep`. -/
theorem formPreviewWindow_inside_witness :
    ex_walk2.current_step_number < ex_walk2.FS.length ∧ 2 ≤ ex_walk2.N ∧
    (∀ i, i < ex_walk2.N → 0 < ex_walk2.T_ms i) ∧
    ∃ w, do_calls (fun _ => 1) (fun _ => 0)
        [wmg_call.formPreviewWindow ex_par,
          wmg_call.AddFootstep (ex_members ℚ) 1 2 0 fs_type.FS_TYPE_AUTO] ex_walk2 = some w ∧
      w.current_step_number < w.FS.length ∧
      ∀ par, ∃ r par' w', formPreviewWindow w par = some (r, par', w') ∧
        formPreviewWindow_checked w par = some (r, par', w') :=
  ⟨by decide, by decide, fun _ _ => (by decide : 0 < 20),
    formPreviewWindow_inside (fun _ => 1) (fun _ => 0)
      [wmg_call.formPreviewWindow ex_par,
        wmg_call.AddFootstep (ex_members ℚ) 1 2 0 fs_type.FS_TYPE_AUTO] ex_walk2
      (by decide) (by decide) (fun _ _ => (by decide : 0 < 20))⟩

/-! ### The parameter of the swing in `getFeetPositions` -/

/-- A new generator has its times inside the periods. -/
theorem times_in_period_new (N_ T_ : Nat) (mem : Nat → Nat) :
    times_in_period (WMG_new N_ T_ mem : WMG α) := by
  refine ⟨?_, ?_, Or.inr rfl⟩
  · intro fs hfs
    simp [WMG_new] at hfs
  · intro fs hfs
    simp [WMG_new] at hfs

/-- The method `AddFootstep` keeps the times inside the periods. -/
theorem times_in_period_add [Field α] (cos sin : α → α) (w : WMG α) (m : addstep_members α)
    (x y a : α) (type : fs_type) (h : times_in_period w) :
    times_in_period
      { w with FS := AddFootstep cos sin w.sampling_period m w.FS x y a type } := by
  obtain ⟨i1, i2, i3⟩ := h
  obtain ⟨new, h1, _, h3⟩ := AddFootstep_appends cos sin w.sampling_period m w.FS x y a type
  have j1 : ∀ fs ∈ w.FS ++ new, fs.time_left ≤ fs.time_period := by
    intro fs hfs
    rcases List.mem_append.mp hfs with e | e
    · exact i1 fs e
    · exact le_of_eq (h3 fs e)
  unfold times_in_period
  simp only [h1]
  refine ⟨j1, ?_, ?_⟩
  · intro fs hfs
    by_cases hlt : w.first_preview_step < w.FS.length
    · rw [List.getElem?_append_left hlt] at hfs
      exact i2 fs hfs
    · have hz : w.last_time_decrement = 0 := by
        rcases i3 with e | e
        · exact absurd e hlt
        · exact e
      rw [hz, Nat.add_zero]
      exact j1 fs (List.getElem?_mem hfs)
  · rcases i3 with e | e
    · left
      rw [List.length_append]
      omega
    · exact Or.inr e

/-- A call of `formPreviewWindow` in a window of at least one interval keeps
the times inside the periods. -/
theorem times_in_period_preview [Field α] (w w' : WMG α) (par par' : smpc_parameters α)
    (r : WMGret) (hN : 1 ≤ w.N) (h : times_in_period w)
    (hr : formPreviewWindow w par = some (r, par', w')) :
    times_in_period w' ∧ w'.N = w.N := by
  cases r with
  | WMG_HALT =>
    have e := formPreviewWindow_halt_eq w w' par par' hr
    subst e
    exact ⟨h, rfl⟩
  | WMG_OK =>
    obtain ⟨i1, _, _⟩ := h
    obtain ⟨_, c, fs, _, _, _, _, _, f2, _, _, hle, f5⟩ :=
      formPreviewWindow_ok_sub w w' par par' hN hr
    have hc : c < w.FS.length := (List.getElem?_eq_some_iff.mp f2).1
    have hfs : fs.time_left ≤ fs.time_period := i1 fs (List.getElem?_mem f2)
    subst f5
    refine ⟨⟨?_, ?_, ?_⟩, rfl⟩
    · intro s hs
      rcases List.mem_or_eq_of_mem_set hs with e | e
      · exact i1 s e
      · rw [e]
        show fs.time_left - w.T_ms 0 ≤ fs.time_period
        omega
    · intro s hs
      have hget : (w.FS.set c { fs with time_left := fs.time_left - w.T_ms 0 })[c]?
          = some { fs with time_left := fs.time_left - w.T_ms 0 } := by
        rw [List.getElem?_set_self hc]
      have hs' : (w.FS.set c { fs with time_left := fs.time_left - w.T_ms 0 })[c]? = some s := hs
      rw [hget] at hs'
      rw [← Option.some.inj hs']
      show fs.time_left - w.T_ms 0 + w.T_ms 0 ≤ fs.time_period
      omega
    · left
      show c < (w.FS.set c _).length
      rw [List.length_set]
      exact hc

/-- Every run of calls keeps the times inside the periods. -/
theorem times_in_period_calls [Field α] (cos sin : α → α) (cs : List (wmg_call α)) :
    ∀ (w0 w : WMG α), 1 ≤ w0.N → times_in_period w0 → do_calls cos sin cs w0 = some w →
      times_in_period w := by
  induction cs with
  | nil =>
    intro w0 w _ h hrun
    simp only [do_calls, Option.some.injEq] at hrun
    rw [← hrun]
    exact h
  | cons c cs ih =>
    intro w0 w hN h hrun
    cases c with
    | AddFootstep m x y a type =>
      exact ih { w0 with FS := AddFootstep cos sin w0.sampling_period m w0.FS x y a type } w hN
        (times_in_period_add cos sin w0 m x y a type h) hrun
    | formPreviewWindow par =>
      cases hr : formPreviewWindow w0 par with
      | none => simp [do_calls, do_call, hr] at hrun
      | some t =>
        obtain ⟨r, par', w'⟩ := t
        simp only [do_calls, do_call, hr] at hrun
        obtain ⟨k1, k2⟩ := times_in_period_preview w0 w' par par' r hN h hr
        exact ih w' w (by rw [k2]; exact hN) k1 hrun

/-- The loop of `getFeetPositions` stops with `shift_ms ≤ step_time_left`, and
`step_time_left` is inside the period of the footstep it stops at when it was
so at the start and no footstep has more time left than its period. -/
theorem feet_loop_spec (FS : List (footstep α))
    (h1 : ∀ fs ∈ FS, fs.time_left ≤ fs.time_period) :
    ∀ (fuel sn stl shift sn' stl' shift' : Nat),
      (∀ fs, FS[sn]? = some fs → stl ≤ fs.time_period) →
      feet_loop FS fuel sn stl shift = some (some (sn', stl', shift')) →
      shift' ≤ stl' ∧ ∀ fs, FS[sn']? = some fs → stl' ≤ fs.time_period := by
  intro fuel
  induction fuel with
  | zero =>
    intro sn stl shift sn' stl' shift' h2 h
    by_cases hgt : shift > stl
    · simp [feet_loop, hgt] at h
    · simp only [feet_loop, if_neg hgt, Option.some.injEq, Prod.mk.injEq] at h
      obtain ⟨e1, e2, e3⟩ := h
      subst e1 e2 e3
      exact ⟨Nat.le_of_not_lt hgt, h2⟩
  | succ fuel ih =>
    intro sn stl shift sn' stl' shift' h2 h
    by_cases hgt : shift > stl
    · rw [feet_loop, if_pos hgt] at h
      simp only at h
      by_cases hend : sn + 1 ≥ FS.length
      · rw [if_pos hend] at h
        simp at h
      · rw [if_neg hend] at h
        cases hf : FS[sn + 1]? with
        | none =>
          rw [hf] at h
          simp at h
        | some fs =>
          rw [hf] at h
          refine ih (sn + 1) fs.time_left _ sn' stl' shift' ?_ h
          intro fs' hfs'
          rw [hf] at hfs'
          rw [← Option.some.inj hfs']
          exact h1 fs (List.getElem?_mem hf)
    · simp only [feet_loop, if_neg hgt, Option.some.injEq, Prod.mk.injEq] at h
      obtain ⟨e1, e2, e3⟩ := h
      subst e1 e2 e3
      exact ⟨Nat.le_of_not_lt hgt, h2⟩

/-- C40: in every state reached from a new generator with a window of at
least one interval by calls of `AddFootstep` and `formPreviewWindow`, when
`getFeetPositions` selects a footstep of single support with
`time_period > 0`, the value of `step_time_left` is at most `time_period`, so
that `time_period - step_time_left` does not wrap, `shift_ms` is at most
`step_time_left`, and the parameter `theta` that is passed to the
interpolation satisfies `0 ≤ theta ≤ 1`. -/
theorem getFeetPositions_theta_range [LinearOrderedField α] (cos sin : α → α) (N_ T_ : Nat)
    (mem : Nat → Nat) (cs : List (wmg_call α)) (w : WMG α)
    (fuel shift_from_current_ms support_number step_time_left shift_ms : Nat) (theta : α)
    (fs : footstep α) (hN : 1 ≤ N_)
    (hrun : do_calls cos sin cs (WMG_new N_ T_ mem) = some w)
    (hsel : getFeetPositions w fuel shift_from_current_ms
      = some (feet_positions.SS support_number step_time_left shift_ms theta))
    (hfs : w.FS[support_number]? = some fs) (hp : 0 < fs.time_period) :
    fs.type ≠ fs_type.FS_TYPE_DS ∧
    step_time_left ≤ fs.time_period ∧
    usub fs.time_period step_time_left = fs.time_period - step_time_left ∧
    shift_ms ≤ step_time_left ∧
    theta = ((uadd (usub fs.time_period step_time_left) shift_ms : Nat) : α)
      / (fs.time_period : α) ∧
    0 ≤ theta ∧ theta ≤ 1 := by
  obtain ⟨i1, i2, _⟩ := times_in_period_calls cos sin cs (WMG_new N_ T_ mem) w hN
    (times_in_period_new N_ T_ mem) hrun
  cases h0 : w.FS[w.first_preview_step]? with
  | none => simp [getFeetPositions, h0] at hsel
  | some fs0 =>
    cases hl : feet_loop w.FS fuel w.first_preview_step
        (uadd fs0.time_left w.last_time_decrement) shift_from_current_ms with
    | none => simp [getFeetPositions, h0, hl] at hsel
    | some o =>
      cases o with
      | none => simp [getFeetPositions, h0, hl] at hsel
      | some t =>
        obtain ⟨sn, stl, sh⟩ := t
        have hstart : ∀ fs', w.FS[w.first_preview_step]? = some fs' →
            uadd fs0.time_left w.last_time_decrement ≤ fs'.time_period := by
          intro fs' hfs'
          rw [h0] at hfs'
          rw [← Option.some.inj hfs']
          exact le_trans (Nat.mod_le _ _) (i2 fs0 h0)
        obtain ⟨k1, k2⟩ := feet_loop_spec w.FS i1 fuel _ _ _ sn stl sh hstart hl
        cases hf : w.FS[sn]? with
        | none => simp [getFeetPositions, h0, hl, hf] at hsel
        | some fs1 =>
          by_cases hds : fs1.type = fs_type.FS_TYPE_DS
          · simp [getFeetPositions, h0, hl, hf, hds] at hsel
          · simp only [getFeetPositions, h0, hl, hf, if_neg hds, Option.some.injEq,
              feet_positions.SS.injEq] at hsel
            obtain ⟨e1, e2, e3, e4⟩ := hsel
            subst e1 e2 e3
            rw [hf] at hfs
            have e5 : fs1 = fs := Option.some.inj hfs
            subst e5
            have hle : stl ≤ fs1.time_period := k2 fs1 hf
            have hu : usub fs1.time_period stl = fs1.time_period - stl := by
              unfold usub
              rw [if_pos hle]
            have hnum : uadd (usub fs1.time_period stl) sh ≤ fs1.time_period := by
              rw [hu]
              unfold uadd
              exact le_trans (Nat.mod_le _ _) (by omega)
            have hpos : (0 : α) < (fs1.time_period : α) := Nat.cast_pos.mpr hp
            refine ⟨hds, hle, hu, k1, e4.symm, ?_, ?_⟩
            · rw [← e4]
              exact div_nonneg (Nat.cast_nonneg _) (le_of_lt hpos)
            · rw [← e4, div_le_one hpos]
              exact Nat.cast_le.mpr hnum

/-- A concrete instance of C40: a new generator, one step on the left foot of
80 ms, and the position asked for 10 ms ahead. -/
theorem getFeetPositions_theta_range_witness :
    1 ≤ 2 ∧
    do_calls (fun _ => 1) (fun _ => 0)
        [wmg_call.AddFootstep (ex_members ℚ) 0 0 0 fs_type.FS_TYPE_SS_L]
        (WMG_new 2 20 (fun _ => 0)) = some ex_one_step ∧
    getFeetPositions ex_one_step 1 10
      = some (feet_positions.SS 0 80 10
          (((uadd (usub 80 80) 10 : Nat) : ℚ) / ((80 : Nat) : ℚ))) ∧
    (∃ fs, ex_one_step.FS[0]? = some fs ∧ 0 < fs.time_period ∧
      fs.type ≠ fs_type.FS_TYPE_DS ∧ 80 ≤ fs.time_period) ∧
    (0 : ℚ) ≤ ((uadd (usub 80 80) 10 : Nat) : ℚ) / ((80 : Nat) : ℚ) ∧
    ((uadd (usub 80 80) 10 : Nat) : ℚ) / ((80 : Nat) : ℚ) ≤ 1 :=
  have t := getFeetPositions_theta_range (fun _ => (1 : ℚ)) (fun _ => 0) 2 20 (fun _ => 0)
    [wmg_call.AddFootstep (ex_members ℚ) 0 0 0 fs_type.FS_TYPE_SS_L] ex_one_step
    1 10 0 80 10 (((uadd (usub 80 80) 10 : Nat) : ℚ) / ((80 : Nat) : ℚ))
    (footstep_new 0 (Translation 0 0 0 * AngleAxisd_UnitZ (fun _ => 1) (fun _ => 0) 0)
      (transform_point (Translation 0 0 0 * AngleAxisd_UnitZ (fun _ => 1) (fun _ => 0) 0)
        ![((ex_members ℚ).addstep_constraint 0 - (ex_members ℚ).addstep_constraint 2) / 2, 0, 0])
      80 fs_type.FS_TYPE_SS_L (ex_members ℚ).addstep_constraint)
    (by decide) rfl rfl rfl (by decide)
  ⟨by decide, rfl, rfl, ⟨_, rfl, by decide, t.1, t.2.1⟩, t.2.2.2.2.2.1, t.2.2.2.2.2.2⟩

end wmg_theorems

/-! ## State handling -/

section state_theorems

variable {α : Type}

/-- C18: `tilde_to_bar` replaces `(s[0], s[3])` by
`(cosA*s[0] + sinA*s[3], -sinA*s[0] + cosA*s[3])`, `bar_to_tilde` by
`(cosA*s[0] - sinA*s[3], sinA*s[0] + cosA*s[3])`, `tilde_to_orig` by
`(s[0] + h*s[2], s[3] + h*s[5])` and `orig_to_tilde` by
`(s[0] - h*s[2], s[3] - h*s[5])`; each of the four leaves every other entry
of the state, `s[1]`, `s[2]`, `s[4]`, `s[5]` among them, unchanged. -/
theorem state_transforms_entries [Field α] (sinA cosA h : α) (s : Nat → α) :
    (state_handling.tilde_to_bar sinA cosA s 0 = cosA * s 0 + sinA * s 3 ∧
      state_handling.tilde_to_bar sinA cosA s 3 = -sinA * s 0 + cosA * s 3 ∧
      ∀ j, j ≠ 0 → j ≠ 3 → state_handling.tilde_to_bar sinA cosA s j = s j) ∧
    (state_handling.bar_to_tilde sinA cosA s 0 = cosA * s 0 - sinA * s 3 ∧
      state_handling.bar_to_tilde sinA cosA s 3 = sinA * s 0 + cosA * s 3 ∧
      ∀ j, j ≠ 0 → j ≠ 3 → state_handling.bar_to_tilde sinA cosA s j = s j) ∧
    (state_handling.tilde_to_orig h s 0 = s 0 + h * s 2 ∧
      state_handling.tilde_to_orig h s 3 = s 3 + h * s 5 ∧
      ∀ j, j ≠ 0 → j ≠ 3 → state_handling.tilde_to_orig h s j = s j) ∧
    (state_handling.orig_to_tilde h s 0 = s 0 - h * s 2 ∧
      state_handling.orig_to_tilde h s 3 = s 3 - h * s 5 ∧
      ∀ j, j ≠ 0 → j ≠ 3 → state_handling.orig_to_tilde h s j = s j) := by
  have e03 : (0 : Nat) ≠ 3 := by decide
  have e30 : (3 : Nat) ≠ 0 := by decide
  have e20 : (2 : Nat) ≠ 0 := by decide
  have e50 : (5 : Nat) ≠ 0 := by decide
  refine ⟨⟨?_, ?_, ?_⟩, ⟨?_, ?_, ?_⟩, ⟨?_, ?_, ?_⟩, ⟨?_, ?_, ?_⟩⟩
  · simp [state_handling.tilde_to_bar]
  · simp [state_handling.tilde_to_bar, Function.update_apply]
  · intro j h0 h3
    simp [state_handling.tilde_to_bar, Function.update_apply, h0, h3]
  · simp [state_handling.bar_to_tilde]
  · simp [state_handling.bar_to_tilde, Function.update_apply]
  · intro j h0 h3
    simp [state_handling.bar_to_tilde, Function.update_apply, h0, h3]
  · simp [state_handling.tilde_to_orig, Function.update_apply]
  · simp [state_handling.tilde_to_orig, Function.update_apply]
  · intro j h0 h3
    simp [state_handling.tilde_to_orig, Function.update_apply, h0, h3]
  · simp [state_handling.orig_to_tilde, Function.update_apply]
  · simp [state_handling.orig_to_tilde, Function.update_apply]
  · intro j h0 h3
    simp [state_handling.orig_to_tilde, Function.update_apply, h0, h3]

/-- The entries of the state after `tilde_to_bar`. -/
theorem tilde_to_bar_apply [Field α] (sinA cosA : α) (s : Nat → α) (j : Nat) :
    state_handling.tilde_to_bar sinA cosA s j
      = if j = 0 then cosA * s 0 + sinA * s 3
        else if j = 3 then -sinA * s 0 + cosA * s 3 else s j := by
  simp only [state_handling.tilde_to_bar, Function.update_apply]

/-- The entries of the state after `bar_to_tilde`. -/
theorem bar_to_tilde_apply [Field α] (sinA cosA : α) (s : Nat → α) (j : Nat) :
    state_handling.bar_to_tilde sinA cosA s j
      = if j = 0 then cosA * s 0 - sinA * s 3
        else if j = 3 then sinA * s 0 + cosA * s 3 else s j := by
  simp only [state_handling.bar_to_tilde, Function.update_apply]

/-- The entries of the state after `tilde_to_orig`. -/
theorem tilde_to_orig_apply [Field α] (h : α) (s : Nat → α) (j : Nat) :
    state_handling.tilde_to_orig h s j
      = if j = 3 then s 3 + h * s 5 else if j = 0 then s 0 + h * s 2 else s j := by
  have e30 : (3 : Nat) ≠ 0 := by decide
  have e50 : (5 : Nat) ≠ 0 := by decide
  simp only [state_handling.tilde_to_orig, Function.update_apply, e30, e50, if_false]

/-- The entries of the state after `orig_to_tilde`. -/
theorem orig_to_tilde_apply [Field α] (h : α) (s : Nat → α) (j : Nat) :
    state_handling.orig_to_tilde h s j
      = if j = 3 then s 3 - h * s 5 else if j = 0 then s 0 - h * s 2 else s j := by
  have e30 : (3 : Nat) ≠ 0 := by decide
  have e50 : (5 : Nat) ≠ 0 := by decide
  simp only [state_handling.orig_to_tilde, Function.update_apply, e30, e50, if_false]

/-- C16: for every state `s` and every pair `(sinA, cosA)` with
`sinA^2 + cosA^2 = 1`, `bar_to_tilde` undoes `tilde_to_bar` and `tilde_to_bar`
undoes `bar_to_tilde`, exactly (in every field, the reals among them). -/
theorem rotation_round_trip [Field α] (sinA cosA : α) (s : Nat → α)
    (h : sinA ^ 2 + cosA ^ 2 = 1) :
    state_handling.bar_to_tilde sinA cosA (state_handling.tilde_to_bar sinA cosA s) = s ∧
    state_handling.tilde_to_bar sinA cosA (state_handling.bar_to_tilde sinA cosA s) = s := by
  have e30 : (3 : Nat) ≠ 0 := by decide
  constructor
  · funext j
    rw [bar_to_tilde_apply]
    simp only [tilde_to_bar_apply, if_true, e30, if_false]
    by_cases h0 : j = 0
    · rw [if_pos h0, h0]
      linear_combination (s 0) * h
    · rw [if_neg h0]
      by_cases h3 : j = 3
      · rw [if_pos h3, h3]
        linear_combination (s 3) * h
      · rw [if_neg h3, if_neg h0, if_neg h3]
  · funext j
    rw [tilde_to_bar_apply]
    simp only [bar_to_tilde_apply, if_true, e30, if_false]
    by_cases h0 : j = 0
    · rw [if_pos h0, h0]
      linear_combination (s 0) * h
    · rw [if_neg h0]
      by_cases h3 : j = 3
      · rw [if_pos h3, h3]
        linear_combination (s 3) * h
      · rw [if_neg h3, if_neg h0, if_neg h3]

/-- A concrete instance of C16: the angle with sine `3/5` and cosine `4/5`. -/
theorem rotation_round_trip_witness :
    ((3 / 5 : ℚ) ^ 2 + (4 / 5 : ℚ) ^ 2 = 1) ∧
    state_handling.bar_to_tilde (3 / 5 : ℚ) (4 / 5)
        (state_handling.tilde_to_bar (3 / 5) (4 / 5) (fun j : Nat => (j : ℚ)))
      = (fun j : Nat => (j : ℚ)) ∧
    state_handling.tilde_to_bar (3 / 5 : ℚ) (4 / 5)
        (state_handling.bar_to_tilde (3 / 5) (4 / 5) (fun j : Nat => (j : ℚ)))
      = (fun j : Nat => (j : ℚ)) :=
  ⟨by norm_num, rotation_round_trip (3 / 5 : ℚ) (4 / 5) (fun j : Nat => (j : ℚ)) (by norm_num)⟩

/-- C17: for every state `s` and every `h`, `orig_to_tilde` undoes
`tilde_to_orig` and `tilde_to_orig` undoes `orig_to_tilde`. -/
theorem zmp_shift_round_trip [Field α] (h : α) (s : Nat → α) :
    state_handling.orig_to_tilde h (state_handling.tilde_to_orig h s) = s ∧
    state_handling.tilde_to_orig h (state_handling.orig_to_tilde h s) = s := by
  have e30 : (3 : Nat) ≠ 0 := by decide
  have e23 : (2 : Nat) ≠ 3 := by decide
  have e20 : (2 : Nat) ≠ 0 := by decide
  have e53 : (5 : Nat) ≠ 3 := by decide
  have e50 : (5 : Nat) ≠ 0 := by decide
  have e03 : (0 : Nat) ≠ 3 := by decide
  constructor
  · funext j
    rw [orig_to_tilde_apply]
    simp only [tilde_to_orig_apply, if_true, e30, e23, e20, e53, e50, e03, if_false]
    by_cases h3 : j = 3
    · rw [if_pos h3, h3]
      ring
    · rw [if_neg h3]
      by_cases h0 : j = 0
      · rw [if_pos h0, h0]
        ring
      · rw [if_neg h0, if_neg h3, if_neg h0]
  · funext j
    rw [tilde_to_orig_apply]
    simp only [orig_to_tilde_apply, if_true, e30, e23, e20, e53, e50, e03, if_false]
    by_cases h3 : j = 3
    · rw [if_pos h3, h3]
      ring
    · rw [if_neg h3]
      by_cases h0 : j = 0
      · rw [if_pos h0, h0]
        ring
      · rw [if_neg h0, if_neg h3, if_neg h0]

/-- The index used by `get_state_tilde`, `get_state` and `get_controls` for a
window of `N ≥ 1` intervals and `ind ≥ 0` is `min ind (N - 1)`. -/
theorem clamped_index (N ind : Nat) (hN : 1 ≤ N) :
    (if (ind : Int) ≥ (N : Int) then (N : Int) - 1 else (ind : Int))
      = ((min ind (N - 1) : Nat) : Int) := by
  split_ifs with h
  · have : min ind (N - 1) = N - 1 := by
      apply Nat.min_eq_right
      omega
    rw [this]
    omega
  · have : min ind (N - 1) = ind := by
      apply Nat.min_eq_left
      omega
    rw [this]

/-- The copy loop of `get_state_tilde` writes the block `X[6k .. 6k+5]` into
the first six entries of the state. -/
theorem copy_block (X state : Nat → α) (k : Nat) :
    loopUp (fun i st => Function.update st i (X (k * SMPC_NUM_STATE_VAR + i)))
        0 SMPC_NUM_STATE_VAR state
      = fun j => if j < 6 then X (6 * k + j) else state j := by
  funext j
  have := loopUp_pointwise (fun i _ => X (k * SMPC_NUM_STATE_VAR + i)) 0 SMPC_NUM_STATE_VAR
    state j
  rw [this]
  simp only [SMPC_NUM_STATE_VAR, Nat.zero_le, true_and, Nat.zero_add]
  by_cases h : j < 6
  · rw [if_pos h, if_pos h, Nat.mul_comm]
  · rw [if_neg h, if_neg h]

/-- The value of `get_state_tilde` for a window of `N ≥ 1` intervals. -/
theorem get_state_tilde_value [Field α] (sp : state_handling.problem_parameters α)
    (X state : Nat → α) (N ind : Nat) (hN : 1 ≤ N) (hsp : sp.N = (N : Int)) :
    state_handling.get_state_tilde sp X (ind : Int) state
      = some (state_handling.bar_to_tilde (sp.spar (min ind (N - 1))).sin
          (sp.spar (min ind (N - 1))).cos
          (fun j => if j < 6 then X (6 * min ind (N - 1) + j) else state j)) := by
  unfold state_handling.get_state_tilde
  simp only [hsp, clamped_index N ind hN, Int.toNat_ofNat, copy_block]
  rw [if_neg (by omega)]

/-- The value of `get_state` for a window of `N ≥ 1` intervals. -/
theorem get_state_value [Field α] (sp : state_handling.problem_parameters α)
    (X state : Nat → α) (N ind : Nat) (hN : 1 ≤ N) (hsp : sp.N = (N : Int)) :
    state_handling.get_state sp X (ind : Int) state
      = some (state_handling.tilde_to_orig (sp.spar (min ind (N - 1))).h
          (state_handling.bar_to_tilde (sp.spar (min ind (N - 1))).sin
            (sp.spar (min ind (N - 1))).cos
            (fun j => if j < 6 then X (6 * min ind (N - 1) + j) else state j))) := by
  unfold state_handling.get_state
  simp only [get_state_tilde_value sp X state N ind hN hsp]
  simp only [hsp, clamped_index N ind hN, Int.toNat_ofNat]

/-- C19: for every solution `X`, every window size `N ≥ 1` and every index
`ind ≥ 0`, with `k = min ind (N - 1)`: `get_state_tilde` returns `bar_to_tilde`
applied, with the sine and the cosine of interval `k`, to the state whose
first six entries are the block `X[6k .. 6k+5]`, and `get_state` returns
`tilde_to_orig` applied with the `h` of interval `k` to that result; every
`ind ≥ N` gives the same result as `ind = N - 1`. The vector `X` is an input
only: the routines return a state and nothing else, so `X` is not modified. -/
theorem get_state_block [Field α] (sp : state_handling.problem_parameters α)
    (X state : Nat → α) (N ind : Nat) (hN : 1 ≤ N) (hsp : sp.N = (N : Int)) :
    state_handling.get_state_tilde sp X (ind : Int) state
      = some (state_handling.bar_to_tilde (sp.spar (min ind (N - 1))).sin
          (sp.spar (min ind (N - 1))).cos
          (fun j => if j < 6 then X (6 * min ind (N - 1) + j) else state j)) ∧
    state_handling.get_state sp X (ind : Int) state
      = some (state_handling.tilde_to_orig (sp.spar (min ind (N - 1))).h
          (state_handling.bar_to_tilde (sp.spar (min ind (N - 1))).sin
            (sp.spar (min ind (N - 1))).cos
            (fun j => if j < 6 then X (6 * min ind (N - 1) + j) else state j))) ∧
    (N ≤ ind →
      state_handling.get_state_tilde sp X (ind : Int) state
        = state_handling.get_state_tilde sp X ((N - 1 : Nat) : Int) state ∧
      state_handling.get_state sp X (ind : Int) state
        = state_handling.get_state sp X ((N - 1 : Nat) : Int) state) := by
  refine ⟨get_state_tilde_value sp X state N ind hN hsp,
    get_state_value sp X state N ind hN hsp, ?_⟩
  intro h
  have e1 : min ind (N - 1) = N - 1 := Nat.min_eq_right (by omega)
  have e2 : min (N - 1) (N - 1) = N - 1 := Nat.min_self _
  rw [get_state_tilde_value sp X state N ind hN hsp,
    get_state_tilde_value sp X state N (N - 1) hN hsp,
    get_state_value sp X state N ind hN hsp,
    get_state_value sp X state N (N - 1) hN hsp, e1, e2]
  exact ⟨rfl, rfl⟩

/-- C20: for every `X`, every window size `N ≥ 1` and every index `ind ≥ 0`,
with `k = min ind (N - 1)`: `get_controls` returns the pair
`(X[6N + 2k], X[6N + 2k + 1])` in the first two entries of `controls` and
leaves the other entries; for `ind = 0` the pair is `(X[6N], X[6N + 1])`; the
two indices read are below `8N`. -/
theorem get_controls_layout (X controls : Nat → α) (N ind : Nat) (hN : 1 ≤ N) :
    (∃ r, state_handling.get_controls (N : Int) X (ind : Int) controls = some r ∧
      r 0 = X (6 * N + 2 * min ind (N - 1)) ∧
      r 1 = X (6 * N + 2 * min ind (N - 1) + 1) ∧
      (∀ j, 2 ≤ j → r j = controls j) ∧
      (ind = 0 → r 0 = X (6 * N) ∧ r 1 = X (6 * N + 1))) ∧
    6 * N + 2 * min ind (N - 1) < 8 * N ∧
    6 * N + 2 * min ind (N - 1) + 1 < 8 * N := by
  have hk : min ind (N - 1) ≤ N - 1 := Nat.min_le_right _ _
  refine ⟨?_, by omega, by omega⟩
  have hoff : ((N : Int) * ((SMPC_NUM_STATE_VAR : Nat) : Int)
      + ((min ind (N - 1) : Nat) : Int) * ((SMPC_NUM_CONTROL_VAR : Nat) : Int))
      = ((6 * N + 2 * min ind (N - 1) : Nat) : Int) := by
    simp only [SMPC_NUM_STATE_VAR, SMPC_NUM_CONTROL_VAR]
    push_cast
    ring
  have e0 : ((6 * N + 2 * min ind (N - 1) : Nat) : Int) + 0
      = ((6 * N + 2 * min ind (N - 1) : Nat) : Int) := by omega
  have e1 : ((6 * N + 2 * min ind (N - 1) : Nat) : Int) + 1
      = ((6 * N + 2 * min ind (N - 1) + 1 : Nat) : Int) := by omega
  have e10 : (1 : Nat) ≠ 0 := by decide
  have e01 : (0 : Nat) ≠ 1 := by decide
  unfold state_handling.get_controls
  simp only [clamped_index N ind hN, hoff, e0, e1, Int.toNat_ofNat]
  rw [if_neg (by omega)]
  refine ⟨_, rfl, ?_, ?_, ?_, ?_⟩
  · rw [Function.update_noteq e01, Function.update_same]
  · rw [Function.update_same]
  · intro j hj
    rw [Function.update_noteq (by omega), Function.update_noteq (by omega)]
  · intro h0
    subst h0
    rw [Function.update_noteq e01, Function.update_same, Function.update_same]
    simp only [Nat.zero_min, Nat.mul_zero, Nat.add_zero, and_self]

/-- A concrete instance of C19: `N = 2` and `ind = 5`. -/
theorem get_state_block_witness :
    (1 ≤ 2) ∧ ex_state_par.N = ((2 : Nat) : Int) ∧
    state_handling.get_state_tilde ex_state_par (fun j : Nat => (j : ℚ)) ((5 : Nat) : Int)
        (fun _ => 0)
      = some (state_handling.bar_to_tilde (3 / 5) (4 / 5)
          (fun j => if j < 6 then ((6 * 1 + j : Nat) : ℚ) else 0)) :=
  ⟨by decide, rfl,
    (get_state_block ex_state_par (fun j : Nat => (j : ℚ)) (fun _ => 0) 2 5 (by decide) rfl).1⟩

/-- A concrete instance of C20: `N = 2` and `ind = 5`. -/
theorem get_controls_layout_witness :
    (1 ≤ 2) ∧
    (∃ r, state_handling.get_controls ((2 : Nat) : Int) (fun j : Nat => (j : ℚ))
        ((5 : Nat) : Int) (fun _ => 0) = some r ∧
      r 0 = ((6 * 2 + 2 * min 5 (2 - 1) : Nat) : ℚ) ∧
      r 1 = ((6 * 2 + 2 * min 5 (2 - 1) + 1 : Nat) : ℚ) ∧
      (∀ j, 2 ≤ j → r j = 0) ∧
      (5 = 0 → r 0 = ((6 * 2 : Nat) : ℚ) ∧ r 1 = ((6 * 2 + 1 : Nat) : ℚ))) ∧
    6 * 2 + 2 * min 5 (2 - 1) < 8 * 2 ∧
    6 * 2 + 2 * min 5 (2 - 1) + 1 < 8 * 2 :=
  ⟨by decide, get_controls_layout (fun j : Nat => (j : ℚ)) (fun _ => 0) 2 5 (by decide)⟩

end state_theorems

/-! ## Interior-point driver -/

section ip_theorems

variable {α : Type}

/-- The third loop of `form_grad_hess_logbar` after `n` passes. -/
theorem logbar_loop [Field α] (log : α → α) (s : qp_ip α) (kappa : α) (G H : Nat → α) (p : α)
    (n : Nat) :
    (loopUp (fun i (r : α × (Nat → α) × (Nat → α)) =>
      (r.1 - (log (-s.lb i + s.X (3 * i)) + log (s.ub i - s.X (3 * i))),
        Function.update r.2.1 (3 * i) (r.2.1 (3 * i) + (s.g i + kappa
          * (1 / (s.ub i - s.X (3 * i)) - 1 / (-s.lb i + s.X (3 * i))))),
        Function.update r.2.2 i (1 / (s.Q2 0 + kappa
          * (1 / (s.ub i - s.X (3 * i)) * (1 / (s.ub i - s.X (3 * i)))
            + 1 / (-s.lb i + s.X (3 * i)) * (1 / (-s.lb i + s.X (3 * i))))))))
      0 n (p, G, H))
    = (p - ∑ i ∈ Finset.range n, (log (-s.lb i + s.X (3 * i)) + log (s.ub i - s.X (3 * i))),
        (fun j => if j % 3 = 0 ∧ j / 3 < n then
          G j + (s.g (j / 3) + kappa
            * (1 / (s.ub (j / 3) - s.X j) - 1 / (-s.lb (j / 3) + s.X j)))
          else G j),
        (fun i => if i < n then
          1 / (s.Q2 0 + kappa
            * (1 / (s.ub i - s.X (3 * i)) * (1 / (s.ub i - s.X (3 * i)))
              + 1 / (-s.lb i + s.X (3 * i)) * (1 / (-s.lb i + s.X (3 * i)))))
          else H i)) := by
  induction n with
  | zero =>
    simp [loopUp]
  | succ n ih =>
    rw [loopUp, ih]
    simp only [Nat.zero_add]
    refine Prod.ext ?_ (Prod.ext ?_ ?_)
    · simp only [Finset.sum_range_succ]
      ring
    · funext j
      simp only [Function.update_apply]
      have e1 : ¬ ((3 * n) % 3 = 0 ∧ (3 * n) / 3 < n) := by omega
      rw [if_neg e1]
      by_cases hj : j = 3 * n
      · subst hj
        have e2 : (3 * n) % 3 = 0 ∧ (3 * n) / 3 < n + 1 := by omega
        have e3 : 3 * n / 3 = n := by omega
        rw [if_pos rfl, if_pos e2, e3]
      · rw [if_neg hj]
        by_cases hc : j % 3 = 0 ∧ j / 3 < n
        · have : j % 3 = 0 ∧ j / 3 < n + 1 := by omega
          rw [if_pos hc, if_pos this]
        · have : ¬ (j % 3 = 0 ∧ j / 3 < n + 1) := by omega
          rw [if_neg hc, if_neg this]
    · funext i
      simp only [Function.update_apply]
      by_cases hi : i = n
      · subst hi
        rw [if_pos rfl, if_pos (by omega)]
      · rw [if_neg hi]
        by_cases hc : i < n
        · rw [if_pos hc, if_pos (by omega)]
        · rw [if_neg hc, if_neg (by omega)]

/-- The array `grad` before the third loop of `form_grad_hess_logbar`. -/
theorem grad_init [Field α] (s : qp_ip α) (j : Nat) :
    loopUp (fun i grad => Function.update grad i (s.P2 * s.X i))
        (s.N * qp_ip.NUM_STATE_VAR) (s.N * qp_ip.NUM_VAR - s.N * qp_ip.NUM_STATE_VAR)
        (loopUp (fun i grad => Function.update grad i (s.Q2 (i % 3) * s.X i))
          0 (s.N * qp_ip.NUM_STATE_VAR) s.grad) j
      = if j < 6 * s.N then s.Q2 (j % 3) * s.X j
        else if j < 8 * s.N then s.P2 * s.X j else s.grad j := by
  rw [loopUp_pointwise (fun i _ => s.P2 * s.X i), loopUp_pointwise (fun i _ => s.Q2 (i % 3) * s.X i)]
  simp only [qp_ip.NUM_STATE_VAR, qp_ip.NUM_VAR]
  by_cases h1 : j < 6 * s.N
  · rw [if_neg (by omega), if_pos (by omega), if_pos h1]
  · rw [if_neg h1]
    by_cases h2 : j < 8 * s.N
    · rw [if_pos (by omega), if_pos h2]
    · rw [if_neg (by omega), if_neg (by omega), if_neg h2]

/-- The members `grad`, `i2hess` and `phi_X` after `form_grad_hess_logbar`. -/
theorem form_grad_hess_logbar_fields [Field α] (log : α → α) (s : qp_ip α) (kappa : α) :
    (∀ j, (qp_ip.form_grad_hess_logbar log s kappa).grad j
      = if j % 3 = 0 ∧ j / 3 < 2 * s.N then
          (if j < 6 * s.N then s.Q2 (j % 3) * s.X j
            else if j < 8 * s.N then s.P2 * s.X j else s.grad j)
          + (s.g (j / 3) + kappa * (1 / (s.ub (j / 3) - s.X j) - 1 / (-s.lb (j / 3) + s.X j)))
        else (if j < 6 * s.N then s.Q2 (j % 3) * s.X j
            else if j < 8 * s.N then s.P2 * s.X j else s.grad j)) ∧
    (∀ i, (qp_ip.form_grad_hess_logbar log s kappa).i2hess i
      = if i < 2 * s.N then
          1 / (s.Q2 0 + kappa
            * (1 / (s.ub i - s.X (3 * i)) * (1 / (s.ub i - s.X (3 * i)))
              + 1 / (-s.lb i + s.X (3 * i)) * (1 / (-s.lb i + s.X (3 * i)))))
        else s.i2hess i) ∧
    (qp_ip.form_grad_hess_logbar log s kappa).phi_X
      = (0 - ∑ i ∈ Finset.range (2 * s.N),
          (log (-s.lb i + s.X (3 * i)) + log (s.ub i - s.X (3 * i)))) * kappa := by
  unfold qp_ip.form_grad_hess_logbar
  simp only [logbar_loop]
  refine ⟨?_, ?_, trivial⟩
  · intro j
    simp only [grad_init]
  · intro i
    trivial

/-- C21: `form_grad_hess_logbar (kappa)` sets `grad = H*X + g + kappa*b`:
`grad[j] = Q2[j mod 3] * X[j]` on the state entries `j < 6N` and
`P2 * X[j]` on the control entries `6N ≤ j < 8N`, to which on the ZMP
position entries `j = 3i`, `i < 2N`, and only there, it adds
`g[i] + kappa * (1/(ub[i] - X[3i]) - 1/(X[3i] - lb[i]))`; and it sets
`i2hess[i] = 1 / (Q2[0] + kappa * (1/(ub[i] - X[3i])^2 + 1/(X[3i] - lb[i])^2))`
for every `i < 2N`. -/
theorem form_grad_hess_logbar_values [Field α] (log : α → α) (s : qp_ip α) (kappa : α) :
    (∀ i, i < 2 * s.N →
      (qp_ip.form_grad_hess_logbar log s kappa).grad (3 * i)
        = s.Q2 0 * s.X (3 * i) + s.g i
          + kappa * (1 / (s.ub i - s.X (3 * i)) - 1 / (s.X (3 * i) - s.lb i))) ∧
    (∀ j, j < 6 * s.N → j % 3 ≠ 0 →
      (qp_ip.form_grad_hess_logbar log s kappa).grad j = s.Q2 (j % 3) * s.X j) ∧
    (∀ j, 6 * s.N ≤ j → j < 8 * s.N →
      (qp_ip.form_grad_hess_logbar log s kappa).grad j = s.P2 * s.X j) ∧
    (∀ i, i < 2 * s.N →
      (qp_ip.form_grad_hess_logbar log s kappa).i2hess i
        = 1 / (s.Q2 0 + kappa
            * (1 / (s.ub i - s.X (3 * i)) ^ 2 + 1 / (s.X (3 * i) - s.lb i) ^ 2))) := by
  obtain ⟨hg, hh, _⟩ := form_grad_hess_logbar_fields log s kappa
  refine ⟨?_, ?_, ?_, ?_⟩
  · intro i hi
    have e1 : (3 * i) % 3 = 0 ∧ (3 * i) / 3 < 2 * s.N := by omega
    have e2 : 3 * i / 3 = i := by omega
    have e3 : 3 * i < 6 * s.N := by omega
    have e4 : (3 * i) % 3 = 0 := by omega
    have e5 : -s.lb i + s.X (3 * i) = s.X (3 * i) - s.lb i := by ring
    rw [hg, if_pos e1, if_pos e3, e2, e4, e5]
    ring
  · intro j hj hm
    have e1 : ¬ (j % 3 = 0 ∧ j / 3 < 2 * s.N) := fun h => hm h.1
    rw [hg, if_neg e1, if_pos hj]
  · intro j h1 h2
    have e1 : ¬ (j % 3 = 0 ∧ j / 3 < 2 * s.N) := by omega
    rw [hg, if_neg e1, if_neg (by omega), if_pos h2]
  · intro i hi
    have e5 : -s.lb i + s.X (3 * i) = s.X (3 * i) - s.lb i := by ring
    have sq_inv : ∀ x : α, 1 / x * (1 / x) = 1 / x ^ 2 := by
      intro x
      rw [one_div, one_div, ← mul_inv, ← sq]
    rw [hh, if_pos hi, e5, sq_inv, sq_inv]

/-- The first loop of `form_i2hess_grad` after `n` passes. -/
theorem i2hess_grad_loop [Field α] (s : qp_ip α) (v : Nat → α) (n : Nat) :
    loopUp (fun i (r : Nat × (Nat → α)) =>
      (r.1 + 1 + 1 + 1,
        Function.update (Function.update (Function.update r.2 r.1 (-s.grad r.1 * s.i2hess i))
          (r.1 + 1) (-s.grad (r.1 + 1) * s.i2Q 1))
          (r.1 + 1 + 1) (-s.grad (r.1 + 1 + 1) * s.i2Q 2)))
      0 n (0, v)
    = (3 * n, fun k => if k < 3 * n then
        (if k % 3 = 0 then -s.grad k * s.i2hess (k / 3) else -s.grad k * s.i2Q (k % 3))
        else v k) := by
  induction n with
  | zero => simp [loopUp]
  | succ n ih =>
    rw [loopUp, ih]
    simp only [Nat.zero_add]
    refine Prod.ext (by simp only; omega) ?_
    funext k
    simp only [Function.update_apply]
    by_cases h2 : k = 3 * n + 1 + 1
    · subst h2
      have a1 : (3 * n + 1 + 1) % 3 = 2 := by omega
      have a2 : (3 * n + 1 + 1) % 3 ≠ 0 := by omega
      rw [if_pos rfl, if_pos (by omega), if_neg a2, a1]
    · rw [if_neg h2]
      by_cases h1 : k = 3 * n + 1
      · subst h1
        have a1 : (3 * n + 1) % 3 = 1 := by omega
        have a2 : (3 * n + 1) % 3 ≠ 0 := by omega
        rw [if_pos rfl, if_pos (by omega), if_neg a2, a1]
      · rw [if_neg h1]
        by_cases h0 : k = 3 * n
        · subst h0
          have a1 : (3 * n) % 3 = 0 := by omega
          have a2 : 3 * n / 3 = n := by omega
          rw [if_pos rfl, if_pos (by omega), if_pos a1, a2]
        · rw [if_neg h0]
          by_cases hk : k < 3 * n
          · have hk' : k < 3 * (n + 1) := by omega
            rw [if_pos hk, if_pos hk']
          · have hk' : ¬ k < 3 * (n + 1) := by omega
            rw [if_neg hk, if_neg hk']

/-- The array `i2hess_grad` after `form_i2hess_grad`. -/
theorem form_i2hess_grad_entries [Field α] (s : qp_ip α) (k : Nat) :
    (qp_ip.form_i2hess_grad s).i2hess_grad k
      = if 6 * s.N ≤ k ∧ k < 8 * s.N then -s.grad (6 * s.N) * s.i2P
        else if k < 6 * s.N then
          (if k % 3 = 0 then -s.grad k * s.i2hess (k / 3) else -s.grad k * s.i2Q (k % 3))
        else s.i2hess_grad k := by
  unfold qp_ip.form_i2hess_grad
  simp only [i2hess_grad_loop, qp_ip.NUM_STATE_VAR, qp_ip.NUM_VAR]
  rw [loopUp_pointwise (fun _ _ => -s.grad (3 * (s.N * 2)) * s.i2P)]
  have e : 3 * (s.N * 2) = 6 * s.N := by omega
  rw [e]
  by_cases h : 6 * s.N ≤ k ∧ k < 8 * s.N
  · rw [if_pos (by omega), if_pos h]
  · rw [if_neg (by omega), if_neg h]

/-- C22 fails on the code: on the state entries `form_i2hess_grad` is the
product the claim gives, but on every control entry `6N ≤ j < 8N` it stores
`-grad[6N] * i2P`: the second loop reads `grad[j]` with the `j = 6N` that the
first loop has left, and not `grad[i]`. For `N = 1`, `grad[j] = j` and
`i2P = 1` the entry `i2hess_grad[7]` is `-6`, where the product of the claim
is `-7`. -/
theorem form_i2hess_grad_control_entries :
    (∀ (s : qp_ip ℚ) (i : Nat), i < 2 * s.N →
      (qp_ip.form_i2hess_grad s).i2hess_grad (3 * i) = -s.grad (3 * i) * s.i2hess i ∧
      (qp_ip.form_i2hess_grad s).i2hess_grad (3 * i + 1) = -s.grad (3 * i + 1) * s.i2Q 1 ∧
      (qp_ip.form_i2hess_grad s).i2hess_grad (3 * i + 2) = -s.grad (3 * i + 2) * s.i2Q 2) ∧
    (∀ (s : qp_ip ℚ) (j : Nat), 6 * s.N ≤ j → j < 8 * s.N →
      (qp_ip.form_i2hess_grad s).i2hess_grad j = -s.grad (6 * s.N) * s.i2P) ∧
    (qp_ip.form_i2hess_grad (ex_ip ℚ)).i2hess_grad 7 = -6 ∧
    -(ex_ip ℚ).grad 7 * (ex_ip ℚ).i2P = -7 := by
  refine ⟨?_, ?_, ?_, ?_⟩
  · intro s i hi
    have a0 : (3 * i) % 3 = 0 := by omega
    have a1 : (3 * i + 1) % 3 = 1 := by omega
    have a2 : (3 * i + 2) % 3 = 2 := by omega
    have b1 : (3 * i + 1) % 3 ≠ 0 := by omega
    have b2 : (3 * i + 2) % 3 ≠ 0 := by omega
    have d : 3 * i / 3 = i := by omega
    refine ⟨?_, ?_, ?_⟩
    · rw [form_i2hess_grad_entries, if_neg (by omega), if_pos (by omega), if_pos a0, d]
    · rw [form_i2hess_grad_entries, if_neg (by omega), if_pos (by omega), if_neg b1, a1]
    · rw [form_i2hess_grad_entries, if_neg (by omega), if_pos (by omega), if_neg b2, a2]
  · intro s j h1 h2
    rw [form_i2hess_grad_entries, if_pos ⟨h1, h2⟩]
  · rw [form_i2hess_grad_entries]
    simp [ex_ip]
  · simp [ex_ip]

/-- The value of `min_alpha` in `init_alpha` for `ex_ip_step`. -/
theorem ex_ip_step_min : qp_ip.init_alpha_min ex_ip_step = 1 := by
  simp [qp_ip.init_alpha_min, ex_ip_step, ex_ip, loopUp]
  norm_num

/-- C23 fails on the code: for `X[0] = -1` inside the box `-2 < z < 2` and
the direction `dX[0] = -10`, with `bs_beta = 1/2`, `init_alpha` divides the
distance to the bound by `X[0]` where `dX[0]` is meant, finds
`min_alpha = 1` and leaves `alpha = 1`; the point `X + alpha * dX` has the
entry `-11`, below the lower bound `-2`. -/
theorem init_alpha_leaves_box :
    (ex_ip_step.lb 0 < ex_ip_step.X 0 ∧ ex_ip_step.X 0 < ex_ip_step.ub 0) ∧
    (ex_ip_step.lb 1 < ex_ip_step.X 3 ∧ ex_ip_step.X 3 < ex_ip_step.ub 1) ∧
    qp_ip.init_alpha_min ex_ip_step = 1 ∧
    (∀ fuel, qp_ip.init_alpha fuel ex_ip_step (1 / 2)
      = some { ex_ip_step with alpha := 1 }) ∧
    ex_ip_step.X 0 + 1 * ex_ip_step.dX 0 = -11 ∧
    ¬ (ex_ip_step.lb 0 < ex_ip_step.X 0 + 1 * ex_ip_step.dX 0) := by
  refine ⟨?_, ?_, ex_ip_step_min, ?_, ?_, ?_⟩
  · simp [ex_ip_step, ex_ip]
    norm_num
  · simp [ex_ip_step, ex_ip]
  · intro fuel
    unfold qp_ip.init_alpha
    rw [ex_ip_step_min]
    cases fuel <;> simp [qp_ip.init_alpha_while]
  · simp [ex_ip_step, ex_ip]
    norm_num
  · simp [ex_ip_step, ex_ip]
    norm_num

/-- C24 fails on the code: for `N = 1`, unit weights, `g = 0`, the point
`X = 0` inside the box `-1 < z < 2`, `dX = 0` and `kappa = 2`,
`form_grad_hess_logbar` followed by `form_phi_X` leaves
`phi_X = -4 * log 2`, the value of `phi` at `X`, and `form_phi_X_tmp`
returns `-2 * log 2` for the same point `X + alpha * dX = X`: it computes
`kappa * log (X - lb) + log (ub - X)`, so `kappa` does not reach the second
logarithm. -/
theorem form_phi_X_tmp_differs :
    (qp_ip.form_phi_X (qp_ip.form_grad_hess_logbar Real.log (ex_ip ℝ) 2)).phi_X
      = -(4 * Real.log 2) ∧
    qp_ip.phi Real.log (ex_ip ℝ) 2 (ex_ip ℝ).X = -(4 * Real.log 2) ∧
    qp_ip.form_phi_X_tmp Real.log
        (qp_ip.form_phi_X (qp_ip.form_grad_hess_logbar Real.log (ex_ip ℝ) 2)) 2
      = -(2 * Real.log 2) ∧
    qp_ip.form_phi_X_tmp Real.log
        (qp_ip.form_phi_X (qp_ip.form_grad_hess_logbar Real.log (ex_ip ℝ) 2)) 2
      ≠ (qp_ip.form_phi_X (qp_ip.form_grad_hess_logbar Real.log (ex_ip ℝ) 2)).phi_X := by
  have h1 : (qp_ip.form_phi_X (qp_ip.form_grad_hess_logbar Real.log (ex_ip ℝ) 2)).phi_X
      = -(4 * Real.log 2) := by
    simp [qp_ip.form_phi_X, qp_ip.form_grad_hess_logbar, ex_ip, loopUp, qp_ip.NUM_STATE_VAR,
      qp_ip.NUM_VAR]
    ring
  have h2 : qp_ip.form_phi_X_tmp Real.log
        (qp_ip.form_phi_X (qp_ip.form_grad_hess_logbar Real.log (ex_ip ℝ) 2)) 2
      = -(2 * Real.log 2) := by
    simp [qp_ip.form_phi_X_tmp, qp_ip.form_phi_X, qp_ip.form_grad_hess_logbar, ex_ip, loopUp,
      qp_ip.NUM_STATE_VAR, qp_ip.NUM_VAR]
    ring
  refine ⟨h1, ?_, h2, ?_⟩
  · simp [qp_ip.phi, ex_ip, Finset.sum_range_succ]
    ring
  · rw [h1, h2]
    have := Real.log_pos (by norm_num : (1 : ℝ) < 2)
    intro e
    linarith

/-- The loop of `form_g` after `n` passes. -/
theorem form_g_loop [Field α] (s : qp_ip α) (zref_x zref_y g : Nat → α) (n k : Nat) :
    loopUp (fun i g =>
        Function.update
          (Function.update g (i * 2)
            (g (i * 2) + ((s.spar i).cos * zref_x i + (s.spar i).sin * zref_y i) * s.gain_beta))
          (i * 2 + 1)
          (Function.update g (i * 2)
              (g (i * 2) + ((s.spar i).cos * zref_x i + (s.spar i).sin * zref_y i) * s.gain_beta)
              (i * 2 + 1)
            + (-(s.spar i).sin * zref_x i + (s.spar i).cos * zref_y i) * s.gain_beta))
      0 n g k
    = if k < 2 * n then
        (if k % 2 = 0 then
          g k + ((s.spar (k / 2)).cos * zref_x (k / 2) + (s.spar (k / 2)).sin * zref_y (k / 2))
            * s.gain_beta
        else
          g k + (-(s.spar (k / 2)).sin * zref_x (k / 2) + (s.spar (k / 2)).cos * zref_y (k / 2))
            * s.gain_beta)
      else g k := by
  induction n generalizing k with
  | zero => simp [loopUp]
  | succ n ih =>
    rw [loopUp]
    generalize loopUp _ 0 n g = w at ih ⊢
    simp only [Function.update_apply, Nat.zero_add]
    have e01 : ¬ (n * 2 + 1 = n * 2) := by omega
    rw [if_neg e01]
    by_cases h1 : k = n * 2 + 1
    · subst h1
      have a1 : n * 2 + 1 < 2 * (n + 1) := by omega
      have a2 : ¬ ((n * 2 + 1) % 2 = 0) := by omega
      have a3 : (n * 2 + 1) / 2 = n := by omega
      have a4 : ¬ (n * 2 + 1 < 2 * n) := by omega
      rw [if_pos rfl, if_pos a1, if_neg a2, a3, ih, if_neg a4]
    · rw [if_neg h1]
      by_cases h0 : k = n * 2
      · subst h0
        have a1 : n * 2 < 2 * (n + 1) := by omega
        have a2 : (n * 2) % 2 = 0 := by omega
        have a3 : (n * 2) / 2 = n := by omega
        have a4 : ¬ (n * 2 < 2 * n) := by omega
        rw [if_pos rfl, if_pos a1, if_pos a2, a3, ih, if_neg a4]
      · rw [if_neg h0, ih]
        by_cases hk : k < 2 * n
        · have hk' : k < 2 * (n + 1) := by omega
          rw [if_pos hk, if_pos hk']
        · have hk' : ¬ k < 2 * (n + 1) := by omega
          rw [if_neg hk, if_neg hk']

/-- The vector `g` after `form_g`: the old content plus the new terms. -/
theorem form_g_entries [Field α] (s : qp_ip α) (zref_x zref_y : Nat → α) (i : Nat)
    (hi : i < s.N) :
    (qp_ip.form_g s zref_x zref_y).g (2 * i)
      = s.g (2 * i) + ((s.spar i).cos * zref_x i + (s.spar i).sin * zref_y i) * s.gain_beta ∧
    (qp_ip.form_g s zref_x zref_y).g (2 * i + 1)
      = s.g (2 * i + 1)
        + (-(s.spar i).sin * zref_x i + (s.spar i).cos * zref_y i) * s.gain_beta := by
  unfold qp_ip.form_g
  simp only
  have a1 : 2 * i < 2 * s.N := by omega
  have a2 : (2 * i) % 2 = 0 := by omega
  have a3 : 2 * i / 2 = i := by omega
  have b1 : 2 * i + 1 < 2 * s.N := by omega
  have b2 : ¬ ((2 * i + 1) % 2 = 0) := by omega
  have b3 : (2 * i + 1) / 2 = i := by omega
  constructor
  · rw [form_g_loop, if_pos a1, if_pos a2, a3]
  · rw [form_g_loop, if_pos b1, if_neg b2, b3]

/-- C27 fails on the code: `form_g` adds to `g` (`g[i*2] += ...`) and nothing
sets `g` to zero before, neither the constructor, which allocates `g` and
leaves the memory as it is, nor `set_parameters`; so after `set_parameters`
the entries `g[2i]`, `g[2i+1]` are the content `g` had before plus the terms
of `zref`, and a second call with the same arguments adds the terms once
more. For `N = 1`, `zref_x = 1`, `zref_y = 0`, angle zero and `gain_beta = 1`
the entry `g[0]` is `1` after one call on `g = 0` and `2` after two calls. -/
theorem set_parameters_accumulates :
    (∀ (ssp : (Nat → ℚ) → (Nat → ℚ) → (Nat → ℚ) → qp_ip ℚ → qp_ip ℚ) (s : qp_ip ℚ)
        (T h angle zref_x zref_y lb_ ub_ : Nat → ℚ) (i : Nat),
      i < (ssp T h angle s).N →
      (qp_ip.set_parameters ssp s T h angle zref_x zref_y lb_ ub_).g (2 * i)
        = (ssp T h angle s).g (2 * i)
          + (((ssp T h angle s).spar i).cos * zref_x i
              + ((ssp T h angle s).spar i).sin * zref_y i) * (ssp T h angle s).gain_beta ∧
      (qp_ip.set_parameters ssp s T h angle zref_x zref_y lb_ ub_).g (2 * i + 1)
        = (ssp T h angle s).g (2 * i + 1)
          + (-((ssp T h angle s).spar i).sin * zref_x i
              + ((ssp T h angle s).spar i).cos * zref_y i) * (ssp T h angle s).gain_beta) ∧
    (∀ (base : qp_ip ℚ) (Alpha Beta Gamma regularization : ℚ)
        (g_mem i2hess_mem i2hess_grad_mem grad_mem : Nat → ℚ),
      (qp_ip.new base Alpha Beta Gamma regularization g_mem i2hess_mem i2hess_grad_mem
        grad_mem).g = g_mem) ∧
    (qp_ip.set_parameters ex_set_state_parameters (ex_ip ℚ) (fun _ => 0) (fun _ => 0)
        (fun _ => 0) (fun _ => 1) (fun _ => 0) (fun _ => -1) (fun _ => 2)).g 0 = 1 ∧
    (qp_ip.set_parameters ex_set_state_parameters
        (qp_ip.set_parameters ex_set_state_parameters (ex_ip ℚ) (fun _ => 0) (fun _ => 0)
          (fun _ => 0) (fun _ => 1) (fun _ => 0) (fun _ => -1) (fun _ => 2))
        (fun _ => 0) (fun _ => 0) (fun _ => 0) (fun _ => 1) (fun _ => 0) (fun _ => -1)
        (fun _ => 2)).g 0 = 2 := by
  refine ⟨?_, ?_, ?_, ?_⟩
  · intro ssp s T h angle zref_x zref_y lb_ ub_ i hi
    unfold qp_ip.set_parameters
    exact form_g_entries { ssp T h angle s with lb := lb_, ub := ub_ } zref_x zref_y i hi
  · intro base Alpha Beta Gamma regularization g_mem i2hess_mem i2hess_grad_mem grad_mem
    rfl
  · simp [qp_ip.set_parameters, qp_ip.form_g, ex_set_state_parameters, ex_ip, loopUp]
  · simp [qp_ip.set_parameters, qp_ip.form_g, ex_set_state_parameters, ex_ip, loopUp]
    norm_num

/-- The statements of a pass up to the test `alpha < tol` do not write `X`. -/
theorem solve_prepare_X [LinearOrderedField α] (fuel : Nat) (log : α → α)
    (chol_solve : qp_ip α → Nat → α) (s s' : qp_ip α) (kappa bs_beta : α)
    (h : qp_ip.solve_prepare fuel log chol_solve s kappa bs_beta = some s') : s'.X = s.X := by
  unfold qp_ip.solve_prepare qp_ip.init_alpha at h
  simp only at h
  split at h
  · exact absurd h (by simp)
  · rw [← Option.some.inj h]
    rfl

/-- The loop of `solve` with `n` passes to go is left either after the `n`
passes, or in the pass `k < n` whose `init_alpha` gives `alpha < tol`. -/
theorem solve_loop_iff [LinearOrderedField α] (fuel : Nat) (log : α → α)
    (chol_solve : qp_ip α → Nat → α) (kappa bs_alpha bs_beta : α) :
    ∀ (n i : Nat) (s : qp_ip α) (i' : Nat) (s' : qp_ip α),
      qp_ip.solve_loop fuel log chol_solve kappa bs_alpha bs_beta n i s = some (i', s') ↔
        (i' = i + n ∧
          qp_ip.passes fuel log chol_solve kappa bs_alpha bs_beta n s = some s') ∨
        (∃ k sk, k < n ∧ i' = i + k ∧
          qp_ip.passes fuel log chol_solve kappa bs_alpha bs_beta k s = some sk ∧
          qp_ip.solve_prepare fuel log chol_solve sk kappa bs_beta = some s' ∧
          s'.alpha < s'.tol) := by
  intro n
  induction n with
  | zero =>
    intro i s i' s'
    simp only [qp_ip.solve_loop, qp_ip.passes, Option.some.injEq, Prod.mk.injEq, Nat.add_zero]
    constructor
    · rintro ⟨a, b⟩
      exact Or.inl ⟨a.symm, b⟩
    · rintro (⟨a, b⟩ | ⟨k, _, hk, _⟩)
      · exact ⟨a.symm, b⟩
      · exact absurd hk (Nat.not_lt_zero _)
  | succ n ih =>
    intro i s i' s'
    have key : ∀ k sk, qp_ip.passes fuel log chol_solve kappa bs_alpha bs_beta (k + 1) s
        = some sk ↔ ∃ s2, qp_ip.pass fuel log chol_solve kappa bs_alpha bs_beta s = some s2 ∧
          qp_ip.passes fuel log chol_solve kappa bs_alpha bs_beta k s2 = some sk := by
      intro k sk
      rw [qp_ip.passes]
      cases qp_ip.pass fuel log chol_solve kappa bs_alpha bs_beta s with
      | none => simp
      | some s2 => simp
    have split_k : (∃ k sk, k < n + 1 ∧ i' = i + k ∧
          qp_ip.passes fuel log chol_solve kappa bs_alpha bs_beta k s = some sk ∧
          qp_ip.solve_prepare fuel log chol_solve sk kappa bs_beta = some s' ∧
          s'.alpha < s'.tol) ↔
        (i' = i ∧ qp_ip.solve_prepare fuel log chol_solve s kappa bs_beta = some s' ∧
          s'.alpha < s'.tol) ∨
        (∃ s2, qp_ip.pass fuel log chol_solve kappa bs_alpha bs_beta s = some s2 ∧
          ∃ k sk, k < n ∧ i' = i + 1 + k ∧
            qp_ip.passes fuel log chol_solve kappa bs_alpha bs_beta k s2 = some sk ∧
            qp_ip.solve_prepare fuel log chol_solve sk kappa bs_beta = some s' ∧
            s'.alpha < s'.tol) := by
      constructor
      · rintro ⟨k, sk, hk, hi, hp, hq, ha⟩
        cases k with
        | zero =>
          rw [qp_ip.passes] at hp
          rw [← Option.some.inj hp] at hq
          exact Or.inl ⟨by omega, hq, ha⟩
        | succ k =>
          obtain ⟨s2, h1, h2⟩ := (key k sk).mp hp
          exact Or.inr ⟨s2, h1, k, sk, by omega, by omega, h2, hq, ha⟩
      · rintro (⟨hi, hq, ha⟩ | ⟨s2, h1, k, sk, hk, hi, h2, hq, ha⟩)
        · exact ⟨0, s, by omega, by omega, rfl, hq, ha⟩
        · exact ⟨k + 1, sk, by omega, by omega, (key k sk).mpr ⟨s2, h1, h2⟩, hq, ha⟩
    rw [split_k, key n s']
    cases hprep : qp_ip.solve_prepare fuel log chol_solve s kappa bs_beta with
    | none =>
      have hpass : qp_ip.pass fuel log chol_solve kappa bs_alpha bs_beta s = none := by
        simp only [qp_ip.pass, hprep]
      have hloop : qp_ip.solve_loop fuel log chol_solve kappa bs_alpha bs_beta (n + 1) i s
          = none := by
        simp only [qp_ip.solve_loop, hprep]
      rw [hloop, hpass]
      constructor
      · intro e
        exact absurd e (by simp)
      · rintro (⟨_, s2, e, _⟩ | ⟨_, e, _⟩ | ⟨s2, e, _⟩)
        · exact absurd e (by simp)
        · exact absurd e (by simp)
        · exact absurd e (by simp)
    | some s1 =>
      by_cases ha : s1.alpha < s1.tol
      · have hpass : qp_ip.pass fuel log chol_solve kappa bs_alpha bs_beta s = none := by
          simp only [qp_ip.pass, hprep, if_pos ha]
        have hloop : qp_ip.solve_loop fuel log chol_solve kappa bs_alpha bs_beta (n + 1) i s
            = some (i, s1) := by
          simp only [qp_ip.solve_loop, hprep, if_pos ha]
        rw [hloop, hpass]
        constructor
        · intro e
          obtain ⟨e1, e2⟩ := Prod.mk.inj (Option.some.inj e)
          subst e2
          exact Or.inr (Or.inl ⟨e1.symm, rfl, ha⟩)
        · rintro (⟨_, s2, e, _⟩ | ⟨e1, e2, _⟩ | ⟨s2, e, _⟩)
          · exact absurd e (by simp)
          · rw [e1, Option.some.inj e2]
          · exact absurd e (by simp)
      · cases hfin : qp_ip.solve_finish fuel log s1 kappa bs_alpha bs_beta with
        | none =>
          have hpass : qp_ip.pass fuel log chol_solve kappa bs_alpha bs_beta s = none := by
            simp only [qp_ip.pass, hprep, if_neg ha, hfin]
          have hloop : qp_ip.solve_loop fuel log chol_solve kappa bs_alpha bs_beta (n + 1) i s
              = none := by
            simp only [qp_ip.solve_loop, hprep, if_neg ha, hfin]
          rw [hloop, hpass]
          constructor
          · intro e
            exact absurd e (by simp)
          · rintro (⟨_, s2, e, _⟩ | ⟨_, e, hlt⟩ | ⟨s2, e, _⟩)
            · exact absurd e (by simp)
            · rw [← Option.some.inj e] at hlt
              exact absurd hlt ha
            · exact absurd e (by simp)
        | some s2 =>
          have hpass : qp_ip.pass fuel log chol_solve kappa bs_alpha bs_beta s = some s2 := by
            simp only [qp_ip.pass, hprep, if_neg ha, hfin]
          have hloop : qp_ip.solve_loop fuel log chol_solve kappa bs_alpha bs_beta (n + 1) i s
              = qp_ip.solve_loop fuel log chol_solve kappa bs_alpha bs_beta n (i + 1) s2 := by
            simp only [qp_ip.solve_loop, hprep, if_neg ha, hfin]
          rw [hloop, hpass, ih (i + 1) s2 i' s']
          constructor
          · rintro (⟨a, b⟩ | h)
            · exact Or.inl ⟨by omega, s2, rfl, b⟩
            · exact Or.inr (Or.inr ⟨s2, rfl, h⟩)
          · rintro (⟨a, s3, e, b⟩ | ⟨_, e, hlt⟩ | ⟨s3, e, h⟩)
            · rw [← Option.some.inj e] at b
              exact Or.inl ⟨by omega, b⟩
            · rw [← Option.some.inj e] at hlt
              exact absurd hlt ha
            · rw [← Option.some.inj e] at h
              exact Or.inr h

/-- The value `false` of `solve` for a cap `max_iter ≥ 0`. -/
theorem solve_false_iff [LinearOrderedField α] (fuel : Nat) (log : α → α)
    (chol_solve : qp_ip α → Nat → α) (s s' : qp_ip α) (t bs_alpha bs_beta : α) (max_iter : Int)
    (h : 0 ≤ max_iter) :
    qp_ip.solve fuel log chol_solve s t bs_alpha bs_beta max_iter = some (false, s') ↔
      qp_ip.passes fuel log chol_solve (1 / t) bs_alpha bs_beta max_iter.toNat s = some s' := by
  have hm : ((max_iter.toNat : Nat) : Int) = max_iter := Int.toNat_of_nonneg h
  unfold qp_ip.solve
  simp only
  cases hl : qp_ip.solve_loop fuel log chol_solve (1 / t) bs_alpha bs_beta max_iter.toNat 0 s with
  | none =>
    simp only
    constructor
    · intro e
      exact absurd e (by simp)
    intro hp
    have := (solve_loop_iff fuel log chol_solve (1 / t) bs_alpha bs_beta max_iter.toNat 0 s
      (0 + max_iter.toNat) s').mpr (Or.inl ⟨rfl, hp⟩)
    rw [hl] at this
    exact absurd this (by simp)
  | some r =>
    obtain ⟨i, s2⟩ := r
    have hc := (solve_loop_iff fuel log chol_solve (1 / t) bs_alpha bs_beta max_iter.toNat 0 s
      i s2).mp hl
    simp only
    constructor
    · intro hs
      by_cases hi : (i : Int) = max_iter
      · rw [if_pos hi] at hs
        have e2 : s2 = s' := (Prod.mk.inj (Option.some.inj hs)).2
        subst e2
        rcases hc with ⟨_, b⟩ | ⟨k, _, hk, hik, _⟩
        · exact b
        · omega
      · rw [if_neg hi] at hs
        exact absurd (Prod.mk.inj (Option.some.inj hs)).1 (by simp)
    · intro hp
      have := (solve_loop_iff fuel log chol_solve (1 / t) bs_alpha bs_beta max_iter.toNat 0 s
        (0 + max_iter.toNat) s').mpr (Or.inl ⟨rfl, hp⟩)
      rw [hl] at this
      obtain ⟨e1, e2⟩ := Prod.mk.inj (Option.some.inj this)
      have hi : (i : Int) = max_iter := by omega
      rw [if_pos hi, e2]

/-- The value `true` of `solve` for a cap `max_iter ≥ 0`. -/
theorem solve_true_iff [LinearOrderedField α] (fuel : Nat) (log : α → α)
    (chol_solve : qp_ip α → Nat → α) (s s' : qp_ip α) (t bs_alpha bs_beta : α) (max_iter : Int)
    (h : 0 ≤ max_iter) :
    qp_ip.solve fuel log chol_solve s t bs_alpha bs_beta max_iter = some (true, s') ↔
      ∃ k sk, k < max_iter.toNat ∧
        qp_ip.passes fuel log chol_solve (1 / t) bs_alpha bs_beta k s = some sk ∧
        qp_ip.solve_prepare fuel log chol_solve sk (1 / t) bs_beta = some s' ∧
        s'.alpha < s'.tol := by
  have hm : ((max_iter.toNat : Nat) : Int) = max_iter := Int.toNat_of_nonneg h
  unfold qp_ip.solve
  simp only
  cases hl : qp_ip.solve_loop fuel log chol_solve (1 / t) bs_alpha bs_beta max_iter.toNat 0 s with
  | none =>
    simp only
    constructor
    · intro e
      exact absurd e (by simp)
    rintro ⟨k, sk, hk, hp, hq, ha⟩
    have := (solve_loop_iff fuel log chol_solve (1 / t) bs_alpha bs_beta max_iter.toNat 0 s
      (0 + k) s').mpr (Or.inr ⟨k, sk, hk, rfl, hp, hq, ha⟩)
    rw [hl] at this
    exact absurd this (by simp)
  | some r =>
    obtain ⟨i, s2⟩ := r
    have hc := (solve_loop_iff fuel log chol_solve (1 / t) bs_alpha bs_beta max_iter.toNat 0 s
      i s2).mp hl
    simp only
    constructor
    · intro hs
      by_cases hi : (i : Int) = max_iter
      · rw [if_pos hi] at hs
        exact absurd (Prod.mk.inj (Option.some.inj hs)).1 (by simp)
      · rw [if_neg hi] at hs
        have e2 : s2 = s' := (Prod.mk.inj (Option.some.inj hs)).2
        subst e2
        rcases hc with ⟨a, _⟩ | ⟨k, sk, hk, _, hp, hq, ha⟩
        · omega
        · exact ⟨k, sk, hk, hp, hq, ha⟩
    · rintro ⟨k, sk, hk, hp, hq, ha⟩
      have := (solve_loop_iff fuel log chol_solve (1 / t) bs_alpha bs_beta max_iter.toNat 0 s
        (0 + k) s').mpr (Or.inr ⟨k, sk, hk, rfl, hp, hq, ha⟩)
      rw [hl] at this
      obtain ⟨e1, e2⟩ := Prod.mk.inj (Option.some.inj this)
      have hi : ¬ ((i : Int) = max_iter) := by omega
      rw [if_neg hi, e2]

/-- C25: for a cap `max_iter ≥ 0`, `solve (t, bs_alpha, bs_beta, max_iter)`
returns `false` exactly when all the `max_iter` passes of its loop were
executed, and `true` exactly when in some pass `k < max_iter` (after `k`
executed passes) `init_alpha` has left `alpha < tol`; the object is then the
one of that moment, and `X` is the `X` this pass started with. With
`max_iter = 0` it returns `false` and leaves the object. -/
theorem solve_status [LinearOrderedField α] (fuel : Nat) (log : α → α)
    (chol_solve : qp_ip α → Nat → α) (s : qp_ip α) (t bs_alpha bs_beta : α) (max_iter : Int)
    (h : 0 ≤ max_iter) :
    (∀ s', qp_ip.solve fuel log chol_solve s t bs_alpha bs_beta max_iter = some (false, s') ↔
      qp_ip.passes fuel log chol_solve (1 / t) bs_alpha bs_beta max_iter.toNat s = some s') ∧
    (∀ s', qp_ip.solve fuel log chol_solve s t bs_alpha bs_beta max_iter = some (true, s') ↔
      ∃ k sk, k < max_iter.toNat ∧
        qp_ip.passes fuel log chol_solve (1 / t) bs_alpha bs_beta k s = some sk ∧
        qp_ip.solve_prepare fuel log chol_solve sk (1 / t) bs_beta = some s' ∧
        s'.alpha < s'.tol ∧ s'.X = sk.X) ∧
    (max_iter = 0 →
      qp_ip.solve fuel log chol_solve s t bs_alpha bs_beta max_iter = some (false, s)) := by
  refine ⟨fun s' => solve_false_iff fuel log chol_solve s s' t bs_alpha bs_beta max_iter h,
    ?_, ?_⟩
  · intro s'
    rw [solve_true_iff fuel log chol_solve s s' t bs_alpha bs_beta max_iter h]
    constructor
    · rintro ⟨k, sk, hk, hp, hq, ha⟩
      exact ⟨k, sk, hk, hp, hq, ha, solve_prepare_X fuel log chol_solve sk s' _ _ hq⟩
    · rintro ⟨k, sk, hk, hp, hq, ha, _⟩
      exact ⟨k, sk, hk, hp, hq, ha⟩
  · intro h0
    subst h0
    rfl

/-- The first pass of `solve` on `ex_ip_search` up to the test of `alpha`. -/
theorem ex_prepare1 :
    qp_ip.solve_prepare 3 Real.log (ex_chol_solve ℝ) (ex_ip_search ℝ) 1 (1 / 2)
      = some (ex_ip_pass1 ℝ Real.log) := by
  have hd : ex_chol_solve ℝ (qp_ip.form_i2hess_grad
      (qp_ip.form_phi_X (qp_ip.form_grad_hess_logbar Real.log (ex_ip_search ℝ) 1)))
      = fun j => if j = 1 then 1 else 0 := by
    funext j
    simp [ex_chol_solve, qp_ip.form_i2hess_grad, qp_ip.form_phi_X, qp_ip.form_grad_hess_logbar,
      ex_ip_search]
  unfold qp_ip.solve_prepare qp_ip.init_alpha
  simp only [hd]
  have hmin : qp_ip.init_alpha_min
      { qp_ip.form_i2hess_grad
          (qp_ip.form_phi_X (qp_ip.form_grad_hess_logbar Real.log (ex_ip_search ℝ) 1)) with
        dX := fun j => if j = 1 then 1 else 0 } = 1 := by
    simp [qp_ip.init_alpha_min, qp_ip.form_i2hess_grad, qp_ip.form_phi_X,
      qp_ip.form_grad_hess_logbar, ex_ip_search, ex_ip, loopUp]
    norm_num
  rw [hmin]
  simp [qp_ip.init_alpha_while, ex_ip_pass1]

/-- The value `phi_X` in the first pass. -/
theorem ex_pass1_phi_X : (ex_ip_pass1 ℝ Real.log).phi_X = 17 / 2 := by
  simp [ex_ip_pass1, qp_ip.form_i2hess_grad, qp_ip.form_phi_X, qp_ip.form_grad_hess_logbar,
    ex_ip_search, ex_ip, loopUp, qp_ip.NUM_STATE_VAR, qp_ip.NUM_VAR]
  norm_num

/-- The value of `form_bs_alpha_grad_dX` in the first pass. -/
theorem ex_pass1_slope :
    qp_ip.form_bs_alpha_grad_dX (ex_ip_pass1 ℝ Real.log) (1 / 4) = 1 / 4 := by
  simp [qp_ip.form_bs_alpha_grad_dX, ex_ip_pass1, qp_ip.form_i2hess_grad, qp_ip.form_phi_X,
    qp_ip.form_grad_hess_logbar, ex_ip_search, ex_ip, loopUp, qp_ip.NUM_STATE_VAR,
    qp_ip.NUM_VAR, Function.update_apply]

/-- The value of `form_phi_X_tmp` in the first pass for the step length `a`. -/
theorem ex_pass1_phi_tmp (a : ℝ) :
    qp_ip.form_phi_X_tmp Real.log { ex_ip_pass1 ℝ Real.log with alpha := a } 1
      = 8 + (1 + a) ^ 2 / 2 := by
  simp [qp_ip.form_phi_X_tmp, ex_ip_pass1, qp_ip.form_i2hess_grad, qp_ip.form_phi_X,
    qp_ip.form_grad_hess_logbar, ex_ip_search, ex_ip, loopUp, qp_ip.NUM_STATE_VAR,
    qp_ip.NUM_VAR]
  norm_num
  ring

/-- A pass of the search loop in which the test fails and the shorter step is
not below `tol`: the loop goes on with the shorter step. -/
theorem line_search_step_on [LinearOrderedField α] (log : α → α) (kappa bs_beta c : α)
    (fuel : Nat) (s : qp_ip α)
    (h1 : ¬ (qp_ip.form_phi_X_tmp log s kappa ≤ s.phi_X + s.alpha * c))
    (h2 : ¬ (bs_beta * s.alpha < s.tol)) :
    qp_ip.line_search log kappa bs_beta c (fuel + 1) s
      = qp_ip.line_search log kappa bs_beta c fuel { s with alpha := bs_beta * s.alpha } := by
  rw [qp_ip.line_search]
  simp only
  rw [if_neg h1, if_neg h2]

/-- A pass of the search loop in which the test fails and the shorter step is
below `tol`: the loop is left with the shorter step. -/
theorem line_search_step_out [LinearOrderedField α] (log : α → α) (kappa bs_beta c : α)
    (fuel : Nat) (s : qp_ip α)
    (h1 : ¬ (qp_ip.form_phi_X_tmp log s kappa ≤ s.phi_X + s.alpha * c))
    (h2 : bs_beta * s.alpha < s.tol) :
    qp_ip.line_search log kappa bs_beta c (fuel + 1) s
      = some { s with alpha := bs_beta * s.alpha } := by
  rw [qp_ip.line_search]
  simp only
  rw [if_neg h1, if_pos h2]

/-- The search of the first pass: the test fails for `alpha = 1` and for
`alpha = 1/2`, and the loop is left with `alpha = 1/4`, below `tol = 1/2`. -/
theorem ex_search1 :
    qp_ip.line_search Real.log 1 (1 / 2) (1 / 4) 3 (ex_ip_pass1 ℝ Real.log)
      = some { ex_ip_pass1 ℝ Real.log with alpha := 1 / 4 } := by
  have f1 : ¬ (qp_ip.form_phi_X_tmp Real.log (ex_ip_pass1 ℝ Real.log) 1
      ≤ (ex_ip_pass1 ℝ Real.log).phi_X + (ex_ip_pass1 ℝ Real.log).alpha * (1 / 4)) := by
    intro hle
    have hle' : qp_ip.form_phi_X_tmp Real.log { ex_ip_pass1 ℝ Real.log with alpha := 1 } 1
        ≤ (ex_ip_pass1 ℝ Real.log).phi_X + 1 * (1 / 4) := hle
    rw [ex_pass1_phi_tmp, ex_pass1_phi_X] at hle'
    norm_num at hle'
  have f2 : ¬ ((1 / 2 : ℝ) * (ex_ip_pass1 ℝ Real.log).alpha < (ex_ip_pass1 ℝ Real.log).tol) := by
    intro hlt
    have hlt' : (1 / 2 : ℝ) * 1 < 1 / 2 := hlt
    norm_num at hlt'
  have g1 : ¬ (qp_ip.form_phi_X_tmp Real.log
        { ex_ip_pass1 ℝ Real.log with alpha := 1 / 2 * (ex_ip_pass1 ℝ Real.log).alpha } 1
      ≤ ({ ex_ip_pass1 ℝ Real.log with
            alpha := 1 / 2 * (ex_ip_pass1 ℝ Real.log).alpha } : qp_ip ℝ).phi_X
        + ({ ex_ip_pass1 ℝ Real.log with
            alpha := 1 / 2 * (ex_ip_pass1 ℝ Real.log).alpha } : qp_ip ℝ).alpha * (1 / 4)) := by
    intro hle
    have hle' : qp_ip.form_phi_X_tmp Real.log { ex_ip_pass1 ℝ Real.log with alpha := 1 / 2 * 1 } 1
        ≤ (ex_ip_pass1 ℝ Real.log).phi_X + 1 / 2 * 1 * (1 / 4) := hle
    rw [ex_pass1_phi_tmp, ex_pass1_phi_X] at hle'
    norm_num at hle'
  have g2 : (1 / 2 : ℝ) * ({ ex_ip_pass1 ℝ Real.log with
        alpha := 1 / 2 * (ex_ip_pass1 ℝ Real.log).alpha } : qp_ip ℝ).alpha
      < ({ ex_ip_pass1 ℝ Real.log with
        alpha := 1 / 2 * (ex_ip_pass1 ℝ Real.log).alpha } : qp_ip ℝ).tol := by
    have : (1 / 2 : ℝ) * (1 / 2 * 1) < 1 / 2 := by norm_num
    exact this
  rw [line_search_step_on Real.log 1 (1 / 2) (1 / 4) 2 _ f1 f2,
    line_search_step_out Real.log 1 (1 / 2) (1 / 4) 1 _ g1 g2]
  have e : (1 / 2 : ℝ) * (1 / 2 * 1) = 1 / 4 := by norm_num
  have q : ({ ex_ip_pass1 ℝ Real.log with alpha := 1 / 2 * (1 / 2 * 1) } : qp_ip ℝ)
      = { ex_ip_pass1 ℝ Real.log with alpha := 1 / 4 } := by rw [e]
  exact congrArg some q

/-- The test of the search still fails for the step `alpha = 1/4` with which
the search of the first pass is left. -/
theorem ex_search1_fails :
    ¬ (qp_ip.form_phi_X_tmp Real.log { ex_ip_pass1 ℝ Real.log with alpha := 1 / 4 } 1
      ≤ ({ ex_ip_pass1 ℝ Real.log with alpha := 1 / 4 } : qp_ip ℝ).phi_X
        + ({ ex_ip_pass1 ℝ Real.log with alpha := 1 / 4 } : qp_ip ℝ).alpha * (1 / 4)) := by
  intro hle
  have hle' : qp_ip.form_phi_X_tmp Real.log { ex_ip_pass1 ℝ Real.log with alpha := 1 / 4 } 1
      ≤ (ex_ip_pass1 ℝ Real.log).phi_X + 1 / 4 * (1 / 4) := hle
  rw [ex_pass1_phi_tmp, ex_pass1_phi_X] at hle'
  norm_num at hle'

/-- The first pass of `solve` on `ex_ip_search` does not leave the loop. -/
theorem ex_pass1 :
    qp_ip.pass 3 Real.log (ex_chol_solve ℝ) 1 (1 / 4) (1 / 2) (ex_ip_search ℝ)
      = some (ex_ip_moved ℝ Real.log) := by
  have ht : ¬ ((ex_ip_pass1 ℝ Real.log).alpha < (ex_ip_pass1 ℝ Real.log).tol) := by
    intro hlt
    have hlt' : (1 : ℝ) < 1 / 2 := hlt
    norm_num at hlt'
  unfold qp_ip.pass
  rw [ex_prepare1]
  simp only
  rw [if_neg ht]
  unfold qp_ip.solve_finish
  simp only
  rw [ex_pass1_slope, ex_search1]
  rfl

/-- The second pass of `solve` on `ex_ip_search` up to the test of `alpha`:
`init_alpha` leaves `alpha = 1/4`. -/
theorem ex_prepare2 :
    qp_ip.solve_prepare 3 Real.log (ex_chol_solve ℝ) (ex_ip_moved ℝ Real.log) 1 (1 / 2)
      = some (ex_ip_pass2 ℝ Real.log) := by
  have hX1 : (ex_ip_moved ℝ Real.log).X 1 = 5 / 4 := by
    simp [ex_ip_moved, qp_ip.move, ex_ip_pass1, qp_ip.form_i2hess_grad, qp_ip.form_phi_X,
      qp_ip.form_grad_hess_logbar, ex_ip_search, ex_ip, loopUp, qp_ip.NUM_VAR,
      Function.update_apply]
    norm_num
  have hX0 : (ex_ip_moved ℝ Real.log).X 0 = -4 := by
    simp [ex_ip_moved, qp_ip.move, ex_ip_pass1, qp_ip.form_i2hess_grad, qp_ip.form_phi_X,
      qp_ip.form_grad_hess_logbar, ex_ip_search, ex_ip, loopUp, qp_ip.NUM_VAR,
      Function.update_apply]
  have hd : ex_chol_solve ℝ (qp_ip.form_i2hess_grad
      (qp_ip.form_phi_X (qp_ip.form_grad_hess_logbar Real.log (ex_ip_moved ℝ Real.log) 1)))
      = fun j => if j = 0 then -1 else 0 := by
    funext j
    have e : (qp_ip.form_i2hess_grad (qp_ip.form_phi_X
        (qp_ip.form_grad_hess_logbar Real.log (ex_ip_moved ℝ Real.log) 1))).X 1 = 5 / 4 := hX1
    unfold ex_chol_solve
    rw [e, if_neg (by norm_num)]
  have hmin : qp_ip.init_alpha_min
      { qp_ip.form_i2hess_grad (qp_ip.form_phi_X
          (qp_ip.form_grad_hess_logbar Real.log (ex_ip_moved ℝ Real.log) 1)) with
        dX := fun j => if j = 0 then -1 else 0 } = 1 / 4 := by
    have l0 : (ex_ip_moved ℝ Real.log).lb 0 = -5 := by
      simp [ex_ip_moved, qp_ip.move, ex_ip_pass1, qp_ip.form_i2hess_grad, qp_ip.form_phi_X,
        qp_ip.form_grad_hess_logbar, ex_ip_search]
    have t0 : (ex_ip_moved ℝ Real.log).tol = 1 / 2 := rfl
    have n0 : (ex_ip_moved ℝ Real.log).N = 1 := rfl
    unfold qp_ip.init_alpha_min
    simp only [qp_ip.form_i2hess_grad, qp_ip.form_phi_X, qp_ip.form_grad_hess_logbar, n0, t0,
      loopUp, Nat.zero_add, Nat.zero_mul, Nat.one_mul, Nat.mul_one, l0, hX0]
    norm_num
  unfold qp_ip.solve_prepare qp_ip.init_alpha
  simp only [hd]
  rw [hmin]
  norm_num [qp_ip.init_alpha_while, ex_ip_pass2]

/-- C26 fails on the code: with `t = 1`, `bs_alpha = 1/4`, `bs_beta = 1/2`,
`tol = 1/2` and `max_iter = 2`, on the point `ex_ip_search` and with the
directions `ex_chol_solve`: in the first pass `init_alpha` leaves `alpha = 1`,
the search loop shortens the step to `1/4 < tol` and stops while the test
`phi(X + alpha*dX) <= phi(X) + bs_alpha*alpha*grad'*dX` still fails, and the
pass goes on to move `X`; in the second pass `init_alpha` leaves
`alpha = 1/4 < tol`, the loop of `solve` is left, and `solve` returns `true`. -/
theorem failed_search_returns_true :
    qp_ip.solve_prepare 3 Real.log (ex_chol_solve ℝ) (ex_ip_search ℝ) 1 (1 / 2)
      = some (ex_ip_pass1 ℝ Real.log) ∧
    ¬ ((ex_ip_pass1 ℝ Real.log).alpha < (ex_ip_pass1 ℝ Real.log).tol) ∧
    qp_ip.line_search Real.log 1 (1 / 2)
        (qp_ip.form_bs_alpha_grad_dX (ex_ip_pass1 ℝ Real.log) (1 / 4)) 3
        (ex_ip_pass1 ℝ Real.log)
      = some { ex_ip_pass1 ℝ Real.log with alpha := 1 / 4 } ∧
    ({ ex_ip_pass1 ℝ Real.log with alpha := 1 / 4 } : qp_ip ℝ).alpha
      < ({ ex_ip_pass1 ℝ Real.log with alpha := 1 / 4 } : qp_ip ℝ).tol ∧
    ¬ (qp_ip.form_phi_X_tmp Real.log { ex_ip_pass1 ℝ Real.log with alpha := 1 / 4 } 1
      ≤ ({ ex_ip_pass1 ℝ Real.log with alpha := 1 / 4 } : qp_ip ℝ).phi_X
        + ({ ex_ip_pass1 ℝ Real.log with alpha := 1 / 4 } : qp_ip ℝ).alpha
          * qp_ip.form_bs_alpha_grad_dX (ex_ip_pass1 ℝ Real.log) (1 / 4)) ∧
    qp_ip.solve 3 Real.log (ex_chol_solve ℝ) (ex_ip_search ℝ) 1 (1 / 4) (1 / 2) 2
      = some (true, ex_ip_pass2 ℝ Real.log) := by
  have one : (1 / 1 : ℝ) = 1 := by norm_num
  have ht : ¬ ((ex_ip_pass1 ℝ Real.log).alpha < (ex_ip_pass1 ℝ Real.log).tol) := by
    intro hlt
    have hlt' : (1 : ℝ) < 1 / 2 := hlt
    norm_num at hlt'
  have hq : ({ ex_ip_pass1 ℝ Real.log with alpha := 1 / 4 } : qp_ip ℝ).alpha
      < ({ ex_ip_pass1 ℝ Real.log with alpha := 1 / 4 } : qp_ip ℝ).tol := by
    have : (1 / 4 : ℝ) < 1 / 2 := by norm_num
    exact this
  rw [ex_pass1_slope]
  refine ⟨ex_prepare1, ht, ex_search1, hq, ex_search1_fails, ?_⟩
  rw [solve_true_iff 3 Real.log (ex_chol_solve ℝ) (ex_ip_search ℝ) _ 1 (1 / 4) (1 / 2) 2
    (by decide)]
  refine ⟨1, ex_ip_moved ℝ Real.log, by decide, ?_, ?_, ?_⟩
  · rw [one, qp_ip.passes, ex_pass1]
    rfl
  · rw [one]
    exact ex_prepare2
  · have : (1 / 4 : ℝ) < 1 / 2 := by norm_num
    exact this

/-- A concrete instance of C25: the cap `max_iter = 2` on `ex_ip_search`. -/
theorem solve_status_witness :
    (0 : Int) ≤ 2 ∧
    (∀ s', qp_ip.solve 3 Real.log (ex_chol_solve ℝ) (ex_ip_search ℝ) 1 (1 / 4) (1 / 2) 2
        = some (false, s') ↔
      qp_ip.passes 3 Real.log (ex_chol_solve ℝ) (1 / 1) (1 / 4) (1 / 2) (2 : Int).toNat
        (ex_ip_search ℝ) = some s') ∧
    (∀ s', qp_ip.solve 3 Real.log (ex_chol_solve ℝ) (ex_ip_search ℝ) 1 (1 / 4) (1 / 2) 2
        = some (true, s') ↔
      ∃ k sk, k < (2 : Int).toNat ∧
        qp_ip.passes 3 Real.log (ex_chol_solve ℝ) (1 / 1) (1 / 4) (1 / 2) k (ex_ip_search ℝ)
          = some sk ∧
        qp_ip.solve_prepare 3 Real.log (ex_chol_solve ℝ) sk (1 / 1) (1 / 2) = some s' ∧
        s'.alpha < s'.tol ∧ s'.X = sk.X) ∧
    ((2 : Int) = 0 →
      qp_ip.solve 3 Real.log (ex_chol_solve ℝ) (ex_ip_search ℝ) 1 (1 / 4) (1 / 2) 2
        = some (false, ex_ip_search ℝ)) :=
  ⟨by decide,
    solve_status 3 Real.log (ex_chol_solve ℝ) (ex_ip_search ℝ) 1 (1 / 4) (1 / 2) 2 (by decide)⟩

/-- C38: for `kappa ≥ 0`, `Q2[0] > 0` (the constructor sets `Q2[0] = Beta`)
and `X[3i]` strictly between `lb[i]` and `ub[i]`, the entry `i2hess[i]`,
`i < 2N`, computed by `form_grad_hess_logbar` satisfies
`0 < i2hess[i] ≤ 1 / Q2[0]`, with equality exactly when `kappa = 0`. -/
theorem i2hess_bounds [LinearOrderedField α] (log : α → α) (s : qp_ip α) (kappa : α) (i : Nat)
    (hk : 0 ≤ kappa) (hb : 0 < s.Q2 0) (hi : i < 2 * s.N)
    (hl : s.lb i < s.X (3 * i)) (hu : s.X (3 * i) < s.ub i) :
    0 < (qp_ip.form_grad_hess_logbar log s kappa).i2hess i ∧
    (qp_ip.form_grad_hess_logbar log s kappa).i2hess i ≤ 1 / s.Q2 0 ∧
    ((qp_ip.form_grad_hess_logbar log s kappa).i2hess i = 1 / s.Q2 0 ↔ kappa = 0) ∧
    (∀ (base : qp_ip α) (Alpha Beta Gamma regularization : α)
        (g_mem i2hess_mem i2hess_grad_mem grad_mem : Nat → α),
      (qp_ip.new base Alpha Beta Gamma regularization g_mem i2hess_mem i2hess_grad_mem
        grad_mem).Q2 0 = Beta) := by
  obtain ⟨_, hh, _⟩ := form_grad_hess_logbar_fields log s kappa
  have hu' : 0 < s.ub i - s.X (3 * i) := by linarith
  have hl' : 0 < -s.lb i + s.X (3 * i) := by linarith
  have hq : 0 < 1 / (s.ub i - s.X (3 * i)) * (1 / (s.ub i - s.X (3 * i)))
      + 1 / (-s.lb i + s.X (3 * i)) * (1 / (-s.lb i + s.X (3 * i))) := by
    have a := one_div_pos.mpr hu'
    have b := one_div_pos.mpr hl'
    have := mul_pos a a
    have := mul_pos b b
    linarith
  have hden : 0 ≤ kappa * (1 / (s.ub i - s.X (3 * i)) * (1 / (s.ub i - s.X (3 * i)))
      + 1 / (-s.lb i + s.X (3 * i)) * (1 / (-s.lb i + s.X (3 * i)))) :=
    mul_nonneg hk (le_of_lt hq)
  rw [hh, if_pos hi]
  refine ⟨?_, ?_, ?_, ?_⟩
  · apply one_div_pos.mpr
    linarith
  · apply one_div_le_one_div_of_le hb
    linarith
  · constructor
    · intro e
      have hpos : 0 < s.Q2 0 + kappa
          * (1 / (s.ub i - s.X (3 * i)) * (1 / (s.ub i - s.X (3 * i)))
            + 1 / (-s.lb i + s.X (3 * i)) * (1 / (-s.lb i + s.X (3 * i)))) := by linarith
      rw [div_eq_div_iff (ne_of_gt hpos) (ne_of_gt hb)] at e
      have e3 : kappa * (1 / (s.ub i - s.X (3 * i)) * (1 / (s.ub i - s.X (3 * i)))
          + 1 / (-s.lb i + s.X (3 * i)) * (1 / (-s.lb i + s.X (3 * i)))) = 0 := by linarith
      rcases mul_eq_zero.mp e3 with h0 | h0
      · exact h0
      · exact absurd h0 (ne_of_gt hq)
    · intro e
      rw [e, zero_mul, add_zero]
  · intro base Alpha Beta Gamma regularization g_mem i2hess_mem i2hess_grad_mem grad_mem
    simp [qp_ip.new, Function.update_apply]

/-- A concrete instance of C38: the point `X = 0` inside the box `-1 < z < 2`
with `kappa = 2`. -/
theorem i2hess_bounds_witness :
    (0 : ℝ) ≤ 2 ∧ 0 < (ex_ip ℝ).Q2 0 ∧ 0 < 2 * (ex_ip ℝ).N ∧
    (ex_ip ℝ).lb 0 < (ex_ip ℝ).X (3 * 0) ∧ (ex_ip ℝ).X (3 * 0) < (ex_ip ℝ).ub 0 ∧
    0 < (qp_ip.form_grad_hess_logbar Real.log (ex_ip ℝ) 2).i2hess 0 ∧
    (qp_ip.form_grad_hess_logbar Real.log (ex_ip ℝ) 2).i2hess 0 ≤ 1 / (ex_ip ℝ).Q2 0 ∧
    ((qp_ip.form_grad_hess_logbar Real.log (ex_ip ℝ) 2).i2hess 0 = 1 / (ex_ip ℝ).Q2 0
      ↔ (2 : ℝ) = 0) :=
  have h1 : (0 : ℝ) ≤ 2 := by norm_num
  have h2 : 0 < (ex_ip ℝ).Q2 0 := by
    have : (0 : ℝ) < 1 := by norm_num
    exact this
  have h3 : 0 < 2 * (ex_ip ℝ).N := by decide
  have h4 : (ex_ip ℝ).lb 0 < (ex_ip ℝ).X (3 * 0) := by
    have : (-1 : ℝ) < 0 := by norm_num
    exact this
  have h5 : (ex_ip ℝ).X (3 * 0) < (ex_ip ℝ).ub 0 := by
    have : (0 : ℝ) < 2 := by norm_num
    exact this
  have t := i2hess_bounds Real.log (ex_ip ℝ) 2 0 h1 h2 h3 h4 h5
  ⟨h1, h2, h3, h4, h5, t.1, t.2.1, t.2.2.1⟩

/-- The loop of `init_alpha` does not end when `min_alpha` is not positive. -/
theorem init_alpha_while_none [LinearOrderedField α] (bs_beta min_alpha : α)
    (hb : 0 < bs_beta) (hm : min_alpha ≤ 0) :
    ∀ (fuel : Nat) (alpha : α), 0 < alpha →
      qp_ip.init_alpha_while bs_beta min_alpha fuel alpha = none := by
  intro fuel
  induction fuel with
  | zero =>
    intro alpha ha
    have : alpha > min_alpha := lt_of_le_of_lt hm ha
    simp only [qp_ip.init_alpha_while, if_pos this]
  | succ fuel ih =>
    intro alpha ha
    have : alpha > min_alpha := lt_of_le_of_lt hm ha
    simp only [qp_ip.init_alpha_while, if_pos this]
    exact ih (alpha * bs_beta) (mul_pos ha hb)

/-- The value of `min_alpha` in `init_alpha` for `ex_ip_loop`. -/
theorem ex_ip_loop_min : qp_ip.init_alpha_min ex_ip_loop = -3 := by
  simp [qp_ip.init_alpha_min, ex_ip_loop, ex_ip, loopUp]
  norm_num

/-- C36 fails on the code: for `X[0] = 1` inside the box `-2 < z < 2` and the
direction `dX[0] = -10`, `init_alpha` divides the distance to the bound by
`X[0]` where `dX[0]` is meant and finds `min_alpha = -3`; `alpha` starts at
`1` and stays positive under the multiplication by `bs_beta = 1/2`, so the
test `alpha > min_alpha` never fails and the loop does not end, whatever the
number of passes allowed. -/
theorem init_alpha_does_not_end :
    (ex_ip_loop.lb 0 < ex_ip_loop.X 0 ∧ ex_ip_loop.X 0 < ex_ip_loop.ub 0) ∧
    (ex_ip_loop.lb 1 < ex_ip_loop.X 3 ∧ ex_ip_loop.X 3 < ex_ip_loop.ub 1) ∧
    qp_ip.init_alpha_min ex_ip_loop = -3 ∧
    (∀ fuel, qp_ip.init_alpha fuel ex_ip_loop (1 / 2) = none) ∧
    (∀ (fuel : Nat) (alpha : ℚ), 0 < alpha →
      qp_ip.init_alpha_while (1 / 2) (-3) fuel alpha = none) := by
  have hw : ∀ (fuel : Nat) (alpha : ℚ), 0 < alpha →
      qp_ip.init_alpha_while (1 / 2) (-3) fuel alpha = none :=
    init_alpha_while_none (1 / 2 : ℚ) (-3) (by norm_num) (by norm_num)
  refine ⟨?_, ?_, ex_ip_loop_min, ?_, hw⟩
  · simp [ex_ip_loop, ex_ip]
    norm_num
  · simp [ex_ip_loop, ex_ip]
  · intro fuel
    unfold qp_ip.init_alpha
    rw [ex_ip_loop_min, hw fuel 1 (by norm_num)]

end ip_theorems

end SMPC
